import Mathlib

/-! # Inverse block transforms of `jxl/dec_transforms-inl.h` and the palette transform

A shallow embedding of the strategy-dispatched inverse transforms
(`TransformToPixels`, `DCFromLowestFrequencies` and their helpers) and of the palette
transform of `jxl/modular/transform/palette.h` (`FwdPalette`, `InvPalette`).

* `float` samples are exact rationals (`ℚ`); the properties below are statements
  over exact arithmetic.
* A `float*` is a buffer `Buf` of samples addressed by element offset; a store yields
  the updated buffer.  Local arrays declared without an initialiser start as the zero
  buffer.
* `for (size_t i = 0; i < n; i++)` is `forLoop n`, the body being a state
  transformer; `continue` is the branch returning the state unchanged.
* The separable inverse DCTs and the resampling scale table live in headers that are
  not part of the sources; they are the fields of `Externals`.
-/

namespace jxl

/-! ## Buffers and loops -/

/-- Float memory addressed by element offset: `b i` is the sample at offset `i`. -/
structure Buf where
  /-- The sample at an offset. -/
  get : Nat → ℚ

instance : CoeFun Buf (fun _ => Nat → ℚ) := ⟨Buf.get⟩

/-- The all-zero buffer, the initial content of a local array. -/
def Buf.zero : Buf := ⟨fun _ => 0⟩

/-- The assignment `b[i] = v`. -/
def store (b : Buf) (i : Nat) (v : ℚ) : Buf :=
  ⟨fun j => if j = i then v else b j⟩

/-- The loop `for (size_t i = 0; i < n; i++) s = body i s`. -/
def forLoop {σ : Type} : Nat → (Nat → σ → σ) → σ → σ
  | 0, _, s => s
  | n + 1, body, s => body n (forLoop n body s)

/-- Block dimension `kBlockDim` of `jxl/common.h`. -/
def kBlockDim : Nat := 8

/-- Number of samples `kDCTBlockSize` of one 8x8 block. -/
def kDCTBlockSize : Nat := kBlockDim * kBlockDim

/-! ## External collaborators -/

/-- `CoefficientRows(rows, columns)` of `jxl/coeff_order_fwd.h`: coefficients are
stored with the shorter side as rows. -/
def CoefficientRows (rows columns : Nat) : Nat :=
  if rows < columns then rows else columns

/-- `CoefficientColumns(rows, columns)` of `jxl/coeff_order_fwd.h`. -/
def CoefficientColumns (rows columns : Nat) : Nat :=
  if rows < columns then columns else rows

/-- The collaborators of the transform engine that are consumed through their
interface only: the inverse DCT primitives of `jxl/dec_dct-inl.h`, the resampling
table of `jxl/dct_scales.h` and the vector width of the instruction-set target.

An inverse DCT takes the row-major contents of the `FromBlock` window it is given and
produces the sample at `(row, column)` of its `ROWS x COLS` output. -/
structure Externals where
  /-- `ComputeScaledIDCT<ROWS, COLS>`. -/
  ComputeScaledIDCT : (ROWS COLS : Nat) → List ℚ → Nat → Nat → ℚ
  /-- `ComputeTransposedScaledIDCT<N>`. -/
  ComputeTransposedScaledIDCT : (N : Nat) → List ℚ → Nat → Nat → ℚ
  /-- `DCTTotalResampleScale<FROM, TO>(x)`. -/
  DCTTotalResampleScale : (FROM TO : Nat) → Nat → ℚ
  /-- `Lanes(d)` for `HWY_CAPPED(float, 16) d`: one of 1, 2, 4, 8, 16. -/
  Lanes : Nat

/-- The adapter `FromBlock(rows, cols, block)`: a read-only window of `rows * cols`
samples stored row-major at pitch `cols`. -/
def FromBlock (rows cols : Nat) (block : Buf) : List ℚ :=
  (List.range (rows * cols)).map block

/-- The adapter `ToLines(pixels + off, stride)` receiving a `rows x cols` result:
sample `(r, i)` is stored at `pixels[off + r * stride + i]`. -/
def ToLines (rows cols : Nat) (result : Nat → Nat → ℚ) (pixels : Buf)
    (off stride : Nat) : Buf :=
  forLoop rows (fun r pixels =>
    forLoop cols (fun i pixels => store pixels (off + r * stride + i) (result r i)) pixels)
    pixels

/-- The adapter `ToBlock(rows, cols, block)`: `ToLines` at pitch `cols`. -/
def ToBlock (rows cols : Nat) (result : Nat → Nat → ℚ) (block : Buf) : Buf :=
  ToLines rows cols result block 0 cols

/-- The functor `DoIDCT<ROWS, COLS>`: the transposed transform for square shapes. -/
def DoIDCT (E : Externals) (ROWS COLS : Nat) (src : List ℚ) : Nat → Nat → ℚ :=
  if ROWS = COLS then E.ComputeTransposedScaledIDCT ROWS src
  else E.ComputeScaledIDCT ROWS COLS src

/-! ## `ReinterpretingIDCT` -/

/-- The scratch `block` of `ReinterpretingIDCT` as it stands when handed to the reduced
inverse transform: zero-initialised, then the low-frequency corner of `input` scaled by
the two resampling factors. -/
def ReinterpretingIDCT.scratch (E : Externals)
    (DCT_ROWS DCT_COLS LF_ROWS LF_COLS ROWS COLS : Nat)
    (input : Buf) (input_stride : Nat) : Buf :=
  let block : Buf := Buf.zero
  if ROWS < COLS then
    forLoop LF_ROWS (fun y block =>
      forLoop LF_COLS (fun x block =>
        store block (y * COLS + x)
          (input (y * input_stride + x) *
            E.DCTTotalResampleScale DCT_ROWS ROWS y *
            E.DCTTotalResampleScale DCT_COLS COLS x)) block) block
  else
    forLoop LF_COLS (fun y block =>
      forLoop LF_ROWS (fun x block =>
        store block (y * ROWS + x)
          (input (y * input_stride + x) *
            E.DCTTotalResampleScale DCT_COLS COLS y *
            E.DCTTotalResampleScale DCT_ROWS ROWS x)) block) block

/-- The scratch `block` of `ReinterpretingIDCT` after the in-place reduced inverse
transform `DoIDCT<ROWS, COLS>()(FromBlock(IN_ROWS, IN_COLS, block), ToBlock(ROWS, COLS, block))`. -/
def ReinterpretingIDCT.transformed (E : Externals)
    (DCT_ROWS DCT_COLS LF_ROWS LF_COLS ROWS COLS : Nat)
    (input : Buf) (input_stride : Nat) : Buf :=
  let block := ReinterpretingIDCT.scratch E DCT_ROWS DCT_COLS LF_ROWS LF_COLS ROWS COLS
    input input_stride
  let IN_ROWS := CoefficientRows ROWS COLS
  let IN_COLS := CoefficientColumns ROWS COLS
  ToBlock ROWS COLS (DoIDCT E ROWS COLS (FromBlock IN_ROWS IN_COLS block)) block

/-- The function template `ReinterpretingIDCT`; the result is the `output` buffer. -/
def ReinterpretingIDCT (E : Externals)
    (DCT_ROWS DCT_COLS LF_ROWS LF_COLS ROWS COLS : Nat)
    (input : Buf) (input_stride : Nat) (output : Buf) (output_stride : Nat) : Buf :=
  let block := ReinterpretingIDCT.transformed E DCT_ROWS DCT_COLS LF_ROWS LF_COLS ROWS COLS
    input input_stride
  forLoop ROWS (fun y output =>
    forLoop COLS (fun x output =>
      store output (y * output_stride + x) (block (y * COLS + x))) output) output

/-! ## `IDCT2TopBlock` -/

/-- The scratch `temp` of `IDCT2TopBlock<S>` after the butterfly loop. -/
def IDCT2TopBlock.temp (S : Nat) (block : Buf) : Buf :=
  let num_2x2 := S / 2
  forLoop num_2x2 (fun y temp =>
    forLoop num_2x2 (fun x temp =>
      let c00 := block (y * kBlockDim + x)
      let c01 := block (y * kBlockDim + num_2x2 + x)
      let c10 := block ((y + num_2x2) * kBlockDim + x)
      let c11 := block ((y + num_2x2) * kBlockDim + num_2x2 + x)
      let r00 := c00 + c01 + c10 + c11
      let r01 := c00 + c01 - c10 - c11
      let r10 := c00 - c01 + c10 - c11
      let r11 := c00 - c01 - c10 + c11
      let temp := store temp (y * 2 * kBlockDim + x * 2) r00
      let temp := store temp (y * 2 * kBlockDim + x * 2 + 1) r01
      let temp := store temp ((y * 2 + 1) * kBlockDim + x * 2) r10
      store temp ((y * 2 + 1) * kBlockDim + x * 2 + 1) r11) temp) Buf.zero

/-- The function template `IDCT2TopBlock<S>`; the result is the `out` buffer.  `block` is
only read by the first loop, so the call with `out == block` is the call on the value
`block` had on entry. -/
def IDCT2TopBlock (S : Nat) (block : Buf) (stride_out : Nat) (out : Buf) : Buf :=
  let temp := IDCT2TopBlock.temp S block
  forLoop S (fun y out =>
    forLoop S (fun x out =>
      store out (y * stride_out + x) (temp (y * kBlockDim + x))) out) out

/-! ## The asymmetric transform -/

/-- The table `k4x4AFVBasis`, one row per coefficient, with the literals as written. -/
def k4x4AFVBasisTable : List (List ℚ) :=
  [
   [0.25, 0.25, 0.25, 0.25,
    0.25, 0.25, 0.25, 0.25,
    0.25, 0.25, 0.25, 0.25,
    0.25, 0.25, 0.25, 0.25],
   [0.876902929799142, 0.2206518106944235, -0.10140050393753763, -0.1014005039375375,
    0.2206518106944236, -0.10140050393753777, -0.10140050393753772, -0.10140050393753763,
    -0.10140050393753758, -0.10140050393753769, -0.1014005039375375, -0.10140050393753768,
    -0.10140050393753768, -0.10140050393753759, -0.10140050393753763, -0.10140050393753741],
   [0.0, 0.0, 0.40670075830260755, 0.44444816619734445,
    0.0, 0.0, 0.19574399372042936, 0.2929100136981264,
    -0.40670075830260716, -0.19574399372042872, 0.0, 0.11379074460448091,
    -0.44444816619734384, -0.29291001369812636, -0.1137907446044814, 0.0],
   [0.0, 0.0, -0.21255748058288748, 0.3085497062849767,
    0.0, 0.4706702258572536, -0.1621205195722993, 0.0,
    -0.21255748058287047, -0.16212051957228327, -0.47067022585725277, -0.1464291867126764,
    0.3085497062849487, 0.0, -0.14642918671266536, 0.4251149611657548],
   [0.0, -0.7071067811865474, 0.0, 0.0,
    0.7071067811865476, 0.0, 0.0, 0.0,
    0.0, 0.0, 0.0, 0.0,
    0.0, 0.0, 0.0, 0.0],
   [-0.4105377591765233, 0.6235485373547691, -0.06435071657946274, -0.06435071657946266,
    0.6235485373547694, -0.06435071657946284, -0.0643507165794628, -0.06435071657946274,
    -0.06435071657946272, -0.06435071657946279, -0.06435071657946266, -0.06435071657946277,
    -0.06435071657946277, -0.06435071657946273, -0.06435071657946274, -0.0643507165794626],
   [0.0, 0.0, -0.4517556589999482, 0.15854503551840063,
    0.0, -0.04038515160822202, 0.0074182263792423875, 0.39351034269210167,
    -0.45175565899994635, 0.007418226379244351, 0.1107416575309343, 0.08298163094882051,
    0.15854503551839705, 0.3935103426921022, 0.0829816309488214, -0.45175565899994796],
   [0.0, 0.0, -0.304684750724869, 0.5112616136591823,
    0.0, 0.0, -0.290480129728998, -0.06578701549142804,
    0.304684750724884, 0.2904801297290076, 0.0, -0.23889773523344604,
    -0.5112616136592012, 0.06578701549142545, 0.23889773523345467, 0.0],
   [0.0, 0.0, 0.3017929516615495, 0.25792362796341184,
    0.0, 0.16272340142866204, 0.09520022653475037, 0.0,
    0.3017929516615503, 0.09520022653475055, -0.16272340142866173, -0.35312385449816297,
    0.25792362796341295, 0.0, -0.3531238544981624, -0.6035859033230976],
   [0.0, 0.0, 0.40824829046386274, 0.0,
    0.0, 0.0, 0.0, -0.4082482904638628,
    -0.4082482904638635, 0.0, 0.0, -0.40824829046386296,
    0.0, 0.4082482904638634, 0.408248290463863, 0.0],
   [0.0, 0.0, 0.1747866975480809, 0.0812611176717539,
    0.0, 0.0, -0.3675398009862027, -0.307882213957909,
    -0.17478669754808135, 0.3675398009862011, 0.0, 0.4826689115059883,
    -0.08126111767175039, 0.30788221395790305, -0.48266891150598584, 0.0],
   [0.0, 0.0, -0.21105601049335784, 0.18567180916109802,
    0.0, 0.0, 0.49215859013738733, -0.38525013709251915,
    0.21105601049335806, -0.49215859013738905, 0.0, 0.17419412659916217,
    -0.18567180916109904, 0.3852501370925211, -0.1741941265991621, 0.0],
   [0.0, 0.0, -0.14266084808807264, -0.3416446842253372,
    0.0, 0.7367497537172237, 0.24627107722075148, -0.08574019035519306,
    -0.14266084808807344, 0.24627107722075137, 0.14883399227113567, -0.04768680350229251,
    -0.3416446842253373, -0.08574019035519267, -0.047686803502292804, -0.14266084808807242],
   [0.0, 0.0, -0.13813540350758585, 0.3302282550303788,
    0.0, 0.08755115000587084, -0.07946706605909573, -0.4613374887461511,
    -0.13813540350758294, -0.07946706605910261, 0.49724647109535086, 0.12538059448563663,
    0.3302282550303805, -0.4613374887461554, 0.12538059448564315, -0.13813540350758452],
   [0.0, 0.0, -0.17437602599651067, 0.0702790691196284,
    0.0, -0.2921026642334881, 0.3623817333531167, 0.0,
    -0.1743760259965108, 0.36238173335311646, 0.29210266423348785, -0.4326608024727445,
    0.07027906911962818, 0.0, -0.4326608024727457, 0.34875205199302267],
   [0.0, 0.0, 0.11354987314994337, -0.07417504595810355,
    0.0, 0.19402893032594343, -0.435190496523228, 0.21918684838857466,
    0.11354987314994257, -0.4351904965232251, 0.5550443808910661, -0.25468277124066463,
    -0.07417504595810233, 0.2191868483885728, -0.25468277124066413, 0.1135498731499429]
  ]

/-- The entry `k4x4AFVBasis[j][i]`. -/
def k4x4AFVBasis (j i : Nat) : ℚ :=
  (k4x4AFVBasisTable.getD j []).getD i 0

/-- The loop `for (size_t i = 0; i < 16; i += Lanes(d))` of `AFVIDCT4x4`, started at
`i`.  A vector is the map from lane to value; `MulAdd(cf, basis, pixel)` is
`cf * basis + pixel` in every lane.  The loop has at most 16 iterations, which is the
fuel it is run with. -/
def AFVIDCT4x4.loop (lanes : Nat) (coeffs : Buf) : Nat → Nat → Buf → Buf
  | 0, _, pixels => pixels
  | fuel + 1, i, pixels =>
    if i < 16 then
      let pixel : Nat → ℚ :=
        forLoop 16 (fun j pixel =>
          let cf : Nat → ℚ := fun _ => coeffs j
          let basis : Nat → ℚ := fun l => k4x4AFVBasis j (i + l)
          fun l => cf l * basis l + pixel l) (fun _ => 0)
      AFVIDCT4x4.loop lanes coeffs fuel (i + lanes)
        (forLoop lanes (fun l pixels => store pixels (i + l) (pixel l)) pixels)
    else pixels

/-- The function `AFVIDCT4x4`; the result is the `pixels` buffer. -/
def AFVIDCT4x4 (lanes : Nat) (coeffs : Buf) (pixels : Buf) : Buf :=
  AFVIDCT4x4.loop lanes coeffs 16 0 pixels

/-- The loop of `AFVIDCT4x4` with the effect of a store left open: `st state offset value`
is the state after `pixels[offset] = value`.  With `st = store` it is `AFVIDCT4x4.loop`. -/
def AFVIDCT4x4.loopWith {σ : Type} (st : σ → Nat → ℚ → σ) (lanes : Nat) (coeffs : Buf) :
    Nat → Nat → σ → σ
  | 0, _, pixels => pixels
  | fuel + 1, i, pixels =>
    if i < 16 then
      let pixel : Nat → ℚ :=
        forLoop 16 (fun j pixel =>
          let cf : Nat → ℚ := fun _ => coeffs j
          let basis : Nat → ℚ := fun l => k4x4AFVBasis j (i + l)
          fun l => cf l * basis l + pixel l) (fun _ => 0)
      AFVIDCT4x4.loopWith st lanes coeffs fuel (i + lanes)
        (forLoop lanes (fun l pixels => st pixels (i + l) (pixel l)) pixels)
    else pixels

/-- The offsets of `pixels` that `AFVIDCT4x4` stores to, in program order. -/
def AFVIDCT4x4.stores (lanes : Nat) (coeffs : Buf) : List Nat :=
  AFVIDCT4x4.loopWith (fun offsets i _ => offsets ++ [i]) lanes coeffs 16 0 []

/-- The three values `dcs[0..2]` of `AFVTransformToPixels`. -/
def AFVTransformToPixels.dcs (coefficients : Buf) : Buf :=
  let dcs : Buf := Buf.zero
  let block00 := coefficients 0
  let block01 := coefficients 1
  let block10 := coefficients 8
  let dcs := store dcs 0 ((block00 + block10 + block01) * 4)
  let dcs := store dcs 1 (block00 + block10 - block01)
  store dcs 2 (block00 - block10)

/-- The buffer `coeff` of `AFVTransformToPixels`: the (even, even) positions. -/
def AFVTransformToPixels.coeff (coefficients : Buf) : Buf :=
  let dcs := AFVTransformToPixels.dcs coefficients
  let coeff : Buf := store Buf.zero 0 (dcs 0)
  forLoop 4 (fun iy coeff =>
    forLoop 4 (fun ix coeff =>
      if ix = 0 ∧ iy = 0 then coeff
      else store coeff (iy * 4 + ix) (coefficients (iy * 2 * 8 + ix * 2))) coeff) coeff

/-- The buffer `block` of `AFVTransformToPixels` after `AFVIDCT4x4(coeff, block)`. -/
def AFVTransformToPixels.block1 (E : Externals) (coefficients : Buf) : Buf :=
  AFVIDCT4x4 E.Lanes (AFVTransformToPixels.coeff coefficients) Buf.zero

/-- The buffer `block` of `AFVTransformToPixels` when handed to the 4x4 inverse DCT: the
(odd, even) positions. -/
def AFVTransformToPixels.block2 (E : Externals) (coefficients : Buf) : Buf :=
  let dcs := AFVTransformToPixels.dcs coefficients
  let block := store (AFVTransformToPixels.block1 E coefficients) 0 (dcs 1)
  forLoop 4 (fun iy block =>
    forLoop 4 (fun ix block =>
      if ix = 0 ∧ iy = 0 then block
      else store block (iy * 4 + ix) (coefficients (iy * 2 * 8 + ix * 2 + 1))) block) block

/-- The buffer `block` of `AFVTransformToPixels` when handed to the 4x8 inverse DCT: the
odd rows. -/
def AFVTransformToPixels.block3 (E : Externals) (coefficients : Buf) : Buf :=
  let dcs := AFVTransformToPixels.dcs coefficients
  let block := store (AFVTransformToPixels.block2 E coefficients) 0 (dcs 2)
  forLoop 4 (fun iy block =>
    forLoop 8 (fun ix block =>
      if ix = 0 ∧ iy = 0 then block
      else store block (iy * 8 + ix) (coefficients ((1 + iy * 2) * 8 + ix))) block) block

/-- The function template `AFVTransformToPixels<afv_kind>`; the result is the `pixels`
buffer. -/
def AFVTransformToPixels (E : Externals) (afv_kind : Nat) (coefficients : Buf)
    (pixels : Buf) (pixels_stride : Nat) : Buf :=
  let afv_x := afv_kind &&& 1
  let afv_y := afv_kind / 2
  -- IAFV: (even, even) positions.
  let block := AFVTransformToPixels.block1 E coefficients
  let pixels := forLoop 4 (fun iy pixels =>
    forLoop 4 (fun ix pixels =>
      store pixels ((iy + afv_y * 4) * pixels_stride + afv_x * 4 + ix)
        (block ((if afv_y = 1 then 3 - iy else iy) * 4 +
          (if afv_x = 1 then 3 - ix else ix)))) pixels) pixels
  -- IDCT4x4 in (odd, even) positions.
  let block := AFVTransformToPixels.block2 E coefficients
  let pixels := ToLines 4 4 (E.ComputeTransposedScaledIDCT 4 (FromBlock 4 4 block)) pixels
    (afv_y * 4 * pixels_stride + (if afv_x = 1 then 0 else 4)) pixels_stride
  -- IDCT4x8.
  let block := AFVTransformToPixels.block3 E coefficients
  ToLines 4 8 (E.ComputeScaledIDCT 4 8 (FromBlock 4 8 block)) pixels
    ((if afv_y = 1 then 0 else 4) * pixels_stride) pixels_stride

/-! ## The asymmetric transform in the range of `float`

The definitions above compute with exact numbers.  The product by `4.0f` in
`AFVTransformToPixels` can leave the range of `float`; the definitions of this section follow
the custom-basis quadrant with the range taken into account.  A value is a finite number or
`none`, which stands for a value that is not finite (an infinity or a NaN); rounding inside
the range is left out. -/

/-- The constant `FLT_MAX`, the largest finite `float`: `(2 - 2^-23) * 2^127`. -/
def kFloatMax : ℚ := 2 ^ 128 - 2 ^ 104

/-- The `float` that an operation with the exact result `v` leaves, as far as the range
goes.  Rounded to nearest, the result is an infinity when `|v|` is at least `FLT_MAX` plus
half a unit in its last place, which is `2^128 - 2^103`; below that it is finite, and its
rounding is left out. -/
def floatOf (v : ℚ) : Option ℚ :=
  if |v| < kFloatMax + 2 ^ 103 then some v else none

/-- The sum `a + b` of two `float`s; it is not finite when an operand is not. -/
def floatAdd (a b : Option ℚ) : Option ℚ :=
  match a, b with
  | some a, some b => floatOf (a + b)
  | _, _ => none

/-- The product `a * b` of two `float`s; it is not finite when an operand is not. -/
def floatMul (a b : Option ℚ) : Option ℚ :=
  match a, b with
  | some a, some b => floatOf (a * b)
  | _, _ => none

/-- The operation `MulAdd(cf, basis, pixel)` in one lane; it is not finite when an operand
is not. -/
def floatMulAdd (cf basis pixel : Option ℚ) : Option ℚ :=
  match cf, basis, pixel with
  | some cf, some basis, some pixel => floatOf (cf * basis + pixel)
  | _, _, _ => none

/-- Output `i` of `AFVIDCT4x4` in the range of `float`: the accumulation `pixel =
MulAdd(cf, basis, pixel)` over the 16 coefficients from `Zero(d)`, which every lane runs on
its own. -/
def AFVIDCT4x4.pixelFloat (coeffs : Nat → Option ℚ) (i : Nat) : Option ℚ :=
  forLoop 16 (fun j pixel => floatMulAdd (coeffs j) (some (k4x4AFVBasis j i)) pixel) (some 0)

/-- The entry `dcs[0] = (block00 + block10 + block01) * 4.0f` of `AFVTransformToPixels` in
the range of `float`. -/
def AFVTransformToPixels.dcs0Float (coefficients : Buf) : Option ℚ :=
  let block00 := some (coefficients 0)
  let block01 := some (coefficients 1)
  let block10 := some (coefficients 8)
  floatMul (floatAdd (floatAdd block00 block10) block01) (some 4)

/-- The buffer `coeff` of `AFVTransformToPixels` in the range of `float`: `dcs[0]` in slot 0,
copies of coefficients in the other slots. -/
def AFVTransformToPixels.coeffFloat (coefficients : Buf) (i : Nat) : Option ℚ :=
  if i = 0 then AFVTransformToPixels.dcs0Float coefficients
  else some (AFVTransformToPixels.coeff coefficients i)

/-- The sample in row `iy` and column `ix` of the custom-basis quadrant of
`AFVTransformToPixels<afv_kind>` in the range of `float`. -/
def AFVTransformToPixels.quadrantFloat (afv_kind : Nat) (coefficients : Buf) (iy ix : Nat) :
    Option ℚ :=
  let afv_x := afv_kind &&& 1
  let afv_y := afv_kind / 2
  AFVIDCT4x4.pixelFloat (AFVTransformToPixels.coeffFloat coefficients)
    ((if afv_y = 1 then 3 - iy else iy) * 4 + (if afv_x = 1 then 3 - ix else ix))

/-! ## Strategy dispatch -/

/-- The enumeration `AcStrategy::Type`, closed by the sentinel `kNumValidStrategies`. -/
inductive AcStrategyType where
  | DCT | IDENTITY | DCT2X2 | DCT4X4 | DCT16X16 | DCT32X32
  | DCT16X8 | DCT8X16 | DCT32X8 | DCT8X32 | DCT32X16 | DCT16X32
  | DCT4X8 | DCT8X4 | AFV0 | AFV1 | AFV2 | AFV3
  | kNumValidStrategies
  deriving DecidableEq, Repr

/-- The value of `residual_sum` after the two loops accumulating it in iteration `(y, x)`
of `case Type::IDENTITY`. -/
def TransformToPixels.residual_sum (coefficients : Buf) (y x : Nat) : ℚ :=
  forLoop 4 (fun iy residual_sum =>
    forLoop 4 (fun ix residual_sum =>
      if ix = 0 ∧ iy = 0 then residual_sum
      else residual_sum + coefficients ((y + iy * 2) * 8 + x + ix * 2)) residual_sum) 0

/-- One iteration `(y, x)` of the quadrant loop of `case Type::IDENTITY`, `dcs` being the
four Hadamard-derived values. -/
def TransformToPixels.identityQuadrant (dcs : Buf) (coefficients : Buf)
    (pixels_stride : Nat) (y x : Nat) (pixels : Buf) : Buf :=
  let block_dc := dcs (y * 2 + x)
  let residual_sum : ℚ := TransformToPixels.residual_sum coefficients y x
  let pixels := store pixels ((4 * y + 1) * pixels_stride + 4 * x + 1)
    (block_dc - residual_sum * (1 / 16))
  let pixels := forLoop 4 (fun iy pixels =>
    forLoop 4 (fun ix pixels =>
      if ix = 1 ∧ iy = 1 then pixels
      else store pixels ((y * 4 + iy) * pixels_stride + x * 4 + ix)
        (coefficients ((y + iy * 2) * 8 + x + ix * 2) +
          pixels ((4 * y + 1) * pixels_stride + 4 * x + 1))) pixels) pixels
  store pixels (y * 4 * pixels_stride + x * 4)
    (coefficients ((y + 2) * 8 + x + 2) +
      pixels ((4 * y + 1) * pixels_stride + 4 * x + 1))

/-- The buffer `block` that `case Type::DCT8X4` (with `s = x`) and `case Type::DCT4X8`
(with `s = y`) fill for sub-block `s`. -/
def TransformToPixels.block4x8 (dcs : Buf) (coefficients : Buf) (s : Nat) : Buf :=
  let block : Buf := store Buf.zero 0 (dcs s)
  forLoop 4 (fun iy block =>
    forLoop 8 (fun ix block =>
      if ix = 0 ∧ iy = 0 then block
      else store block (iy * 8 + ix) (coefficients ((s + iy * 2) * 8 + ix))) block) block

/-- The buffer `block` that `case Type::DCT4X4` fills for sub-block `(y, x)`. -/
def TransformToPixels.block4x4 (dcs : Buf) (coefficients : Buf) (y x : Nat) : Buf :=
  let block : Buf := store Buf.zero 0 (dcs (y * 2 + x))
  forLoop 4 (fun iy block =>
    forLoop 4 (fun ix block =>
      if ix = 0 ∧ iy = 0 then block
      else store block (iy * 4 + ix) (coefficients ((y + iy * 2) * 8 + x + ix * 2))) block) block

/-- The four values `dcs[0..3]` of `case Type::IDENTITY` and `case Type::DCT4X4`. -/
def TransformToPixels.dcs4 (coefficients : Buf) : Buf :=
  let block00 := coefficients 0
  let block01 := coefficients 1
  let block10 := coefficients 8
  let block11 := coefficients 9
  let dcs : Buf := Buf.zero
  let dcs := store dcs 0 (block00 + block01 + block10 + block11)
  let dcs := store dcs 1 (block00 + block01 - block10 - block11)
  let dcs := store dcs 2 (block00 - block01 + block10 - block11)
  store dcs 3 (block00 - block01 - block10 + block11)

/-- The two values `dcs[0..1]` of `case Type::DCT8X4` and `case Type::DCT4X8`. -/
def TransformToPixels.dcs2 (coefficients : Buf) : Buf :=
  let block0 := coefficients 0
  let block1 := coefficients 8
  let dcs : Buf := Buf.zero
  let dcs := store dcs 0 (block0 + block1)
  store dcs 1 (block0 - block1)

/-- The body of `case Type::IDENTITY`. -/
def TransformToPixels.caseIDENTITY (coefficients : Buf) (pixels : Buf)
    (pixels_stride : Nat) : Buf :=
  let dcs := TransformToPixels.dcs4 coefficients
  forLoop 2 (fun y pixels =>
    forLoop 2 (fun x pixels =>
      TransformToPixels.identityQuadrant dcs coefficients pixels_stride y x pixels) pixels)
    pixels

/-- The body of `case Type::DCT8X4`. -/
def TransformToPixels.caseDCT8X4 (E : Externals) (coefficients : Buf) (pixels : Buf)
    (pixels_stride : Nat) : Buf :=
  let dcs := TransformToPixels.dcs2 coefficients
  forLoop 2 (fun x pixels =>
    let block := TransformToPixels.block4x8 dcs coefficients x
    ToLines 8 4 (E.ComputeScaledIDCT 8 4 (FromBlock 4 8 block)) pixels (x * 4) pixels_stride)
    pixels

/-- The body of `case Type::DCT4X8`. -/
def TransformToPixels.caseDCT4X8 (E : Externals) (coefficients : Buf) (pixels : Buf)
    (pixels_stride : Nat) : Buf :=
  let dcs := TransformToPixels.dcs2 coefficients
  forLoop 2 (fun y pixels =>
    let block := TransformToPixels.block4x8 dcs coefficients y
    ToLines 4 8 (E.ComputeScaledIDCT 4 8 (FromBlock 4 8 block)) pixels
      (y * 4 * pixels_stride) pixels_stride)
    pixels

/-- The body of `case Type::DCT4X4`. -/
def TransformToPixels.caseDCT4X4 (E : Externals) (coefficients : Buf) (pixels : Buf)
    (pixels_stride : Nat) : Buf :=
  let dcs := TransformToPixels.dcs4 coefficients
  forLoop 2 (fun y pixels =>
    forLoop 2 (fun x pixels =>
      let block := TransformToPixels.block4x4 dcs coefficients y x
      ToLines 4 4 (E.ComputeTransposedScaledIDCT 4 (FromBlock 4 4 block)) pixels
        (y * 4 * pixels_stride + x * 4) pixels_stride) pixels)
    pixels

/-- The local `coeffs` of `case Type::DCT2X2` after the `memcpy` of the tile. -/
def TransformToPixels.coeffs0 (coefficients : Buf) : Buf :=
  forLoop kDCTBlockSize (fun i coeffs => store coeffs i (coefficients i)) Buf.zero

/-- The local `coeffs` of `case Type::DCT2X2` after the three in-place butterfly passes. -/
def TransformToPixels.coeffs3 (coefficients : Buf) : Buf :=
  let coeffs := TransformToPixels.coeffs0 coefficients
  let coeffs := IDCT2TopBlock 2 coeffs kBlockDim coeffs
  let coeffs := IDCT2TopBlock 4 coeffs kBlockDim coeffs
  IDCT2TopBlock 8 coeffs kBlockDim coeffs

/-- The body of `case Type::DCT2X2`. -/
def TransformToPixels.caseDCT2X2 (coefficients : Buf) (pixels : Buf)
    (pixels_stride : Nat) : Buf :=
  let coeffs := TransformToPixels.coeffs3 coefficients
  forLoop kBlockDim (fun y pixels =>
    forLoop kBlockDim (fun x pixels =>
      store pixels (y * pixels_stride + x) (coeffs (y * kBlockDim + x))) pixels) pixels

/-- The function `TransformToPixels`; the result is the `pixels` buffer, `none` when the
call ends in `JXL_ABORT`. -/
def TransformToPixels (E : Externals) (strategy : AcStrategyType) (coefficients : Buf)
    (pixels : Buf) (pixels_stride : Nat) : Option Buf :=
  match strategy with
  | .IDENTITY => some (TransformToPixels.caseIDENTITY coefficients pixels pixels_stride)
  | .DCT8X4 => some (TransformToPixels.caseDCT8X4 E coefficients pixels pixels_stride)
  | .DCT4X8 => some (TransformToPixels.caseDCT4X8 E coefficients pixels pixels_stride)
  | .DCT4X4 => some (TransformToPixels.caseDCT4X4 E coefficients pixels pixels_stride)
  | .DCT2X2 => some (TransformToPixels.caseDCT2X2 coefficients pixels pixels_stride)
  | .DCT16X16 =>
    some (ToLines (2 * kBlockDim) (2 * kBlockDim)
      (E.ComputeTransposedScaledIDCT (2 * kBlockDim)
        (FromBlock (2 * kBlockDim) (2 * kBlockDim) coefficients)) pixels 0 pixels_stride)
  | .DCT16X8 =>
    some (ToLines 16 8 (E.ComputeScaledIDCT 16 8 (FromBlock 8 16 coefficients))
      pixels 0 pixels_stride)
  | .DCT8X16 =>
    some (ToLines 8 16 (E.ComputeScaledIDCT 8 16 (FromBlock 8 16 coefficients))
      pixels 0 pixels_stride)
  | .DCT32X8 =>
    some (ToLines 32 8 (E.ComputeScaledIDCT 32 8 (FromBlock 8 32 coefficients))
      pixels 0 pixels_stride)
  | .DCT8X32 =>
    some (ToLines 8 32 (E.ComputeScaledIDCT 8 32 (FromBlock 8 32 coefficients))
      pixels 0 pixels_stride)
  | .DCT32X16 =>
    some (ToLines 32 16 (E.ComputeScaledIDCT 32 16 (FromBlock 16 32 coefficients))
      pixels 0 pixels_stride)
  | .DCT16X32 =>
    some (ToLines 16 32 (E.ComputeScaledIDCT 16 32 (FromBlock 16 32 coefficients))
      pixels 0 pixels_stride)
  | .DCT32X32 =>
    some (ToLines (4 * kBlockDim) (4 * kBlockDim)
      (E.ComputeTransposedScaledIDCT (4 * kBlockDim)
        (FromBlock (4 * kBlockDim) (4 * kBlockDim) coefficients)) pixels 0 pixels_stride)
  | .DCT =>
    some (ToLines kBlockDim kBlockDim
      (E.ComputeTransposedScaledIDCT kBlockDim (FromBlock kBlockDim kBlockDim coefficients))
      pixels 0 pixels_stride)
  | .AFV0 => some (AFVTransformToPixels E 0 coefficients pixels pixels_stride)
  | .AFV1 => some (AFVTransformToPixels E 1 coefficients pixels pixels_stride)
  | .AFV2 => some (AFVTransformToPixels E 2 coefficients pixels pixels_stride)
  | .AFV3 => some (AFVTransformToPixels E 3 coefficients pixels pixels_stride)
  | .kNumValidStrategies => none

/-- The function `DCFromLowestFrequencies`; the result is the `dc` buffer, `none` when the
call ends in `JXL_ABORT`. -/
def DCFromLowestFrequencies (E : Externals) (strategy : AcStrategyType) (block : Buf)
    (dc : Buf) (dc_stride : Nat) : Option Buf :=
  match strategy with
  | .DCT16X8 =>
    some (ReinterpretingIDCT E (2 * kBlockDim) kBlockDim 2 1 2 1
      block (2 * kBlockDim) dc dc_stride)
  | .DCT8X16 =>
    some (ReinterpretingIDCT E kBlockDim (2 * kBlockDim) 1 2 1 2
      block (2 * kBlockDim) dc dc_stride)
  | .DCT16X16 =>
    some (ReinterpretingIDCT E (2 * kBlockDim) (2 * kBlockDim) 2 2 2 2
      block (2 * kBlockDim) dc dc_stride)
  | .DCT32X8 =>
    some (ReinterpretingIDCT E (4 * kBlockDim) kBlockDim 4 1 4 1
      block (4 * kBlockDim) dc dc_stride)
  | .DCT8X32 =>
    some (ReinterpretingIDCT E kBlockDim (4 * kBlockDim) 1 4 1 4
      block (4 * kBlockDim) dc dc_stride)
  | .DCT32X16 =>
    some (ReinterpretingIDCT E (4 * kBlockDim) (2 * kBlockDim) 4 2 4 2
      block (4 * kBlockDim) dc dc_stride)
  | .DCT16X32 =>
    some (ReinterpretingIDCT E (2 * kBlockDim) (4 * kBlockDim) 2 4 2 4
      block (4 * kBlockDim) dc dc_stride)
  | .DCT32X32 =>
    some (ReinterpretingIDCT E (4 * kBlockDim) (4 * kBlockDim) 4 4 4 4
      block (4 * kBlockDim) dc dc_stride)
  | .DCT | .DCT2X2 | .DCT4X4 | .DCT4X8 | .DCT8X4
  | .AFV0 | .AFV1 | .AFV2 | .AFV3 | .IDENTITY =>
    some (store dc 0 (block 0))
  | .kNumValidStrategies => none

/-! ## The palette transform of `jxl/modular/transform/palette.h`

The image types live in `jxl/modular/image/image.h`, which is not part of the sources; they
are modelled by the fields the transform uses.  A `pixel_type` sample is an integer; the
plane of a channel is the map from row and column to the sample.  A `uint32_t` or `size_t`
value is a natural number, reduced modulo `2^32` or `2^64` where the program computes with
it; the conversions between `int`, `uint32_t` and `size_t` are explicit.  Arithmetic on
`int` is exact: an overflow of it is undefined in the source. -/

/-- A `Channel`: width and height (`size_t`), horizontal shift and the samples
`Row(y)[x]`. -/
structure Channel where
  /-- The width `w`. -/
  w : Nat
  /-- The height `h`. -/
  h : Nat
  /-- The field `hshift`. -/
  hshift : Int
  /-- The sample `Row(y)[x]` as `plane y x`. -/
  plane : Nat → Nat → Int

/-- The constructor `Channel(w, h)`. -/
def Channel.new (w h : Nat) : Channel :=
  { w := w, h := h, hshift := 0, plane := fun _ _ => 0 }

/-- The assignment `Row(y)[x] = v` on a channel. -/
def Channel.setPx (ch : Channel) (y x : Nat) (v : Int) : Channel :=
  { ch with plane := fun y' x' => if y' = y ∧ x' = x then v else ch.plane y' x' }

/-- An `Image`: the channel vector and the two channel counters (`size_t`). -/
structure Image where
  /-- The vector `channel`. -/
  channel : List Channel
  /-- The counter `nb_channels`. -/
  nb_channels : Nat
  /-- The counter `nb_meta_channels`. -/
  nb_meta_channels : Nat

/-- The element `channel[c]` of a channel vector. -/
def chan (channel : List Channel) (c : Nat) : Channel :=
  channel.getD c (Channel.new 0 0)

/-- The assignment `channel[c].Row(y)[x] = v` on a channel vector. -/
def setPixel (channel : List Channel) (c y x : Nat) (v : Int) : List Channel :=
  channel.set c ((chan channel c).setPx y x v)

/-- The insertion `channel.insert(channel.begin() + pos, ch)`. -/
def insertChannel (channel : List Channel) (pos : Nat) (ch : Channel) : List Channel :=
  channel.take pos ++ ch :: channel.drop pos

/-- The result type `Status`: success, or failure with the message of `JXL_FAILURE` (empty
for a plain `return false`). -/
inductive Status where
  | ok
  | failure (message : String)
  deriving DecidableEq, Repr

/-- The enumeration `Predictor` of `jxl/modular/encoding/context_predict.h`, of which the
transform names `Predictor::Zero` only. -/
inductive Predictor where
  | Zero
  | other (id : Nat)
  deriving DecidableEq, Repr

/-- The conversion of a `uint32_t` (or `size_t`) value to `int`. -/
def asInt (u : Nat) : Int :=
  if u % 2 ^ 32 < 2 ^ 31 then ((u % 2 ^ 32 : Nat) : Int) else ((u % 2 ^ 32 : Nat) : Int) - 2 ^ 32

/-- The conversion of an `int` to `size_t`, as in a comparison of an `int` with a
`size_t`. -/
def asSizeT (i : Int) : Nat :=
  (i % 2 ^ 64).toNat

/-- The reduction of a value to `uint32_t`. -/
def asUInt32 (n : Nat) : Nat :=
  n % 2 ^ 32

/-- The collaborators of the palette transform that are consumed through their interface:
`Channel::compute_minmax` of `jxl/modular/image/image.h` and the weighted predictor of
`jxl/modular/encoding/context_predict.h` (`weighted::State` with its constructor from the
header and the channel size, `PredictNoTreeWP`, which reads the samples of the channel around
`(x, y)` and the predictor state, and `UpdateErrors`). -/
structure ImageExternals where
  /-- `compute_minmax(&minval, &maxval)`. -/
  compute_minmax : Channel → Int × Int
  /-- The type `weighted::State`. -/
  WPState : Type
  /-- `weighted::State wp_state(wp_header, w, h)`. -/
  wp_init : Nat → Nat → WPState
  /-- `PredictNoTreeWP(w, p + x, onerow, x, y, predictor, &wp_state)`: the guess and the
  predictor state after the call. -/
  PredictNoTreeWP : Nat → (Nat → Nat → Int) → Nat → Nat → Predictor → WPState → Int × WPState
  /-- `wp_state.UpdateErrors(value, x, y, w)`. -/
  UpdateErrors : WPState → Int → Nat → Nat → Nat → WPState

/-- The function `CheckPaletteParams`. -/
def CheckPaletteParams (image : Image) (begin_c end_c : Nat) : Status :=
  let c1 : Int := asInt begin_c
  let c2 : Int := asInt end_c
  -- The range is including c1 and c2, so c2 may not be num_channels.
  if c1 < 0 ∨ asSizeT c1 > image.channel.length ∨ c2 < 0 ∨
      asSizeT c2 ≥ image.channel.length ∨ c2 < c1 then
    Status.failure "Invalid channel range"
  else Status.ok

/-- The loop of `FwdPalette` comparing the sizes of the channels `begin_c + 1 .. end_c` with
`w` and `h`: `false` when it takes one of its `return false`. -/
def FwdPalette.sizesAgree (channel : List Channel) (begin_c end_c w h : Nat) : Bool :=
  forLoop (end_c - begin_c) (fun k agree =>
    let c := begin_c + 1 + k
    agree && decide ((chan channel c).w = w) && decide ((chan channel c).h = h)) true

/-- The insertion `candidate_palette.insert(color)` into the `std::set`, kept as the list
of its elements in lexicographic order. -/
def FwdPalette.setInsert (color : List Int) : List (List Int) → List (List Int)
  | [] => [color]
  | p :: rest =>
    if color = p then p :: rest
    else if color < p then color :: p :: rest
    else p :: FwdPalette.setInsert color rest

/-- The locals of the loop of `FwdPalette` that collects the colours; `returned` records
that `return false` ("too many colors") was taken. -/
structure FwdPalette.Scan where
  /-- The set `candidate_palette`. -/
  candidate_palette : List (List Int)
  /-- The vector `candidate_palette_imageorder`. -/
  candidate_palette_imageorder : List (List Int)
  /-- The counter `count`. -/
  count : Nat
  /-- Whether `return false` was taken. -/
  returned : Bool

/-- The body of the colour collecting loop of `FwdPalette` at pixel `(y, x)`. -/
def FwdPalette.scanPixel (channel : List Channel) (begin_c nb nb_colors y x : Nat)
    (s : FwdPalette.Scan) : FwdPalette.Scan :=
  if s.returned then s
  else
    let color : List Int := (List.range nb).map (fun c => (chan channel (begin_c + c)).plane y x)
    let candidate_palette := FwdPalette.setInsert color s.candidate_palette
    let grown := decide (candidate_palette.length > s.count)
    { candidate_palette := candidate_palette
      candidate_palette_imageorder :=
        if grown then s.candidate_palette_imageorder ++ [color]
        else s.candidate_palette_imageorder
      count := if grown then s.count + 1 else s.count
      -- static_cast<int>(candidate_palette.size()) > nb_colors, compared as uint32_t
      returned := decide (asUInt32 candidate_palette.length > nb_colors) }

/-- The colour collecting loop of `FwdPalette`. -/
def FwdPalette.scan (channel : List Channel) (begin_c nb nb_colors w h : Nat) :
    FwdPalette.Scan :=
  forLoop h (fun y s =>
    forLoop w (fun x s => FwdPalette.scanPixel channel begin_c nb nb_colors y x s) s)
    { candidate_palette := [], candidate_palette_imageorder := [], count := 0,
      returned := false }

/-- The locals of the loop of `FwdPalette` that fills the palette: the palette channel
`pch`, the vector `lookup` and the counter `x`. -/
structure FwdPalette.Fill where
  /-- The palette channel `pch`. -/
  pch : Channel
  /-- The vector `lookup`. -/
  lookup : List Int
  /-- The counter `x`. -/
  x : Nat

/-- The body of the palette filling loop of `FwdPalette` for the colour `pcol`. -/
def FwdPalette.fillColor (nb : Nat) (minval : Int) (s : FwdPalette.Fill) (pcol : List Int) :
    FwdPalette.Fill :=
  { pch := forLoop nb (fun i pch => pch.setPx i s.x (pcol.getD i 0)) s.pch
    lookup :=
      if nb = 1 then s.lookup.set (asSizeT (pcol.getD 0 0 - minval)) (s.x : Int)
      else s.lookup
    x := s.x + 1 }

/-- The size of `lookup` after `if (nb == 1) lookup.resize(maxval - minval + 1)`.  The
argument of `resize` is computed in `int`: there is no result (`none`) when the subtraction
or the addition overflows, which is undefined, or when the sum is negative, which as a
`size_t` is more than a vector can hold, so that `resize` throws. -/
def FwdPalette.lookupSize (nb : Nat) (minval maxval : Int) : Option Nat :=
  if nb = 1 then
    if 0 ≤ maxval - minval + 1 ∧ maxval - minval + 1 < 2 ^ 31 then
      some (maxval - minval + 1).toNat
    else none
  else some 0

/-- The palette filling loop of `FwdPalette` over the colours in the chosen order, from
the declarations of `pch` and `x` and from `lookup` with its `lookup_size` zero entries. -/
def FwdPalette.fill (nb : Nat) (minval : Int) (lookup_size : Nat) (nb_colors : Nat)
    (colors : List (List Int)) : FwdPalette.Fill :=
  colors.foldl (FwdPalette.fillColor nb minval)
    { pch := { Channel.new nb_colors nb with hshift := -1 }
      lookup := List.replicate lookup_size 0
      x := 0 }

/-- The search loop `for (; index < nb_colors; index++)` of `FwdPalette`, started at `index`
with `fuel` iterations left: the first index at which `found` holds, `nb_colors` if there is
none. -/
def FwdPalette.findIndex (found : Nat → Bool) : Nat → Nat → Nat
  | 0, index => index
  | fuel + 1, index => if found index then index else FwdPalette.findIndex found fuel (index + 1)

/-- The value that the last loop of `FwdPalette` assigns to `p[x]` at pixel `(y, x)`: the
entry of `lookup` for a single channel, the result of the search through the palette
otherwise. -/
def FwdPalette.pixelIndex (pch : Channel) (lookup : List Int)
    (begin_c nb nb_colors : Nat) (minval : Int) (y x : Nat) (channel : List Channel) : Int :=
  if nb = 1 then
    lookup.getD (asSizeT ((chan channel begin_c).plane y x - minval)) 0
  else
    let color : Nat → Int := fun c => (chan channel (begin_c + c)).plane y x
    let index := FwdPalette.findIndex
      (fun index => (List.range nb).all (fun c => decide (color c = pch.plane c index)))
      nb_colors 0
    (index : Int)

/-- The body of the loop of `FwdPalette` that replaces the colour of pixel `(y, x)` by its
palette index, in channel `begin_c`. -/
def FwdPalette.replacePixel (pch : Channel) (lookup : List Int)
    (begin_c nb nb_colors : Nat) (minval : Int) (y x : Nat) (channel : List Channel) :
    List Channel :=
  setPixel channel begin_c y x
    (FwdPalette.pixelIndex pch lookup begin_c nb nb_colors minval y x channel)

/-- The part of `FwdPalette` after the colours are collected (from `nb_colors =
candidate_palette.size()` to the end), given the size `lookup_size` that `lookup` has after
its `resize`: the image and `nb_colors` that it leaves. -/
def FwdPalette.build (X : ImageExternals) (input : Image) (begin_c end_c nb : Nat)
    (ordered : Bool) (scan : FwdPalette.Scan) (lookup_size : Nat) : Image × Nat :=
  let w := (chan input.channel begin_c).w
  let h := (chan input.channel begin_c).h
  let nb_colors := asUInt32 scan.candidate_palette.length
  let minval := (X.compute_minmax (chan input.channel begin_c)).1
  let filled := FwdPalette.fill nb minval lookup_size nb_colors
    (if ordered then scan.candidate_palette else scan.candidate_palette_imageorder)
  let channel := forLoop h (fun y channel =>
    forLoop w (fun x channel =>
      FwdPalette.replacePixel filled.pch filled.lookup begin_c nb nb_colors minval y x
        channel) channel) input.channel
  ({ channel := filled.pch :: (channel.take (begin_c + 1) ++ channel.drop (end_c + 1))
     nb_channels := (input.nb_channels + 2 ^ 64 - asUInt32 (nb + 2 ^ 32 - 1)) % 2 ^ 64
     nb_meta_channels := (input.nb_meta_channels + 1) % 2 ^ 64 },
    nb_colors)

/-- The function `FwdPalette`: the status, the image and `nb_colors` after the call, or
`none` when the size of `lookup` cannot be computed (`FwdPalette.lookupSize`) and the call
does not return. -/
def FwdPalette (X : ImageExternals) (input : Image) (begin_c end_c nb_colors : Nat)
    (ordered : Bool) : Option (Status × Image × Nat) :=
  match CheckPaletteParams input begin_c end_c with
  | Status.failure message => some (Status.failure message, input, nb_colors)
  | Status.ok =>
    let nb := asUInt32 (end_c + 2 ^ 32 - begin_c + 1)
    let w := (chan input.channel begin_c).w
    let h := (chan input.channel begin_c).h
    if ¬ FwdPalette.sizesAgree input.channel begin_c end_c w h then
      some (Status.failure "", input, nb_colors)
    else
      let scan := FwdPalette.scan input.channel begin_c nb nb_colors w h
      if scan.returned then some (Status.failure "", input, nb_colors)  -- too many colors
      else
        let minval := (X.compute_minmax (chan input.channel begin_c)).1
        let maxval := (X.compute_minmax (chan input.channel begin_c)).2
        match FwdPalette.lookupSize nb minval maxval with
        | none => none
        | some lookup_size =>
          some (Status.ok, FwdPalette.build X input begin_c end_c nb ordered scan lookup_size)

/-- The value `(index & 7) * ((1 << kBitDepth) - 1) / 7` of an implicit palette entry. -/
def InvPalette.implicitEntry (index : Int) : Int :=
  (index % 8) * 255 / 7

/-- The update `index -= palette.w` of an `int` by a `size_t`. -/
def InvPalette.subWidth (index : Int) (w : Nat) : Int :=
  asInt ((asSizeT index + 2 ^ 64 - w % 2 ^ 64) % 2 ^ 64)

/-- The body of the loop "UndoChannelPalette" of `InvPalette` (`nb == 1`) at pixel
`(y, x)`. -/
def InvPalette.undoChannelPixel (c0 y x : Nat) (channel : List Channel) : List Channel :=
  let palette := chan channel 0
  let index : Int := (chan channel c0).plane y x
  if asSizeT index < palette.w then
    setPixel channel c0 y x (palette.plane 0 (max 0 index).toNat)
  else
    let index := InvPalette.subWidth index palette.w
    setPixel channel c0 y x (InvPalette.implicitEntry index)

/-- The body of the loop "UndoPalette" of `InvPalette` (`nb != 1`) at pixel `(y, x)`. -/
def InvPalette.undoPixel (nb : Int) (c0 y x : Nat) (channel : List Channel) : List Channel :=
  let palette := chan channel 0
  let index : Int := max 0 ((chan channel c0).plane y x)
  if asSizeT index < palette.w then
    forLoop nb.toNat (fun c channel =>
      setPixel channel (c0 + c) y x ((chan channel 0).plane c index.toNat)) channel
  else
    let index := InvPalette.subWidth index palette.w
    (forLoop nb.toNat (fun c (st : List Channel × Int) =>
      (setPixel st.1 (c0 + c) y x (InvPalette.implicitEntry st.2), st.2 / 8))
      (channel, index)).1

/-- The value `palette_entry` of the delta path of `InvPalette` for channel `c` and the
index `index`. -/
def InvPalette.paletteEntry (palette : Channel) (nb : Int) (c : Nat) (index : Int) : Int :=
  if index < 0 then
    let a := (-index - 1) / 2 ^ (2 * nb.toNat)
    let d := (-index - 1) / 2 ^ (2 * c)
    (((d % 4 - 1) * 2 ^ a.toNat + 2 ^ 31) % 2 ^ 32) - 2 ^ 31
  else if asSizeT index ≥ palette.w then
    let index := InvPalette.subWidth index palette.w
    ((index / 2 ^ (3 * c)) % 8) * 255 / 7
  else palette.plane c index.toNat

/-- The delta path of `InvPalette` (`nb_deltas != 0` or a predictor other than `Zero`) for
channel `c0 + c`: the channel vector after the two loops over its samples. -/
def InvPalette.deltaChannel (X : ImageExternals) (indices : Nat → Nat → Int) (nb : Int)
    (nb_deltas : Nat) (predictor : Predictor) (c0 c : Nat) (channel : List Channel) :
    List Channel :=
  let w := (chan channel (c0 + c)).w
  let h := (chan channel (c0 + c)).h
  (forLoop h (fun y st =>
    forLoop w (fun x (st : List Channel × X.WPState) =>
      let index : Int := indices y x
      let palette_entry := InvPalette.paletteEntry (chan st.1 0) nb c index
      -- index < nb_deltas, compared as uint32_t
      let is_delta := decide (asUInt32 (asSizeT index) < nb_deltas)
      let pred := X.PredictNoTreeWP w (chan st.1 (c0 + c)).plane x y predictor st.2
      let val : Int := if is_delta then pred.1 + palette_entry else palette_entry
      let wp_state := if is_delta then pred.2 else st.2
      let p := ((val + 2 ^ 31) % 2 ^ 32) - 2 ^ 31
      (setPixel st.1 (c0 + c) y x p, X.UpdateErrors wp_state p x y w)) st)
    (channel, X.wp_init w h)).1

/-- The function `InvPalette`: the status and the image after the call.  The rows handed to
the thread pool are independent of each other and are run in order. -/
def InvPalette (X : ImageExternals) (input : Image) (begin_c nb_colors nb_deltas : Nat)
    (predictor : Predictor) : Status × Image :=
  if input.nb_meta_channels < 1 then
    (Status.failure "Error: Palette transform without palette.", input)
  else
    let nb : Int := asInt (chan input.channel 0).h
    let c0 := asUInt32 (begin_c + 1)
    if c0 ≥ input.channel.length then (Status.failure "Channel is out of range.", input)
    else
      let w := (chan input.channel c0).w
      let h := (chan input.channel c0).h
      let channel := forLoop (nb - 1).toNat (fun _ channel =>
        insertChannel channel (c0 + 1) (Channel.new w h)) input.channel
      let channel :=
        if nb_deltas = 0 ∧ predictor = Predictor.Zero then
          if nb = 1 then
            forLoop h (fun y channel =>
              forLoop w (fun x channel => InvPalette.undoChannelPixel c0 y x channel) channel)
              channel
          else
            forLoop h (fun y channel =>
              forLoop w (fun x channel => InvPalette.undoPixel nb c0 y x channel) channel)
              channel
        else
          let indices := (chan channel c0).plane
          -- c < nb, compared as size_t
          forLoop (asSizeT nb) (fun c channel =>
            InvPalette.deltaChannel X indices nb nb_deltas predictor c0 c channel) channel
      (Status.ok,
        { channel := channel.drop 1
          nb_channels := (input.nb_channels + asSizeT (nb - 1)) % 2 ^ 64
          nb_meta_channels := (input.nb_meta_channels + 2 ^ 64 - 1) % 2 ^ 64 })

/-- The function `MetaPalette`: the status and the image after the call, or `none` when
`JXL_ASSERT(nb_colors > 0)` aborts. -/
def MetaPalette (input : Image) (begin_c end_c nb_colors nb_deltas : Nat) :
    Option (Status × Image) :=
  match CheckPaletteParams input begin_c end_c with
  | Status.failure message => some (Status.failure message, input)
  | Status.ok =>
    if ¬ nb_colors > 0 then none  -- Guaranteed by bundle reading.
    else
      -- size_t nb = end_c - begin_c + 1, computed as uint32_t
      let nb := asUInt32 (end_c + 2 ^ 32 - begin_c + 1)
      let pch : Channel := { Channel.new (asUInt32 (nb_colors + nb_deltas)) nb with hshift := -1 }
      some (Status.ok,
        { channel := pch :: (input.channel.take (begin_c + 1) ++ input.channel.drop (end_c + 1))
          nb_channels := (input.nb_channels + 2 ^ 64 - (nb + 2 ^ 64 - 1) % 2 ^ 64) % 2 ^ 64
          nb_meta_channels := (input.nb_meta_channels + 1) % 2 ^ 64 })

/-! ## Records of stores and accesses -/

/-- The assignment `block[0] = d` and the two loops that assign `g iy ix` to the other slots
`iy * cols + ix` of a sub-block buffer, as written in `case Type::DCT4X4`,
`case Type::DCT4X8`, `case Type::DCT8X4` and three times in `AFVTransformToPixels`, with the
effect of an assignment left open: `st state offset value` is the state after
`block[offset] = value`. -/
def gatherWith {σ : Type} (st : σ → Nat → ℚ → σ) (rows cols : Nat) (g : Nat → Nat → ℚ)
    (d : ℚ) (block : σ) : σ :=
  let block := st block 0 d
  forLoop rows (fun iy block =>
    forLoop cols (fun ix block =>
      if ix = 0 ∧ iy = 0 then block else st block (iy * cols + ix) (g iy ix)) block) block

/-- The offsets of a `rows x cols` sub-block buffer that are assigned before the buffer is
handed to its inverse transform, in program order. -/
def gatherStores (rows cols : Nat) (g : Nat → Nat → ℚ) (d : ℚ) : List Nat :=
  gatherWith (fun offsets i _ => offsets ++ [i]) rows cols g d []

/-- A memory access of `ReinterpretingIDCT`: the zero-initialisation of an entry of the
scratch `block`, a read of `input`, a call `DCTTotalResampleScale<FROM, TO>(i)`, a write of
`block` and a read of `block`, each with its index. -/
inductive Access where
  | blockInit (i : Nat)
  | inputRead (i : Nat)
  | scaleLookup (FROM TO i : Nat)
  | blockWrite (i : Nat)
  | blockRead (i : Nat)
  deriving DecidableEq, Repr

/-- The function template `ReinterpretingIDCT` run with a record of its accesses, in program
order: the `output` buffer and the accesses to `input`, to the resampling table and to the
scratch `block` (the stores to `output` are not recorded).  The reduced inverse transform
reads the window `FromBlock(IN_ROWS, IN_COLS, block)` and writes `ToBlock(ROWS, COLS,
block)`. -/
def ReinterpretingIDCT.traced (E : Externals)
    (DCT_ROWS DCT_COLS LF_ROWS LF_COLS ROWS COLS : Nat)
    (input : Buf) (input_stride : Nat) (output : Buf) (output_stride : Nat) :
    Buf × List Access :=
  -- HWY_ALIGN float block[ROWS * COLS] = {};
  let st : Buf × List Access := (Buf.zero, (List.range (ROWS * COLS)).map Access.blockInit)
  let st : Buf × List Access :=
    if ROWS < COLS then
      forLoop LF_ROWS (fun y st =>
        forLoop LF_COLS (fun x (st : Buf × List Access) =>
          (store st.1 (y * COLS + x)
            (input (y * input_stride + x) *
              E.DCTTotalResampleScale DCT_ROWS ROWS y *
              E.DCTTotalResampleScale DCT_COLS COLS x),
           st.2 ++ [Access.inputRead (y * input_stride + x),
             Access.scaleLookup DCT_ROWS ROWS y, Access.scaleLookup DCT_COLS COLS x,
             Access.blockWrite (y * COLS + x)])) st) st
    else
      forLoop LF_COLS (fun y st =>
        forLoop LF_ROWS (fun x (st : Buf × List Access) =>
          (store st.1 (y * ROWS + x)
            (input (y * input_stride + x) *
              E.DCTTotalResampleScale DCT_COLS COLS y *
              E.DCTTotalResampleScale DCT_ROWS ROWS x),
           st.2 ++ [Access.inputRead (y * input_stride + x),
             Access.scaleLookup DCT_COLS COLS y, Access.scaleLookup DCT_ROWS ROWS x,
             Access.blockWrite (y * ROWS + x)])) st) st
  let IN_ROWS := CoefficientRows ROWS COLS
  let IN_COLS := CoefficientColumns ROWS COLS
  let block := ToBlock ROWS COLS (DoIDCT E ROWS COLS (FromBlock IN_ROWS IN_COLS st.1)) st.1
  let t := st.2 ++ (List.range (IN_ROWS * IN_COLS)).map Access.blockRead
  let t := forLoop ROWS (fun r t =>
    forLoop COLS (fun k t => t ++ [Access.blockWrite (r * COLS + k)]) t) t
  forLoop ROWS (fun y st =>
    forLoop COLS (fun x (st : Buf × List Access) =>
      (store st.1 (y * output_stride + x) (block (y * COLS + x)),
       st.2 ++ [Access.blockRead (y * COLS + x)])) st) (output, t)

/-- The accesses of `ReinterpretingIDCT`, which depend on its template parameters and on
`input_stride` only. -/
def ReinterpretingIDCT.accesses (DCT_ROWS DCT_COLS LF_ROWS LF_COLS ROWS COLS : Nat)
    (input_stride : Nat) : List Access :=
  let t : List Access := (List.range (ROWS * COLS)).map Access.blockInit
  let t : List Access :=
    if ROWS < COLS then
      forLoop LF_ROWS (fun y t =>
        forLoop LF_COLS (fun x t =>
          t ++ [Access.inputRead (y * input_stride + x),
            Access.scaleLookup DCT_ROWS ROWS y, Access.scaleLookup DCT_COLS COLS x,
            Access.blockWrite (y * COLS + x)]) t) t
    else
      forLoop LF_COLS (fun y t =>
        forLoop LF_ROWS (fun x t =>
          t ++ [Access.inputRead (y * input_stride + x),
            Access.scaleLookup DCT_COLS COLS y, Access.scaleLookup DCT_ROWS ROWS x,
            Access.blockWrite (y * ROWS + x)]) t) t
  let t := t ++ (List.range (CoefficientRows ROWS COLS * CoefficientColumns ROWS COLS)).map
    Access.blockRead
  let t := forLoop ROWS (fun r t =>
    forLoop COLS (fun k t => t ++ [Access.blockWrite (r * COLS + k)]) t) t
  forLoop ROWS (fun y t =>
    forLoop COLS (fun x t => t ++ [Access.blockRead (y * COLS + x)]) t) t

/-! ## Reference formulas -/

/-- Closed form of the sample that the identity transform produces at position `(iy, ix)`
of quadrant `(y, x)`: the centre sample, plus the coefficient the position takes (none at
the centre, the diagonal neighbour's at the origin). -/
def identitySample (c : Buf) (y x iy ix : Nat) : ℚ :=
  (if ix = 1 ∧ iy = 1 then 0
   else if ix = 0 ∧ iy = 0 then c ((y + 2) * 8 + x + 2)
   else c ((y + iy * 2) * 8 + x + ix * 2)) +
  (TransformToPixels.dcs4 c (y * 2 + x) - TransformToPixels.residual_sum c y x * (1 / 16))

/-- The pass `P_S` of the hierarchical 2x2 transform in the words of the specification, on
an 8x8 buffer at pitch 8: for every `y, x < S/2` the 2x2 cell at rows `2y, 2y+1` and columns
`2x, 2x+1` becomes the butterfly `(c00+c01+c10+c11, c00+c01-c10-c11 ; c00-c01+c10-c11,
c00-c01-c10+c11)` of `c00 = in[y][x]`, `c01 = in[y][x+S/2]`, `c10 = in[y+S/2][x]`,
`c11 = in[y+S/2][x+S/2]`, all read from the input of the pass; every entry outside the
top-left `S x S` region is unchanged. -/
def butterflyPass (S : Nat) (inp : Buf) : Buf :=
  ⟨fun i =>
    let row := i / 8
    let col := i % 8
    if row < S ∧ col < S then
      let y := row / 2
      let x := col / 2
      let c00 := inp (y * 8 + x)
      let c01 := inp (y * 8 + (x + S / 2))
      let c10 := inp ((y + S / 2) * 8 + x)
      let c11 := inp ((y + S / 2) * 8 + (x + S / 2))
      if row % 2 = 0 then
        (if col % 2 = 0 then c00 + c01 + c10 + c11 else c00 + c01 - c10 - c11)
      else
        (if col % 2 = 0 then c00 - c01 + c10 - c11 else c00 - c01 - c10 + c11)
    else inp i⟩

/-- Modelled from the spec: the strategy metadata provider (`jxl/ac_strategy.h` is not part
of the sources) gives the height and width of the pixel block of a kind: the shape in the
name of a multi-cell kind, 8x8 for every other kind, nothing for the sentinel. -/
def pixelExtent : AcStrategyType → Nat × Nat
  | .DCT => (8, 8)
  | .IDENTITY => (8, 8)
  | .DCT2X2 => (8, 8)
  | .DCT4X4 => (8, 8)
  | .DCT16X16 => (16, 16)
  | .DCT32X32 => (32, 32)
  | .DCT16X8 => (16, 8)
  | .DCT8X16 => (8, 16)
  | .DCT32X8 => (32, 8)
  | .DCT8X32 => (8, 32)
  | .DCT32X16 => (32, 16)
  | .DCT16X32 => (16, 32)
  | .DCT4X8 => (8, 8)
  | .DCT8X4 => (8, 8)
  | .AFV0 => (8, 8)
  | .AFV1 => (8, 8)
  | .AFV2 => (8, 8)
  | .AFV3 => (8, 8)
  | .kNumValidStrategies => (0, 0)

/-- The inverse DCT primitives map a block whose entries other than entry 0 are zero and
whose entry 0 is `d` to the constant block `d`. -/
def ConstOnDC (E : Externals) (d : ℚ) : Prop :=
  (∀ (ROWS COLS : Nat) (b : Buf), b 0 = d → (∀ i, 0 < i → i < ROWS * COLS → b i = 0) →
    ∀ r k, r < ROWS → k < COLS →
      E.ComputeScaledIDCT ROWS COLS
        (FromBlock (CoefficientRows ROWS COLS) (CoefficientColumns ROWS COLS) b) r k = d) ∧
  (∀ (N : Nat) (b : Buf), b 0 = d → (∀ i, 0 < i → i < N * N → b i = 0) →
    ∀ r k, r < N → k < N → E.ComputeTransposedScaledIDCT N (FromBlock N N b) r k = d)

/-- The assumption that each inverse DCT primitive maps a block whose only nonzero entry
is index 0 = `d` to the constant block `d`. -/
def DCPreserving (E : Externals) : Prop :=
  (∀ (ROWS COLS : Nat) (b : Buf), (∀ i, 0 < i → i < ROWS * COLS → b i = 0) →
    ∀ r k, r < ROWS → k < COLS →
      E.ComputeScaledIDCT ROWS COLS
        (FromBlock (CoefficientRows ROWS COLS) (CoefficientColumns ROWS COLS) b) r k = b 0) ∧
  (∀ (N : Nat) (b : Buf), (∀ i, 0 < i → i < N * N → b i = 0) →
    ∀ r k, r < N → k < N → E.ComputeTransposedScaledIDCT N (FromBlock N N b) r k = b 0)

/-- The assumption that each inverse DCT primitive maps the all-zero block to the all-zero
block. -/
def ZeroPreserving (E : Externals) : Prop :=
  (∀ (ROWS COLS : Nat) (b : Buf), (∀ i, i < ROWS * COLS → b i = 0) →
    ∀ r k, r < ROWS → k < COLS →
      E.ComputeScaledIDCT ROWS COLS
        (FromBlock (CoefficientRows ROWS COLS) (CoefficientColumns ROWS COLS) b) r k = 0) ∧
  (∀ (N : Nat) (b : Buf), (∀ i, i < N * N → b i = 0) →
    ∀ r k, r < N → k < N → E.ComputeTransposedScaledIDCT N (FromBlock N N b) r k = 0)

/-- The colour of pixel `(y, x)`: its samples in the `nb` channels from `begin_c`. -/
def colorAt (channel : List Channel) (begin_c nb y x : Nat) : List Int :=
  (List.range nb).map (fun c => (chan channel (begin_c + c)).plane y x)

/-- What the colour collecting loop of `FwdPalette` maintains while it has not returned: the
counter is the size of the set, the vector in image order has as many entries and holds the
colours of the set, the set has at most `nb_colors` elements, every collected colour is the
colour of a pixel, and the set is in increasing lexicographic order. -/
def ScanInv (channel : List Channel) (begin_c nb nb_colors w h : Nat) (s : FwdPalette.Scan) :
    Prop :=
  s.count = s.candidate_palette.length ∧
  s.candidate_palette_imageorder.length = s.count ∧
  (∀ c ∈ s.candidate_palette, c ∈ s.candidate_palette_imageorder) ∧
  s.candidate_palette.length ≤ nb_colors ∧
  (∀ c ∈ s.candidate_palette_imageorder, ∃ y x, y < h ∧ x < w ∧
    c = colorAt channel begin_c nb y x) ∧
  s.candidate_palette.Pairwise (fun a b => a < b)

/-- The channel vector `s'` is `s` but for the samples at pixel `(y, x)` of the `n` channels
from `c0`: same length, same channel sizes, the other channels and the other samples are
those of `s`. -/
def PixelUpdate (c0 n y x : Nat) (s s' : List Channel) : Prop :=
  s'.length = s.length ∧
  (∀ c, (chan s' c).w = (chan s c).w ∧ (chan s' c).h = (chan s c).h) ∧
  (∀ c, c < c0 ∨ c0 + n ≤ c → chan s' c = chan s c) ∧
  (∀ c y' x', ¬ (y' = y ∧ x' = x) → (chan s' c).plane y' x' = (chan s c).plane y' x')

/-- The contract of `Channel::compute_minmax` for the channel `ch`: the two results bound
every sample of the channel, and the size `maxval - minval + 1` that `FwdPalette` gives to
`lookup` is an `int`. -/
def MinMaxContract (X : ImageExternals) (ch : Channel) : Prop :=
  (∀ y x, y < ch.h → x < ch.w →
    (X.compute_minmax ch).1 ≤ ch.plane y x ∧ ch.plane y x ≤ (X.compute_minmax ch).2) ∧
  (X.compute_minmax ch).2 - (X.compute_minmax ch).1 + 1 < 2 ^ 31

/-- The buffer `f c` computed from a tile `c` reads exactly the offsets in `S`: it is the
same for two tiles that agree on `S`, and for each offset in `S` there are two tiles that
differ at that offset only and give different buffers. -/
def ReadsExactly (f : Buf → Buf) (S : List Nat) : Prop :=
  (∀ c c' : Buf, (∀ i ∈ S, c i = c' i) → f c = f c') ∧
  (∀ p ∈ S, ∃ c c' : Buf, (∀ i, i ≠ p → c i = c' i) ∧ f c ≠ f c')

/-- The inverse of the pass `P_S` of the hierarchical 2x2 transform, on an 8x8 buffer at
pitch 8: inside the top-left `S x S` region the entry at `(y + qy * S/2, x + qx * S/2)`, for
`y, x < S/2`, is a quarter of the butterfly of the four entries `r00, r01, r10, r11` of
the 2x2 cell at rows `2y, 2y+1` and columns `2x, 2x+1` with the signs of `c00`
(`qy = qx = 0`), `c01`, `c10` or `c11`; every other entry is unchanged. -/
def butterflyPassInv (S : Nat) (out : Buf) : Buf :=
  ⟨fun i =>
    let row := i / 8
    let col := i % 8
    if row < S ∧ col < S then
      let y := row % (S / 2)
      let x := col % (S / 2)
      let r00 := out (y * 2 * 8 + x * 2)
      let r01 := out (y * 2 * 8 + (x * 2 + 1))
      let r10 := out ((y * 2 + 1) * 8 + x * 2)
      let r11 := out ((y * 2 + 1) * 8 + (x * 2 + 1))
      if row < S / 2 then
        (if col < S / 2 then (r00 + r01 + r10 + r11) / 4 else (r00 + r01 - r10 - r11) / 4)
      else
        (if col < S / 2 then (r00 - r01 + r10 - r11) / 4 else (r00 - r01 - r10 + r11) / 4)
    else out i⟩

/-- An access is in range for `ReinterpretingIDCT<DCT_ROWS, DCT_COLS, _, _, ROWS, COLS>`: a
scratch index is below `ROWS * COLS`, the argument of `DCTTotalResampleScale<FROM, TO>` is
below `TO`, and an index into the tile is below `DCT_ROWS * DCT_COLS`. -/
def Access.InRange (DCT_ROWS DCT_COLS ROWS COLS : Nat) : Access → Prop
  | Access.blockInit i => i < ROWS * COLS
  | Access.inputRead i => i < DCT_ROWS * DCT_COLS
  | Access.scaleLookup _ TO i => i < TO
  | Access.blockWrite i => i < ROWS * COLS
  | Access.blockRead i => i < ROWS * COLS

instance (DCT_ROWS DCT_COLS ROWS COLS : Nat) (a : Access) :
    Decidable (Access.InRange DCT_ROWS DCT_COLS ROWS COLS a) := by
  cases a <;> unfold Access.InRange <;> infer_instance

/-- Every read of the scratch `block` in a record of accesses comes after its
initialisation or a write of the same entry. -/
def WrittenBeforeRead (t : List Access) : Prop :=
  ∀ (pre post : List Access) (i : Nat), t = pre ++ Access.blockRead i :: post →
    Access.blockInit i ∈ pre ∨ Access.blockWrite i ∈ pre

/-- The tile `a * c1 + c2`, coefficient by coefficient. -/
def Buf.axpy (a : ℚ) (c1 c2 : Buf) : Buf := ⟨fun i => a * c1 i + c2 i⟩

/-- The set of the colours, tuples of `nb` samples, that occur at the `w x h` pixels of the
channels from `begin_c`. -/
def distinctColors (channel : List Channel) (begin_c nb w h : Nat) : Finset (List Int) :=
  ((Finset.range h) ×ˢ (Finset.range w)).image
    (fun p => colorAt channel begin_c nb p.1 p.2)

/-- The colours held by a palette channel, in the order of its columns: column `i` is the
tuple of the samples `Row(c)[i]` over the rows `c` of the channel. -/
def paletteColors (pch : Channel) : List (List Int) :=
  (List.range pch.w).map (fun i => (List.range pch.h).map (fun c => pch.plane c i))

/-- What the colour collecting loop of `FwdPalette` maintains, returned or not: once it has
returned there are more than `nb_colors` different colours of pixels, and until then
`ScanInv` holds. -/
def ScanAll (channel : List Channel) (begin_c nb nb_colors w h : Nat) (s : FwdPalette.Scan) :
    Prop :=
  (s.returned = true → ∃ l : List (List Int), l.Nodup ∧
    (∀ c ∈ l, ∃ y x, y < h ∧ x < w ∧ c = colorAt channel begin_c nb y x) ∧
    nb_colors < l.length) ∧
  (s.returned = false → ScanInv channel begin_c nb nb_colors w h s)


/-- The quantity `channel.size() - nb_channels - nb_meta_channels` of an image, in the
arithmetic of `size_t`. -/
def bookkeeping (image : Image) : Nat :=
  asSizeT ((image.channel.length : Int) - image.nb_channels - image.nb_meta_channels)

/-! ## Concrete inputs -/

/-- A concrete choice of the external collaborators: every inverse DCT returns the first
entry of the block it is given at every sample, every resampling factor is 1, and vectors
have a single lane. -/
def constExternals : Externals where
  ComputeScaledIDCT := fun _ _ src _ _ => src.headD 0
  ComputeTransposedScaledIDCT := fun _ src _ _ => src.headD 0
  DCTTotalResampleScale := fun _ _ _ => 1
  Lanes := 1

/-- A concrete coefficient tile: coefficient `i` is `i`. -/
def rampTile : Buf := ⟨fun i => (i : ℚ)⟩

/-- A concrete coefficient tile whose only nonzero coefficient is coefficient 0. -/
def dcTile (K : ℚ) : Buf := ⟨fun i => if i = 0 then K else 0⟩

/-- A concrete pixel buffer, all zero. -/
def zeroBuf : Buf := Buf.zero

/-- A concrete choice of the collaborators of the palette transform: `compute_minmax`
answers 3 and 5, and the weighted predictor has no state and guesses 0. -/
def paletteExternals : ImageExternals where
  compute_minmax := fun _ => (3, 5)
  WPState := Unit
  wp_init := fun _ _ => ()
  PredictNoTreeWP := fun _ _ _ _ _ s => (0, s)
  UpdateErrors := fun s _ _ _ _ => s

/-- A concrete image: one channel, one row of two samples, 5 and 3. -/
def grayImage : Image where
  channel := [{ w := 2, h := 1, hshift := 0, plane := fun _ x => if x = 0 then 5 else 3 }]
  nb_channels := 1
  nb_meta_channels := 0

/-- A concrete coefficient tile that agrees with the ramp tile at offsets 0 and 1 and is
zero elsewhere. -/
def rampCorner : Buf := ⟨fun i => if i < 2 then (i : ℚ) else 0⟩

/-- A concrete image with a palette of height 0: channel 0 is a palette of one column and no
row, channel 1 has one sample, 0; one meta channel and one channel are counted. -/
def emptyPaletteImage : Image where
  channel := [{ w := 1, h := 0, hshift := -1, plane := fun _ _ => 0 }, Channel.new 1 1]
  nb_channels := 1
  nb_meta_channels := 1

/-- A concrete image: one channel, one row of two samples, 0 and 2147483647. -/
def wideImage : Image where
  channel :=
    [{ w := 2, h := 1, hshift := 0, plane := fun _ x => if x = 0 then 0 else 2147483647 }]
  nb_channels := 1
  nb_meta_channels := 0

/-- A concrete choice of the collaborators of the palette transform for `wideImage`:
`compute_minmax` answers 0 and 2147483647, its least and its largest sample, and the weighted
predictor has no state and guesses 0. -/
def wideExternals : ImageExternals where
  compute_minmax := fun _ => (0, 2147483647)
  WPState := Unit
  wp_init := fun _ _ => ()
  PredictNoTreeWP := fun _ _ _ _ _ s => (0, s)
  UpdateErrors := fun s _ _ _ _ => s


/-! # Properties

All definitions of the development come before this point; lemmas and the results on the
transforms follow. -/

/-! ## Loops and stores -/

theorem store_apply (b : Buf) (i : Nat) (v : ℚ) (j : Nat) :
    store b i v j = if j = i then v else b j := rfl

theorem store_same (b : Buf) (i : Nat) (v : ℚ) : store b i v i = v := by
  simp [store]

theorem store_ne (b : Buf) {i j : Nat} (v : ℚ) (h : j ≠ i) : store b i v j = b j := by
  simp [store, h]

theorem forLoop_zero {σ : Type} (body : Nat → σ → σ) (s : σ) : forLoop 0 body s = s := rfl

theorem forLoop_succ {σ : Type} (n : Nat) (body : Nat → σ → σ) (s : σ) :
    forLoop (n + 1) body s = body n (forLoop n body s) := rfl

/-- An invariant of every iteration is an invariant of the loop. -/
theorem forLoop_preserves {σ : Type} (I : σ → Prop) {n : Nat} {F : Nat → σ → σ}
    (hI : ∀ k, k < n → ∀ s, I s → I (F k s)) {s0 : σ} (h0 : I s0) :
    I (forLoop n F s0) := by
  induction n with
  | zero => exact h0
  | succ n ih =>
    rw [forLoop_succ]
    exact hI n (Nat.lt_succ_self n) _
      (ih (fun k hk s hs => hI k (Nat.lt_succ_of_lt hk) s hs))

/-- A location that no iteration changes keeps its value (under an invariant `I`). -/
theorem forLoop_frame_inv (I : Buf → Prop) {n : Nat} {F : Nat → Buf → Buf} {j : Nat}
    (hI : ∀ k, k < n → ∀ p, I p → I (F k p))
    (hframe : ∀ k, k < n → ∀ p, I p → F k p j = p j) {p0 : Buf} (h0 : I p0) :
    forLoop n F p0 j = p0 j := by
  induction n with
  | zero => rfl
  | succ n ih =>
    rw [forLoop_succ]
    have hinv : I (forLoop n F p0) :=
      forLoop_preserves I (fun k hk s hs => hI k (Nat.lt_succ_of_lt hk) s hs) h0
    rw [hframe n (Nat.lt_succ_self n) _ hinv]
    exact ih (fun k hk s hs => hI k (Nat.lt_succ_of_lt hk) s hs)
      (fun k hk p hp => hframe k (Nat.lt_succ_of_lt hk) p hp)

/-- A location that no iteration changes keeps its value. -/
theorem forLoop_frame {n : Nat} {F : Nat → Buf → Buf} {j : Nat}
    (hframe : ∀ k, k < n → ∀ p, F k p j = p j) (p0 : Buf) :
    forLoop n F p0 j = p0 j :=
  forLoop_frame_inv (fun _ => True) (fun _ _ _ _ => trivial)
    (fun k hk p _ => hframe k hk p) trivial

/-- If the iterations in `R` all leave `v` at location `j`, the others leave `j` alone, and
`R` holds of some iteration, the loop leaves `v` at `j` (under an invariant `I`). -/
theorem forLoop_hit_inv (I : Buf → Prop) (R : Nat → Prop) {n : Nat} {F : Nat → Buf → Buf}
    {j : Nat} {v : ℚ}
    (hI : ∀ k, k < n → ∀ p, I p → I (F k p))
    (hframe : ∀ k, k < n → ¬ R k → ∀ p, I p → F k p j = p j)
    (hhit : ∀ k, k < n → R k → ∀ p, I p → F k p j = v)
    (hex : ∃ k, k < n ∧ R k) {p0 : Buf} (h0 : I p0) :
    forLoop n F p0 j = v := by
  induction n with
  | zero =>
    obtain ⟨k, hk, _⟩ := hex
    exact absurd hk (Nat.not_lt_zero k)
  | succ n ih =>
    rw [forLoop_succ]
    have hinv : I (forLoop n F p0) :=
      forLoop_preserves I (fun k hk s hs => hI k (Nat.lt_succ_of_lt hk) s hs) h0
    by_cases hR : R n
    · exact hhit n (Nat.lt_succ_self n) hR _ hinv
    · rw [hframe n (Nat.lt_succ_self n) hR _ hinv]
      refine ih (fun k hk s hs => hI k (Nat.lt_succ_of_lt hk) s hs)
        (fun k hk hr p hp => hframe k (Nat.lt_succ_of_lt hk) hr p hp)
        (fun k hk hr p hp => hhit k (Nat.lt_succ_of_lt hk) hr p hp) ?_
      obtain ⟨k, hk, hRk⟩ := hex
      have hkn : k ≠ n := fun h => hR (h ▸ hRk)
      exact ⟨k, by omega, hRk⟩

/-- The version of `forLoop_hit_inv` without an invariant. -/
theorem forLoop_hit (R : Nat → Prop) {n : Nat} {F : Nat → Buf → Buf} {j : Nat} {v : ℚ}
    (hframe : ∀ k, k < n → ¬ R k → ∀ p, F k p j = p j)
    (hhit : ∀ k, k < n → R k → ∀ p, F k p j = v)
    (hex : ∃ k, k < n ∧ R k) (p0 : Buf) :
    forLoop n F p0 j = v :=
  forLoop_hit_inv (fun _ => True) R (fun _ _ _ _ => trivial)
    (fun k hk hr p _ => hframe k hk hr p) (fun k hk hr p _ => hhit k hk hr p) hex trivial

/-- Row-major addressing at pitch `s` is injective on columns below `s`. -/
theorem index_inj {s a b c d : Nat} (hb : b < s) (hd : d < s)
    (h : a * s + b = c * s + d) : a = c ∧ b = d := by
  have key : a = c := by
    rcases Nat.lt_trichotomy a c with hlt | heq | hgt
    · have := Nat.mul_le_mul_right s (Nat.succ_le_of_lt hlt)
      rw [Nat.succ_mul] at this
      omega
    · exact heq
    · have := Nat.mul_le_mul_right s (Nat.succ_le_of_lt hgt)
      rw [Nat.succ_mul] at this
      omega
  subst key
  exact ⟨rfl, by omega⟩

/-! ## `ToLines` -/

/-- What `ToLines` leaves outside the `rows x cols` window. -/
theorem ToLines_outside (rows cols : Nat) (result : Nat → Nat → ℚ) (pixels : Buf)
    (off stride j : Nat)
    (h : ∀ r i, r < rows → i < cols → j ≠ off + r * stride + i) :
    ToLines rows cols result pixels off stride j = pixels j := by
  unfold ToLines
  refine forLoop_frame (fun r hr p => ?_) pixels
  refine forLoop_frame (fun i hi q => ?_) p
  exact store_ne _ _ (h r i hr hi)

/-- What `ToLines` leaves inside the `rows x cols` window, the pitch being at least
`cols`. -/
theorem ToLines_inside (rows cols : Nat) (result : Nat → Nat → ℚ) (pixels : Buf)
    (off stride : Nat) (hstride : cols ≤ stride) (r i : Nat) (hr : r < rows) (hi : i < cols) :
    ToLines rows cols result pixels off stride (off + r * stride + i) = result r i := by
  unfold ToLines
  refine forLoop_hit (fun r' => r' = r) (fun r' hr' hne p => ?_) (fun r' hr' heq p => ?_)
    ⟨r, hr, rfl⟩ pixels
  · refine forLoop_frame (fun i' hi' q => ?_) p
    refine store_ne _ _ (fun hidx => hne ?_)
    have := index_inj (s := stride) (a := r) (c := r') (b := i) (d := i')
      (by omega) (by omega) (by omega)
    exact this.1.symm
  · subst heq
    refine forLoop_hit (fun i' => i' = i) (fun i' hi' hne q => ?_) (fun i' hi' heq q => ?_)
      ⟨i, hi, rfl⟩ p
    · exact store_ne _ _ (fun hidx => hne (by omega))
    · subst heq
      exact store_same _ _ _

/-! ## The identity transform -/

/-- Two samples of a pixel block at pitch `s` sit at the same offset only if they are the
same sample. -/
theorem pixel_index_inj {s r r' a b a' b' : Nat} (h1 : a + b < s) (h2 : a' + b' < s)
    (h : r * s + a + b = r' * s + a' + b') : r = r' ∧ a + b = a' + b' :=
  index_inj (s := s) (a := r) (c := r') (b := a + b) (d := a' + b') h1 h2 (by omega)

/-- The value the identity transform gives the centre sample of quadrant `(y, x)`. -/
theorem identityQuadrant_center (dcs : Buf) (c : Buf) (s y x : Nat) (p : Buf)
    (hs : 8 ≤ s) (hx : x < 2) :
    TransformToPixels.identityQuadrant dcs c s y x p ((y * 4 + 1) * s + x * 4 + 1) =
      dcs (y * 2 + x) - TransformToPixels.residual_sum c y x * (1 / 16) := by
  unfold TransformToPixels.identityQuadrant
  simp only [Nat.mul_comm 4 y, Nat.mul_comm 4 x]
  rw [store_ne]
  · rw [forLoop_frame (fun iy hiy q => ?_), store_same]
    refine forLoop_frame (fun ix hix q' => ?_) q
    split
    · rfl
    · rename_i hskip
      refine store_ne _ _ (fun hidx => hskip ?_)
      have := pixel_index_inj (s := s) (by omega) (by omega) hidx
      omega
  · intro hidx
    have h0 : (y * 4 + 1) * s + x * 4 + 1 = (y * 4) * s + x * 4 + 0 := by omega
    have := pixel_index_inj (s := s) (by omega) (by omega) h0
    omega

/-- The identity transform leaves the centre sample alone while it fills the rest of the
quadrant. -/
theorem identityQuadrant_loop_center (c : Buf) (s y x : Nat) (p : Buf)
    (hs : 8 ≤ s) (hx : x < 2) :
    forLoop 4 (fun iy pixels =>
      forLoop 4 (fun ix pixels =>
        if ix = 1 ∧ iy = 1 then pixels
        else store pixels ((y * 4 + iy) * s + x * 4 + ix)
          (c ((y + iy * 2) * 8 + x + ix * 2) +
            pixels ((y * 4 + 1) * s + x * 4 + 1))) pixels) p ((y * 4 + 1) * s + x * 4 + 1) =
      p ((y * 4 + 1) * s + x * 4 + 1) := by
  refine forLoop_frame (fun iy hiy q => ?_) p
  refine forLoop_frame (fun ix hix q' => ?_) q
  split
  · rfl
  · rename_i hskip
    refine store_ne _ _ (fun hidx => hskip ?_)
    have := pixel_index_inj (s := s) (by omega) (by omega) hidx
    omega

/-- The value the fill loops of the identity transform leave at sample `(iy, ix)` of
quadrant `(y, x)`, other than the centre. -/
theorem identityQuadrant_loop_hit (c : Buf) (s y x : Nat) (p : Buf)
    (hs : 8 ≤ s) (hx : x < 2) (iy ix : Nat) (hiy : iy < 4) (hix : ix < 4)
    (hne : ¬ (ix = 1 ∧ iy = 1)) :
    forLoop 4 (fun iy pixels =>
      forLoop 4 (fun ix pixels =>
        if ix = 1 ∧ iy = 1 then pixels
        else store pixels ((y * 4 + iy) * s + x * 4 + ix)
          (c ((y + iy * 2) * 8 + x + ix * 2) +
            pixels ((y * 4 + 1) * s + x * 4 + 1))) pixels) p ((y * 4 + iy) * s + x * 4 + ix) =
      c ((y + iy * 2) * 8 + x + ix * 2) + p ((y * 4 + 1) * s + x * 4 + 1) := by
  have hstep : ∀ (ky kx : Nat), kx < 4 → ∀ q : Buf,
      q ((y * 4 + 1) * s + x * 4 + 1) = p ((y * 4 + 1) * s + x * 4 + 1) →
      (if kx = 1 ∧ ky = 1 then q
        else store q ((y * 4 + ky) * s + x * 4 + kx)
          (c ((y + ky * 2) * 8 + x + kx * 2) + q ((y * 4 + 1) * s + x * 4 + 1)))
        ((y * 4 + 1) * s + x * 4 + 1) = p ((y * 4 + 1) * s + x * 4 + 1) := by
    intro ky kx hkx q hq
    split
    · exact hq
    · rename_i hskip
      rw [store_ne _ _ (fun hidx => hskip ?_), hq]
      have := pixel_index_inj (s := s) (by omega) (by omega) hidx
      omega
  have hrow : ∀ (ky : Nat) (q : Buf),
      q ((y * 4 + 1) * s + x * 4 + 1) = p ((y * 4 + 1) * s + x * 4 + 1) →
      forLoop 4 (fun ix pixels =>
        if ix = 1 ∧ ky = 1 then pixels
        else store pixels ((y * 4 + ky) * s + x * 4 + ix)
          (c ((y + ky * 2) * 8 + x + ix * 2) +
            pixels ((y * 4 + 1) * s + x * 4 + 1))) q ((y * 4 + 1) * s + x * 4 + 1) =
        p ((y * 4 + 1) * s + x * 4 + 1) := by
    intro ky q hq
    exact forLoop_preserves
      (fun t : Buf => t ((y * 4 + 1) * s + x * 4 + 1) = p ((y * 4 + 1) * s + x * 4 + 1))
      (fun kx hkx t ht => hstep ky kx hkx t ht) hq
  refine forLoop_hit_inv
    (fun t : Buf => t ((y * 4 + 1) * s + x * 4 + 1) = p ((y * 4 + 1) * s + x * 4 + 1))
    (fun ky => ky = iy) (fun ky _ q hq => hrow ky q hq) (fun ky hky hky' q hq => ?_)
    (fun ky hky hky' q hq => ?_) ⟨iy, hiy, rfl⟩ rfl
  · refine forLoop_frame (fun kx hkx t => ?_) q
    split
    · rfl
    · refine store_ne _ _ (fun hidx => hky' ?_)
      have := pixel_index_inj (s := s) (by omega) (by omega) hidx
      omega
  · subst hky'
    refine forLoop_hit_inv
      (fun t : Buf => t ((y * 4 + 1) * s + x * 4 + 1) = p ((y * 4 + 1) * s + x * 4 + 1))
      (fun kx => kx = ix) (fun kx hkx t ht => hstep ky kx hkx t ht)
      (fun kx hkx hkx' t ht => ?_) (fun kx hkx hkx' t ht => ?_) ⟨ix, hix, rfl⟩ hq
    · split
      · rfl
      · exact store_ne _ _ (fun hidx => hkx' (by omega))
    · subst hkx'
      rw [if_neg hne, store_same, ht]

/-- What the fill loops of the identity transform leave outside quadrant `(y, x)`. -/
theorem identityQuadrant_loop_outside (c : Buf) (s y x : Nat) (p : Buf) (j : Nat)
    (hj : ∀ iy ix, iy < 4 → ix < 4 → j ≠ (y * 4 + iy) * s + x * 4 + ix) :
    forLoop 4 (fun iy pixels =>
      forLoop 4 (fun ix pixels =>
        if ix = 1 ∧ iy = 1 then pixels
        else store pixels ((y * 4 + iy) * s + x * 4 + ix)
          (c ((y + iy * 2) * 8 + x + ix * 2) +
            pixels ((y * 4 + 1) * s + x * 4 + 1))) pixels) p j = p j := by
  refine forLoop_frame (fun iy hiy q => ?_) p
  refine forLoop_frame (fun ix hix q' => ?_) q
  split
  · rfl
  · exact store_ne _ _ (hj iy ix hiy hix)

/-- The value the identity transform gives sample `(iy, ix)` of quadrant `(y, x)`, other
than the centre and the origin. -/
theorem identityQuadrant_other (dcs : Buf) (c : Buf) (s y x : Nat) (p : Buf)
    (hs : 8 ≤ s) (hx : x < 2) (iy ix : Nat) (hiy : iy < 4) (hix : ix < 4)
    (h11 : ¬ (ix = 1 ∧ iy = 1)) (h00 : ¬ (ix = 0 ∧ iy = 0)) :
    TransformToPixels.identityQuadrant dcs c s y x p ((y * 4 + iy) * s + x * 4 + ix) =
      c ((y + iy * 2) * 8 + x + ix * 2) +
        (dcs (y * 2 + x) - TransformToPixels.residual_sum c y x * (1 / 16)) := by
  unfold TransformToPixels.identityQuadrant
  simp only [Nat.mul_comm 4 y, Nat.mul_comm 4 x]
  rw [store_ne, identityQuadrant_loop_hit c s y x _ hs hx iy ix hiy hix h11, store_same]
  intro hidx
  have h0 : (y * 4 + iy) * s + x * 4 + ix = (y * 4) * s + x * 4 + 0 := by omega
  have := pixel_index_inj (s := s) (by omega) (by omega) h0
  omega

/-- The value the identity transform gives the origin sample of quadrant `(y, x)`. -/
theorem identityQuadrant_origin (dcs : Buf) (c : Buf) (s y x : Nat) (p : Buf)
    (hs : 8 ≤ s) (hx : x < 2) :
    TransformToPixels.identityQuadrant dcs c s y x p (y * 4 * s + x * 4) =
      c ((y + 2) * 8 + x + 2) +
        (dcs (y * 2 + x) - TransformToPixels.residual_sum c y x * (1 / 16)) := by
  unfold TransformToPixels.identityQuadrant
  simp only [Nat.mul_comm 4 y, Nat.mul_comm 4 x]
  rw [store_same, identityQuadrant_loop_center c s y x _ hs hx, store_same]

/-- The identity transform of quadrant `(y, x)` leaves the samples outside it alone. -/
theorem identityQuadrant_outside (dcs : Buf) (c : Buf) (s y x : Nat) (p : Buf) (j : Nat)
    (hj : ∀ iy ix, iy < 4 → ix < 4 → j ≠ (y * 4 + iy) * s + x * 4 + ix) :
    TransformToPixels.identityQuadrant dcs c s y x p j = p j := by
  unfold TransformToPixels.identityQuadrant
  simp only [Nat.mul_comm 4 y, Nat.mul_comm 4 x]
  rw [store_ne, identityQuadrant_loop_outside c s y x _ j hj, store_ne]
  · have := hj 1 1 (by omega) (by omega)
    exact this
  · have := hj 0 0 (by omega) (by omega)
    simpa using this

theorem dcs4_apply (c : Buf) (y x : Nat) (hy : y < 2) (hx : x < 2) :
    TransformToPixels.dcs4 c (y * 2 + x) =
      if y = 0 then (if x = 0 then c 0 + c 1 + c 8 + c 9 else c 0 + c 1 - c 8 - c 9)
      else (if x = 0 then c 0 - c 1 + c 8 - c 9 else c 0 - c 1 - c 8 + c 9) := by
  interval_cases y <;> interval_cases x <;> simp [TransformToPixels.dcs4, store]

/-- The sample that one quadrant iteration of the identity transform leaves at position
`(iy, ix)` of its quadrant. -/
theorem identityQuadrant_inside (c : Buf) (s y x : Nat) (p : Buf)
    (hs : 8 ≤ s) (hx : x < 2) (iy ix : Nat) (hiy : iy < 4) (hix : ix < 4) :
    TransformToPixels.identityQuadrant (TransformToPixels.dcs4 c) c s y x p
      ((y * 4 + iy) * s + x * 4 + ix) = identitySample c y x iy ix := by
  unfold identitySample
  by_cases h11 : ix = 1 ∧ iy = 1
  · obtain ⟨h1, h2⟩ := h11
    subst h1 h2
    rw [identityQuadrant_center _ c s y x p hs hx]
    simp
  · by_cases h00 : ix = 0 ∧ iy = 0
    · obtain ⟨h1, h2⟩ := h00
      subst h1 h2
      have e : (y * 4 + 0) * s + x * 4 + 0 = y * 4 * s + x * 4 := by simp
      rw [e, identityQuadrant_origin _ c s y x p hs hx]
      simp
    · rw [identityQuadrant_other _ c s y x p hs hx iy ix hiy hix h11 h00, if_neg h11,
        if_neg h00]

/-- The sample that `case Type::IDENTITY` leaves at position `(iy, ix)` of quadrant
`(y, x)`, the pitch being at least 8. -/
theorem caseIDENTITY_inside (c p : Buf) (s : Nat) (hs : 8 ≤ s) (y x iy ix : Nat)
    (hy : y < 2) (hx : x < 2) (hiy : iy < 4) (hix : ix < 4) :
    TransformToPixels.caseIDENTITY c p s ((y * 4 + iy) * s + x * 4 + ix) =
      identitySample c y x iy ix := by
  unfold TransformToPixels.caseIDENTITY
  refine forLoop_hit (fun y' => y' = y) (fun y' hy' hne q => ?_) (fun y' hy' heq q => ?_)
    ⟨y, hy, rfl⟩ p
  · refine forLoop_frame (fun x' hx' q' => ?_) q
    refine identityQuadrant_outside _ c s y' x' q' _ (fun iy' ix' hiy' hix' hidx => hne ?_)
    have := pixel_index_inj (s := s) (by omega) (by omega) hidx
    omega
  · subst heq
    refine forLoop_hit (fun x' => x' = x) (fun x' hx' hne q' => ?_)
      (fun x' hx' heq q' => ?_) ⟨x, hx, rfl⟩ q
    · refine identityQuadrant_outside _ c s y' x' q' _ (fun iy' ix' hiy' hix' hidx => hne ?_)
      have := pixel_index_inj (s := s) (by omega) (by omega) hidx
      omega
    · subst heq
      exact identityQuadrant_inside c s y' x' q' hs hx iy ix hiy hix

/-- The identity transform leaves every offset outside the 8x8 block alone. -/
theorem caseIDENTITY_outside (c p : Buf) (s j : Nat)
    (hj : ∀ r i, r < 8 → i < 8 → j ≠ r * s + i) :
    TransformToPixels.caseIDENTITY c p s j = p j := by
  unfold TransformToPixels.caseIDENTITY
  refine forLoop_frame (fun y hy q => ?_) p
  refine forLoop_frame (fun x hx q' => ?_) q
  refine identityQuadrant_outside _ c s y x q' j (fun iy ix hiy hix hidx => ?_)
  exact hj (y * 4 + iy) (x * 4 + ix) (by omega) (by omega) (by omega)

/-- The residual sum of the identity transform as a sum over the fifteen positions other
than `(0, 0)`. -/
theorem residual_sum_eq (c : Buf) (y x : Nat) :
    TransformToPixels.residual_sum c y x =
      ∑ iy in Finset.range 4, ∑ ix in Finset.range 4,
        if (iy, ix) = (0, 0) then 0 else c ((y + 2 * iy) * 8 + x + 2 * ix) := by
  simp [TransformToPixels.residual_sum, forLoop, Finset.sum_range_succ]
  ring

/-- A nest of two loops whose iterations each own a region of the buffer: if iteration
`(y, x)` leaves `v` at offset `j` and no other iteration changes `j`, the nest leaves `v`
at `j`. -/
theorem forLoop2_hit {rows cols : Nat} {F : Nat → Nat → Buf → Buf} {j : Nat} {v : ℚ}
    (y x : Nat) (hy : y < rows) (hx : x < cols)
    (hframe : ∀ y' x', y' < rows → x' < cols → ¬ (y' = y ∧ x' = x) → ∀ p, F y' x' p j = p j)
    (hhit : ∀ p, F y x p j = v) (p0 : Buf) :
    forLoop rows (fun y p => forLoop cols (fun x p => F y x p) p) p0 j = v := by
  refine forLoop_hit (fun y' => y' = y) (fun y' hy' hne q => ?_) (fun y' hy' heq q => ?_)
    ⟨y, hy, rfl⟩ p0
  · exact forLoop_frame (fun x' hx' q' => hframe y' x' hy' hx' (fun h => hne h.1) q') q
  · subst heq
    exact forLoop_hit (fun x' => x' = x)
      (fun x' hx' hne q' => hframe y' x' hy' hx' (fun h => hne h.2) q')
      (fun x' hx' heq q' => by subst heq; exact hhit q') ⟨x, hx, rfl⟩ q

/-- A nest of two loops leaves alone every offset that none of its iterations changes. -/
theorem forLoop2_frame {rows cols : Nat} {F : Nat → Nat → Buf → Buf} {j : Nat}
    (hframe : ∀ y x, y < rows → x < cols → ∀ p, F y x p j = p j) (p0 : Buf) :
    forLoop rows (fun y p => forLoop cols (fun x p => F y x p) p) p0 j = p0 j :=
  forLoop_frame (fun y hy q => forLoop_frame (fun x hx q' => hframe y x hy hx q') q) p0

/-! ## Sub-block buffers -/

/-- The window `FromBlock(rows, cols, _)` only depends on the first `rows * cols`
samples. -/
theorem FromBlock_congr (rows cols : Nat) (b b' : Buf)
    (h : ∀ i, i < rows * cols → b i = b' i) : FromBlock rows cols b = FromBlock rows cols b' := by
  unfold FromBlock
  exact List.map_congr_left (fun i hi => h i (List.mem_range.mp hi))

/-- The loops that gather a `rows x cols` sub-block buffer, skipping slot 0: slot
`iy * cols + ix` receives `g iy ix`, slot 0 keeps what it held. -/
theorem gather_inside (rows cols : Nat) (g : Nat → Nat → ℚ) (b0 : Buf) (iy ix : Nat)
    (hiy : iy < rows) (hix : ix < cols) :
    forLoop rows (fun iy block =>
      forLoop cols (fun ix block =>
        if ix = 0 ∧ iy = 0 then block else store block (iy * cols + ix) (g iy ix)) block) b0
      (iy * cols + ix) = if ix = 0 ∧ iy = 0 then b0 0 else g iy ix := by
  by_cases h0 : ix = 0 ∧ iy = 0
  · rw [if_pos h0]
    obtain ⟨h1, h2⟩ := h0
    subst h1 h2
    simp only [Nat.zero_mul, Nat.add_zero]
    refine forLoop2_frame (fun y x hy hx p => ?_) b0
    split
    · rfl
    · rename_i hskip
      refine store_ne _ _ (fun hidx => hskip ?_)
      have hx0 : x = 0 := by omega
      have hy0 : y * cols = 0 := by omega
      rcases Nat.mul_eq_zero.mp hy0 with h | h
      · exact ⟨hx0, h⟩
      · omega
  · rw [if_neg h0]
    refine forLoop2_hit (F := fun iy ix block =>
      if ix = 0 ∧ iy = 0 then block else store block (iy * cols + ix) (g iy ix))
      iy ix hiy hix (fun y' x' hy' hx' hne p => ?_) (fun p => ?_) b0
    · show (if x' = 0 ∧ y' = 0 then p else store p (y' * cols + x') (g y' x'))
        (iy * cols + ix) = p (iy * cols + ix)
      split
      · rfl
      · refine store_ne _ _ (fun hidx => hne ?_)
        have := index_inj (s := cols) hix hx' hidx
        exact ⟨this.1.symm, this.2.symm⟩
    · show (if ix = 0 ∧ iy = 0 then p else store p (iy * cols + ix) (g iy ix))
        (iy * cols + ix) = g iy ix
      rw [if_neg h0, store_same]

/-- The gather loops leave slot 0 alone. -/
theorem gather_zero (rows cols : Nat) (g : Nat → Nat → ℚ) (b0 : Buf)
    (hrows : 0 < rows) (hcols : 0 < cols) :
    forLoop rows (fun iy block =>
      forLoop cols (fun ix block =>
        if ix = 0 ∧ iy = 0 then block else store block (iy * cols + ix) (g iy ix)) block) b0
      0 = b0 0 := by
  have := gather_inside rows cols g b0 0 0 hrows hcols
  simpa using this

/-- Every slot `i < rows * cols` is slot `(i / cols) * cols + i % cols`. -/
theorem slot_decomp (cols i : Nat) : i / cols * cols + i % cols = i := by
  rw [Nat.mul_comm]
  exact Nat.div_add_mod i cols

theorem dcs2_zero (c : Buf) : TransformToPixels.dcs2 c 0 = c 0 + c 8 := by
  simp [TransformToPixels.dcs2, store]

theorem dcs2_one (c : Buf) : TransformToPixels.dcs2 c 1 = c 0 - c 8 := by
  simp [TransformToPixels.dcs2, store]

/-- The slots of the buffer that `case Type::DCT4X4` fills for sub-block `(y, x)`. -/
theorem block4x4_apply (dcs c : Buf) (y x iy ix : Nat) (hiy : iy < 4) (hix : ix < 4) :
    TransformToPixels.block4x4 dcs c y x (iy * 4 + ix) =
      if ix = 0 ∧ iy = 0 then dcs (y * 2 + x) else c ((y + iy * 2) * 8 + x + ix * 2) := by
  unfold TransformToPixels.block4x4
  have h := gather_inside 4 4 (fun iy ix => c ((y + iy * 2) * 8 + x + ix * 2))
    (store Buf.zero 0 (dcs (y * 2 + x))) iy ix hiy hix
  rw [store_same] at h
  exact h

/-- The slots of the buffer that `case Type::DCT8X4` and `case Type::DCT4X8` fill for
sub-block `k`. -/
theorem block4x8_apply (dcs c : Buf) (k iy ix : Nat) (hiy : iy < 4) (hix : ix < 8) :
    TransformToPixels.block4x8 dcs c k (iy * 8 + ix) =
      if ix = 0 ∧ iy = 0 then dcs k else c ((k + iy * 2) * 8 + ix) := by
  unfold TransformToPixels.block4x8
  have h := gather_inside 4 8 (fun iy ix => c ((k + iy * 2) * 8 + ix))
    (store Buf.zero 0 (dcs k)) iy ix hiy hix
  rw [store_same] at h
  exact h

/-- Two buffers that agree on the slots `iy * cols + ix` give the same window. -/
theorem FromBlock_congr_slots (rows cols : Nat) (b b' : Buf)
    (h : ∀ iy ix, iy < rows → ix < cols → b (iy * cols + ix) = b' (iy * cols + ix)) :
    FromBlock rows cols b = FromBlock rows cols b' := by
  refine FromBlock_congr rows cols b b' (fun i hi => ?_)
  have hcols : 0 < cols := by
    rcases Nat.eq_zero_or_pos cols with h0 | h0
    · subst h0; simp at hi
    · exact h0
  have hdiv : i / cols < rows := by
    rw [Nat.div_lt_iff_lt_mul hcols]
    exact hi
  have := h (i / cols) (i % cols) hdiv (Nat.mod_lt i hcols)
  rw [slot_decomp] at this
  exact this

/-! ## The sub-partitioned DCT kinds -/

/-- The sample that `case Type::DCT4X4` leaves at position `(r, k)` of sub-block `(y, x)`. -/
theorem caseDCT4X4_inside (E : Externals) (c p : Buf) (s : Nat) (hs : 8 ≤ s)
    (y x r k : Nat) (hy : y < 2) (hx : x < 2) (hr : r < 4) (hk : k < 4) :
    TransformToPixels.caseDCT4X4 E c p s ((y * 4 + r) * s + x * 4 + k) =
      E.ComputeTransposedScaledIDCT 4
        (FromBlock 4 4 (TransformToPixels.block4x4 (TransformToPixels.dcs4 c) c y x)) r k := by
  unfold TransformToPixels.caseDCT4X4
  refine forLoop2_hit (F := fun y x pixels =>
      ToLines 4 4 (E.ComputeTransposedScaledIDCT 4
        (FromBlock 4 4 (TransformToPixels.block4x4 (TransformToPixels.dcs4 c) c y x))) pixels
        (y * 4 * s + x * 4) s)
    y x hy hx (fun y' x' hy' hx' hne q => ?_) (fun q => ?_) p
  · refine ToLines_outside _ _ _ _ _ _ _ (fun r' i' hr' hi' hidx => hne ?_)
    have h' : (y * 4 + r) * s + x * 4 + k = (y' * 4 + r') * s + x' * 4 + i' := by
      rw [hidx]; ring
    have := pixel_index_inj (s := s) (by omega) (by omega) h'
    omega
  · have e : (y * 4 + r) * s + x * 4 + k = y * 4 * s + x * 4 + r * s + k := by ring
    rw [e]
    exact ToLines_inside 4 4 _ q _ s (by omega) r k hr hk

/-- The sample that `case Type::DCT4X8` leaves at position `(r, k)` of sub-block `y`. -/
theorem caseDCT4X8_inside (E : Externals) (c p : Buf) (s : Nat) (hs : 8 ≤ s)
    (y r k : Nat) (hy : y < 2) (hr : r < 4) (hk : k < 8) :
    TransformToPixels.caseDCT4X8 E c p s ((y * 4 + r) * s + k) =
      E.ComputeScaledIDCT 4 8
        (FromBlock 4 8 (TransformToPixels.block4x8 (TransformToPixels.dcs2 c) c y)) r k := by
  unfold TransformToPixels.caseDCT4X8
  refine forLoop_hit (fun y' => y' = y) (fun y' hy' hne q => ?_) (fun y' hy' heq q => ?_)
    ⟨y, hy, rfl⟩ p
  · refine ToLines_outside _ _ _ _ _ _ _ (fun r' i' hr' hi' hidx => hne ?_)
    have h' : (y * 4 + r) * s + k = (y' * 4 + r') * s + i' := by
      rw [hidx]; ring
    have := index_inj (s := s) (by omega) (by omega) h'
    omega
  · subst heq
    have e : (y' * 4 + r) * s + k = y' * 4 * s + r * s + k := by ring
    rw [e]
    exact ToLines_inside 4 8 _ q _ s hs r k hr hk

/-- The sample that `case Type::DCT8X4` leaves at position `(r, k)` of sub-block `x`. -/
theorem caseDCT8X4_inside (E : Externals) (c p : Buf) (s : Nat) (hs : 8 ≤ s)
    (x r k : Nat) (hx : x < 2) (hr : r < 8) (hk : k < 4) :
    TransformToPixels.caseDCT8X4 E c p s (r * s + x * 4 + k) =
      E.ComputeScaledIDCT 8 4
        (FromBlock 4 8 (TransformToPixels.block4x8 (TransformToPixels.dcs2 c) c x)) r k := by
  unfold TransformToPixels.caseDCT8X4
  refine forLoop_hit (fun x' => x' = x) (fun x' hx' hne q => ?_) (fun x' hx' heq q => ?_)
    ⟨x, hx, rfl⟩ p
  · refine ToLines_outside _ _ _ _ _ _ _ (fun r' i' hr' hi' hidx => hne ?_)
    have h' : r * s + x * 4 + k = r' * s + x' * 4 + i' := by
      rw [hidx]; ring
    have := pixel_index_inj (s := s) (by omega) (by omega) h'
    omega
  · subst heq
    have e : r * s + x' * 4 + k = x' * 4 + r * s + k := by ring
    rw [e]
    exact ToLines_inside 8 4 _ q _ s (by omega) r k hr hk

/-! ## The hierarchical 2x2 transform -/

/-- The scratch `temp` of `IDCT2TopBlock<S>` at row `r`, column `k` of the top-left
`S x S` region. -/
theorem IDCT2TopBlock_temp_apply (S : Nat) (block : Buf) (hS : S % 2 = 0) (r k : Nat)
    (hr : r < S) (hk : k < S) (hk8 : k < 8) (hS8 : S ≤ 8) :
    IDCT2TopBlock.temp S block (r * 8 + k) =
      (let c00 := block (r / 2 * 8 + k / 2)
       let c01 := block (r / 2 * 8 + (k / 2 + S / 2))
       let c10 := block ((r / 2 + S / 2) * 8 + k / 2)
       let c11 := block ((r / 2 + S / 2) * 8 + (k / 2 + S / 2))
       if r % 2 = 0 then
         (if k % 2 = 0 then c00 + c01 + c10 + c11 else c00 + c01 - c10 - c11)
       else
         (if k % 2 = 0 then c00 - c01 + c10 - c11 else c00 - c01 - c10 + c11)) := by
  unfold IDCT2TopBlock.temp
  simp only [kBlockDim]
  refine forLoop2_hit (F := fun y x temp =>
      store (store (store (store temp (y * 2 * 8 + x * 2)
        (block (y * 8 + x) + block (y * 8 + S / 2 + x) + block ((y + S / 2) * 8 + x) +
          block ((y + S / 2) * 8 + S / 2 + x)))
        (y * 2 * 8 + x * 2 + 1)
        (block (y * 8 + x) + block (y * 8 + S / 2 + x) - block ((y + S / 2) * 8 + x) -
          block ((y + S / 2) * 8 + S / 2 + x)))
        ((y * 2 + 1) * 8 + x * 2)
        (block (y * 8 + x) - block (y * 8 + S / 2 + x) + block ((y + S / 2) * 8 + x) -
          block ((y + S / 2) * 8 + S / 2 + x)))
        ((y * 2 + 1) * 8 + x * 2 + 1)
        (block (y * 8 + x) - block (y * 8 + S / 2 + x) - block ((y + S / 2) * 8 + x) +
          block ((y + S / 2) * 8 + S / 2 + x)))
    (r / 2) (k / 2) (by omega) (by omega) (fun y' x' hy' hx' hne p => ?_) (fun p => ?_)
    Buf.zero
  · have hx8 : x' < 4 := by omega
    rw [store_ne _ _ (by omega), store_ne _ _ (by omega), store_ne _ _ (by omega),
      store_ne _ _ (by omega)]
  · have e1 : r / 2 * 8 + S / 2 + k / 2 = r / 2 * 8 + (k / 2 + S / 2) := by omega
    have e2 : (r / 2 + S / 2) * 8 + S / 2 + k / 2 = (r / 2 + S / 2) * 8 + (k / 2 + S / 2) := by
      omega
    simp only [e1, e2, store_apply]
    rcases Nat.mod_two_eq_zero_or_one r with hr2 | hr2 <;>
      rcases Nat.mod_two_eq_zero_or_one k with hk2 | hk2
    · rw [if_neg (by omega), if_neg (by omega), if_neg (by omega), if_pos (by omega)]
      simp [hr2, hk2]
    · rw [if_neg (by omega), if_neg (by omega), if_pos (by omega)]
      simp [hr2, hk2]
    · rw [if_neg (by omega), if_pos (by omega)]
      simp [hr2, hk2]
    · rw [if_pos (by omega)]
      simp [hr2, hk2]

/-- One in-place pass `IDCT2TopBlock<S>(coeffs, kBlockDim, coeffs)` is the pass `P_S` of the
specification. -/
theorem IDCT2TopBlock_eq_butterflyPass (S : Nat) (hS : S % 2 = 0) (hS8 : S ≤ 8) (b : Buf)
    (i : Nat) : IDCT2TopBlock S b kBlockDim b i = butterflyPass S b i := by
  unfold IDCT2TopBlock butterflyPass
  simp only [kBlockDim]
  by_cases hin : i / 8 < S ∧ i % 8 < S
  · have hi : i = i / 8 * 8 + i % 8 := by omega
    have hk8 : i % 8 < 8 := Nat.mod_lt i (by omega)
    show (forLoop S (fun y out => forLoop S (fun x out =>
        store out (y * 8 + x) (IDCT2TopBlock.temp S b (y * 8 + x))) out) b) i = _
    rw [if_pos hin]
    have key : (forLoop S (fun y out => forLoop S (fun x out =>
        store out (y * 8 + x) (IDCT2TopBlock.temp S b (y * 8 + x))) out) b)
        (i / 8 * 8 + i % 8) = IDCT2TopBlock.temp S b (i / 8 * 8 + i % 8) := by
      refine forLoop2_hit (F := fun y x out =>
          store out (y * 8 + x) (IDCT2TopBlock.temp S b (y * 8 + x)))
        (i / 8) (i % 8) hin.1 hin.2 (fun y' x' hy' hx' hne p => ?_) (fun p => ?_) b
      · exact store_ne _ _ (by omega)
      · exact store_same _ _ _
    rw [← hi] at key
    rw [key, hi, IDCT2TopBlock_temp_apply S b hS (i / 8) (i % 8) hin.1 hin.2 hk8 hS8]
    have e1 : (i / 8 * 8 + i % 8) / 8 = i / 8 := by omega
    have e2 : (i / 8 * 8 + i % 8) % 8 = i % 8 := by omega
    simp only [e1, e2]
  · show (forLoop S (fun y out => forLoop S (fun x out =>
        store out (y * 8 + x) (IDCT2TopBlock.temp S b (y * 8 + x))) out) b) i = _
    rw [if_neg hin]
    refine forLoop2_frame (F := fun y x out =>
        store out (y * 8 + x) (IDCT2TopBlock.temp S b (y * 8 + x)))
      (fun y x hy hx p => ?_) b
    refine store_ne _ _ (fun hidx => hin ?_)
    have hx8 : x < 8 := by omega
    subst hidx
    constructor
    · have : (y * 8 + x) / 8 = y := by omega
      omega
    · have : (y * 8 + x) % 8 = x := by omega
      omega

/-- Buffers with the same samples are equal. -/
theorem Buf.ext {b b' : Buf} (h : ∀ i, b i = b' i) : b = b' := by
  cases b; cases b'
  congr
  exact funext h

/-- The `memcpy` of `case Type::DCT2X2` copies the 64 coefficients of the tile. -/
theorem coeffs0_apply (c : Buf) (i : Nat) (hi : i < 64) :
    TransformToPixels.coeffs0 c i = c i := by
  unfold TransformToPixels.coeffs0
  refine forLoop_hit (fun k => k = i) (fun k hk hne p => ?_) (fun k hk heq p => ?_)
    ⟨i, by simpa [kDCTBlockSize, kBlockDim] using hi, rfl⟩ Buf.zero
  · exact store_ne _ _ (fun h => hne h.symm)
  · subst heq
    exact store_same _ _ _

/-- The pass `P_S` on the first 64 samples only depends on the first 64 samples. -/
theorem butterflyPass_congr (S : Nat) (hS : S % 2 = 0) (hS8 : S ≤ 8) (b b' : Buf)
    (h : ∀ i, i < 64 → b i = b' i) (i : Nat) (hi : i < 64) :
    butterflyPass S b i = butterflyPass S b' i := by
  show (if i / 8 < S ∧ i % 8 < S then _ else _) = (if i / 8 < S ∧ i % 8 < S then _ else _)
  by_cases hin : i / 8 < S ∧ i % 8 < S
  · rw [if_pos hin, if_pos hin]
    rw [h (i / 8 / 2 * 8 + i % 8 / 2) (by omega),
      h (i / 8 / 2 * 8 + (i % 8 / 2 + S / 2)) (by omega),
      h ((i / 8 / 2 + S / 2) * 8 + i % 8 / 2) (by omega),
      h ((i / 8 / 2 + S / 2) * 8 + (i % 8 / 2 + S / 2)) (by omega)]
  · rw [if_neg hin, if_neg hin]
    exact h i hi

/-- The three in-place passes of `case Type::DCT2X2` as passes of the specification. -/
theorem coeffs3_eq (c : Buf) :
    TransformToPixels.coeffs3 c =
      butterflyPass 8 (butterflyPass 4 (butterflyPass 2 (TransformToPixels.coeffs0 c))) := by
  unfold TransformToPixels.coeffs3
  have h2 : ∀ b : Buf, IDCT2TopBlock 2 b kBlockDim b = butterflyPass 2 b := fun b =>
    Buf.ext (IDCT2TopBlock_eq_butterflyPass 2 (by decide) (by decide) b)
  have h4 : ∀ b : Buf, IDCT2TopBlock 4 b kBlockDim b = butterflyPass 4 b := fun b =>
    Buf.ext (IDCT2TopBlock_eq_butterflyPass 4 (by decide) (by decide) b)
  have h8 : ∀ b : Buf, IDCT2TopBlock 8 b kBlockDim b = butterflyPass 8 b := fun b =>
    Buf.ext (IDCT2TopBlock_eq_butterflyPass 8 (by decide) (by decide) b)
  simp only [h2, h4, h8]

/-- The local `coeffs` of `case Type::DCT2X2` after the three passes, on the 64 samples of
the block. -/
theorem coeffs3_apply (c : Buf) (i : Nat) (hi : i < 64) :
    TransformToPixels.coeffs3 c i = butterflyPass 8 (butterflyPass 4 (butterflyPass 2 c)) i := by
  rw [coeffs3_eq]
  refine butterflyPass_congr 8 (by decide) (by decide) _ _ (fun j hj => ?_) i hi
  refine butterflyPass_congr 4 (by decide) (by decide) _ _ (fun k hk => ?_) j hj
  exact butterflyPass_congr 2 (by decide) (by decide) _ _ (fun l hl => coeffs0_apply c l hl) k hk

/-- The sample that `case Type::DCT2X2` leaves at row `y`, column `x`. -/
theorem caseDCT2X2_inside (c p : Buf) (s : Nat) (hs : 8 ≤ s) (y x : Nat) (hy : y < 8)
    (hx : x < 8) :
    TransformToPixels.caseDCT2X2 c p s (y * s + x) = TransformToPixels.coeffs3 c (y * 8 + x) := by
  unfold TransformToPixels.caseDCT2X2
  simp only [kBlockDim]
  refine forLoop2_hit (F := fun y x pixels =>
      store pixels (y * s + x) (TransformToPixels.coeffs3 c (y * 8 + x)))
    y x hy hx (fun y' x' hy' hx' hne q => ?_) (fun q => ?_) p
  · refine store_ne _ _ (fun hidx => hne ?_)
    have := index_inj (s := s) (by omega) (by omega) hidx
    exact ⟨this.1.symm, this.2.symm⟩
  · exact store_same _ _ _

/-- `case Type::DCT2X2` leaves every offset outside the 8x8 block alone. -/
theorem caseDCT2X2_outside (c p : Buf) (s j : Nat)
    (hj : ∀ r i, r < 8 → i < 8 → j ≠ r * s + i) :
    TransformToPixels.caseDCT2X2 c p s j = p j := by
  unfold TransformToPixels.caseDCT2X2
  simp only [kBlockDim]
  refine forLoop2_frame (F := fun y x pixels =>
      store pixels (y * s + x) (TransformToPixels.coeffs3 c (y * 8 + x)))
    (fun y x hy hx q => ?_) p
  exact store_ne _ _ (hj y x hy hx)

/-! ## The asymmetric transform -/

/-- The accumulator of `AFVIDCT4x4` after `n` multiply-adds, lane by lane. -/
theorem AFVIDCT4x4_accumulate (coeffs : Buf) (i n l : Nat) :
    forLoop n (fun j pixel =>
      let cf : Nat → ℚ := fun _ => coeffs j
      let basis : Nat → ℚ := fun l => k4x4AFVBasis j (i + l)
      fun l => cf l * basis l + pixel l) (fun _ => 0) l =
      ∑ j in Finset.range n, coeffs j * k4x4AFVBasis j (i + l) := by
  induction n with
  | zero => simp [forLoop]
  | succ n ih =>
    rw [forLoop_succ, Finset.sum_range_succ]
    simp only []
    rw [ih]
    ring

/-- The `Store` of one vector of `lanes` samples at offset `i`. -/
theorem storeLanes_apply (lanes i : Nat) (pixel : Nat → ℚ) (pixels : Buf) (m : Nat) :
    forLoop lanes (fun l pixels => store pixels (i + l) (pixel l)) pixels m =
      if i ≤ m ∧ m < i + lanes then pixel (m - i) else pixels m := by
  by_cases h : i ≤ m ∧ m < i + lanes
  · rw [if_pos h]
    refine forLoop_hit (fun l => l = m - i) (fun l hl hne p => ?_) (fun l hl heq p => ?_)
      ⟨m - i, by omega, rfl⟩ pixels
    · exact store_ne _ _ (by omega)
    · subst heq
      have e : i + (m - i) = m := by omega
      rw [e]
      exact store_same _ _ _
  · rw [if_neg h]
    exact forLoop_frame (fun l hl p => store_ne _ _ (by omega)) pixels

/-- The loop of `AFVIDCT4x4` started at `i` leaves the samples below `i` alone. -/
theorem AFVIDCT4x4_loop_below (lanes : Nat) (coeffs : Buf) (fuel i : Nat) (pixels : Buf)
    (m : Nat) (hm : m < i) : AFVIDCT4x4.loop lanes coeffs fuel i pixels m = pixels m := by
  induction fuel generalizing i pixels with
  | zero => rfl
  | succ fuel ih =>
    rw [AFVIDCT4x4.loop]
    split
    · rw [ih (i + lanes) _ (by omega), storeLanes_apply, if_neg (by omega)]
    · rfl

/-- The loop of `AFVIDCT4x4` started at `i` with enough fuel leaves at every sample
`m` in `i .. 15` the product of the coefficient vector with column `m` of the basis. -/
theorem AFVIDCT4x4_loop_apply (lanes : Nat) (hl : 0 < lanes) (coeffs : Buf) (fuel i : Nat)
    (pixels : Buf) (m : Nat) (him : i ≤ m) (hm : m < 16) (hfuel : 16 ≤ i + fuel) :
    AFVIDCT4x4.loop lanes coeffs fuel i pixels m =
      ∑ j in Finset.range 16, coeffs j * k4x4AFVBasis j m := by
  induction fuel generalizing i pixels with
  | zero => omega
  | succ fuel ih =>
    rw [AFVIDCT4x4.loop, if_pos (by omega)]
    by_cases hnext : m < i + lanes
    · rw [AFVIDCT4x4_loop_below lanes coeffs fuel (i + lanes) _ m hnext, storeLanes_apply,
        if_pos ⟨him, hnext⟩, AFVIDCT4x4_accumulate]
      have e : i + (m - i) = m := by omega
      rw [e]
    · exact ih (i + lanes) _ (by omega) (by omega)

/-- The function `AFVIDCT4x4` multiplies the coefficient vector with the basis, whatever
the vector width. -/
theorem AFVIDCT4x4_apply (lanes : Nat) (hl : 0 < lanes) (coeffs pixels : Buf) (m : Nat)
    (hm : m < 16) :
    AFVIDCT4x4 lanes coeffs pixels m = ∑ j in Finset.range 16, coeffs j * k4x4AFVBasis j m :=
  AFVIDCT4x4_loop_apply lanes hl coeffs 16 0 pixels m (Nat.zero_le m) hm (by omega)

theorem AFV_dcs_zero (c : Buf) : AFVTransformToPixels.dcs c 0 = (c 0 + c 8 + c 1) * 4 := by
  simp [AFVTransformToPixels.dcs, store]

theorem AFV_dcs_one (c : Buf) : AFVTransformToPixels.dcs c 1 = c 0 + c 8 - c 1 := by
  simp [AFVTransformToPixels.dcs, store]

theorem AFV_dcs_two (c : Buf) : AFVTransformToPixels.dcs c 2 = c 0 - c 8 := by
  simp [AFVTransformToPixels.dcs, store]

/-- The slots of the buffer `coeff` of `AFVTransformToPixels`. -/
theorem AFV_coeff_apply (c : Buf) (iy ix : Nat) (hiy : iy < 4) (hix : ix < 4) :
    AFVTransformToPixels.coeff c (iy * 4 + ix) =
      if ix = 0 ∧ iy = 0 then (c 0 + c 8 + c 1) * 4 else c (iy * 2 * 8 + ix * 2) := by
  unfold AFVTransformToPixels.coeff
  have h := gather_inside 4 4 (fun iy ix => c (iy * 2 * 8 + ix * 2))
    (store Buf.zero 0 (AFVTransformToPixels.dcs c 0)) iy ix hiy hix
  rw [store_same, AFV_dcs_zero] at h
  exact h

/-- The slots of the buffer handed to the 4x4 inverse DCT of `AFVTransformToPixels`. -/
theorem AFV_block2_apply (E : Externals) (c : Buf) (iy ix : Nat) (hiy : iy < 4)
    (hix : ix < 4) :
    AFVTransformToPixels.block2 E c (iy * 4 + ix) =
      if ix = 0 ∧ iy = 0 then c 0 + c 8 - c 1 else c (iy * 2 * 8 + ix * 2 + 1) := by
  unfold AFVTransformToPixels.block2
  have h := gather_inside 4 4 (fun iy ix => c (iy * 2 * 8 + ix * 2 + 1))
    (store (AFVTransformToPixels.block1 E c) 0 (AFVTransformToPixels.dcs c 1)) iy ix hiy hix
  rw [store_same, AFV_dcs_one] at h
  exact h

/-- The slots of the buffer handed to the 4x8 inverse DCT of `AFVTransformToPixels`. -/
theorem AFV_block3_apply (E : Externals) (c : Buf) (iy ix : Nat) (hiy : iy < 4)
    (hix : ix < 8) :
    AFVTransformToPixels.block3 E c (iy * 8 + ix) =
      if ix = 0 ∧ iy = 0 then c 0 - c 8 else c ((1 + iy * 2) * 8 + ix) := by
  unfold AFVTransformToPixels.block3
  have h := gather_inside 4 8 (fun iy ix => c ((1 + iy * 2) * 8 + ix))
    (store (AFVTransformToPixels.block2 E c) 0 (AFVTransformToPixels.dcs c 2)) iy ix hiy hix
  rw [store_same, AFV_dcs_two] at h
  exact h

/-- The sample that `AFVTransformToPixels` leaves at position `(iy, ix)` of the quadrant
of the custom basis. -/
theorem AFVTransformToPixels_quadrant (E : Externals) (hl : 0 < E.Lanes) (afv_kind : Nat)
    (hkind : afv_kind < 4) (c p : Buf) (s : Nat) (hs : 8 ≤ s) (iy ix : Nat) (hiy : iy < 4)
    (hix : ix < 4) :
    AFVTransformToPixels E afv_kind c p s
        ((iy + afv_kind / 2 * 4) * s + (afv_kind &&& 1) * 4 + ix) =
      ∑ j in Finset.range 16, AFVTransformToPixels.coeff c j *
        k4x4AFVBasis j ((if afv_kind / 2 = 1 then 3 - iy else iy) * 4 +
          (if afv_kind &&& 1 = 1 then 3 - ix else ix)) := by
  have hy : afv_kind / 2 < 2 := by omega
  have hx : afv_kind &&& 1 < 2 := by
    rw [Nat.and_one_is_mod]; omega
  unfold AFVTransformToPixels
  simp only []
  generalize afv_kind / 2 = ay at hy ⊢
  generalize afv_kind &&& 1 = ax at hx ⊢
  rw [ToLines_outside, ToLines_outside]
  · refine forLoop2_hit (F := fun iy ix pixels =>
        store pixels ((iy + ay * 4) * s + ax * 4 + ix) _)
      iy ix hiy hix (fun y' x' hy' hx' hne q => ?_) (fun q => ?_) p
    · refine store_ne _ _ (fun hidx => hne ?_)
      have := pixel_index_inj (s := s) (by omega) (by omega) hidx
      omega
    · rw [store_same]
      refine AFVIDCT4x4_apply E.Lanes hl _ _ _ ?_
      split <;> split <;> omega
  · intro r i hr hi hidx
    have h' : (iy + ay * 4) * s + ax * 4 + ix =
        (ay * 4 + r) * s + (if ax = 1 then 0 else 4) + i := by
      rw [hidx]; ring
    have := pixel_index_inj (s := s) (by omega) (by split <;> omega) h'
    split at this <;> omega
  · intro r i hr hi hidx
    have h' : (iy + ay * 4) * s + ax * 4 + ix =
        ((if ay = 1 then 0 else 4) + r) * s + 0 + i := by
      rw [hidx]; ring
    have := pixel_index_inj (s := s) (by omega) (by omega) h'
    split at this <;> omega

/-- The sample that `AFVTransformToPixels` leaves at position `(r, i)` of the 4x4 region
beside the quadrant of the custom basis. -/
theorem AFVTransformToPixels_second (E : Externals) (afv_kind : Nat) (hkind : afv_kind < 4)
    (c p : Buf) (s : Nat) (hs : 8 ≤ s) (r i : Nat) (hr : r < 4) (hi : i < 4) :
    AFVTransformToPixels E afv_kind c p s
        ((afv_kind / 2 * 4 + r) * s + (if afv_kind &&& 1 = 1 then 0 else 4) + i) =
      E.ComputeTransposedScaledIDCT 4 (FromBlock 4 4 (AFVTransformToPixels.block2 E c)) r i := by
  have hy : afv_kind / 2 < 2 := by omega
  unfold AFVTransformToPixels
  simp only []
  generalize afv_kind / 2 = ay at hy ⊢
  generalize afv_kind &&& 1 = ax
  rw [ToLines_outside]
  · have e : (ay * 4 + r) * s + (if ax = 1 then 0 else 4) + i =
        ay * 4 * s + (if ax = 1 then 0 else 4) + r * s + i := by ring
    rw [e]
    exact ToLines_inside 4 4 _ _ _ s (by omega) r i hr hi
  · intro r' i' hr' hi' hidx
    have h' : (ay * 4 + r) * s + (if ax = 1 then 0 else 4) + i =
        ((if ay = 1 then 0 else 4) + r') * s + 0 + i' := by
      rw [hidx]; ring
    have := pixel_index_inj (s := s) (by split <;> omega) (by omega) h'
    split at this <;> omega

/-- The sample that `AFVTransformToPixels` leaves at position `(r, i)` of the 4x8 half
opposite the quadrant of the custom basis. -/
theorem AFVTransformToPixels_third (E : Externals) (afv_kind : Nat)
    (c p : Buf) (s : Nat) (hs : 8 ≤ s) (r i : Nat) (hr : r < 4) (hi : i < 8) :
    AFVTransformToPixels E afv_kind c p s
        (((if afv_kind / 2 = 1 then 0 else 4) + r) * s + i) =
      E.ComputeScaledIDCT 4 8 (FromBlock 4 8 (AFVTransformToPixels.block3 E c)) r i := by
  unfold AFVTransformToPixels
  simp only []
  generalize afv_kind / 2 = ay
  generalize afv_kind &&& 1 = ax
  have e : ((if ay = 1 then 0 else 4) + r) * s + i =
      (if ay = 1 then 0 else 4) * s + r * s + i := by ring
  rw [e]
  exact ToLines_inside 4 8 _ _ _ s hs r i hr hi

/-! ## `ReinterpretingIDCT` -/

/-- The entries of the scratch block of `ReinterpretingIDCT` when `ROWS < COLS`. -/
theorem scratch_apply_wide (E : Externals) (DCT_ROWS DCT_COLS LF_ROWS LF_COLS ROWS COLS : Nat)
    (input : Buf) (input_stride : Nat) (hshape : ROWS < COLS) (hlf : LF_COLS ≤ COLS)
    (y x : Nat) (hy : y < LF_ROWS) (hx : x < LF_COLS) :
    ReinterpretingIDCT.scratch E DCT_ROWS DCT_COLS LF_ROWS LF_COLS ROWS COLS input input_stride
        (y * COLS + x) =
      input (y * input_stride + x) * E.DCTTotalResampleScale DCT_ROWS ROWS y *
        E.DCTTotalResampleScale DCT_COLS COLS x := by
  unfold ReinterpretingIDCT.scratch
  simp only [if_pos hshape]
  refine forLoop2_hit (F := fun y x block =>
      store block (y * COLS + x)
        (input (y * input_stride + x) * E.DCTTotalResampleScale DCT_ROWS ROWS y *
          E.DCTTotalResampleScale DCT_COLS COLS x))
    y x hy hx (fun y' x' hy' hx' hne q => ?_) (fun q => ?_) Buf.zero
  · refine store_ne _ _ (fun hidx => hne ?_)
    have := index_inj (s := COLS) (by omega) (by omega) hidx
    exact ⟨this.1.symm, this.2.symm⟩
  · exact store_same _ _ _

/-- The entries of the scratch block of `ReinterpretingIDCT` when `ROWS >= COLS`. -/
theorem scratch_apply_tall (E : Externals) (DCT_ROWS DCT_COLS LF_ROWS LF_COLS ROWS COLS : Nat)
    (input : Buf) (input_stride : Nat) (hshape : ¬ ROWS < COLS) (hlf : LF_ROWS ≤ ROWS)
    (y x : Nat) (hy : y < LF_COLS) (hx : x < LF_ROWS) :
    ReinterpretingIDCT.scratch E DCT_ROWS DCT_COLS LF_ROWS LF_COLS ROWS COLS input input_stride
        (y * ROWS + x) =
      input (y * input_stride + x) * E.DCTTotalResampleScale DCT_COLS COLS y *
        E.DCTTotalResampleScale DCT_ROWS ROWS x := by
  unfold ReinterpretingIDCT.scratch
  simp only [if_neg hshape]
  refine forLoop2_hit (F := fun y x block =>
      store block (y * ROWS + x)
        (input (y * input_stride + x) * E.DCTTotalResampleScale DCT_COLS COLS y *
          E.DCTTotalResampleScale DCT_ROWS ROWS x))
    y x hy hx (fun y' x' hy' hx' hne q => ?_) (fun q => ?_) Buf.zero
  · refine store_ne _ _ (fun hidx => hne ?_)
    have := index_inj (s := ROWS) (by omega) (by omega) hidx
    exact ⟨this.1.symm, this.2.symm⟩
  · exact store_same _ _ _

/-- The copy-out loop of `ReinterpretingIDCT` leaves alone every offset that is not
`y * output_stride + x` for some `y < ROWS`, `x < COLS`. -/
theorem ReinterpretingIDCT_outside (E : Externals)
    (DCT_ROWS DCT_COLS LF_ROWS LF_COLS ROWS COLS : Nat) (input : Buf) (input_stride : Nat)
    (output : Buf) (output_stride j : Nat)
    (hj : ∀ y x, y < ROWS → x < COLS → j ≠ y * output_stride + x) :
    ReinterpretingIDCT E DCT_ROWS DCT_COLS LF_ROWS LF_COLS ROWS COLS input input_stride
      output output_stride j = output j := by
  unfold ReinterpretingIDCT
  exact forLoop2_frame (F := fun y x output =>
      store output (y * output_stride + x)
        (ReinterpretingIDCT.transformed E DCT_ROWS DCT_COLS LF_ROWS LF_COLS ROWS COLS
          input input_stride (y * COLS + x)))
    (fun y x hy hx q => store_ne _ _ (hj y x hy hx)) output

/-- The copy-out loop of `ReinterpretingIDCT` stores entry `(y, x)` of the transformed
scratch block at `y * output_stride + x`. -/
theorem ReinterpretingIDCT_inside (E : Externals)
    (DCT_ROWS DCT_COLS LF_ROWS LF_COLS ROWS COLS : Nat) (input : Buf) (input_stride : Nat)
    (output : Buf) (output_stride : Nat) (hstride : COLS ≤ output_stride)
    (y x : Nat) (hy : y < ROWS) (hx : x < COLS) :
    ReinterpretingIDCT E DCT_ROWS DCT_COLS LF_ROWS LF_COLS ROWS COLS input input_stride
      output output_stride (y * output_stride + x) =
      ReinterpretingIDCT.transformed E DCT_ROWS DCT_COLS LF_ROWS LF_COLS ROWS COLS
        input input_stride (y * COLS + x) := by
  unfold ReinterpretingIDCT
  refine forLoop2_hit (F := fun y x output =>
      store output (y * output_stride + x)
        (ReinterpretingIDCT.transformed E DCT_ROWS DCT_COLS LF_ROWS LF_COLS ROWS COLS
          input input_stride (y * COLS + x)))
    y x hy hx (fun y' x' hy' hx' hne q => ?_) (fun q => ?_) output
  · refine store_ne _ _ (fun hidx => hne ?_)
    have := index_inj (s := output_stride) (by omega) (by omega) hidx
    exact ⟨this.1.symm, this.2.symm⟩
  · exact store_same _ _ _

/-- The reduced inverse transform of `ReinterpretingIDCT` writes sample `(y, x)` of its
result at entry `y * COLS + x` of the scratch block. -/
theorem transformed_apply (E : Externals)
    (DCT_ROWS DCT_COLS LF_ROWS LF_COLS ROWS COLS : Nat) (input : Buf) (input_stride : Nat)
    (y x : Nat) (hy : y < ROWS) (hx : x < COLS) :
    ReinterpretingIDCT.transformed E DCT_ROWS DCT_COLS LF_ROWS LF_COLS ROWS COLS
        input input_stride (y * COLS + x) =
      DoIDCT E ROWS COLS
        (FromBlock (CoefficientRows ROWS COLS) (CoefficientColumns ROWS COLS)
          (ReinterpretingIDCT.scratch E DCT_ROWS DCT_COLS LF_ROWS LF_COLS ROWS COLS
            input input_stride)) y x := by
  unfold ReinterpretingIDCT.transformed ToBlock
  have e : y * COLS + x = 0 + y * COLS + x := by omega
  rw [e]
  exact ToLines_inside ROWS COLS _ _ 0 COLS (Nat.le_refl COLS) y x hy hx

/-- The instantiation of `ReinterpretingIDCT` that `DCFromLowestFrequencies` runs for each
multi-cell kind. -/
theorem DCFromLowestFrequencies_multi (E : Externals) (strategy : AcStrategyType)
    (DCT_ROWS DCT_COLS : Nat)
    (h : (strategy, DCT_ROWS, DCT_COLS) ∈
      [(AcStrategyType.DCT16X8, 16, 8), (AcStrategyType.DCT8X16, 8, 16),
       (AcStrategyType.DCT16X16, 16, 16), (AcStrategyType.DCT32X8, 32, 8),
       (AcStrategyType.DCT8X32, 8, 32), (AcStrategyType.DCT32X16, 32, 16),
       (AcStrategyType.DCT16X32, 16, 32), (AcStrategyType.DCT32X32, 32, 32)])
    (block dc : Buf) (dc_stride : Nat) :
    DCFromLowestFrequencies E strategy block dc dc_stride =
      some (ReinterpretingIDCT E DCT_ROWS DCT_COLS (DCT_ROWS / 8) (DCT_COLS / 8)
        (DCT_ROWS / 8) (DCT_COLS / 8) block (8 * max (DCT_ROWS / 8) (DCT_COLS / 8))
        dc dc_stride) := by
  simp only [List.mem_cons, Prod.mk.injEq, List.mem_singleton, List.not_mem_nil, or_false] at h
  rcases h with h | h | h | h | h | h | h | h <;> obtain ⟨h1, h2, h3⟩ := h <;>
    subst h1 h2 h3 <;> rfl

/-- The reduced shape of every multi-cell kind is at most 4x4 and not empty. -/
theorem multi_shape_bounds (strategy : AcStrategyType) (DCT_ROWS DCT_COLS : Nat)
    (h : (strategy, DCT_ROWS, DCT_COLS) ∈
      [(AcStrategyType.DCT16X8, 16, 8), (AcStrategyType.DCT8X16, 8, 16),
       (AcStrategyType.DCT16X16, 16, 16), (AcStrategyType.DCT32X8, 32, 8),
       (AcStrategyType.DCT8X32, 8, 32), (AcStrategyType.DCT32X16, 32, 16),
       (AcStrategyType.DCT16X32, 16, 32), (AcStrategyType.DCT32X32, 32, 32)]) :
    0 < DCT_ROWS / 8 ∧ 0 < DCT_COLS / 8 ∧ DCT_ROWS / 8 ≤ 4 ∧ DCT_COLS / 8 ≤ 4 := by
  simp only [List.mem_cons, Prod.mk.injEq, List.mem_singleton, List.not_mem_nil, or_false] at h
  rcases h with h | h | h | h | h | h | h | h <;> obtain ⟨h1, h2, h3⟩ := h <;>
    subst h2 h3 <;> decide

/-! ## Tiles with a single coefficient -/

theorem constOnDC_of_dcPreserving {E : Externals} (h : DCPreserving E) (d : ℚ) :
    ConstOnDC E d :=
  ⟨fun ROWS COLS b hb0 hb r k hr hk => (h.1 ROWS COLS b hb r k hr hk).trans hb0,
   fun N b hb0 hb r k hr hk => (h.2 N b hb r k hr hk).trans hb0⟩

theorem constOnDC_of_zeroPreserving {E : Externals} (h : ZeroPreserving E) :
    ConstOnDC E 0 := by
  refine ⟨fun ROWS COLS b hb0 hb r k hr hk => h.1 ROWS COLS b (fun i hi => ?_) r k hr hk,
   fun N b hb0 hb r k hr hk => h.2 N b (fun i hi => ?_) r k hr hk⟩
  · rcases Nat.eq_zero_or_pos i with h0 | h0
    · rw [h0]; exact hb0
    · exact hb i h0 hi
  · rcases Nat.eq_zero_or_pos i with h0 | h0
    · rw [h0]; exact hb0
    · exact hb i h0 hi

/-- The Hadamard-derived values of a tile whose coefficients 1, 8 and 9 are zero. -/
theorem dcs4_dcOnly (c : Buf) (hc : ∀ i, 0 < i → i < 64 → c i = 0) (y x : Nat) (hy : y < 2)
    (hx : x < 2) : TransformToPixels.dcs4 c (y * 2 + x) = c 0 := by
  rw [dcs4_apply c y x hy hx, hc 1 (by decide) (by decide), hc 8 (by decide) (by decide),
    hc 9 (by decide) (by decide)]
  split <;> split <;> simp

/-- The residual sum of a tile whose coefficients other than coefficient 0 are zero. -/
theorem residual_sum_dcOnly (c : Buf) (hc : ∀ i, 0 < i → i < 64 → c i = 0) (y x : Nat)
    (hy : y < 2) (hx : x < 2) : TransformToPixels.residual_sum c y x = 0 := by
  rw [residual_sum_eq]
  refine Finset.sum_eq_zero (fun iy hiy => Finset.sum_eq_zero (fun ix hix => ?_))
  have h1 := Finset.mem_range.mp hiy
  have h2 := Finset.mem_range.mp hix
  split
  · rfl
  · rename_i hne
    refine hc _ ?_ (by omega)
    rcases Nat.eq_zero_or_pos iy with h | h
    · rcases Nat.eq_zero_or_pos ix with h' | h'
      · exact absurd (by rw [h, h']) hne
      · omega
    · omega

/-- The identity transform of a tile whose only nonzero coefficient is coefficient 0. -/
theorem identitySample_dcOnly (c : Buf) (hc : ∀ i, 0 < i → i < 64 → c i = 0)
    (y x iy ix : Nat) (hy : y < 2) (hx : x < 2) (hiy : iy < 4) (hix : ix < 4) :
    identitySample c y x iy ix = c 0 := by
  unfold identitySample
  rw [dcs4_dcOnly c hc y x hy hx, residual_sum_dcOnly c hc y x hy hx]
  split
  · simp
  · split
    · rw [hc _ (by omega) (by omega)]; simp
    · rw [hc _ (by omega) (by omega)]; simp

/-- One pass of the hierarchical 2x2 transform on a buffer that is `K` on the top-left
`S/2 x S/2` region and zero on the rest of the block. -/
theorem butterflyPass_dcOnly (S : Nat) (hS : S % 2 = 0) (hS8 : S ≤ 8) (K : ℚ) (b : Buf)
    (hin : ∀ i, i < 64 → i / 8 < S / 2 → i % 8 < S / 2 → b i = K)
    (hout : ∀ i, i < 64 → ¬ (i / 8 < S / 2 ∧ i % 8 < S / 2) → b i = 0)
    (i : Nat) (hi : i < 64) :
    butterflyPass S b i = if i / 8 < S ∧ i % 8 < S then K else 0 := by
  show (if i / 8 < S ∧ i % 8 < S then _ else _) = _
  by_cases h : i / 8 < S ∧ i % 8 < S
  · rw [if_pos h, if_pos h]
    have h00 : b (i / 8 / 2 * 8 + i % 8 / 2) = K :=
      hin _ (by omega) (by omega) (by omega)
    have h01 : b (i / 8 / 2 * 8 + (i % 8 / 2 + S / 2)) = 0 :=
      hout _ (by omega) (by omega)
    have h10 : b ((i / 8 / 2 + S / 2) * 8 + i % 8 / 2) = 0 :=
      hout _ (by omega) (by omega)
    have h11 : b ((i / 8 / 2 + S / 2) * 8 + (i % 8 / 2 + S / 2)) = 0 :=
      hout _ (by omega) (by omega)
    simp only [h00, h01, h10, h11]
    split <;> split <;> simp
  · rw [if_neg h, if_neg h]
    exact hout i hi (fun h' => h ⟨by omega, by omega⟩)

/-- The three passes of the hierarchical 2x2 transform on a tile whose only nonzero
coefficient is coefficient 0. -/
theorem butterflyPasses_dcOnly (c : Buf) (hc : ∀ i, 0 < i → i < 64 → c i = 0) (i : Nat)
    (hi : i < 64) : butterflyPass 8 (butterflyPass 4 (butterflyPass 2 c)) i = c 0 := by
  have p2 : ∀ j, j < 64 → butterflyPass 2 c j = if j / 8 < 2 ∧ j % 8 < 2 then c 0 else 0 :=
    fun j hj => butterflyPass_dcOnly 2 (by decide) (by decide) (c 0) c
      (fun l hl h1 h2 => by
        have : l = 0 := by omega
        rw [this])
      (fun l hl h => hc l (by omega) hl) j hj
  have p4 : ∀ j, j < 64 →
      butterflyPass 4 (butterflyPass 2 c) j = if j / 8 < 4 ∧ j % 8 < 4 then c 0 else 0 :=
    fun j hj => butterflyPass_dcOnly 4 (by decide) (by decide) (c 0) _
      (fun l hl h1 h2 => by rw [p2 l hl, if_pos ⟨by omega, by omega⟩])
      (fun l hl h => by rw [p2 l hl, if_neg (fun h' => h ⟨by omega, by omega⟩)]) j hj
  have p8 := butterflyPass_dcOnly 8 (by decide) (by decide) (c 0) _
      (fun l hl h1 h2 => by rw [p4 l hl, if_pos ⟨by omega, by omega⟩])
      (fun l hl h => by rw [p4 l hl, if_neg (fun h' => h ⟨by omega, by omega⟩)]) i hi
  rw [p8, if_pos ⟨by omega, by omega⟩]

/-- Row 0 of the basis of the asymmetric transform is constant 1/4. -/
theorem k4x4AFVBasis_row_zero (m : Nat) (hm : m < 16) : k4x4AFVBasis 0 m = 1 / 4 := by
  have h : k4x4AFVBasis 0 m = 0.25 := by
    interval_cases m <;> rfl
  rw [h]
  norm_num

/-- The custom-basis sum of the asymmetric transform on a tile whose only nonzero
coefficient is coefficient 0. -/
theorem AFV_coeff_sum_dcOnly (c : Buf) (hc : ∀ i, 0 < i → i < 64 → c i = 0) (m : Nat)
    (hm : m < 16) :
    ∑ j in Finset.range 16, AFVTransformToPixels.coeff c j * k4x4AFVBasis j m = c 0 := by
  rw [Finset.sum_eq_single 0]
  · have h := AFV_coeff_apply c 0 0 (by decide) (by decide)
    simp only [Nat.zero_mul, Nat.add_zero, and_self, if_true] at h
    rw [h, k4x4AFVBasis_row_zero m hm, hc 8 (by decide) (by decide),
      hc 1 (by decide) (by decide)]
    ring
  · intro j hj hj0
    have hj16 := Finset.mem_range.mp hj
    have h := AFV_coeff_apply c (j / 4) (j % 4) (by omega) (by omega)
    rw [slot_decomp] at h
    rw [h, if_neg (by omega), hc _ (by omega) (by omega)]
    simp
  · intro h
    exact absurd (Finset.mem_range.mpr (by decide)) h

/-- A rectangular inverse DCT written through `ToLines`, for a block whose only nonzero
entry is entry 0. -/
theorem ToLines_scaled_dcOnly (E : Externals) (K : ℚ) (hE : ConstOnDC E K)
    (ROWS COLS rows cols : Nat) (hrows : CoefficientRows ROWS COLS = rows)
    (hcols : CoefficientColumns ROWS COLS = cols)
    (b pixels : Buf) (hb0 : b 0 = K) (hb : ∀ i, 0 < i → i < ROWS * COLS → b i = 0)
    (off s : Nat) (hs : COLS ≤ s) (r k : Nat) (hr : r < ROWS) (hk : k < COLS) :
    ToLines ROWS COLS (E.ComputeScaledIDCT ROWS COLS (FromBlock rows cols b)) pixels off s
      (off + r * s + k) = K := by
  subst hrows hcols
  rw [ToLines_inside ROWS COLS _ pixels off s hs r k hr hk]
  exact hE.1 ROWS COLS b hb0 hb r k hr hk

/-- A square inverse DCT written through `ToLines`, for a block whose only nonzero entry is
entry 0. -/
theorem ToLines_transposed_dcOnly (E : Externals) (K : ℚ) (hE : ConstOnDC E K) (N : Nat)
    (b pixels : Buf) (hb0 : b 0 = K) (hb : ∀ i, 0 < i → i < N * N → b i = 0)
    (off s : Nat) (hs : N ≤ s) (r k : Nat) (hr : r < N) (hk : k < N) :
    ToLines N N (E.ComputeTransposedScaledIDCT N (FromBlock N N b)) pixels off s
      (off + r * s + k) = K := by
  rw [ToLines_inside N N _ pixels off s hs r k hr hk]
  exact hE.2 N b hb0 hb r k hr hk

/-- Every offset of a `rows x cols` block splits into the sub-block and the position in
it. -/
theorem split4 (r : Nat) (hr : r < 8) : ∃ y i, y < 2 ∧ i < 4 ∧ r = y * 4 + i :=
  ⟨r / 4, r % 4, by omega, by omega, by omega⟩

/-- `case Type::IDENTITY` on a tile whose only nonzero coefficient is coefficient 0. -/
theorem caseIDENTITY_dcOnly (c p : Buf) (hc : ∀ i, 0 < i → i < 64 → c i = 0) (s : Nat)
    (hs : 8 ≤ s) (r k : Nat) (hr : r < 8) (hk : k < 8) :
    TransformToPixels.caseIDENTITY c p s (r * s + k) = c 0 := by
  obtain ⟨y, iy, hy, hiy, rfl⟩ := split4 r hr
  obtain ⟨x, ix, hx, hix, rfl⟩ := split4 k hk
  rw [← Nat.add_assoc, caseIDENTITY_inside c p s hs y x iy ix hy hx hiy hix]
  exact identitySample_dcOnly c hc y x iy ix hy hx hiy hix

/-- `case Type::DCT2X2` on a tile whose only nonzero coefficient is coefficient 0. -/
theorem caseDCT2X2_dcOnly (c p : Buf) (hc : ∀ i, 0 < i → i < 64 → c i = 0) (s : Nat)
    (hs : 8 ≤ s) (r k : Nat) (hr : r < 8) (hk : k < 8) :
    TransformToPixels.caseDCT2X2 c p s (r * s + k) = c 0 := by
  rw [caseDCT2X2_inside c p s hs r k hr hk, coeffs3_apply c _ (by omega)]
  exact butterflyPasses_dcOnly c hc _ (by omega)

/-- `case Type::DCT4X4` on a tile whose only nonzero coefficient is coefficient 0. -/
theorem caseDCT4X4_dcOnly (E : Externals) (K : ℚ) (hE : ConstOnDC E K) (c p : Buf)
    (hc0 : c 0 = K) (hc : ∀ i, 0 < i → i < 64 → c i = 0) (s : Nat)
    (hs : 8 ≤ s) (r k : Nat) (hr : r < 8) (hk : k < 8) :
    TransformToPixels.caseDCT4X4 E c p s (r * s + k) = K := by
  obtain ⟨y, iy, hy, hiy, rfl⟩ := split4 r hr
  obtain ⟨x, ix, hx, hix, rfl⟩ := split4 k hk
  rw [← Nat.add_assoc, caseDCT4X4_inside E c p s hs y x iy ix hy hx hiy hix]
  refine hE.2 4 _ ?_ (fun i hi0 hi => ?_) iy ix hiy hix
  · have h := block4x4_apply (TransformToPixels.dcs4 c) c y x 0 0 (by decide) (by decide)
    simp only [Nat.zero_mul, Nat.add_zero, and_self, if_true] at h
    rw [h, dcs4_dcOnly c hc y x hy hx, hc0]
  · have h := block4x4_apply (TransformToPixels.dcs4 c) c y x (i / 4) (i % 4) (by omega)
      (by omega)
    rw [slot_decomp] at h
    rw [h, if_neg (by omega)]
    exact hc _ (by omega) (by omega)

/-- The buffer of a 4x8 sub-block of a tile whose only nonzero coefficient is coefficient
0. -/
theorem block4x8_dcOnly (c : Buf) (hc : ∀ i, 0 < i → i < 64 → c i = 0) (y : Nat) (hy : y < 2) :
    TransformToPixels.block4x8 (TransformToPixels.dcs2 c) c y 0 = c 0 ∧
    ∀ i, 0 < i → i < 4 * 8 →
      TransformToPixels.block4x8 (TransformToPixels.dcs2 c) c y i = 0 := by
  constructor
  · have h := block4x8_apply (TransformToPixels.dcs2 c) c y 0 0 (by decide) (by decide)
    simp only [Nat.zero_mul, Nat.add_zero, and_self, if_true] at h
    rw [h]
    interval_cases y
    · rw [dcs2_zero, hc 8 (by decide) (by decide)]; simp
    · rw [dcs2_one, hc 8 (by decide) (by decide)]; simp
  · intro i hi0 hi
    have h := block4x8_apply (TransformToPixels.dcs2 c) c y (i / 8) (i % 8) (by omega)
      (by omega)
    rw [slot_decomp] at h
    rw [h, if_neg (by omega)]
    exact hc _ (by omega) (by omega)

/-- `case Type::DCT4X8` on a tile whose only nonzero coefficient is coefficient 0. -/
theorem caseDCT4X8_dcOnly (E : Externals) (K : ℚ) (hE : ConstOnDC E K) (c p : Buf)
    (hc0 : c 0 = K) (hc : ∀ i, 0 < i → i < 64 → c i = 0) (s : Nat)
    (hs : 8 ≤ s) (r k : Nat) (hr : r < 8) (hk : k < 8) :
    TransformToPixels.caseDCT4X8 E c p s (r * s + k) = K := by
  obtain ⟨y, iy, hy, hiy, rfl⟩ := split4 r hr
  rw [caseDCT4X8_inside E c p s hs y iy k hy hiy hk]
  have hb := block4x8_dcOnly c hc y hy
  exact hE.1 4 8 _ (hb.1.trans hc0) hb.2 iy k hiy hk

/-- `case Type::DCT8X4` on a tile whose only nonzero coefficient is coefficient 0. -/
theorem caseDCT8X4_dcOnly (E : Externals) (K : ℚ) (hE : ConstOnDC E K) (c p : Buf)
    (hc0 : c 0 = K) (hc : ∀ i, 0 < i → i < 64 → c i = 0) (s : Nat)
    (hs : 8 ≤ s) (r k : Nat) (hr : r < 8) (hk : k < 8) :
    TransformToPixels.caseDCT8X4 E c p s (r * s + k) = K := by
  obtain ⟨x, ix, hx, hix, rfl⟩ := split4 k hk
  rw [← Nat.add_assoc, caseDCT8X4_inside E c p s hs x r ix hx hr hix]
  have hb := block4x8_dcOnly c hc x hx
  exact hE.1 8 4 _ (hb.1.trans hc0) (fun i hi0 hi => hb.2 i hi0 (by omega)) r ix hr hix

/-- The custom-basis quadrant of `AFVTransformToPixels` on a tile whose only nonzero
coefficient is coefficient 0. -/
theorem AFV_quadrant_dcOnly (E : Externals) (hl : 0 < E.Lanes) (afv_kind : Nat)
    (hkind : afv_kind < 4) (c p : Buf) (hc : ∀ i, 0 < i → i < 64 → c i = 0) (s : Nat)
    (hs : 8 ≤ s) (iy ix : Nat) (hiy : iy < 4) (hix : ix < 4) :
    AFVTransformToPixels E afv_kind c p s
      ((iy + afv_kind / 2 * 4) * s + (afv_kind &&& 1) * 4 + ix) = c 0 := by
  rw [AFVTransformToPixels_quadrant E hl afv_kind hkind c p s hs iy ix hiy hix]
  refine AFV_coeff_sum_dcOnly c hc _ ?_
  split <;> split <;> omega

/-- `AFVTransformToPixels` on a tile whose only nonzero coefficient is coefficient 0. -/
theorem AFV_dcOnly (E : Externals) (hl : 0 < E.Lanes) (K : ℚ) (hE : ConstOnDC E K)
    (afv_kind : Nat) (hkind : afv_kind < 4) (c p : Buf) (hc0 : c 0 = K)
    (hc : ∀ i, 0 < i → i < 64 → c i = 0) (s : Nat) (hs : 8 ≤ s) (r k : Nat) (hr : r < 8)
    (hk : k < 8) : AFVTransformToPixels E afv_kind c p s (r * s + k) = K := by
  have hx : afv_kind &&& 1 < 2 := by
    rw [Nat.and_one_is_mod]; omega
  by_cases hrow : r / 4 = afv_kind / 2
  · by_cases hcol : k / 4 = afv_kind &&& 1
    · have e : r * s + k = (r % 4 + afv_kind / 2 * 4) * s + (afv_kind &&& 1) * 4 + k % 4 := by
        have h1 : r = r % 4 + afv_kind / 2 * 4 := by omega
        have h2 : k = (afv_kind &&& 1) * 4 + k % 4 := by omega
        rw [Nat.add_assoc, ← h1, ← h2]
      rw [e, AFV_quadrant_dcOnly E hl afv_kind hkind c p hc s hs (r % 4) (k % 4) (by omega)
        (by omega)]
      exact hc0
    · have e : r * s + k = (afv_kind / 2 * 4 + r % 4) * s +
          (if afv_kind &&& 1 = 1 then 0 else 4) + k % 4 := by
        have h1 : r = afv_kind / 2 * 4 + r % 4 := by omega
        have h2 : k = (if afv_kind &&& 1 = 1 then 0 else 4) + k % 4 := by
          split <;> omega
        rw [Nat.add_assoc, ← h1, ← h2]
      rw [e, AFVTransformToPixels_second E afv_kind hkind c p s hs (r % 4) (k % 4) (by omega)
        (by omega)]
      refine hE.2 4 _ ?_ (fun i hi0 hi => ?_) (r % 4) (k % 4) (by omega) (by omega)
      · have h := AFV_block2_apply E c 0 0 (by decide) (by decide)
        simp only [Nat.zero_mul, Nat.add_zero, and_self, if_true] at h
        rw [h, hc 8 (by decide) (by decide), hc 1 (by decide) (by decide), hc0]
        simp
      · have h := AFV_block2_apply E c (i / 4) (i % 4) (by omega) (by omega)
        rw [slot_decomp] at h
        rw [h, if_neg (by omega)]
        exact hc _ (by omega) (by omega)
  · have e : r * s + k = ((if afv_kind / 2 = 1 then 0 else 4) + r % 4) * s + k := by
      have h1 : r = (if afv_kind / 2 = 1 then 0 else 4) + r % 4 := by
        split <;> omega
      rw [← h1]
    rw [e, AFVTransformToPixels_third E afv_kind c p s hs (r % 4) k (by omega) hk]
    refine hE.1 4 8 _ ?_ (fun i hi0 hi => ?_) (r % 4) k (by omega) hk
    · have h := AFV_block3_apply E c 0 0 (by decide) (by decide)
      simp only [Nat.zero_mul, Nat.add_zero, and_self, if_true] at h
      rw [h, hc 8 (by decide) (by decide), hc0]
      simp
    · have h := AFV_block3_apply E c (i / 8) (i % 8) (by omega) (by omega)
      rw [slot_decomp] at h
      rw [h, if_neg (by omega)]
      exact hc _ (by omega) (by omega)

/-- `TransformToPixels` on a tile whose only nonzero coefficient is coefficient 0 `= K`,
for primitives that map the blocks with only entry 0 `= K` nonzero to the constant `K`. -/
theorem TransformToPixels_dcOnly (E : Externals) (hl : 0 < E.Lanes) (K : ℚ)
    (hE : ConstOnDC E K) (strategy : AcStrategyType)
    (hvalid : strategy ≠ AcStrategyType.kNumValidStrategies) (c pixels : Buf) (hc0 : c 0 = K)
    (hc : ∀ i, 0 < i → i < (pixelExtent strategy).1 * (pixelExtent strategy).2 → c i = 0)
    (s : Nat) (hs : (pixelExtent strategy).2 ≤ s) :
    ∃ out : Buf, TransformToPixels E strategy c pixels s = some out ∧
      ∀ r k : Nat, r < (pixelExtent strategy).1 → k < (pixelExtent strategy).2 →
        out (r * s + k) = K := by
  cases strategy <;> simp only [pixelExtent] at hc hs ⊢
  case kNumValidStrategies => exact absurd rfl hvalid
  case IDENTITY =>
    exact ⟨_, rfl, fun r k hr hk => (caseIDENTITY_dcOnly c pixels hc s hs r k hr hk).trans hc0⟩
  case DCT2X2 =>
    exact ⟨_, rfl, fun r k hr hk => (caseDCT2X2_dcOnly c pixels hc s hs r k hr hk).trans hc0⟩
  case DCT4X4 =>
    exact ⟨_, rfl, fun r k hr hk => caseDCT4X4_dcOnly E K hE c pixels hc0 hc s hs r k hr hk⟩
  case DCT4X8 =>
    exact ⟨_, rfl, fun r k hr hk => caseDCT4X8_dcOnly E K hE c pixels hc0 hc s hs r k hr hk⟩
  case DCT8X4 =>
    exact ⟨_, rfl, fun r k hr hk => caseDCT8X4_dcOnly E K hE c pixels hc0 hc s hs r k hr hk⟩
  case AFV0 =>
    exact ⟨_, rfl, fun r k hr hk =>
      AFV_dcOnly E hl K hE 0 (by decide) c pixels hc0 hc s hs r k hr hk⟩
  case AFV1 =>
    exact ⟨_, rfl, fun r k hr hk =>
      AFV_dcOnly E hl K hE 1 (by decide) c pixels hc0 hc s hs r k hr hk⟩
  case AFV2 =>
    exact ⟨_, rfl, fun r k hr hk =>
      AFV_dcOnly E hl K hE 2 (by decide) c pixels hc0 hc s hs r k hr hk⟩
  case AFV3 =>
    exact ⟨_, rfl, fun r k hr hk =>
      AFV_dcOnly E hl K hE 3 (by decide) c pixels hc0 hc s hs r k hr hk⟩
  case DCT =>
    refine ⟨_, rfl, fun r k hr hk => ?_⟩
    have h := ToLines_transposed_dcOnly E K hE 8 c pixels hc0 hc 0 s hs r k hr hk
    rw [Nat.zero_add] at h
    exact h
  case DCT16X16 =>
    refine ⟨_, rfl, fun r k hr hk => ?_⟩
    have h := ToLines_transposed_dcOnly E K hE 16 c pixels hc0 hc 0 s hs r k hr hk
    rw [Nat.zero_add] at h
    simp only [kBlockDim, Nat.reduceMul]
    exact h
  case DCT32X32 =>
    refine ⟨_, rfl, fun r k hr hk => ?_⟩
    have h := ToLines_transposed_dcOnly E K hE 32 c pixels hc0 hc 0 s hs r k hr hk
    rw [Nat.zero_add] at h
    simp only [kBlockDim, Nat.reduceMul]
    exact h
  case DCT16X8 =>
    refine ⟨_, rfl, fun r k hr hk => ?_⟩
    have h := ToLines_scaled_dcOnly E K hE 16 8 8 16
      (by simp [CoefficientRows]) (by simp [CoefficientColumns]) c pixels hc0 hc 0 s hs r k
      hr hk
    rw [Nat.zero_add] at h
    exact h
  case DCT8X16 =>
    refine ⟨_, rfl, fun r k hr hk => ?_⟩
    have h := ToLines_scaled_dcOnly E K hE 8 16 8 16
      (by simp [CoefficientRows]) (by simp [CoefficientColumns]) c pixels hc0 hc 0 s hs r k
      hr hk
    rw [Nat.zero_add] at h
    exact h
  case DCT32X8 =>
    refine ⟨_, rfl, fun r k hr hk => ?_⟩
    have h := ToLines_scaled_dcOnly E K hE 32 8 8 32
      (by simp [CoefficientRows]) (by simp [CoefficientColumns]) c pixels hc0 hc 0 s hs r k
      hr hk
    rw [Nat.zero_add] at h
    exact h
  case DCT8X32 =>
    refine ⟨_, rfl, fun r k hr hk => ?_⟩
    have h := ToLines_scaled_dcOnly E K hE 8 32 8 32
      (by simp [CoefficientRows]) (by simp [CoefficientColumns]) c pixels hc0 hc 0 s hs r k
      hr hk
    rw [Nat.zero_add] at h
    exact h
  case DCT32X16 =>
    refine ⟨_, rfl, fun r k hr hk => ?_⟩
    have h := ToLines_scaled_dcOnly E K hE 32 16 16 32
      (by simp [CoefficientRows]) (by simp [CoefficientColumns]) c pixels hc0 hc 0 s hs r k
      hr hk
    rw [Nat.zero_add] at h
    exact h
  case DCT16X32 =>
    refine ⟨_, rfl, fun r k hr hk => ?_⟩
    have h := ToLines_scaled_dcOnly E K hE 16 32 16 32
      (by simp [CoefficientRows]) (by simp [CoefficientColumns]) c pixels hc0 hc 0 s hs r k
      hr hk
    rw [Nat.zero_add] at h
    exact h

/-- The head of a non-empty window is the first sample. -/
theorem FromBlock_headD (rows cols : Nat) (b : Buf) (h : 0 < rows * cols) :
    (FromBlock rows cols b).headD 0 = b 0 := by
  unfold FromBlock
  obtain ⟨n, hn⟩ : ∃ n, rows * cols = n + 1 := ⟨rows * cols - 1, by omega⟩
  rw [hn, List.range_succ_eq_map]
  rfl

/-- The storage of a `ROWS x COLS` transform has `ROWS * COLS` coefficients. -/
theorem coefficient_shape (ROWS COLS : Nat) :
    CoefficientRows ROWS COLS * CoefficientColumns ROWS COLS = ROWS * COLS := by
  unfold CoefficientRows CoefficientColumns
  split
  · rfl
  · exact Nat.mul_comm _ _

/-- The concrete primitives return entry 0 of their block at every sample. -/
theorem constExternals_dcPreserving : DCPreserving constExternals := by
  refine ⟨fun ROWS COLS b hb r k hr hk => ?_, fun N b hb r k hr hk => ?_⟩
  · show (FromBlock _ _ b).headD 0 = b 0
    refine FromBlock_headD _ _ b ?_
    rw [coefficient_shape]
    exact Nat.mul_pos (by omega) (by omega)
  · show (FromBlock _ _ b).headD 0 = b 0
    exact FromBlock_headD _ _ b (Nat.mul_pos (by omega) (by omega))

/-- The concrete primitives map the zero block to the zero block. -/
theorem constExternals_zeroPreserving : ZeroPreserving constExternals := by
  refine ⟨fun ROWS COLS b hb r k hr hk => ?_, fun N b hb r k hr hk => ?_⟩
  · have h := constExternals_dcPreserving.1 ROWS COLS b (fun i _ hi => hb i hi) r k hr hk
    rw [h]
    exact hb 0 (Nat.mul_pos (by omega) (by omega))
  · have h := constExternals_dcPreserving.2 N b (fun i _ hi => hb i hi) r k hr hk
    rw [h]
    exact hb 0 (Nat.mul_pos (by omega) (by omega))

/-! ## The extractor on tiles with a single coefficient -/

/-- The scratch block of `ReinterpretingIDCT` for an input whose only nonzero coefficient
is coefficient 0, when the resampling factors at 0 are 1: entry 0 is that coefficient and
the other entries are zero. -/
theorem scratch_dcOnly (E : Externals) (DCT_ROWS DCT_COLS ROWS COLS : Nat)
    (hR : 0 < ROWS) (hC : 0 < COLS)
    (hscaleR : E.DCTTotalResampleScale DCT_ROWS ROWS 0 = 1)
    (hscaleC : E.DCTTotalResampleScale DCT_COLS COLS 0 = 1)
    (input : Buf) (input_stride : Nat) (hstride : input_stride = 8 * max ROWS COLS)
    (hin : ∀ i, 0 < i → i < 64 * (ROWS * COLS) → input i = 0) :
    ReinterpretingIDCT.scratch E DCT_ROWS DCT_COLS ROWS COLS ROWS COLS input input_stride 0 =
        input 0 ∧
      ∀ i, 0 < i → i < ROWS * COLS →
        ReinterpretingIDCT.scratch E DCT_ROWS DCT_COLS ROWS COLS ROWS COLS input input_stride
          i = 0 := by
  have hzero : ∀ y x : Nat, y < min ROWS COLS → x < max ROWS COLS → ¬ (y = 0 ∧ x = 0) →
      input (y * input_stride + x) = 0 := by
    intro y x hy hx hne
    refine hin _ ?_ ?_
    · rcases Nat.eq_zero_or_pos y with h | h
      · omega
      · have := Nat.mul_le_mul_right input_stride h
        omega
    · subst hstride
      have h1 : y * (8 * max ROWS COLS) ≤ (min ROWS COLS - 1) * (8 * max ROWS COLS) :=
        Nat.mul_le_mul_right _ (by omega)
      have h2 : min ROWS COLS * max ROWS COLS = ROWS * COLS := by
        rcases Nat.le_total ROWS COLS with h | h
        · rw [Nat.min_eq_left h, Nat.max_eq_right h]
        · rw [Nat.min_eq_right h, Nat.max_eq_left h, Nat.mul_comm]
      have h3 : (min ROWS COLS - 1) * (8 * max ROWS COLS) + 8 * max ROWS COLS =
          8 * (ROWS * COLS) := by
        rw [← h2]
        have hm : 0 < min ROWS COLS := by
          rcases Nat.le_total ROWS COLS with h | h
          · rw [Nat.min_eq_left h]; exact hR
          · rw [Nat.min_eq_right h]; exact hC
        obtain ⟨m, hm'⟩ : ∃ m, min ROWS COLS = m + 1 := ⟨min ROWS COLS - 1, by omega⟩
        rw [hm']
        simp only [Nat.add_sub_cancel]
        ring
      omega
  by_cases hshape : ROWS < COLS
  · have hmin : min ROWS COLS = ROWS := Nat.min_eq_left (Nat.le_of_lt hshape)
    have hmax : max ROWS COLS = COLS := Nat.max_eq_right (Nat.le_of_lt hshape)
    rw [hmin, hmax] at hzero
    constructor
    · have h := scratch_apply_wide E DCT_ROWS DCT_COLS ROWS COLS ROWS COLS input input_stride
        hshape (Nat.le_refl _) 0 0 hR hC
      simp only [Nat.zero_mul, Nat.add_zero] at h
      rw [h, hscaleR, hscaleC]
      ring
    · intro i hi0 hi
      have hdiv : i / COLS < ROWS := by
        rw [Nat.div_lt_iff_lt_mul hC]; exact hi
      have h := scratch_apply_wide E DCT_ROWS DCT_COLS ROWS COLS ROWS COLS input input_stride
        hshape (Nat.le_refl _) (i / COLS) (i % COLS) hdiv (Nat.mod_lt i hC)
      rw [slot_decomp] at h
      rw [h, hzero (i / COLS) (i % COLS) hdiv (Nat.mod_lt i hC) (fun h0 => by
        have := slot_decomp COLS i
        rw [h0.1, h0.2] at this
        omega)]
      ring
  · have hle : COLS ≤ ROWS := Nat.le_of_not_lt hshape
    have hmin : min ROWS COLS = COLS := Nat.min_eq_right hle
    have hmax : max ROWS COLS = ROWS := Nat.max_eq_left hle
    rw [hmin, hmax] at hzero
    constructor
    · have h := scratch_apply_tall E DCT_ROWS DCT_COLS ROWS COLS ROWS COLS input input_stride
        hshape (Nat.le_refl _) 0 0 hC hR
      simp only [Nat.zero_mul, Nat.add_zero] at h
      rw [h, hscaleR, hscaleC]
      ring
    · intro i hi0 hi
      have hdiv : i / ROWS < COLS := by
        rw [Nat.div_lt_iff_lt_mul hR, Nat.mul_comm]; exact hi
      have h := scratch_apply_tall E DCT_ROWS DCT_COLS ROWS COLS ROWS COLS input input_stride
        hshape (Nat.le_refl _) (i / ROWS) (i % ROWS) hdiv (Nat.mod_lt i hR)
      rw [slot_decomp] at h
      rw [h, hzero (i / ROWS) (i % ROWS) hdiv (Nat.mod_lt i hR) (fun h0 => by
        have := slot_decomp ROWS i
        rw [h0.1, h0.2] at this
        omega)]
      ring

/-- The copy-out loop of `ReinterpretingIDCT` when every entry of the transformed block is
`K`: every written output is `K`, whatever the output pitch. -/
theorem ReinterpretingIDCT_const (E : Externals)
    (DCT_ROWS DCT_COLS LF_ROWS LF_COLS ROWS COLS : Nat) (input : Buf) (input_stride : Nat)
    (output : Buf) (output_stride : Nat) (K : ℚ)
    (hK : ∀ y x, y < ROWS → x < COLS →
      ReinterpretingIDCT.transformed E DCT_ROWS DCT_COLS LF_ROWS LF_COLS ROWS COLS
        input input_stride (y * COLS + x) = K)
    (y x : Nat) (hy : y < ROWS) (hx : x < COLS) :
    ReinterpretingIDCT E DCT_ROWS DCT_COLS LF_ROWS LF_COLS ROWS COLS input input_stride
      output output_stride (y * output_stride + x) = K := by
  unfold ReinterpretingIDCT
  refine forLoop_hit (fun y' => ∃ x', x' < COLS ∧ y' * output_stride + x' =
      y * output_stride + x) (fun y' hy' hne p => ?_) (fun y' hy' heq p => ?_)
    ⟨y, hy, x, hx, rfl⟩ output
  · refine forLoop_frame (fun x' hx' q => ?_) p
    exact store_ne _ _ (fun h => hne ⟨x', hx', h.symm⟩)
  · refine forLoop_hit (fun x' => y' * output_stride + x' = y * output_stride + x)
      (fun x' hx' hne q => ?_) (fun x' hx' heq' q => ?_) ?_ p
    · exact store_ne _ _ (fun h => hne h.symm)
    · rw [← heq', store_same]
      exact hK y' x' hy' hx'
    · obtain ⟨x', hx', h⟩ := heq
      exact ⟨x', hx', h⟩

/-- `ReinterpretingIDCT` with `LF_ROWS = ROWS`, `LF_COLS = COLS` on an input whose only
nonzero coefficient is coefficient 0 `= K`: every written output is `K`. -/
theorem ReinterpretingIDCT_dcOnly (E : Externals) (hE : DCPreserving E)
    (DCT_ROWS DCT_COLS ROWS COLS : Nat) (hR : 0 < ROWS) (hC : 0 < COLS)
    (hscaleR : E.DCTTotalResampleScale DCT_ROWS ROWS 0 = 1)
    (hscaleC : E.DCTTotalResampleScale DCT_COLS COLS 0 = 1)
    (input : Buf) (input_stride : Nat) (hstride : input_stride = 8 * max ROWS COLS)
    (hin : ∀ i, 0 < i → i < 64 * (ROWS * COLS) → input i = 0)
    (output : Buf) (output_stride : Nat) (y x : Nat) (hy : y < ROWS) (hx : x < COLS) :
    ReinterpretingIDCT E DCT_ROWS DCT_COLS ROWS COLS ROWS COLS input input_stride
      output output_stride (y * output_stride + x) = input 0 := by
  have hs := scratch_dcOnly E DCT_ROWS DCT_COLS ROWS COLS hR hC hscaleR hscaleC input
    input_stride hstride hin
  refine ReinterpretingIDCT_const E _ _ _ _ _ _ input input_stride output output_stride
    (input 0) (fun y' x' hy' hx' => ?_) y x hy hx
  rw [transformed_apply E _ _ _ _ _ _ input input_stride y' x' hy' hx']
  unfold DoIDCT
  by_cases hsq : ROWS = COLS
  · rw [if_pos hsq]
    have e1 : CoefficientRows ROWS COLS = ROWS := by
      unfold CoefficientRows; rw [if_neg (by omega)]; exact hsq.symm
    have e2 : CoefficientColumns ROWS COLS = ROWS := by
      unfold CoefficientColumns; rw [if_neg (by omega)]
    rw [e1, e2]
    have h := hE.2 ROWS _ (fun i hi0 hi => hs.2 i hi0 (by rw [← hsq]; exact hi)) y' x' hy'
      (by omega)
    rw [h, hs.1]
  · rw [if_neg hsq]
    rw [hE.1 ROWS COLS _ hs.2 y' x' hy' hx', hs.1]

/-- With at least one lane the loop of `AFVIDCT4x4` ends because its condition `i < 16`
fails, not because the fuel of the model runs out: more fuel does not change the result. -/
theorem AFVIDCT4x4_loop_fuel (lanes : Nat) (hl : 0 < lanes) (coeffs : Buf) (fuel i : Nat)
    (pixels : Buf) (hfuel : 16 ≤ i + fuel) :
    AFVIDCT4x4.loop lanes coeffs (fuel + 1) i pixels =
      AFVIDCT4x4.loop lanes coeffs fuel i pixels := by
  induction fuel generalizing i pixels with
  | zero =>
    have hi : ¬ i < 16 := by omega
    simp [AFVIDCT4x4.loop, hi]
  | succ fuel ih =>
    rw [AFVIDCT4x4.loop]
    by_cases hi : i < 16
    · rw [if_pos hi, ih (i + lanes) _ (by omega)]
      conv_rhs => rw [AFVIDCT4x4.loop, if_pos hi]
    · rw [if_neg hi]
      conv_rhs => rw [AFVIDCT4x4.loop, if_neg hi]

/-! ## Invertibility of the identity transform -/

/-- Two tiles with the same identity samples in quadrant `(y, x)` have the same fifteen
coefficients `q(iy, ix)`, `(iy, ix) != (0, 0)`, of that quadrant. -/
theorem identitySample_coeff_inj (c c' : Buf) (y x : Nat)
    (h : ∀ iy ix, iy < 4 → ix < 4 → identitySample c y x iy ix = identitySample c' y x iy ix)
    (iy ix : Nat) (hiy : iy < 4) (hix : ix < 4) (hne : ¬ (ix = 0 ∧ iy = 0)) :
    c ((y + iy * 2) * 8 + x + ix * 2) = c' ((y + iy * 2) * 8 + x + ix * 2) := by
  have hc := h 1 1 (by decide) (by decide)
  simp only [identitySample, and_self, if_true, zero_add] at hc
  by_cases h11 : ix = 1 ∧ iy = 1
  · obtain ⟨h1, h2⟩ := h11
    subst h1 h2
    have h0 := h 0 0 (by decide) (by decide)
    simp only [identitySample, and_self, if_true] at h0
    rw [if_neg (by decide), if_neg (by decide)] at h0
    have e : (y + 1 * 2) * 8 + x + 1 * 2 = (y + 2) * 8 + x + 2 := by ring
    rw [e]
    linarith
  · have hq := h iy ix hiy hix
    simp only [identitySample, if_neg h11, if_neg hne] at hq
    linarith

/-- Two tiles with the same identity samples in quadrant `(y, x)` have the same
Hadamard-derived value for that quadrant. -/
theorem identitySample_dc_inj (c c' : Buf) (y x : Nat)
    (h : ∀ iy ix, iy < 4 → ix < 4 → identitySample c y x iy ix = identitySample c' y x iy ix) :
    TransformToPixels.dcs4 c (y * 2 + x) = TransformToPixels.dcs4 c' (y * 2 + x) := by
  have hc := h 1 1 (by decide) (by decide)
  simp only [identitySample, and_self, if_true, zero_add] at hc
  have hR : TransformToPixels.residual_sum c y x = TransformToPixels.residual_sum c' y x := by
    rw [residual_sum_eq, residual_sum_eq]
    refine Finset.sum_congr rfl (fun iy hiy => Finset.sum_congr rfl (fun ix hix => ?_))
    have h1 := Finset.mem_range.mp hiy
    have h2 := Finset.mem_range.mp hix
    split
    · rfl
    · rename_i hne
      have hne' : ¬ (ix = 0 ∧ iy = 0) := fun h0 => hne (by rw [h0.1, h0.2])
      have := identitySample_coeff_inj c c' y x h iy ix h1 h2 hne'
      have e : (y + 2 * iy) * 8 + x + 2 * ix = (y + iy * 2) * 8 + x + ix * 2 := by ring
      rw [e, this]
  rw [hR] at hc
  linarith

/-- Two tiles with the same 64 identity samples have the same 64 coefficients. -/
theorem identitySample_inj (c c' : Buf)
    (h : ∀ y x iy ix, y < 2 → x < 2 → iy < 4 → ix < 4 →
      identitySample c y x iy ix = identitySample c' y x iy ix)
    (i : Nat) (hi : i < 64) : c i = c' i := by
  have hd : ∀ y x, y < 2 → x < 2 →
      TransformToPixels.dcs4 c (y * 2 + x) = TransformToPixels.dcs4 c' (y * 2 + x) :=
    fun y x hy hx => identitySample_dc_inj c c' y x (fun iy ix hiy hix => h y x iy ix hy hx hiy hix)
  have d0 := hd 0 0 (by decide) (by decide)
  have d1 := hd 0 1 (by decide) (by decide)
  have d2 := hd 1 0 (by decide) (by decide)
  have d3 := hd 1 1 (by decide) (by decide)
  rw [dcs4_apply c 0 0 (by decide) (by decide), dcs4_apply c' 0 0 (by decide) (by decide)] at d0
  rw [dcs4_apply c 0 1 (by decide) (by decide), dcs4_apply c' 0 1 (by decide) (by decide)] at d1
  rw [dcs4_apply c 1 0 (by decide) (by decide), dcs4_apply c' 1 0 (by decide) (by decide)] at d2
  rw [dcs4_apply c 1 1 (by decide) (by decide), dcs4_apply c' 1 1 (by decide) (by decide)] at d3
  simp only [if_true, one_ne_zero, if_false] at d0 d1 d2 d3
  by_cases hq : i / 8 / 2 = 0 ∧ i % 8 / 2 = 0
  · have hcases : i = 0 ∨ i = 1 ∨ i = 8 ∨ i = 9 := by omega
    rcases hcases with h0 | h0 | h0 | h0 <;> subst h0 <;> linarith
  · have key := identitySample_coeff_inj c c' (i / 8 % 2) (i % 8 % 2)
      (fun iy ix hiy hix => h _ _ iy ix (by omega) (by omega) hiy hix)
      (i / 8 / 2) (i % 8 / 2) (by omega) (by omega) (fun h0 => hq ⟨h0.2, h0.1⟩)
    have e : (i / 8 % 2 + i / 8 / 2 * 2) * 8 + i % 8 % 2 + i % 8 / 2 * 2 = i := by omega
    rw [e] at key
    exact key

/-! ## Vector width of `AFVIDCT4x4` -/

/-- The loop of `AFVIDCT4x4` is its version with open stores, run with the store of the
buffer model. -/
theorem AFVIDCT4x4_loop_eq_loopWith (lanes : Nat) (coeffs : Buf) (fuel i : Nat) (pixels : Buf) :
    AFVIDCT4x4.loop lanes coeffs fuel i pixels =
      AFVIDCT4x4.loopWith store lanes coeffs fuel i pixels := by
  induction fuel generalizing i pixels with
  | zero => rfl
  | succ fuel ih =>
    rw [AFVIDCT4x4.loop, AFVIDCT4x4.loopWith]
    split
    · exact ih _ _
    · rfl

/-- When the vector width divides 16 the loop of `AFVIDCT4x4`, started at a multiple of the
width, stores nothing at offset 16 or beyond. -/
theorem AFVIDCT4x4_loop_above (lanes : Nat)
    (hstep : ∀ i, i % lanes = 0 → i < 16 → i + lanes ≤ 16) (coeffs : Buf) (fuel i : Nat)
    (pixels : Buf) (hi : i % lanes = 0) (m : Nat) (hm : 16 ≤ m) :
    AFVIDCT4x4.loop lanes coeffs fuel i pixels m = pixels m := by
  induction fuel generalizing i pixels with
  | zero => rfl
  | succ fuel ih =>
    rw [AFVIDCT4x4.loop]
    split
    · rename_i hlt
      have := hstep i hi hlt
      rw [ih (i + lanes) _ (by rw [Nat.add_mod_right]; exact hi), storeLanes_apply,
        if_neg (by omega)]
    · rfl

/-! ## Averages -/

/-- The sum over an 8x8 block, quadrant by quadrant. -/
theorem sum8x8_quadrants (f : Nat → Nat → ℚ) :
    ∑ r in Finset.range 8, ∑ k in Finset.range 8, f r k =
      ∑ y in Finset.range 2, ∑ x in Finset.range 2,
        ∑ iy in Finset.range 4, ∑ ix in Finset.range 4, f (y * 4 + iy) (x * 4 + ix) := by
  simp [Finset.sum_range_succ]
  ring

/-- The 16 identity samples of quadrant `(y, x)` sum to 16 times the Hadamard-derived value
of the quadrant. -/
theorem identitySample_quadrant_sum (c : Buf) (y x : Nat) :
    ∑ iy in Finset.range 4, ∑ ix in Finset.range 4, identitySample c y x iy ix =
      16 * TransformToPixels.dcs4 c (y * 2 + x) := by
  simp [identitySample, Finset.sum_range_succ, TransformToPixels.residual_sum, forLoop]
  ring

/-- The four Hadamard-derived values sum to four times coefficient 0. -/
theorem dcs4_sum (c : Buf) :
    ∑ y in Finset.range 2, ∑ x in Finset.range 2, TransformToPixels.dcs4 c (y * 2 + x) =
      4 * c 0 := by
  simp [Finset.sum_range_succ, TransformToPixels.dcs4, store]
  ring

/-- The outputs of the pass `P_2` sum to four times the entry it reads first. -/
theorem butterflyPass2_sum (b : Buf) :
    ∑ r in Finset.range 2, ∑ k in Finset.range 2, butterflyPass 2 b (r * 8 + k) = 4 * b 0 := by
  simp [Finset.sum_range_succ, butterflyPass]
  ring

/-- The outputs of the pass `P_4` sum to four times the top-left 2x2 entries it reads. -/
theorem butterflyPass4_sum (b : Buf) :
    ∑ r in Finset.range 4, ∑ k in Finset.range 4, butterflyPass 4 b (r * 8 + k) =
      4 * ∑ r in Finset.range 2, ∑ k in Finset.range 2, b (r * 8 + k) := by
  simp [Finset.sum_range_succ, butterflyPass]
  ring

/-- The outputs of the pass `P_8` sum to four times the top-left 4x4 entries it reads. -/
theorem butterflyPass8_sum (b : Buf) :
    ∑ r in Finset.range 8, ∑ k in Finset.range 8, butterflyPass 8 b (r * 8 + k) =
      4 * ∑ r in Finset.range 4, ∑ k in Finset.range 4, b (r * 8 + k) := by
  simp [Finset.sum_range_succ, butterflyPass]
  ring

/-! ## The palette transform: integer conversions and channel vectors -/

theorem asInt_of_lt {u : Nat} (h : u < 2 ^ 31) : asInt u = (u : Int) := by
  unfold asInt
  have h1 : u % 2 ^ 32 = u := Nat.mod_eq_of_lt (by omega)
  rw [h1, if_pos h]

theorem asSizeT_natCast {n : Nat} (h : n < 2 ^ 64) : asSizeT (n : Int) = n := by
  unfold asSizeT
  omega

theorem CheckPaletteParams_ok {image : Image} {begin_c end_c : Nat}
    (hb : begin_c < 2 ^ 32) (he : end_c < 2 ^ 32)
    (h : CheckPaletteParams image begin_c end_c = Status.ok) :
    begin_c ≤ end_c ∧ end_c < image.channel.length ∧ end_c < 2 ^ 31 := by
  unfold CheckPaletteParams at h
  simp only at h
  split at h
  · exact absurd h (by simp)
  · rename_i hc
    unfold asInt asSizeT at hc
    have h1 : begin_c % 2 ^ 32 = begin_c := Nat.mod_eq_of_lt hb
    have h2 : end_c % 2 ^ 32 = end_c := Nat.mod_eq_of_lt he
    rw [h1, h2] at hc
    split_ifs at hc <;> omega

theorem chan_set (l : List Channel) (c c' : Nat) (v : Channel) :
    chan (l.set c v) c' = if c' = c ∧ c < l.length then v else chan l c' := by
  unfold chan
  rw [List.getD_eq_getElem?_getD, List.getD_eq_getElem?_getD, List.getElem?_set]
  by_cases h : c = c'
  · subst h
    by_cases hl : c < l.length
    · simp [hl]
    · simp [hl, List.getElem?_eq_none (Nat.le_of_not_lt hl)]
  · have h' : ¬ c' = c := fun e => h e.symm
    simp [h, h']

theorem length_setPixel (l : List Channel) (c y x : Nat) (v : Int) :
    (setPixel l c y x v).length = l.length := by
  simp [setPixel]

theorem chan_setPixel (l : List Channel) (c y x : Nat) (v : Int) (c' : Nat) :
    chan (setPixel l c y x v) c' =
      if c' = c ∧ c < l.length then (chan l c).setPx y x v else chan l c' := by
  unfold setPixel
  rw [chan_set]

theorem chan_setPixel_ne (l : List Channel) {c c' : Nat} (y x : Nat) (v : Int) (h : c' ≠ c) :
    chan (setPixel l c y x v) c' = chan l c' := by
  rw [chan_setPixel, if_neg (fun hh => h hh.1)]

theorem setPx_plane (ch : Channel) (y x : Nat) (v : Int) (y' x' : Nat) :
    (ch.setPx y x v).plane y' x' = if y' = y ∧ x' = x then v else ch.plane y' x' := rfl

theorem setPx_w (ch : Channel) (y x : Nat) (v : Int) : (ch.setPx y x v).w = ch.w := rfl

theorem setPx_h (ch : Channel) (y x : Nat) (v : Int) : (ch.setPx y x v).h = ch.h := rfl

/-- The sample at `(y', x')` of channel `c'` after the assignment to `(y, x)` of channel
`c`. -/
theorem plane_setPixel (l : List Channel) (c y x : Nat) (v : Int) (c' y' x' : Nat) :
    (chan (setPixel l c y x v) c').plane y' x' =
      if c' = c ∧ c < l.length ∧ y' = y ∧ x' = x then v else (chan l c').plane y' x' := by
  rw [chan_setPixel]
  by_cases h : c' = c ∧ c < l.length
  · rw [if_pos h, setPx_plane]
    obtain ⟨h1, h2⟩ := h
    subst h1
    by_cases h3 : y' = y ∧ x' = x
    · rw [if_pos h3, if_pos ⟨rfl, h2, h3.1, h3.2⟩]
    · rw [if_neg h3, if_neg (fun hh => h3 ⟨hh.2.2.1, hh.2.2.2⟩)]
  · rw [if_neg h, if_neg (fun hh => h ⟨hh.1, hh.2.1⟩)]

theorem w_setPixel (l : List Channel) (c y x : Nat) (v : Int) (c' : Nat) :
    (chan (setPixel l c y x v) c').w = (chan l c').w := by
  rw [chan_setPixel]
  split
  · rename_i h
    rw [setPx_w, h.1]
  · rfl

theorem h_setPixel (l : List Channel) (c y x : Nat) (v : Int) (c' : Nat) :
    (chan (setPixel l c y x v) c').h = (chan l c').h := by
  rw [chan_setPixel]
  split
  · rename_i h
    rw [setPx_h, h.1]
  · rfl

/-- A loop over the pixels in which the iteration of a pixel is the only one to change what
is observed of that pixel: the observation after the loop is the one after the iteration of
the pixel, run in a state that shows the initial observation. -/
theorem forLoop2_pixel {σ β : Type} (I : σ → Prop) (obs : σ → β) (F : Nat → Nat → σ → σ)
    (y0 x0 : Nat) {rows cols : Nat}
    (hI : ∀ y x s, y < rows → x < cols → I s → I (F y x s))
    (hframe : ∀ y x s, y < rows → x < cols → I s → ¬ (y = y0 ∧ x = x0) →
      obs (F y x s) = obs s)
    (hy : y0 < rows) (hx : x0 < cols) (s0 : σ) (h0 : I s0) :
    ∃ s, I s ∧ obs s = obs s0 ∧
      obs (forLoop rows (fun y s => forLoop cols (fun x s => F y x s) s) s0) = obs (F y0 x0 s) := by
  -- the inner loop, over a row other than `y0` or before column `x0`
  have inner_frame : ∀ y, y < rows → ∀ n, n ≤ cols → (y ≠ y0 ∨ n ≤ x0) → ∀ s, I s →
      I (forLoop n (fun x s => F y x s) s) ∧
        obs (forLoop n (fun x s => F y x s) s) = obs s := by
    intro y hyr n
    induction n with
    | zero => intro _ _ s hs; exact ⟨hs, rfl⟩
    | succ n ih =>
      intro hn hne s hs
      have hprev := ih (by omega) (by omega) s hs
      rw [forLoop_succ]
      refine ⟨hI y n _ hyr (by omega) hprev.1, ?_⟩
      rw [hframe y n _ hyr (by omega) hprev.1 (by omega)]
      exact hprev.2
  -- the inner loop over row `y0`, past column `x0`
  have inner_hit : ∀ n, n ≤ cols → x0 < n → ∀ s, I s →
      I (forLoop n (fun x s => F y0 x s) s) ∧
        ∃ s', I s' ∧ obs s' = obs s ∧
          obs (forLoop n (fun x s => F y0 x s) s) = obs (F y0 x0 s') := by
    intro n
    induction n with
    | zero => intro _ h; omega
    | succ n ih =>
      intro hn hlt s hs
      rw [forLoop_succ]
      by_cases hxn : x0 = n
      · subst hxn
        have hprev := inner_frame y0 hy x0 (by omega) (Or.inr (Nat.le_refl _)) s hs
        exact ⟨hI y0 x0 _ hy hx hprev.1, _, hprev.1, hprev.2, rfl⟩
      · have hprev := ih (by omega) (by omega) s hs
        obtain ⟨hi, s', hs', hobs, heq⟩ := hprev
        refine ⟨hI y0 n _ hy (by omega) hi, s', hs', hobs, ?_⟩
        rw [hframe y0 n _ hy (by omega) hi (by omega)]
        exact heq
  -- the outer loop
  have outer_frame : ∀ m, m ≤ rows → m ≤ y0 →
      I (forLoop m (fun y s => forLoop cols (fun x s => F y x s) s) s0) ∧
        obs (forLoop m (fun y s => forLoop cols (fun x s => F y x s) s) s0) = obs s0 := by
    intro m
    induction m with
    | zero => intro _ _; exact ⟨h0, rfl⟩
    | succ m ih =>
      intro hm hle
      have hprev := ih (by omega) (by omega)
      rw [forLoop_succ]
      have := inner_frame m (by omega) cols (Nat.le_refl _) (Or.inl (by omega)) _ hprev.1
      exact ⟨this.1, this.2.trans hprev.2⟩
  have outer_hit : ∀ m, m ≤ rows → y0 < m →
      I (forLoop m (fun y s => forLoop cols (fun x s => F y x s) s) s0) ∧
        ∃ s', I s' ∧ obs s' = obs s0 ∧
          obs (forLoop m (fun y s => forLoop cols (fun x s => F y x s) s) s0) =
            obs (F y0 x0 s') := by
    intro m
    induction m with
    | zero => intro _ h; omega
    | succ m ih =>
      intro hm hlt
      rw [forLoop_succ]
      by_cases hym : y0 = m
      · subst hym
        have hprev := outer_frame y0 (by omega) (Nat.le_refl _)
        obtain ⟨hi, s', hs', hobs, heq⟩ := inner_hit cols (Nat.le_refl _) hx _ hprev.1
        exact ⟨hi, s', hs', hobs.trans hprev.2, heq⟩
      · obtain ⟨hi, s', hs', hobs, heq⟩ := ih (by omega) (by omega)
        have := inner_frame m (by omega) cols (Nat.le_refl _) (Or.inl (by omega)) _ hi
        exact ⟨this.1, s', hs', hobs, this.2.trans heq⟩
  obtain ⟨_, s', hs', hobs, heq⟩ := outer_hit rows (Nat.le_refl _) hy
  exact ⟨s', hs', hobs, heq⟩

/-- An invariant of every iteration is an invariant of a loop over the pixels. -/
theorem forLoop2_preserves {σ : Type} (I : σ → Prop) {rows cols : Nat} {F : Nat → Nat → σ → σ}
    (hI : ∀ y x s, y < rows → x < cols → I s → I (F y x s)) {s0 : σ} (h0 : I s0) :
    I (forLoop rows (fun y s => forLoop cols (fun x s => F y x s) s) s0) :=
  forLoop_preserves I (fun y hy _ hs => forLoop_preserves I (fun x hx s hs' => hI y x s hy hx hs') hs)
    h0

/-! ## The palette transform: collecting the colours -/

theorem mem_setInsert (c c' : List Int) (l : List (List Int)) :
    c' ∈ FwdPalette.setInsert c l ↔ c' = c ∨ c' ∈ l := by
  induction l with
  | nil => simp [FwdPalette.setInsert]
  | cons p rest ih =>
    unfold FwdPalette.setInsert
    split_ifs with h1 h2
    · subst h1
      simp
    · simp
    · simp only [List.mem_cons, ih]
      tauto

theorem pairwise_setInsert (c : List Int) {l : List (List Int)}
    (hs : l.Pairwise (fun a b => a < b)) :
    (FwdPalette.setInsert c l).Pairwise (fun a b => a < b) := by
  induction l with
  | nil => simp [FwdPalette.setInsert]
  | cons p rest ih =>
    rw [List.pairwise_cons] at hs
    unfold FwdPalette.setInsert
    split_ifs with h1 h2
    · exact List.pairwise_cons.mpr hs
    · refine List.pairwise_cons.mpr ⟨fun q hq => ?_, List.pairwise_cons.mpr hs⟩
      rcases List.mem_cons.mp hq with rfl | hq
      · exact h2
      · exact lt_trans h2 (hs.1 q hq)
    · refine List.pairwise_cons.mpr ⟨fun q hq => ?_, ih hs.2⟩
      rcases (mem_setInsert c q rest).mp hq with rfl | hq
      · exact lt_of_le_of_ne (not_lt.mp h2) (Ne.symm h1)
      · exact hs.1 q hq

theorem length_setInsert (c : List Int) {l : List (List Int)}
    (hs : l.Pairwise (fun a b => a < b)) :
    (FwdPalette.setInsert c l).length = if c ∈ l then l.length else l.length + 1 := by
  induction l with
  | nil => simp [FwdPalette.setInsert]
  | cons p rest ih =>
    rw [List.pairwise_cons] at hs
    unfold FwdPalette.setInsert
    by_cases h1 : c = p
    · subst h1
      simp
    · rw [if_neg h1]
      by_cases h2 : c < p
      · rw [if_pos h2]
        have hn : c ∉ p :: rest := by
          intro hc
          rcases List.mem_cons.mp hc with rfl | hc
          · exact h1 rfl
          · exact lt_irrefl c (lt_trans h2 (hs.1 c hc))
        rw [if_neg hn]
        rfl
      · rw [if_neg h2]
        have hiff : c ∈ p :: rest ↔ c ∈ rest := by
          simp [h1]
        rw [List.length_cons, ih hs.2]
        by_cases hc : c ∈ rest
        · rw [if_pos hc, if_pos (hiff.mpr hc)]
          rfl
        · rw [if_neg hc, if_neg (fun h => hc (hiff.mp h))]
          rfl

theorem scanPixel_returned (channel : List Channel) (begin_c nb nb_colors y x : Nat)
    (s : FwdPalette.Scan) (h : s.returned = true) :
    FwdPalette.scanPixel channel begin_c nb nb_colors y x s = s := by
  simp [FwdPalette.scanPixel, h]

theorem scanPixel_candidate_palette (channel : List Channel) (begin_c nb nb_colors y x : Nat)
    (s : FwdPalette.Scan) (h : s.returned = false) :
    (FwdPalette.scanPixel channel begin_c nb nb_colors y x s).candidate_palette =
      FwdPalette.setInsert (colorAt channel begin_c nb y x) s.candidate_palette := by
  simp [FwdPalette.scanPixel, h, colorAt]

theorem scanPixel_imageorder (channel : List Channel) (begin_c nb nb_colors y x : Nat)
    (s : FwdPalette.Scan) (h : s.returned = false) :
    (FwdPalette.scanPixel channel begin_c nb nb_colors y x s).candidate_palette_imageorder =
      if (FwdPalette.setInsert (colorAt channel begin_c nb y x) s.candidate_palette).length >
          s.count then
        s.candidate_palette_imageorder ++ [colorAt channel begin_c nb y x]
      else s.candidate_palette_imageorder := by
  simp [FwdPalette.scanPixel, h, colorAt]

theorem scanPixel_count (channel : List Channel) (begin_c nb nb_colors y x : Nat)
    (s : FwdPalette.Scan) (h : s.returned = false) :
    (FwdPalette.scanPixel channel begin_c nb nb_colors y x s).count =
      if (FwdPalette.setInsert (colorAt channel begin_c nb y x) s.candidate_palette).length >
          s.count then s.count + 1 else s.count := by
  simp [FwdPalette.scanPixel, h, colorAt]

theorem scanPixel_returned_eq (channel : List Channel) (begin_c nb nb_colors y x : Nat)
    (s : FwdPalette.Scan) (h : s.returned = false) :
    (FwdPalette.scanPixel channel begin_c nb nb_colors y x s).returned =
      decide ((FwdPalette.setInsert (colorAt channel begin_c nb y x)
        s.candidate_palette).length % 2 ^ 32 > nb_colors) := by
  simp [FwdPalette.scanPixel, h, colorAt, asUInt32]

theorem mem_distinctColors {channel : List Channel} {begin_c nb w h : Nat} {c : List Int} :
    c ∈ distinctColors channel begin_c nb w h ↔
      ∃ y x, y < h ∧ x < w ∧ c = colorAt channel begin_c nb y x := by
  unfold distinctColors
  simp only [Finset.mem_image, Finset.mem_product, Finset.mem_range, Prod.exists]
  constructor
  · rintro ⟨y, x, ⟨hy, hx⟩, rfl⟩
    exact ⟨y, x, hy, hx, rfl⟩
  · rintro ⟨y, x, hy, hx, rfl⟩
    exact ⟨y, x, ⟨hy, hx⟩, rfl⟩

/-- A duplicate-free list of colours of pixels is no longer than the number of different
colours. -/
theorem length_le_distinctColors {channel : List Channel} {begin_c nb w h : Nat}
    {l : List (List Int)} (hnd : l.Nodup)
    (hsub : ∀ c ∈ l, ∃ y x, y < h ∧ x < w ∧ c = colorAt channel begin_c nb y x) :
    l.length ≤ (distinctColors channel begin_c nb w h).card := by
  rw [← List.toFinset_card_of_nodup hnd]
  refine Finset.card_le_card (fun c hc => ?_)
  rw [mem_distinctColors]
  exact hsub c (List.mem_toFinset.mp hc)

/-- One iteration of the colour collecting loop that does not return. -/
theorem scanPixel_step {channel : List Channel} {begin_c nb nb_colors w h y x : Nat}
    (hnc : nb_colors + 1 < 2 ^ 32 ∨ (distinctColors channel begin_c nb w h).card < 2 ^ 32)
    (hy : y < h) (hx : x < w) {s : FwdPalette.Scan}
    (hret : (FwdPalette.scanPixel channel begin_c nb nb_colors y x s).returned = false) :
    s.returned = false ∧
    (ScanInv channel begin_c nb nb_colors w h s →
      ScanInv channel begin_c nb nb_colors w h
          (FwdPalette.scanPixel channel begin_c nb nb_colors y x s) ∧
        (∀ c ∈ s.candidate_palette,
          c ∈ (FwdPalette.scanPixel channel begin_c nb nb_colors y x s).candidate_palette) ∧
        colorAt channel begin_c nb y x ∈
          (FwdPalette.scanPixel channel begin_c nb nb_colors y x s).candidate_palette) := by
  have hs : s.returned = false := by
    by_contra hne
    have ht : s.returned = true := by simpa using hne
    rw [scanPixel_returned _ _ _ _ _ _ _ ht] at hret
    exact hne hret
  refine ⟨hs, ?_⟩
  rintro ⟨h1, h2, h3, h4, h5, h6⟩
  rw [scanPixel_returned_eq _ _ _ _ _ _ _ hs, decide_eq_false_iff_not] at hret
  unfold ScanInv
  rw [scanPixel_candidate_palette _ _ _ _ _ _ _ hs, scanPixel_imageorder _ _ _ _ _ _ _ hs,
    scanPixel_count _ _ _ _ _ _ _ hs]
  have hlen := length_setInsert (colorAt channel begin_c nb y x) h6
  have hsorted := pairwise_setInsert (colorAt channel begin_c nb y x) h6
  have hlt32 : (FwdPalette.setInsert (colorAt channel begin_c nb y x)
      s.candidate_palette).length < 2 ^ 32 := by
    rcases hnc with hb | hb
    · split_ifs at hlen <;> omega
    · refine lt_of_le_of_lt (length_le_distinctColors
        (hsorted.imp (fun hab => ne_of_lt hab)) (fun c hc => ?_)) hb
      rcases (mem_setInsert _ _ _).mp hc with rfl | hc
      · exact ⟨y, x, hy, hx, rfl⟩
      · exact h5 c (h3 c hc)
  by_cases hm : colorAt channel begin_c nb y x ∈ s.candidate_palette
  · rw [if_pos hm] at hlen
    have hg : ¬ (FwdPalette.setInsert (colorAt channel begin_c nb y x)
        s.candidate_palette).length > s.count := by omega
    rw [if_neg hg, if_neg hg]
    refine ⟨⟨by omega, h2, ?_, by omega, h5, hsorted⟩, ?_, ?_⟩
    · intro c hc
      rw [mem_setInsert] at hc
      rcases hc with rfl | hc
      · exact h3 _ hm
      · exact h3 c hc
    · intro c hc
      rw [mem_setInsert]
      exact Or.inr hc
    · rw [mem_setInsert]
      exact Or.inl rfl
  · rw [if_neg hm] at hlen
    have hg : (FwdPalette.setInsert (colorAt channel begin_c nb y x)
        s.candidate_palette).length > s.count := by omega
    rw [if_pos hg, if_pos hg]
    refine ⟨⟨by omega, by simp; omega, ?_, by omega, ?_, hsorted⟩, ?_, ?_⟩
    · intro c hc
      rw [mem_setInsert] at hc
      rcases hc with rfl | hc
      · simp
      · exact List.mem_append_left _ (h3 c hc)
    · intro c hc
      rcases List.mem_append.mp hc with hc | hc
      · exact h5 c hc
      · refine ⟨y, x, hy, hx, ?_⟩
        simpa using hc
    · intro c hc
      rw [mem_setInsert]
      exact Or.inr hc
    · rw [mem_setInsert]
      exact Or.inl rfl

theorem ScanInv_init (channel : List Channel) (begin_c nb nb_colors w h : Nat) :
    ScanInv channel begin_c nb nb_colors w h
      { candidate_palette := [], candidate_palette_imageorder := [], count := 0,
        returned := false } := by
  simp [ScanInv]

/-- The colour collecting loop, when it does not return: the invariant holds of its result
and the colour of every pixel is in the set. -/
theorem scan_spec {channel : List Channel} {begin_c nb nb_colors w h : Nat}
    (hnc : nb_colors + 1 < 2 ^ 32 ∨ (distinctColors channel begin_c nb w h).card < 2 ^ 32)
    (hret : (FwdPalette.scan channel begin_c nb nb_colors w h).returned = false) :
    ScanInv channel begin_c nb nb_colors w h (FwdPalette.scan channel begin_c nb nb_colors w h) ∧
      ∀ y x, y < h → x < w → colorAt channel begin_c nb y x ∈
        (FwdPalette.scan channel begin_c nb nb_colors w h).candidate_palette := by
  have inner : ∀ y, y < h → ∀ n, n ≤ w → ∀ s,
      (forLoop n (fun x s => FwdPalette.scanPixel channel begin_c nb nb_colors y x s)
        s).returned = false →
      s.returned = false ∧ (ScanInv channel begin_c nb nb_colors w h s →
        ScanInv channel begin_c nb nb_colors w h
            (forLoop n (fun x s => FwdPalette.scanPixel channel begin_c nb nb_colors y x s) s) ∧
          (∀ c ∈ s.candidate_palette, c ∈ (forLoop n (fun x s =>
            FwdPalette.scanPixel channel begin_c nb nb_colors y x s) s).candidate_palette) ∧
          ∀ x, x < n → colorAt channel begin_c nb y x ∈ (forLoop n (fun x s =>
            FwdPalette.scanPixel channel begin_c nb nb_colors y x s) s).candidate_palette) := by
    intro y hy n
    induction n with
    | zero =>
      intro _ s hr
      exact ⟨hr, fun hi => ⟨hi, fun c hc => hc, fun x hx => absurd hx (Nat.not_lt_zero x)⟩⟩
    | succ n ih =>
      intro hn s hr
      rw [forLoop_succ] at hr ⊢
      obtain ⟨hr1, hstep⟩ := scanPixel_step (w := w) (h := h) hnc hy (show n < w by omega) hr
      obtain ⟨hr0, hprev⟩ := ih (by omega) s hr1
      refine ⟨hr0, fun hi => ?_⟩
      obtain ⟨hi1, hsub1, hpix1⟩ := hprev hi
      obtain ⟨hi2, hsub2, hpix2⟩ := hstep hi1
      refine ⟨hi2, fun c hc => hsub2 c (hsub1 c hc), fun x hx => ?_⟩
      by_cases hxn : x = n
      · subst hxn; exact hpix2
      · exact hsub2 _ (hpix1 x (by omega))
  have outer : ∀ m, m ≤ h →
      (forLoop m (fun y s => forLoop w (fun x s =>
        FwdPalette.scanPixel channel begin_c nb nb_colors y x s) s)
        { candidate_palette := [], candidate_palette_imageorder := [], count := 0,
          returned := false }).returned = false →
      ScanInv channel begin_c nb nb_colors w h
        (forLoop m (fun y s => forLoop w (fun x s =>
          FwdPalette.scanPixel channel begin_c nb nb_colors y x s) s)
          { candidate_palette := [], candidate_palette_imageorder := [], count := 0,
            returned := false }) ∧
      ∀ y x, y < m → x < w → colorAt channel begin_c nb y x ∈
        (forLoop m (fun y s => forLoop w (fun x s =>
          FwdPalette.scanPixel channel begin_c nb nb_colors y x s) s)
          { candidate_palette := [], candidate_palette_imageorder := [], count := 0,
            returned := false }).candidate_palette := by
    intro m
    induction m with
    | zero =>
      intro _ _
      exact ⟨ScanInv_init _ _ _ _ _ _, fun y x hy => absurd hy (Nat.not_lt_zero y)⟩
    | succ m ih =>
      intro hm hr
      rw [forLoop_succ] at hr ⊢
      obtain ⟨hr0, hrow⟩ := inner m (by omega) w (Nat.le_refl _) _ hr
      obtain ⟨hi, hpix⟩ := ih (by omega) hr0
      obtain ⟨hi1, hsub1, hpix1⟩ := hrow hi
      refine ⟨hi1, fun y x hy hx => ?_⟩
      by_cases hym : y = m
      · subst hym; exact hpix1 x hx
      · exact hsub1 _ (hpix y x (by omega) hx)
  exact outer h (Nat.le_refl _) hret

/-! ## The palette transform: filling the palette -/

theorem fill_column (x : Nat) (v : Nat → Int) (n : Nat) (p : Channel) :
    (forLoop n (fun i pch => pch.setPx i x (v i)) p).w = p.w ∧
    (forLoop n (fun i pch => pch.setPx i x (v i)) p).h = p.h ∧
    ∀ c i, (forLoop n (fun i pch => pch.setPx i x (v i)) p).plane c i =
      if c < n ∧ i = x then v c else p.plane c i := by
  induction n with
  | zero => simp [forLoop]
  | succ n ih =>
    rw [forLoop_succ]
    obtain ⟨hw, hh, hp⟩ := ih
    refine ⟨by rw [setPx_w, hw], by rw [setPx_h, hh], fun c i => ?_⟩
    rw [setPx_plane, hp]
    by_cases h1 : c = n ∧ i = x
    · rw [if_pos h1, if_pos ⟨by omega, h1.2⟩, h1.1]
    · rw [if_neg h1]
      by_cases h2 : c < n ∧ i = x
      · rw [if_pos h2, if_pos ⟨by omega, h2.2⟩]
      · rw [if_neg h2, if_neg (by omega)]

theorem fill_append (nb : Nat) (minval : Int) (L n : Nat) (colors : List (List Int))
    (pcol : List Int) :
    FwdPalette.fill nb minval L n (colors ++ [pcol]) =
      FwdPalette.fillColor nb minval (FwdPalette.fill nb minval L n colors) pcol := by
  simp [FwdPalette.fill, List.foldl_append]

/-- The palette after the filling loop: column `i` holds colour `i`, and (for a single
channel) the entry of `lookup` of a colour is the column of a colour with the same entry. -/
theorem fill_spec (nb : Nat) (minval : Int) (L n : Nat) (colors : List (List Int)) :
    (FwdPalette.fill nb minval L n colors).x = colors.length ∧
    (FwdPalette.fill nb minval L n colors).pch.w = n ∧
    (FwdPalette.fill nb minval L n colors).pch.h = nb ∧
    (∀ i c, i < colors.length → c < nb →
      (FwdPalette.fill nb minval L n colors).pch.plane c i = (colors.getD i []).getD c 0) ∧
    (nb = 1 → (FwdPalette.fill nb minval L n colors).lookup.length =
      L) ∧
    (nb = 1 → ∀ i, i < colors.length →
      asSizeT ((colors.getD i []).getD 0 0 - minval) < L →
      ∃ j, j < colors.length ∧
        (FwdPalette.fill nb minval L n colors).lookup.getD
          (asSizeT ((colors.getD i []).getD 0 0 - minval)) 0 = (j : Int) ∧
        asSizeT ((colors.getD j []).getD 0 0 - minval) =
          asSizeT ((colors.getD i []).getD 0 0 - minval)) := by
  induction colors using List.reverseRecOn with
  | nil =>
    refine ⟨rfl, rfl, rfl, fun i c hi => absurd hi (Nat.not_lt_zero i), fun h1 => ?_,
      fun _ i hi => absurd hi (Nat.not_lt_zero i)⟩
    simp [FwdPalette.fill]
  | append_singleton colors pcol ih =>
    obtain ⟨hx, hw, hh, hp, hl, hk⟩ := ih
    rw [fill_append]
    have hcol := fill_column (FwdPalette.fill nb minval L n colors).x
      (fun i => pcol.getD i 0) nb (FwdPalette.fill nb minval L n colors).pch
    have hget : ∀ i, i < colors.length → (colors ++ [pcol]).getD i [] = colors.getD i [] := by
      intro i hi
      simp [List.getD_eq_getElem?_getD, List.getElem?_append_left hi]
    have hlast : (colors ++ [pcol]).getD colors.length [] = pcol := by
      simp [List.getD_eq_getElem?_getD]
    refine ⟨?_, ?_, ?_, ?_, ?_, ?_⟩
    · simp [FwdPalette.fillColor, hx]
    · simp only [FwdPalette.fillColor]; rw [hcol.1, hw]
    · simp only [FwdPalette.fillColor]; rw [hcol.2.1, hh]
    · intro i c hi hc
      simp only [FwdPalette.fillColor]
      rw [hcol.2.2, hx]
      rw [List.length_append, List.length_singleton] at hi
      by_cases hil : i = colors.length
      · rw [if_pos ⟨hc, hil⟩, hil, hlast]
      · rw [if_neg (fun hh => hil hh.2), hp i c (by omega) hc, hget i (by omega)]
    · intro h1
      simp only [FwdPalette.fillColor, if_pos h1, List.length_set]
      exact hl h1
    · intro h1 i hi hslot
      simp only [FwdPalette.fillColor, if_pos h1]
      rw [List.length_append, List.length_singleton] at hi
      rw [List.getD_eq_getElem?_getD, List.getElem?_set]
      by_cases hs : asSizeT (pcol.getD 0 0 - minval) =
          asSizeT (((colors ++ [pcol]).getD i []).getD 0 0 - minval)
      · refine ⟨colors.length, by simp, ?_, ?_⟩
        · rw [if_pos hs, hl h1, if_pos (by rw [hs]; exact hslot), hx]
          rfl
        · rw [hlast]; exact hs
      · rw [if_neg hs]
        have hil : i ≠ colors.length := by
          intro hil
          rw [hil, hlast] at hs
          exact hs rfl
        rw [hget i (by omega)] at hslot ⊢
        obtain ⟨j, hj, hj1, hj2⟩ := hk h1 i (by omega) hslot
        refine ⟨j, by simp; omega, ?_, ?_⟩
        · rw [← List.getD_eq_getElem?_getD]; exact hj1
        · rw [hget j hj]; exact hj2

/-! ## The palette transform: replacing the colours by indices -/

theorem findIndex_spec (found : Nat → Bool) (fuel start i : Nat) (hi : start ≤ i)
    (hlt : i < start + fuel) (hf : found i = true) :
    found (FwdPalette.findIndex found fuel start) = true ∧
      start ≤ FwdPalette.findIndex found fuel start ∧
      FwdPalette.findIndex found fuel start ≤ i := by
  induction fuel generalizing start with
  | zero => omega
  | succ fuel ih =>
    unfold FwdPalette.findIndex
    by_cases hs : found start = true
    · rw [if_pos hs]
      exact ⟨hs, Nat.le_refl _, hi⟩
    · rw [if_neg hs]
      have hne : start ≠ i := fun e => hs (e ▸ hf)
      obtain ⟨h1, h2, h3⟩ := ih (start + 1) (by omega) (by omega)
      exact ⟨h1, by omega, h3⟩

theorem pixelIndex_congr (pch : Channel) (lookup : List Int) (begin_c nb nb_colors : Nat)
    (minval : Int) (y x : Nat) {s s' : List Channel}
    (h : ∀ c, (chan s c).plane y x = (chan s' c).plane y x) :
    FwdPalette.pixelIndex pch lookup begin_c nb nb_colors minval y x s =
      FwdPalette.pixelIndex pch lookup begin_c nb nb_colors minval y x s' := by
  unfold FwdPalette.pixelIndex
  simp only [h]

/-- The channels after the loop of `FwdPalette` that replaces the colours: the vector has
its length, every channel but `begin_c` is as before, and channel `begin_c` has its size and
holds, at every pixel inside it, the index computed from the initial samples. -/
theorem replace_spec (pch : Channel) (lookup : List Int) (begin_c nb nb_colors : Nat)
    (minval : Int) (w h : Nat) (channel : List Channel) (hb : begin_c < channel.length) :
    (forLoop h (fun y channel => forLoop w (fun x channel =>
      FwdPalette.replacePixel pch lookup begin_c nb nb_colors minval y x channel) channel)
      channel).length = channel.length ∧
    (∀ c, c ≠ begin_c → chan (forLoop h (fun y channel => forLoop w (fun x channel =>
      FwdPalette.replacePixel pch lookup begin_c nb nb_colors minval y x channel) channel)
      channel) c = chan channel c) ∧
    (chan (forLoop h (fun y channel => forLoop w (fun x channel =>
      FwdPalette.replacePixel pch lookup begin_c nb nb_colors minval y x channel) channel)
      channel) begin_c).w = (chan channel begin_c).w ∧
    (chan (forLoop h (fun y channel => forLoop w (fun x channel =>
      FwdPalette.replacePixel pch lookup begin_c nb nb_colors minval y x channel) channel)
      channel) begin_c).h = (chan channel begin_c).h ∧
    ∀ y x, y < h → x < w →
      (chan (forLoop h (fun y channel => forLoop w (fun x channel =>
        FwdPalette.replacePixel pch lookup begin_c nb nb_colors minval y x channel) channel)
        channel) begin_c).plane y x =
        FwdPalette.pixelIndex pch lookup begin_c nb nb_colors minval y x channel := by
  have hI : ∀ y x (s : List Channel), y < h → x < w →
      (s.length = channel.length ∧ (∀ c, c ≠ begin_c → chan s c = chan channel c) ∧
        (chan s begin_c).w = (chan channel begin_c).w ∧
        (chan s begin_c).h = (chan channel begin_c).h) →
      ((FwdPalette.replacePixel pch lookup begin_c nb nb_colors minval y x s).length =
          channel.length ∧
        (∀ c, c ≠ begin_c →
          chan (FwdPalette.replacePixel pch lookup begin_c nb nb_colors minval y x s) c =
            chan channel c) ∧
        (chan (FwdPalette.replacePixel pch lookup begin_c nb nb_colors minval y x s) begin_c).w =
          (chan channel begin_c).w ∧
        (chan (FwdPalette.replacePixel pch lookup begin_c nb nb_colors minval y x s) begin_c).h =
          (chan channel begin_c).h) := by
    rintro y x s _ _ ⟨h1, h2, h3, h4⟩
    unfold FwdPalette.replacePixel
    refine ⟨by rw [length_setPixel, h1], fun c hc => ?_, by rw [w_setPixel, h3],
      by rw [h_setPixel, h4]⟩
    rw [chan_setPixel_ne _ _ _ _ hc, h2 c hc]
  have hinv := @forLoop2_preserves (List Channel)
    (fun s : List Channel => s.length = channel.length ∧
      (∀ c, c ≠ begin_c → chan s c = chan channel c) ∧
      (chan s begin_c).w = (chan channel begin_c).w ∧
      (chan s begin_c).h = (chan channel begin_c).h)
    h w (fun y x s => FwdPalette.replacePixel pch lookup begin_c nb nb_colors minval y x s)
    hI channel ⟨rfl, fun _ _ => rfl, rfl, rfl⟩
  refine ⟨hinv.1, hinv.2.1, hinv.2.2.1, hinv.2.2.2, fun y x hy hx => ?_⟩
  obtain ⟨s, hs, hobs, heq⟩ := forLoop2_pixel
    (fun s : List Channel => s.length = channel.length ∧
      (∀ c, c ≠ begin_c → chan s c = chan channel c) ∧
      (chan s begin_c).w = (chan channel begin_c).w ∧
      (chan s begin_c).h = (chan channel begin_c).h)
    (fun s : List Channel => fun c => (chan s c).plane y x)
    (fun y x s => FwdPalette.replacePixel pch lookup begin_c nb nb_colors minval y x s)
    y x hI
    (fun y' x' s _ _ _ hne => by
      funext c
      show (chan (FwdPalette.replacePixel pch lookup begin_c nb nb_colors minval y' x' s)
        c).plane y x = (chan s c).plane y x
      unfold FwdPalette.replacePixel
      rw [plane_setPixel, if_neg (fun hh => hne ⟨hh.2.2.1.symm, hh.2.2.2.symm⟩)])
    hy hx channel ⟨rfl, fun _ _ => rfl, rfl, rfl⟩
  have h1 : (chan (forLoop h (fun y channel => forLoop w (fun x channel =>
      FwdPalette.replacePixel pch lookup begin_c nb nb_colors minval y x channel) channel)
      channel) begin_c).plane y x =
      (chan (FwdPalette.replacePixel pch lookup begin_c nb nb_colors minval y x s)
        begin_c).plane y x := congrFun heq begin_c
  rw [h1]
  unfold FwdPalette.replacePixel
  rw [plane_setPixel, if_pos ⟨rfl, by rw [hs.1]; exact hb, rfl, rfl⟩]
  exact pixelIndex_congr _ _ _ _ _ _ _ _ (fun c => congrFun hobs c)

theorem colorAt_getD (channel : List Channel) (begin_c nb y x c : Nat) (hc : c < nb) :
    (colorAt channel begin_c nb y x).getD c 0 = (chan channel (begin_c + c)).plane y x := by
  simp [colorAt, List.getD_eq_getElem?_getD, List.getElem?_map, List.getElem?_range hc]

theorem exists_getD_of_mem {col : List Int} {colors : List (List Int)} (h : col ∈ colors) :
    ∃ i, i < colors.length ∧ colors.getD i [] = col := by
  obtain ⟨i, hi, he⟩ := List.mem_iff_getElem.mp h
  exact ⟨i, hi, by rw [List.getD_eq_getElem _ _ hi, he]⟩

theorem getD_mem {colors : List (List Int)} {i : Nat} (hi : i < colors.length) :
    colors.getD i [] ∈ colors := by
  rw [List.getD_eq_getElem _ _ hi]
  exact List.getElem_mem hi

theorem asSizeT_sub_inj {a b m : Int} (ha : m ≤ a) (hb : m ≤ b) (ha' : a - m < 2 ^ 64)
    (hb' : b - m < 2 ^ 64) (h : asSizeT (a - m) = asSizeT (b - m)) : a = b := by
  unfold asSizeT at h
  omega

/-- The index that `FwdPalette` assigns to a pixel is a column of the palette, and the column
holds the colour of the pixel. -/
theorem pixelIndex_spec (channel : List Channel) (begin_c nb : Nat) {w h : Nat}
    (minval maxval : Int) (L : Nat) {colors : List (List Int)} (hnb : 0 < nb)
    (hall : ∀ y x, y < h → x < w → colorAt channel begin_c nb y x ∈ colors)
    (hfrom : ∀ c ∈ colors, ∃ y x, y < h ∧ x < w ∧ c = colorAt channel begin_c nb y x)
    (hmm : nb = 1 → (∀ y x, y < h → x < w → minval ≤ (chan channel begin_c).plane y x ∧
      (chan channel begin_c).plane y x ≤ maxval) ∧ maxval - minval + 1 < 2 ^ 31)
    (hL : nb = 1 → L = asSizeT (maxval - minval + 1))
    {y x : Nat} (hy : y < h) (hx : x < w) :
    ∃ k, k < colors.length ∧
      FwdPalette.pixelIndex (FwdPalette.fill nb minval L colors.length colors).pch
        (FwdPalette.fill nb minval L colors.length colors).lookup begin_c nb
        colors.length minval y x channel = (k : Int) ∧
      ∀ c, c < nb → (FwdPalette.fill nb minval L colors.length colors).pch.plane c k =
        (chan channel (begin_c + c)).plane y x := by
  obtain ⟨_, _, _, hp, _, hk⟩ := fill_spec nb minval L colors.length colors
  obtain ⟨i, hi, hcol⟩ := exists_getD_of_mem (hall y x hy hx)
  unfold FwdPalette.pixelIndex
  by_cases h1 : nb = 1
  · rw [if_pos h1]
    obtain ⟨hbd, hrange⟩ := hmm h1
    have hv : (colors.getD i []).getD 0 0 = (chan channel begin_c).plane y x := by
      rw [hcol, colorAt_getD _ _ _ _ _ _ hnb, Nat.add_zero]
    have hslot : asSizeT ((colors.getD i []).getD 0 0 - minval) < L := by
      rw [hv, hL h1]
      have := hbd y x hy hx
      unfold asSizeT
      omega
    obtain ⟨j, hj, hj1, hj2⟩ := hk h1 i hi hslot
    rw [hv] at hj1 hj2
    refine ⟨j, hj, hj1, fun c hc => ?_⟩
    have hc0 : c = 0 := by omega
    subst hc0
    rw [hp j 0 hj hnb, Nat.add_zero]
    obtain ⟨y', x', hy', hx', hcj⟩ := hfrom _ (getD_mem hj)
    have hvj : (colors.getD j []).getD 0 0 = (chan channel begin_c).plane y' x' := by
      rw [hcj, colorAt_getD _ _ _ _ _ _ hnb, Nat.add_zero]
    rw [hvj] at hj2 ⊢
    have b1 := hbd y x hy hx
    have b2 := hbd y' x' hy' hx'
    exact asSizeT_sub_inj b2.1 b1.1 (by omega) (by omega) hj2
  · rw [if_neg h1]
    dsimp only
    have hfound : (fun index => (List.range nb).all (fun c =>
        decide ((chan channel (begin_c + c)).plane y x =
          (FwdPalette.fill nb minval L colors.length colors).pch.plane c index))) i =
        true := by
      simp only [List.all_eq_true, List.mem_range, decide_eq_true_eq]
      intro c hc
      rw [hp i c hi hc, hcol, colorAt_getD _ _ _ _ _ _ hc]
    obtain ⟨hf, _, hle⟩ := findIndex_spec (fun index => (List.range nb).all (fun c =>
        decide ((chan channel (begin_c + c)).plane y x =
          (FwdPalette.fill nb minval L colors.length colors).pch.plane c index)))
      colors.length 0 i (Nat.zero_le _) (by omega) hfound
    refine ⟨_, by omega, rfl, fun c hc => ?_⟩
    simp only [List.all_eq_true, List.mem_range, decide_eq_true_eq] at hf
    exact (hf c hc).symm

/-! ## The palette transform: the channel vector -/

theorem chan_eq (l : List Channel) (c : Nat) : chan l c = (l[c]?).getD (Channel.new 0 0) := by
  unfold chan
  rw [List.getD_eq_getElem?_getD]

theorem chan_cons_zero (a : Channel) (l : List Channel) : chan (a :: l) 0 = a := rfl

theorem chan_cons_succ (a : Channel) (l : List Channel) (c : Nat) :
    chan (a :: l) (c + 1) = chan l c := rfl

theorem chan_drop_one (l : List Channel) (c : Nat) : chan (l.drop 1) c = chan l (c + 1) := by
  rw [chan_eq, chan_eq, List.getElem?_drop, Nat.add_comm]

/-- The channels after `erase(begin + k, begin + m)`. -/
theorem chan_erase (l : List Channel) {k m : Nat} (hk : k ≤ m) (hm : m ≤ l.length) (c : Nat) :
    chan (l.take k ++ l.drop m) c = if c < k then chan l c else chan l (c - k + m) := by
  rw [chan_eq, chan_eq, chan_eq]
  have hlen : (l.take k).length = k := by
    rw [List.length_take]; omega
  by_cases hc : c < k
  · rw [if_pos hc, List.getElem?_append_left (by omega), List.getElem?_take_of_lt hc]
  · rw [if_neg hc, List.getElem?_append_right (by omega), hlen, List.getElem?_drop]
    congr 2
    omega

theorem insert_loop (v : Channel) (pos : Nat) (l : List Channel) (hpos : pos ≤ l.length)
    (n : Nat) :
    forLoop n (fun _ channel => insertChannel channel pos v) l =
      l.take pos ++ (List.replicate n v ++ l.drop pos) := by
  induction n with
  | zero => simp [forLoop]
  | succ n ih =>
    rw [forLoop_succ, ih]
    unfold insertChannel
    have hlen : (l.take pos).length = pos := by
      rw [List.length_take]; omega
    rw [List.take_append_eq_append_take, List.drop_append_eq_append_drop, hlen,
      List.take_of_length_le (Nat.le_of_eq hlen), List.drop_of_length_le (Nat.le_of_eq hlen)]
    simp [List.replicate_succ]

/-- The channels after `n` insertions of `v` at position `pos`. -/
theorem chan_insert (v : Channel) (pos : Nat) (l : List Channel) (hpos : pos ≤ l.length)
    (n c : Nat) :
    chan (l.take pos ++ (List.replicate n v ++ l.drop pos)) c =
      if c < pos then chan l c else if c < pos + n then v else chan l (c - n) := by
  rw [chan_eq, chan_eq, chan_eq]
  have hlen : (l.take pos).length = pos := by
    rw [List.length_take]; omega
  by_cases hc : c < pos
  · rw [if_pos hc, List.getElem?_append_left (by omega), List.getElem?_take_of_lt hc]
  · rw [if_neg hc, List.getElem?_append_right (by omega), hlen]
    by_cases hc2 : c < pos + n
    · rw [if_pos hc2, List.getElem?_append_left (by simp; omega), List.getElem?_replicate,
        if_pos (by omega)]
      rfl
    · rw [if_neg hc2, List.getElem?_append_right (by simp; omega), List.length_replicate,
        List.getElem?_drop]
      congr 2
      omega

/-! ## The palette transform: undoing the palette -/

theorem pixelUpdate_refl (c0 n y x : Nat) (s : List Channel) : PixelUpdate c0 n y x s s :=
  ⟨rfl, fun _ => ⟨rfl, rfl⟩, fun _ _ => rfl, fun _ _ _ _ => rfl⟩

theorem pixelUpdate_setPixel {c0 n y x : Nat} {s t : List Channel}
    (h : PixelUpdate c0 n y x s t) {c : Nat} (hc0 : c0 ≤ c) (hc : c < c0 + n) (v : Int) :
    PixelUpdate c0 n y x s (setPixel t c y x v) := by
  obtain ⟨h1, h2, h3, h4⟩ := h
  refine ⟨by rw [length_setPixel, h1], fun c' => ?_, fun c' hc' => ?_, fun c' y' x' hne => ?_⟩
  · rw [w_setPixel, h_setPixel]
    exact h2 c'
  · rw [chan_setPixel_ne _ _ _ _ (by omega), h3 c' hc']
  · rw [plane_setPixel, if_neg (fun hh => hne ⟨hh.2.2.1, hh.2.2.2⟩), h4 c' y' x' hne]

theorem undoChannelPixel_update (c0 y x : Nat) (s : List Channel) :
    PixelUpdate c0 1 y x s (InvPalette.undoChannelPixel c0 y x s) := by
  unfold InvPalette.undoChannelPixel
  simp only
  split_ifs
  · exact pixelUpdate_setPixel (pixelUpdate_refl c0 1 y x s) (Nat.le_refl _) (by omega) _
  · exact pixelUpdate_setPixel (pixelUpdate_refl c0 1 y x s) (Nat.le_refl _) (by omega) _

theorem undoPixel_update (nb : Int) (c0 y x : Nat) (s : List Channel) :
    PixelUpdate c0 nb.toNat y x s (InvPalette.undoPixel nb c0 y x s) := by
  unfold InvPalette.undoPixel
  simp only
  split_ifs
  · exact forLoop_preserves (fun t => PixelUpdate c0 nb.toNat y x s t)
      (fun c hc t ht => pixelUpdate_setPixel ht (Nat.le_add_right _ _) (by omega) _)
      (pixelUpdate_refl c0 nb.toNat y x s)
  · exact forLoop_preserves
      (fun t : List Channel × Int => PixelUpdate c0 nb.toNat y x s t.1)
      (fun c hc t ht => pixelUpdate_setPixel ht (Nat.le_add_right _ _) (by omega) _)
      (pixelUpdate_refl c0 nb.toNat y x s)

/-- The samples that the loop over `c` of "UndoPalette" leaves at pixel `(y, x)` when the
index `k` is a column of the palette: those of column `k`. -/
theorem undoPixel_hit (c0 y x k : Nat) (hc0 : 0 < c0) (n : Nat) (s : List Channel)
    (hlen : c0 + n ≤ s.length) :
    chan (forLoop n (fun c channel => setPixel channel (c0 + c) y x
        ((chan channel 0).plane c k)) s) 0 = chan s 0 ∧
      (forLoop n (fun c channel => setPixel channel (c0 + c) y x
        ((chan channel 0).plane c k)) s).length = s.length ∧
      ∀ c, (chan (forLoop n (fun c channel => setPixel channel (c0 + c) y x
        ((chan channel 0).plane c k)) s) c).plane y x =
        if c0 ≤ c ∧ c < c0 + n then (chan s 0).plane (c - c0) k else (chan s c).plane y x := by
  induction n with
  | zero =>
    refine ⟨rfl, rfl, fun c => ?_⟩
    rw [if_neg (by omega)]
    rfl
  | succ n ih =>
    obtain ⟨h0, hl, hp⟩ := ih (by omega)
    rw [forLoop_succ]
    refine ⟨by rw [chan_setPixel_ne _ _ _ _ (by omega), h0], by rw [length_setPixel, hl],
      fun c => ?_⟩
    rw [plane_setPixel, h0, hl, hp]
    by_cases hc : c = c0 + n
    · rw [if_pos ⟨hc, by omega, rfl, rfl⟩, if_pos (by omega), hc, Nat.add_sub_cancel_left]
    · rw [if_neg (fun hh => hc hh.1)]
      by_cases hc2 : c0 ≤ c ∧ c < c0 + n
      · rw [if_pos hc2, if_pos (by omega)]
      · rw [if_neg hc2, if_neg (by omega)]

/-- A loop over the pixels whose iteration at `(y, x)` changes only the samples at `(y, x)`
of the `nb` channels from `c0`, and leaves there the palette column named by the index
found in channel `c0`: the channels after the loop. -/
theorem undo_loop_spec (F : Nat → Nat → List Channel → List Channel) (c0 nb w h : Nat)
    (P : List Channel) (hc0 : 0 < c0)
    (hupd : ∀ y x s, PixelUpdate c0 nb y x s (F y x s))
    (hhit : ∀ y x s, y < h → x < w → s.length = P.length → chan s 0 = chan P 0 →
      (chan s c0).plane y x = (chan P c0).plane y x → ∀ c, c < nb →
        (chan (F y x s) (c0 + c)).plane y x =
          (chan P 0).plane c ((chan P c0).plane y x).toNat) :
    (forLoop h (fun y s => forLoop w (fun x s => F y x s) s) P).length = P.length ∧
    (∀ c, (chan (forLoop h (fun y s => forLoop w (fun x s => F y x s) s) P) c).w =
        (chan P c).w ∧
      (chan (forLoop h (fun y s => forLoop w (fun x s => F y x s) s) P) c).h = (chan P c).h) ∧
    (∀ c, c < c0 ∨ c0 + nb ≤ c →
      chan (forLoop h (fun y s => forLoop w (fun x s => F y x s) s) P) c = chan P c) ∧
    ∀ y x, y < h → x < w → ∀ c, c < nb →
      (chan (forLoop h (fun y s => forLoop w (fun x s => F y x s) s) P) (c0 + c)).plane y x =
        (chan P 0).plane c ((chan P c0).plane y x).toNat := by
  have hI : ∀ y x (s : List Channel), y < h → x < w →
      (s.length = P.length ∧
        (∀ c, (chan s c).w = (chan P c).w ∧ (chan s c).h = (chan P c).h) ∧
        (∀ c, c < c0 ∨ c0 + nb ≤ c → chan s c = chan P c)) →
      ((F y x s).length = P.length ∧
        (∀ c, (chan (F y x s) c).w = (chan P c).w ∧ (chan (F y x s) c).h = (chan P c).h) ∧
        (∀ c, c < c0 ∨ c0 + nb ≤ c → chan (F y x s) c = chan P c)) := by
    rintro y x s _ _ ⟨h1, h2, h3⟩
    obtain ⟨u1, u2, u3, _⟩ := hupd y x s
    refine ⟨u1.trans h1, fun c => ?_, fun c hc => (u3 c hc).trans (h3 c hc)⟩
    exact ⟨(u2 c).1.trans (h2 c).1, (u2 c).2.trans (h2 c).2⟩
  have hinv := @forLoop2_preserves (List Channel)
    (fun s : List Channel => s.length = P.length ∧
      (∀ c, (chan s c).w = (chan P c).w ∧ (chan s c).h = (chan P c).h) ∧
      (∀ c, c < c0 ∨ c0 + nb ≤ c → chan s c = chan P c))
    h w F hI P ⟨rfl, fun _ => ⟨rfl, rfl⟩, fun _ _ => rfl⟩
  refine ⟨hinv.1, hinv.2.1, hinv.2.2, fun y x hy hx c hc => ?_⟩
  obtain ⟨s, hs, hobs, heq⟩ := forLoop2_pixel
    (fun s : List Channel => s.length = P.length ∧
      (∀ c, (chan s c).w = (chan P c).w ∧ (chan s c).h = (chan P c).h) ∧
      (∀ c, c < c0 ∨ c0 + nb ≤ c → chan s c = chan P c))
    (fun s : List Channel => fun c => (chan s c).plane y x) F y x hI
    (fun y' x' s _ _ _ hne => by
      funext c
      exact (hupd y' x' s).2.2.2 c y x (fun hh => hne ⟨hh.1.symm, hh.2.symm⟩))
    hy hx P ⟨rfl, fun _ => ⟨rfl, rfl⟩, fun _ _ => rfl⟩
  have h1 : (chan (forLoop h (fun y s => forLoop w (fun x s => F y x s) s) P)
      (c0 + c)).plane y x = (chan (F y x s) (c0 + c)).plane y x := congrFun heq (c0 + c)
  rw [h1]
  exact hhit y x s hy hx hs.1 (hs.2.2 0 (Or.inl hc0)) (congrFun hobs c0) c hc

theorem undoChannelPixel_hit {c0 y x k : Nat} {s : List Channel}
    (hidx : (chan s c0).plane y x = (k : Int)) (hk : k < (chan s 0).w) (hw : (chan s 0).w < 2 ^ 64)
    (hlen : c0 < s.length) :
    (chan (InvPalette.undoChannelPixel c0 y x s) c0).plane y x = (chan s 0).plane 0 k := by
  unfold InvPalette.undoChannelPixel
  simp only [hidx]
  have h1 : asSizeT (k : Int) = k := asSizeT_natCast (by omega)
  rw [h1, if_pos hk, plane_setPixel, if_pos ⟨rfl, hlen, rfl, rfl⟩]
  have h2 : (max 0 (k : Int)).toNat = k := by omega
  rw [h2]

theorem undoPixel_hit_index {nb c0 y x k : Nat} {s : List Channel}
    (hidx : (chan s c0).plane y x = (k : Int)) (hk : k < (chan s 0).w) (hw : (chan s 0).w < 2 ^ 64)
    (hc0 : 0 < c0) (hlen : c0 + nb ≤ s.length) (c : Nat) (hc : c < nb) :
    (chan (InvPalette.undoPixel (nb : Int) c0 y x s) (c0 + c)).plane y x =
      (chan s 0).plane c k := by
  unfold InvPalette.undoPixel
  simp only [hidx]
  have h0 : max 0 (k : Int) = (k : Int) := by omega
  have h1 : asSizeT (k : Int) = k := asSizeT_natCast (by omega)
  rw [h0, h1, if_pos hk, Int.toNat_natCast, Int.toNat_natCast,
    (undoPixel_hit c0 y x k hc0 nb s hlen).2.2, if_pos (by omega), Nat.add_sub_cancel_left]

/-! ## The palette transform: the round trip -/

theorem sizesAgree_spec {channel : List Channel} {begin_c end_c w h : Nat}
    (hs : FwdPalette.sizesAgree channel begin_c end_c w h = true) :
    ∀ c, begin_c < c → c ≤ end_c → (chan channel c).w = w ∧ (chan channel c).h = h := by
  unfold FwdPalette.sizesAgree at hs
  have key : ∀ n, forLoop n (fun k agree =>
      agree && decide ((chan channel (begin_c + 1 + k)).w = w) &&
        decide ((chan channel (begin_c + 1 + k)).h = h)) true = true →
      ∀ k, k < n → (chan channel (begin_c + 1 + k)).w = w ∧
        (chan channel (begin_c + 1 + k)).h = h := by
    intro n
    induction n with
    | zero => intro _ k hk; omega
    | succ n ih =>
      intro hn k hk
      rw [forLoop_succ] at hn
      simp only [Bool.and_eq_true, decide_eq_true_eq] at hn
      by_cases hkn : k = n
      · subst hkn; exact ⟨hn.1.2, hn.2⟩
      · exact ih hn.1.1 k (by omega)
  intro c hc1 hc2
  have := key _ hs (c - begin_c - 1) (by omega)
  rwa [show begin_c + 1 + (c - begin_c - 1) = c by omega] at this

theorem lookupSize_eq_some {minval maxval : Int} {L : Nat}
    (h : FwdPalette.lookupSize 1 minval maxval = some L) :
    L = asSizeT (maxval - minval + 1) ∧ 0 ≤ maxval - minval + 1 ∧
      maxval - minval + 1 < 2 ^ 31 := by
  unfold FwdPalette.lookupSize at h
  rw [if_pos rfl] at h
  split_ifs at h with hr
  have hL := Option.some.inj h
  refine ⟨?_, hr.1, hr.2⟩
  unfold asSizeT
  omega

theorem lookupSize_of_range {minval maxval : Int} (h0 : 0 ≤ maxval - minval + 1)
    (h1 : maxval - minval + 1 < 2 ^ 31) :
    FwdPalette.lookupSize 1 minval maxval = some (maxval - minval + 1).toNat := by
  unfold FwdPalette.lookupSize
  rw [if_pos rfl, if_pos ⟨h0, h1⟩]

theorem lookupSize_of_ne {nb : Nat} (minval maxval : Int) (h : nb ≠ 1) :
    FwdPalette.lookupSize nb minval maxval = some 0 := by
  unfold FwdPalette.lookupSize
  rw [if_neg h]

/-- The result of `FwdPalette` once its checks are passed and the colours are collected. -/
theorem FwdPalette_of_checks {X : ImageExternals} {input : Image}
    {begin_c end_c nb_colors : Nat} {ordered : Bool}
    (hcheck : CheckPaletteParams input begin_c end_c = Status.ok)
    (hsizes : FwdPalette.sizesAgree input.channel begin_c end_c (chan input.channel begin_c).w
      (chan input.channel begin_c).h = true)
    (hret : (FwdPalette.scan input.channel begin_c (asUInt32 (end_c + 2 ^ 32 - begin_c + 1))
      nb_colors (chan input.channel begin_c).w (chan input.channel begin_c).h).returned =
      false) :
    FwdPalette X input begin_c end_c nb_colors ordered =
      (FwdPalette.lookupSize (asUInt32 (end_c + 2 ^ 32 - begin_c + 1))
        (X.compute_minmax (chan input.channel begin_c)).1
        (X.compute_minmax (chan input.channel begin_c)).2).map (fun L =>
          (Status.ok, FwdPalette.build X input begin_c end_c
            (asUInt32 (end_c + 2 ^ 32 - begin_c + 1)) ordered
            (FwdPalette.scan input.channel begin_c (asUInt32 (end_c + 2 ^ 32 - begin_c + 1))
              nb_colors (chan input.channel begin_c).w (chan input.channel begin_c).h) L)) := by
  unfold FwdPalette
  rw [hcheck]
  simp only
  rw [if_neg (not_not_intro hsizes), if_neg (by rw [hret]; simp)]
  cases FwdPalette.lookupSize (asUInt32 (end_c + 2 ^ 32 - begin_c + 1))
    (X.compute_minmax (chan input.channel begin_c)).1
    (X.compute_minmax (chan input.channel begin_c)).2 <;> rfl

/-- A call of `FwdPalette` that returns: either it returns a failure with the image and
`nb_colors` it was given, or its checks are passed and the colours are collected. -/
theorem FwdPalette_returns {X : ImageExternals} {input : Image}
    {begin_c end_c nb_colors : Nat} {ordered : Bool} {st : Status} {out : Image} {nb' : Nat}
    (h : FwdPalette X input begin_c end_c nb_colors ordered = some (st, out, nb')) :
    (st ≠ Status.ok ∧ out = input ∧ nb' = nb_colors ∧
      ¬ (CheckPaletteParams input begin_c end_c = Status.ok ∧
        FwdPalette.sizesAgree input.channel begin_c end_c (chan input.channel begin_c).w
          (chan input.channel begin_c).h = true ∧
        (FwdPalette.scan input.channel begin_c (asUInt32 (end_c + 2 ^ 32 - begin_c + 1))
          nb_colors (chan input.channel begin_c).w
          (chan input.channel begin_c).h).returned = false)) ∨
    (st = Status.ok ∧ CheckPaletteParams input begin_c end_c = Status.ok ∧
      FwdPalette.sizesAgree input.channel begin_c end_c (chan input.channel begin_c).w
        (chan input.channel begin_c).h = true ∧
      (FwdPalette.scan input.channel begin_c (asUInt32 (end_c + 2 ^ 32 - begin_c + 1))
        nb_colors (chan input.channel begin_c).w (chan input.channel begin_c).h).returned =
        false) := by
  by_cases hcheck : CheckPaletteParams input begin_c end_c = Status.ok
  · by_cases hsizes : FwdPalette.sizesAgree input.channel begin_c end_c
        (chan input.channel begin_c).w (chan input.channel begin_c).h = true
    · by_cases hret : (FwdPalette.scan input.channel begin_c
          (asUInt32 (end_c + 2 ^ 32 - begin_c + 1)) nb_colors
          (chan input.channel begin_c).w (chan input.channel begin_c).h).returned = false
      · rw [FwdPalette_of_checks hcheck hsizes hret] at h
        obtain ⟨L, _, hL⟩ := Option.map_eq_some'.mp h
        simp only [Prod.mk.injEq] at hL
        exact Or.inr ⟨hL.1.symm, hcheck, hsizes, hret⟩
      · unfold FwdPalette at h
        rw [hcheck] at h
        simp only at h
        rw [if_neg (not_not_intro hsizes), if_pos (by simpa using hret)] at h
        simp only [Option.some.injEq, Prod.mk.injEq] at h
        exact Or.inl ⟨by rw [← h.1]; simp, h.2.1.symm, h.2.2.symm, fun hh => hret hh.2.2⟩
    · unfold FwdPalette at h
      rw [hcheck] at h
      simp only at h
      rw [if_pos hsizes] at h
      simp only [Option.some.injEq, Prod.mk.injEq] at h
      exact Or.inl ⟨by rw [← h.1]; simp, h.2.1.symm, h.2.2.symm, fun hh => hsizes hh.2.1⟩
  · unfold FwdPalette at h
    split at h
    · simp only [Option.some.injEq, Prod.mk.injEq] at h
      exact Or.inl ⟨by rw [← h.1]; simp, h.2.1.symm, h.2.2.symm, fun hh => hcheck hh.1⟩
    · rename_i hc
      exact absurd hc hcheck

/-- A successful `FwdPalette`: the checks it passed and what it returns. -/
theorem FwdPalette_ok {X : ImageExternals} {input : Image} {begin_c end_c nb_colors : Nat}
    {ordered : Bool} {out : Image} {nb' : Nat}
    (hok : FwdPalette X input begin_c end_c nb_colors ordered = some (Status.ok, out, nb')) :
    CheckPaletteParams input begin_c end_c = Status.ok ∧
    FwdPalette.sizesAgree input.channel begin_c end_c (chan input.channel begin_c).w
      (chan input.channel begin_c).h = true ∧
    (FwdPalette.scan input.channel begin_c (asUInt32 (end_c + 2 ^ 32 - begin_c + 1)) nb_colors
      (chan input.channel begin_c).w (chan input.channel begin_c).h).returned = false ∧
    ∃ L, FwdPalette.lookupSize (asUInt32 (end_c + 2 ^ 32 - begin_c + 1))
        (X.compute_minmax (chan input.channel begin_c)).1
        (X.compute_minmax (chan input.channel begin_c)).2 = some L ∧
      (out, nb') = FwdPalette.build X input begin_c end_c
        (asUInt32 (end_c + 2 ^ 32 - begin_c + 1)) ordered
        (FwdPalette.scan input.channel begin_c (asUInt32 (end_c + 2 ^ 32 - begin_c + 1))
          nb_colors (chan input.channel begin_c).w (chan input.channel begin_c).h) L := by
  rcases FwdPalette_returns hok with ⟨hne, _⟩ | ⟨_, hcheck, hsizes, hret⟩
  · exact absurd rfl hne
  · refine ⟨hcheck, hsizes, hret, ?_⟩
    rw [FwdPalette_of_checks hcheck hsizes hret] at hok
    obtain ⟨L, hL, hLe⟩ := Option.map_eq_some'.mp hok
    simp only [Prod.mk.injEq, true_and] at hLe
    exact ⟨L, hL, hLe.symm⟩

/-- The colours that the palette is filled from, in either order: as many as the set holds,
the colour of every pixel is among them, and each of them is the colour of a pixel. -/
theorem scan_colors {channel : List Channel} {begin_c nb nb_colors w h : Nat}
    (hnc : nb_colors < 2 ^ 31 ∨ (distinctColors channel begin_c nb w h).card < 2 ^ 31)
    (hret : (FwdPalette.scan channel begin_c nb nb_colors w h).returned = false)
    (ordered : Bool) (colors : List (List Int))
    (hcolors : colors = if ordered then
        (FwdPalette.scan channel begin_c nb nb_colors w h).candidate_palette
      else (FwdPalette.scan channel begin_c nb nb_colors w h).candidate_palette_imageorder) :
    asUInt32 (FwdPalette.scan channel begin_c nb nb_colors w h).candidate_palette.length =
      colors.length ∧
    colors.length < 2 ^ 31 ∧
    (∀ y x, y < h → x < w → colorAt channel begin_c nb y x ∈ colors) ∧
    (∀ c ∈ colors, ∃ y x, y < h ∧ x < w ∧ c = colorAt channel begin_c nb y x) := by
  obtain ⟨⟨h1, h2, h3, h4, h5, h6⟩, hall⟩ :=
    scan_spec (hnc.imp (fun h => by omega) (fun h => by omega)) hret
  have hlen : colors.length =
      (FwdPalette.scan channel begin_c nb nb_colors w h).candidate_palette.length := by
    rw [hcolors]
    cases ordered
    · simp only [Bool.false_eq_true, if_false]; omega
    · simp only [if_true]
  have hlt31 : (FwdPalette.scan channel begin_c nb nb_colors w h).candidate_palette.length <
      2 ^ 31 := by
    rcases hnc with hb | hb
    · omega
    · exact lt_of_le_of_lt (length_le_distinctColors (h6.imp (fun hab => ne_of_lt hab))
        (fun c hc => h5 c (h3 c hc))) hb
  refine ⟨?_, by omega, fun y x hy hx => ?_, fun c hc => ?_⟩
  · unfold asUInt32
    omega
  · rw [hcolors]
    cases ordered
    · exact h3 _ (hall y x hy hx)
    · exact hall y x hy hx
  · rw [hcolors] at hc
    cases ordered
    · exact h5 c hc
    · exact h5 c (h3 c hc)

/-- The image that the last part of `FwdPalette` leaves, given what is known of the
collected colours: the palette in front, the channels before `begin_c` and after `end_c` as
they were, and in place of the channels `begin_c .. end_c` one channel of the same size
whose sample at a pixel is the palette column that holds the colour of the pixel. -/
theorem build_spec_of_colors {X : ImageExternals} {input : Image} {begin_c end_c : Nat}
    (ordered : Bool) (hb : begin_c ≤ end_c) (he : end_c < input.channel.length)
    (scan : FwdPalette.Scan) (colors : List (List Int))
    (hcolors : (if ordered then scan.candidate_palette
      else scan.candidate_palette_imageorder) = colors)
    (hn : asUInt32 scan.candidate_palette.length = colors.length)
    (hn31 : colors.length < 2 ^ 31)
    (hall : ∀ y x, y < (chan input.channel begin_c).h → x < (chan input.channel begin_c).w →
      colorAt input.channel begin_c (end_c - begin_c + 1) y x ∈ colors)
    (hfrom : ∀ c ∈ colors, ∃ y x, y < (chan input.channel begin_c).h ∧
      x < (chan input.channel begin_c).w ∧
      c = colorAt input.channel begin_c (end_c - begin_c + 1) y x)
    (hmm : begin_c = end_c →
      (∀ y x, y < (chan input.channel begin_c).h → x < (chan input.channel begin_c).w →
        (X.compute_minmax (chan input.channel begin_c)).1 ≤
            (chan input.channel begin_c).plane y x ∧
          (chan input.channel begin_c).plane y x ≤
            (X.compute_minmax (chan input.channel begin_c)).2) ∧
      (X.compute_minmax (chan input.channel begin_c)).2 -
        (X.compute_minmax (chan input.channel begin_c)).1 + 1 < 2 ^ 31)
    (L : Nat)
    (hL : begin_c = end_c → L = asSizeT ((X.compute_minmax (chan input.channel begin_c)).2 -
      (X.compute_minmax (chan input.channel begin_c)).1 + 1))
    (r : Image × Nat)
    (hr : r = FwdPalette.build X input begin_c end_c (end_c - begin_c + 1) ordered scan L) :
    r.1.channel.length = input.channel.length - (end_c - begin_c) + 1 ∧
    (chan r.1.channel 0).w = r.2 ∧ r.2 < 2 ^ 31 ∧
    (chan r.1.channel 0).h = end_c - begin_c + 1 ∧
    (∀ c, c < begin_c → chan r.1.channel (c + 1) = chan input.channel c) ∧
    (∀ c, end_c < c → chan r.1.channel (c - (end_c - begin_c) + 1) = chan input.channel c) ∧
    (chan r.1.channel (begin_c + 1)).w = (chan input.channel begin_c).w ∧
    (chan r.1.channel (begin_c + 1)).h = (chan input.channel begin_c).h ∧
    (∀ y x, y < (chan input.channel begin_c).h → x < (chan input.channel begin_c).w →
      ∃ k, k < r.2 ∧ (chan r.1.channel (begin_c + 1)).plane y x = (k : Int) ∧
        ∀ c, c < end_c - begin_c + 1 →
          (chan r.1.channel 0).plane c k = (chan input.channel (begin_c + c)).plane y x) ∧
    r.1.nb_channels =
      (input.nb_channels + 2 ^ 64 - asUInt32 (end_c - begin_c + 1 + 2 ^ 32 - 1)) % 2 ^ 64 ∧
    r.1.nb_meta_channels = (input.nb_meta_channels + 1) % 2 ^ 64 := by
  obtain ⟨hx, hw, hh, hp, _, _⟩ := fill_spec (end_c - begin_c + 1)
    (X.compute_minmax (chan input.channel begin_c)).1 L colors.length colors
  obtain ⟨hrl, hro, hrw, hrh, hrp⟩ := replace_spec
    (FwdPalette.fill (end_c - begin_c + 1) (X.compute_minmax (chan input.channel begin_c)).1
      L colors.length colors).pch
    (FwdPalette.fill (end_c - begin_c + 1) (X.compute_minmax (chan input.channel begin_c)).1
      L colors.length colors).lookup
    begin_c (end_c - begin_c + 1) colors.length
    (X.compute_minmax (chan input.channel begin_c)).1
    (chan input.channel begin_c).w (chan input.channel begin_c).h input.channel
    (show begin_c < input.channel.length by omega)
  have hidx := fun y x hy hx => pixelIndex_spec input.channel begin_c (end_c - begin_c + 1)
    (X.compute_minmax (chan input.channel begin_c)).1
    (X.compute_minmax (chan input.channel begin_c)).2 L
    (Nat.succ_pos _) hall hfrom (fun h1 => hmm (by omega)) (fun h1 => hL (by omega))
    (y := y) (x := x) hy hx
  unfold FwdPalette.build at hr
  simp only [hn, hcolors] at hr
  subst hr
  refine ⟨?_, ?_, hn31, ?_, fun c hc => ?_, fun c hc => ?_, ?_, ?_, fun y x hy hx => ?_,
    rfl, rfl⟩
  · simp only [List.length_cons, List.length_append, List.length_take, List.length_drop, hrl]
    omega
  · rw [chan_cons_zero]; exact hw
  · rw [chan_cons_zero]; exact hh
  · rw [chan_cons_succ, chan_erase _ (by omega) (by rw [hrl]; omega), if_pos (by omega)]
    exact hro c (by omega)
  · rw [chan_cons_succ, chan_erase _ (by omega) (by rw [hrl]; omega), if_neg (by omega),
      show c - (end_c - begin_c) - (begin_c + 1) + (end_c + 1) = c by omega]
    exact hro c (by omega)
  · rw [chan_cons_succ, chan_erase _ (by omega) (by rw [hrl]; omega), if_pos (by omega)]
    exact hrw
  · rw [chan_cons_succ, chan_erase _ (by omega) (by rw [hrl]; omega), if_pos (by omega)]
    exact hrh
  · rw [chan_cons_succ, chan_cons_zero,
      chan_erase _ (by omega) (by rw [hrl]; omega), if_pos (by omega), hrp y x hy hx]
    exact hidx y x hy hx

/-- The image that `InvPalette` leaves (no deltas, predictor `Zero`) when channel
`begin_c + 1` holds, at every pixel, a column of the palette in channel 0: it succeeds, the
palette is removed, the channels before and after are as they were, and in place of channel
`begin_c + 1` there are `nb` channels of its size holding the rows of the palette columns. -/
theorem InvPalette_spec (X : ImageExternals) (input : Image) (begin_c nb_colors nb : Nat)
    (w h : Nat) (hmeta : 1 ≤ input.nb_meta_channels)
    (hnb : (chan input.channel 0).h = nb) (hnb1 : 0 < nb) (hnb31 : nb < 2 ^ 31)
    (hb : begin_c + 1 < 2 ^ 32) (hlen : begin_c + 1 < input.channel.length)
    (hw : (chan input.channel (begin_c + 1)).w = w)
    (hh : (chan input.channel (begin_c + 1)).h = h)
    (hpw : (chan input.channel 0).w < 2 ^ 64)
    (hidx : ∀ y x, y < h → x < w → ∃ k, k < (chan input.channel 0).w ∧
      (chan input.channel (begin_c + 1)).plane y x = (k : Int))
    (q : Status × Image)
    (hq : q = InvPalette X input begin_c nb_colors 0 Predictor.Zero) :
    q.1 = Status.ok ∧
    q.2.channel.length = input.channel.length + nb - 2 ∧
    (∀ c, c < begin_c → chan q.2.channel c = chan input.channel (c + 1)) ∧
    (∀ c, begin_c + nb ≤ c → chan q.2.channel c = chan input.channel (c + 2 - nb)) ∧
    (∀ c, c < nb → (chan q.2.channel (begin_c + c)).w = w ∧
      (chan q.2.channel (begin_c + c)).h = h ∧
      ∀ y x, y < h → x < w → (chan q.2.channel (begin_c + c)).plane y x =
        (chan input.channel 0).plane c ((chan input.channel (begin_c + 1)).plane y x).toNat) ∧
    q.2.nb_channels = (input.nb_channels + (nb - 1)) % 2 ^ 64 ∧
    q.2.nb_meta_channels = (input.nb_meta_channels + 2 ^ 64 - 1) % 2 ^ 64 := by
  have e1 : asInt (chan input.channel 0).h = (nb : Int) := by
    rw [hnb]; exact asInt_of_lt hnb31
  have e2 : asUInt32 (begin_c + 1) = begin_c + 1 := by
    unfold asUInt32; omega
  have e3 : ((nb : Int) - 1).toNat = nb - 1 := by omega
  have e4 : asSizeT ((nb : Int) - 1) = nb - 1 := by
    unfold asSizeT; omega
  -- the channels after the insertions
  have hins := insert_loop (Channel.new w h) (begin_c + 1 + 1) input.channel (by omega) (nb - 1)
  have hP := chan_insert (Channel.new w h) (begin_c + 1 + 1) input.channel (by omega) (nb - 1)
  have hPlen : (input.channel.take (begin_c + 1 + 1) ++
      (List.replicate (nb - 1) (Channel.new w h) ++ input.channel.drop (begin_c + 1 + 1))).length =
      input.channel.length + (nb - 1) := by
    simp only [List.length_append, List.length_take, List.length_replicate, List.length_drop]
    omega
  have hP0 := hP 0
  rw [if_pos (by omega)] at hP0
  have hPc0 := hP (begin_c + 1)
  rw [if_pos (by omega)] at hPc0
  -- the loop that undoes the palette
  have hundo : ∀ F : Nat → Nat → List Channel → List Channel,
      (∀ y x s, PixelUpdate (begin_c + 1) nb y x s (F y x s)) →
      (∀ (y x k : Nat) (s : List Channel), (chan s (begin_c + 1)).plane y x = (k : Int) →
        k < (chan s 0).w → (chan s 0).w < 2 ^ 64 → begin_c + 1 + nb ≤ s.length →
        ∀ c, c < nb → (chan (F y x s) (begin_c + 1 + c)).plane y x = (chan s 0).plane c k) →
      q = (Status.ok,
        { channel := (forLoop h (fun y s => forLoop w (fun x s => F y x s) s)
            (input.channel.take (begin_c + 1 + 1) ++ (List.replicate (nb - 1) (Channel.new w h) ++
              input.channel.drop (begin_c + 1 + 1)))).drop 1
          nb_channels := (input.nb_channels + (nb - 1)) % 2 ^ 64
          nb_meta_channels := (input.nb_meta_channels + 2 ^ 64 - 1) % 2 ^ 64 }) →
      q.1 = Status.ok ∧
      q.2.channel.length = input.channel.length + nb - 2 ∧
      (∀ c, c < begin_c → chan q.2.channel c = chan input.channel (c + 1)) ∧
      (∀ c, begin_c + nb ≤ c → chan q.2.channel c = chan input.channel (c + 2 - nb)) ∧
      (∀ c, c < nb → (chan q.2.channel (begin_c + c)).w = w ∧
        (chan q.2.channel (begin_c + c)).h = h ∧
        ∀ y x, y < h → x < w → (chan q.2.channel (begin_c + c)).plane y x =
          (chan input.channel 0).plane c
            ((chan input.channel (begin_c + 1)).plane y x).toNat) ∧
      q.2.nb_channels = (input.nb_channels + (nb - 1)) % 2 ^ 64 ∧
      q.2.nb_meta_channels = (input.nb_meta_channels + 2 ^ 64 - 1) % 2 ^ 64 := by
    intro F hupd hhit hqe
    obtain ⟨hQl, hQwh, hQo, hQp⟩ := undo_loop_spec F (begin_c + 1) nb w h
      (input.channel.take (begin_c + 1 + 1) ++ (List.replicate (nb - 1) (Channel.new w h) ++
        input.channel.drop (begin_c + 1 + 1))) (Nat.succ_pos _) hupd
      (fun y x s hy hx hsl hs0 hsi c hc => by
        obtain ⟨k, hk, hke⟩ := hidx y x hy hx
        rw [hPc0, hP0, hke, Int.toNat_natCast, ← hP0, ← hs0]
        refine hhit y x k s ?_ ?_ ?_ ?_ c hc
        · rw [hsi, hPc0, hke]
        · rw [hs0, hP0]; exact hk
        · rw [hs0, hP0]; exact hpw
        · rw [hsl, hPlen]; omega)
    subst hqe
    refine ⟨rfl, ?_, fun c hc => ?_, fun c hc => ?_, fun c hc => ⟨?_, ?_, fun y x hy hx => ?_⟩,
      rfl, rfl⟩
    · show ((forLoop h (fun y s => forLoop w (fun x s => F y x s) s) _).drop 1).length = _
      rw [List.length_drop, hQl, hPlen]
      omega
    · show chan ((forLoop h (fun y s => forLoop w (fun x s => F y x s) s) _).drop 1) c = _
      rw [chan_drop_one, hQo (c + 1) (Or.inl (by omega)), hP, if_pos (by omega)]
    · show chan ((forLoop h (fun y s => forLoop w (fun x s => F y x s) s) _).drop 1) c = _
      rw [chan_drop_one, hQo (c + 1) (Or.inr (by omega)), hP, if_neg (by omega),
        if_neg (by omega), show c + 1 - (nb - 1) = c + 2 - nb by omega]
    · show (chan ((forLoop h (fun y s => forLoop w (fun x s => F y x s) s) _).drop 1)
        (begin_c + c)).w = _
      rw [chan_drop_one, (hQwh _).1, hP]
      by_cases hc0 : c = 0
      · subst hc0
        rw [if_pos (by omega)]
        exact hw
      · rw [if_neg (by omega), if_pos (by omega)]
        rfl
    · show (chan ((forLoop h (fun y s => forLoop w (fun x s => F y x s) s) _).drop 1)
        (begin_c + c)).h = _
      rw [chan_drop_one, (hQwh _).2, hP]
      by_cases hc0 : c = 0
      · subst hc0
        rw [if_pos (by omega)]
        exact hh
      · rw [if_neg (by omega), if_pos (by omega)]
        rfl
    · show (chan ((forLoop h (fun y s => forLoop w (fun x s => F y x s) s) _).drop 1)
        (begin_c + c)).plane y x = _
      rw [chan_drop_one, show begin_c + c + 1 = begin_c + 1 + c by omega, hQp y x hy hx c hc,
        hP0, hPc0]
  unfold InvPalette at hq
  simp only [e1, e2] at hq
  rw [if_neg (by omega), if_neg (by omega), if_pos ⟨trivial, trivial⟩, e3, e4, hw, hh, hins] at hq
  by_cases hone : nb = 1
  · have hone' : (nb : Int) = 1 := by omega
    rw [if_pos hone'] at hq
    refine hundo (fun y x s => InvPalette.undoChannelPixel (begin_c + 1) y x s)
      (fun y x s => by rw [hone]; exact undoChannelPixel_update _ y x s)
      (fun y x k s hsi hk hsw hsl c hc => ?_) hq
    have hc0 : c = 0 := by omega
    subst hc0
    exact undoChannelPixel_hit hsi hk hsw (by omega)
  · have hone' : ¬ (nb : Int) = 1 := by omega
    rw [if_neg hone'] at hq
    refine hundo (fun y x s => InvPalette.undoPixel (nb : Int) (begin_c + 1) y x s)
      (fun y x s => by
        have := undoPixel_update (nb : Int) (begin_c + 1) y x s
        rwa [Int.toNat_natCast] at this)
      (fun y x k s hsi hk hsw hsl c hc => ?_) hq
    exact undoPixel_hit_index hsi hk hsw (Nat.succ_pos _) hsl c hc

/-! ## The low-frequency corner -/

theorem forLoop_congr {σ : Type} {n : Nat} {F G : Nat → σ → σ}
    (h : ∀ k, k < n → ∀ s, F k s = G k s) (s : σ) : forLoop n F s = forLoop n G s := by
  induction n with
  | zero => rfl
  | succ n ih =>
    rw [forLoop_succ, forLoop_succ, ih (fun k hk => h k (Nat.lt_succ_of_lt hk)),
      h n (Nat.lt_succ_self n)]

/-- The scratch buffer of `ReinterpretingIDCT` reads the tile at the low-frequency corner
only. -/
theorem scratch_congr (E : Externals) (DCT_ROWS DCT_COLS ROWS COLS : Nat)
    (input input' : Buf) (input_stride : Nat)
    (h : ∀ y x, y < min ROWS COLS → x < max ROWS COLS →
      input (y * input_stride + x) = input' (y * input_stride + x)) :
    ReinterpretingIDCT.scratch E DCT_ROWS DCT_COLS ROWS COLS ROWS COLS input input_stride =
      ReinterpretingIDCT.scratch E DCT_ROWS DCT_COLS ROWS COLS ROWS COLS input' input_stride := by
  unfold ReinterpretingIDCT.scratch
  by_cases hs : ROWS < COLS
  · simp only [if_pos hs]
    refine forLoop_congr (fun y hy s => forLoop_congr (fun x hx s' => ?_) s) _
    rw [h y x (by omega) (by omega)]
  · simp only [if_neg hs]
    refine forLoop_congr (fun y hy s => forLoop_congr (fun x hx s' => ?_) s) _
    rw [h y x (by omega) (by omega)]

/-- A kind taller than wide and its transpose fill the scratch buffer alike. -/
theorem scratch_transpose (E : Externals) (DR DC R C : Nat) (h : C < R) (input : Buf)
    (input_stride : Nat) :
    ReinterpretingIDCT.scratch E DR DC R C R C input input_stride =
      ReinterpretingIDCT.scratch E DC DR C R C R input input_stride := by
  unfold ReinterpretingIDCT.scratch
  simp only [if_neg (Nat.lt_asymm h), if_pos h]

/-- The output of `ReinterpretingIDCT` for a shape that is not square: the reduced inverse
transform of the window on the scratch buffer. -/
theorem ReinterpretingIDCT_rect (E : Externals) (DR DC R C : Nat) (hne : R ≠ C) (input : Buf)
    (input_stride : Nat) (output : Buf) (s : Nat) (hs : C ≤ s) (y x : Nat) (hy : y < R)
    (hx : x < C) :
    ReinterpretingIDCT E DR DC R C R C input input_stride output s (y * s + x) =
      E.ComputeScaledIDCT R C
        (FromBlock (min R C) (max R C)
          (ReinterpretingIDCT.scratch E DR DC R C R C input input_stride)) y x := by
  rw [ReinterpretingIDCT_inside E DR DC R C R C input input_stride output s hs y x hy hx,
    transformed_apply E DR DC R C R C input input_stride y x hy hx]
  unfold DoIDCT
  rw [if_neg hne]
  have h1 : CoefficientRows R C = min R C := by
    unfold CoefficientRows
    split_ifs <;> omega
  have h2 : CoefficientColumns R C = max R C := by
    unfold CoefficientColumns
    split_ifs <;> omega
  rw [h1, h2]

/-! ## The coefficient gathers -/

theorem gatherStores_4x4 (g : Nat → Nat → ℚ) (d : ℚ) : gatherStores 4 4 g d = List.range 16 := by
  simp [gatherStores, gatherWith, forLoop, List.range_succ]

theorem gatherStores_4x8 (g : Nat → Nat → ℚ) (d : ℚ) : gatherStores 4 8 g d = List.range 32 := by
  simp [gatherStores, gatherWith, forLoop, List.range_succ]

theorem dcs4_readsExactly : ReadsExactly TransformToPixels.dcs4 [0, 1, 8, 9] := by
  refine ⟨fun c c' h => ?_, fun p hp => ?_⟩
  · have h0 := h 0 (by simp)
    have h1 := h 1 (by simp)
    have h8 := h 8 (by simp)
    have h9 := h 9 (by simp)
    simp only [TransformToPixels.dcs4, h0, h1, h8, h9]
  · refine ⟨dcTile 0, ⟨fun i => if i = p then 1 else 0⟩, fun i hi => ?_, fun heq => ?_⟩
    · show (if i = 0 then (0 : ℚ) else 0) = if i = p then 1 else 0
      simp [hi]
    · have h0 := congrArg (fun b : Buf => b 0) heq
      simp only [List.mem_cons, List.mem_singleton, List.not_mem_nil, or_false] at hp
      rcases hp with rfl | rfl | rfl | rfl <;>
        simp [TransformToPixels.dcs4, store, dcTile] at h0

theorem dcs2_readsExactly : ReadsExactly TransformToPixels.dcs2 [0, 8] := by
  refine ⟨fun c c' h => ?_, fun p hp => ?_⟩
  · have h0 := h 0 (by simp)
    have h8 := h 8 (by simp)
    simp only [TransformToPixels.dcs2, h0, h8]
  · refine ⟨dcTile 0, ⟨fun i => if i = p then 1 else 0⟩, fun i hi => ?_, fun heq => ?_⟩
    · show (if i = 0 then (0 : ℚ) else 0) = if i = p then 1 else 0
      simp [hi]
    · have h0 := congrArg (fun b : Buf => b 0) heq
      simp only [List.mem_cons, List.mem_singleton, List.not_mem_nil, or_false] at hp
      rcases hp with rfl | rfl <;>
        simp [TransformToPixels.dcs2, store, dcTile] at h0

theorem AFV_dcs_readsExactly : ReadsExactly AFVTransformToPixels.dcs [0, 1, 8] := by
  refine ⟨fun c c' h => ?_, fun p hp => ?_⟩
  · have h0 := h 0 (by simp)
    have h1 := h 1 (by simp)
    have h8 := h 8 (by simp)
    simp only [AFVTransformToPixels.dcs, h0, h1, h8]
  · refine ⟨dcTile 0, ⟨fun i => if i = p then 1 else 0⟩, fun i hi => ?_, fun heq => ?_⟩
    · show (if i = 0 then (0 : ℚ) else 0) = if i = p then 1 else 0
      simp [hi]
    · have h0 := congrArg (fun b : Buf => b 0) heq
      simp only [List.mem_cons, List.mem_singleton, List.not_mem_nil, or_false] at hp
      rcases hp with rfl | rfl | rfl <;>
        simp [AFVTransformToPixels.dcs, store, dcTile] at h0

/-! ## The hierarchical 2x2 transform is invertible -/

theorem butterflyPass_rk (S : Nat) (b : Buf) (r k : Nat) (hr : r < S) (hk : k < S)
    (hS8 : S ≤ 8) :
    butterflyPass S b (r * 8 + k) =
      if r % 2 = 0 then
        (if k % 2 = 0 then
          b (r / 2 * 8 + k / 2) + b (r / 2 * 8 + (k / 2 + S / 2)) +
            b ((r / 2 + S / 2) * 8 + k / 2) + b ((r / 2 + S / 2) * 8 + (k / 2 + S / 2))
        else
          b (r / 2 * 8 + k / 2) + b (r / 2 * 8 + (k / 2 + S / 2)) -
            b ((r / 2 + S / 2) * 8 + k / 2) - b ((r / 2 + S / 2) * 8 + (k / 2 + S / 2)))
      else
        (if k % 2 = 0 then
          b (r / 2 * 8 + k / 2) - b (r / 2 * 8 + (k / 2 + S / 2)) +
            b ((r / 2 + S / 2) * 8 + k / 2) - b ((r / 2 + S / 2) * 8 + (k / 2 + S / 2))
        else
          b (r / 2 * 8 + k / 2) - b (r / 2 * 8 + (k / 2 + S / 2)) -
            b ((r / 2 + S / 2) * 8 + k / 2) + b ((r / 2 + S / 2) * 8 + (k / 2 + S / 2))) := by
  have e1 : (r * 8 + k) / 8 = r := by omega
  have e2 : (r * 8 + k) % 8 = k := by omega
  show (if (r * 8 + k) / 8 < S ∧ (r * 8 + k) % 8 < S then _ else _) = _
  rw [e1, e2, if_pos ⟨hr, hk⟩]

theorem butterflyPassInv_rk (S : Nat) (b : Buf) (r k : Nat) (hr : r < S) (hk : k < S)
    (hS8 : S ≤ 8) :
    butterflyPassInv S b (r * 8 + k) =
      if r < S / 2 then
        (if k < S / 2 then
          (b (r % (S / 2) * 2 * 8 + k % (S / 2) * 2) +
            b (r % (S / 2) * 2 * 8 + (k % (S / 2) * 2 + 1)) +
            b ((r % (S / 2) * 2 + 1) * 8 + k % (S / 2) * 2) +
            b ((r % (S / 2) * 2 + 1) * 8 + (k % (S / 2) * 2 + 1))) / 4
        else
          (b (r % (S / 2) * 2 * 8 + k % (S / 2) * 2) +
            b (r % (S / 2) * 2 * 8 + (k % (S / 2) * 2 + 1)) -
            b ((r % (S / 2) * 2 + 1) * 8 + k % (S / 2) * 2) -
            b ((r % (S / 2) * 2 + 1) * 8 + (k % (S / 2) * 2 + 1))) / 4)
      else
        (if k < S / 2 then
          (b (r % (S / 2) * 2 * 8 + k % (S / 2) * 2) -
            b (r % (S / 2) * 2 * 8 + (k % (S / 2) * 2 + 1)) +
            b ((r % (S / 2) * 2 + 1) * 8 + k % (S / 2) * 2) -
            b ((r % (S / 2) * 2 + 1) * 8 + (k % (S / 2) * 2 + 1))) / 4
        else
          (b (r % (S / 2) * 2 * 8 + k % (S / 2) * 2) -
            b (r % (S / 2) * 2 * 8 + (k % (S / 2) * 2 + 1)) -
            b ((r % (S / 2) * 2 + 1) * 8 + k % (S / 2) * 2) +
            b ((r % (S / 2) * 2 + 1) * 8 + (k % (S / 2) * 2 + 1))) / 4) := by
  have e1 : (r * 8 + k) / 8 = r := by omega
  have e2 : (r * 8 + k) % 8 = k := by omega
  show (if (r * 8 + k) / 8 < S ∧ (r * 8 + k) % 8 < S then _ else _) = _
  rw [e1, e2, if_pos ⟨hr, hk⟩]

theorem butterflyPassInv_left (S : Nat) (hS : S = 2 ∨ S = 4 ∨ S = 8) (b : Buf) (i : Nat)
    (hi : i < 64) : butterflyPassInv S (butterflyPass S b) i = b i := by
  have m0 : ∀ n : Nat, n * 2 % 2 = 0 := fun n => by omega
  have m1 : ∀ n : Nat, (n * 2 + 1) % 2 = 1 := fun n => by omega
  have d0 : ∀ n : Nat, n * 2 / 2 = n := fun n => by omega
  have d1 : ∀ n : Nat, (n * 2 + 1) / 2 = n := fun n => by omega
  by_cases hin : i / 8 < S ∧ i % 8 < S
  · have hi8 : i = i / 8 * 8 + i % 8 := by omega
    generalize i / 8 = r at hin hi8
    generalize i % 8 = k at hin hi8
    subst hi8
    obtain ⟨hr, hk⟩ := hin
    rcases hS with rfl | rfl | rfl
    all_goals
      rw [butterflyPassInv_rk _ _ r k hr hk (by decide),
        butterflyPass_rk _ b _ _ (by omega) (by omega) (by decide),
        butterflyPass_rk _ b _ _ (by omega) (by omega) (by decide),
        butterflyPass_rk _ b _ _ (by omega) (by omega) (by decide),
        butterflyPass_rk _ b _ _ (by omega) (by omega) (by decide)]
      simp only [m0, m1, d0, d1, if_true, one_ne_zero, if_false]
      split_ifs with h1 h2 h2 <;> ring_nf <;> congr 1 <;> omega
  · have e : ∀ c : Buf, butterflyPassInv S c i = c i := fun c => by
      show (if i / 8 < S ∧ i % 8 < S then _ else _) = _
      rw [if_neg hin]
    have e' : butterflyPass S b i = b i := by
      show (if i / 8 < S ∧ i % 8 < S then _ else _) = _
      rw [if_neg hin]
    rw [e, e']
theorem butterflyPassInv_right (S : Nat) (hS : S = 2 ∨ S = 4 ∨ S = 8) (b : Buf) (i : Nat)
    (hi : i < 64) : butterflyPass S (butterflyPassInv S b) i = b i := by
  by_cases hin : i / 8 < S ∧ i % 8 < S
  · have hi8 : i = i / 8 * 8 + i % 8 := by omega
    generalize i / 8 = r at hin hi8
    generalize i % 8 = k at hin hi8
    subst hi8
    obtain ⟨hr, hk⟩ := hin
    obtain ⟨m, hm, hS2⟩ : ∃ m, S / 2 = m ∧ S = 2 * m := by
      rcases hS with rfl | rfl | rfl
      · exact ⟨1, rfl, rfl⟩
      · exact ⟨2, rfl, rfl⟩
      · exact ⟨4, rfl, rfl⟩
    have hS8 : S ≤ 8 := by omega
    have hy : r / 2 < m := by omega
    have hx : k / 2 < m := by omega
    have ny : ¬ (r / 2 + m < m) := by omega
    have nx : ¬ (k / 2 + m < m) := by omega
    rw [butterflyPass_rk _ _ r k hr hk hS8,
      butterflyPassInv_rk _ b _ _ (by omega) (by omega) hS8,
      butterflyPassInv_rk _ b _ _ (by omega) (by omega) hS8,
      butterflyPassInv_rk _ b _ _ (by omega) (by omega) hS8,
      butterflyPassInv_rk _ b _ _ (by omega) (by omega) hS8]
    simp only [hm, Nat.add_mod_right, Nat.mod_eq_of_lt hy, Nat.mod_eq_of_lt hx, hy, hx, ny, nx,
      if_true, if_false]
    rcases Nat.mod_two_eq_zero_or_one r with h | h <;>
      rcases Nat.mod_two_eq_zero_or_one k with h' | h' <;>
      simp only [h, h', if_true, one_ne_zero, if_false] <;> ring_nf <;> congr 1 <;> omega
  · have e : ∀ c : Buf, butterflyPass S c i = c i := fun c => by
      show (if i / 8 < S ∧ i % 8 < S then _ else _) = _
      rw [if_neg hin]
    have e' : butterflyPassInv S b i = b i := by
      show (if i / 8 < S ∧ i % 8 < S then _ else _) = _
      rw [if_neg hin]
    rw [e, e']

theorem butterflyPassInv_congr (S : Nat) (hS : S = 2 ∨ S = 4 ∨ S = 8) (b b' : Buf)
    (h : ∀ i, i < 64 → b i = b' i) (i : Nat) (hi : i < 64) :
    butterflyPassInv S b i = butterflyPassInv S b' i := by
  show (if i / 8 < S ∧ i % 8 < S then _ else _) = (if i / 8 < S ∧ i % 8 < S then _ else _)
  by_cases hin : i / 8 < S ∧ i % 8 < S
  · rw [if_pos hin, if_pos hin]
    have hS8 : S ≤ 8 := by omega
    have hlt : ∀ n : Nat, n % (S / 2) < 4 := fun n => by
      rcases hS with rfl | rfl | rfl <;> omega
    have hy := hlt (i / 8)
    have hx := hlt (i % 8)
    rw [h (i / 8 % (S / 2) * 2 * 8 + i % 8 % (S / 2) * 2) (by omega),
      h (i / 8 % (S / 2) * 2 * 8 + (i % 8 % (S / 2) * 2 + 1)) (by omega),
      h ((i / 8 % (S / 2) * 2 + 1) * 8 + i % 8 % (S / 2) * 2) (by omega),
      h ((i / 8 % (S / 2) * 2 + 1) * 8 + (i % 8 % (S / 2) * 2 + 1)) (by omega)]
  · rw [if_neg hin, if_neg hin]
    exact h i hi

/-- The three passes of `case Type::DCT2X2` are undone by the three inverse passes. -/
theorem butterflyPasses_left_inverse (c : Buf) (i : Nat) (hi : i < 64) :
    butterflyPassInv 2 (butterflyPassInv 4 (butterflyPassInv 8
      (butterflyPass 8 (butterflyPass 4 (butterflyPass 2 c))))) i = c i := by
  have h8 : ∀ j, j < 64 → butterflyPassInv 8
      (butterflyPass 8 (butterflyPass 4 (butterflyPass 2 c))) j =
      butterflyPass 4 (butterflyPass 2 c) j :=
    fun j hj => butterflyPassInv_left 8 (by decide) _ j hj
  have h4 : ∀ j, j < 64 → butterflyPassInv 4 (butterflyPassInv 8
      (butterflyPass 8 (butterflyPass 4 (butterflyPass 2 c)))) j = butterflyPass 2 c j :=
    fun j hj => (butterflyPassInv_congr 4 (by decide) _ _ h8 j hj).trans
      (butterflyPassInv_left 4 (by decide) _ j hj)
  exact (butterflyPassInv_congr 2 (by decide) _ _ h4 i hi).trans
    (butterflyPassInv_left 2 (by decide) _ i hi)

/-- The three inverse passes are undone by the three passes of `case Type::DCT2X2`. -/
theorem butterflyPasses_right_inverse (t : Buf) (i : Nat) (hi : i < 64) :
    butterflyPass 8 (butterflyPass 4 (butterflyPass 2
      (butterflyPassInv 2 (butterflyPassInv 4 (butterflyPassInv 8 t))))) i = t i := by
  have h2 : ∀ j, j < 64 → butterflyPass 2
      (butterflyPassInv 2 (butterflyPassInv 4 (butterflyPassInv 8 t))) j =
      butterflyPassInv 4 (butterflyPassInv 8 t) j :=
    fun j hj => butterflyPassInv_right 2 (by decide) _ j hj
  have h4 : ∀ j, j < 64 → butterflyPass 4 (butterflyPass 2
      (butterflyPassInv 2 (butterflyPassInv 4 (butterflyPassInv 8 t)))) j =
      butterflyPassInv 8 t j :=
    fun j hj => (butterflyPass_congr 4 (by decide) (by decide) _ _ h2 j hj).trans
      (butterflyPassInv_right 4 (by decide) _ j hj)
  exact (butterflyPass_congr 8 (by decide) (by decide) _ _ h4 i hi).trans
    (butterflyPassInv_right 8 (by decide) _ i hi)

/-! ## The accesses of `ReinterpretingIDCT` -/

theorem forLoop_prod {α β : Type} (n : Nat) (f : Nat → α → α) (g : Nat → β → β) (s : α × β) :
    forLoop n (fun k (s : α × β) => (f k s.1, g k s.2)) s =
      (forLoop n f s.1, forLoop n g s.2) := by
  induction n with
  | zero => rfl
  | succ n ih => rw [forLoop_succ, ih, forLoop_succ, forLoop_succ]

theorem forLoop2_prod {α β : Type} (n m : Nat) (f : Nat → Nat → α → α)
    (g : Nat → Nat → β → β) (s : α × β) :
    forLoop n (fun y s => forLoop m (fun x (s : α × β) => (f y x s.1, g y x s.2)) s) s =
      (forLoop n (fun y a => forLoop m (fun x a => f y x a) a) s.1,
        forLoop n (fun y b => forLoop m (fun x b => g y x b) b) s.2) := by
  induction n with
  | zero => rfl
  | succ n ih =>
    rw [forLoop_succ, ih, forLoop_prod m (f n) (g n), forLoop_succ, forLoop_succ]

/-- The run with a record of accesses computes the output of `ReinterpretingIDCT`, and its
record is `ReinterpretingIDCT.accesses`. -/
theorem traced_eq (E : Externals) (DCT_ROWS DCT_COLS LF_ROWS LF_COLS ROWS COLS : Nat)
    (input : Buf) (input_stride : Nat) (output : Buf) (output_stride : Nat) :
    ReinterpretingIDCT.traced E DCT_ROWS DCT_COLS LF_ROWS LF_COLS ROWS COLS input input_stride
        output output_stride =
      (ReinterpretingIDCT E DCT_ROWS DCT_COLS LF_ROWS LF_COLS ROWS COLS input input_stride
          output output_stride,
        ReinterpretingIDCT.accesses DCT_ROWS DCT_COLS LF_ROWS LF_COLS ROWS COLS
          input_stride) := by
  have hwide := forLoop2_prod LF_ROWS LF_COLS
    (fun y x (b : Buf) => store b (y * COLS + x)
      (input (y * input_stride + x) * E.DCTTotalResampleScale DCT_ROWS ROWS y *
        E.DCTTotalResampleScale DCT_COLS COLS x))
    (fun y x (t : List Access) => t ++ [Access.inputRead (y * input_stride + x),
      Access.scaleLookup DCT_ROWS ROWS y, Access.scaleLookup DCT_COLS COLS x,
      Access.blockWrite (y * COLS + x)])
    (Buf.zero, (List.range (ROWS * COLS)).map Access.blockInit)
  have htall := forLoop2_prod LF_COLS LF_ROWS
    (fun y x (b : Buf) => store b (y * ROWS + x)
      (input (y * input_stride + x) * E.DCTTotalResampleScale DCT_COLS COLS y *
        E.DCTTotalResampleScale DCT_ROWS ROWS x))
    (fun y x (t : List Access) => t ++ [Access.inputRead (y * input_stride + x),
      Access.scaleLookup DCT_COLS COLS y, Access.scaleLookup DCT_ROWS ROWS x,
      Access.blockWrite (y * ROWS + x)])
    (Buf.zero, (List.range (ROWS * COLS)).map Access.blockInit)
  have hcopy := fun (block : Buf) (t : List Access) => forLoop2_prod ROWS COLS
    (fun y x (o : Buf) => store o (y * output_stride + x) (block (y * COLS + x)))
    (fun y x (t : List Access) => t ++ [Access.blockRead (y * COLS + x)]) (output, t)
  unfold ReinterpretingIDCT.traced ReinterpretingIDCT.accesses ReinterpretingIDCT
    ReinterpretingIDCT.transformed ReinterpretingIDCT.scratch
  by_cases h : ROWS < COLS
  · simp only [if_pos h]
    rw [hwide, hcopy]
  · simp only [if_neg h]
    rw [htall, hcopy]

theorem accesses_init_first (DCT_ROWS DCT_COLS LF_ROWS LF_COLS ROWS COLS input_stride : Nat) :
    (List.range (ROWS * COLS)).map Access.blockInit <+:
      ReinterpretingIDCT.accesses DCT_ROWS DCT_COLS LF_ROWS LF_COLS ROWS COLS input_stride := by
  have happ : ∀ (n m : Nat) (g : Nat → Nat → List Access) (t : List Access),
      (List.range (ROWS * COLS)).map Access.blockInit <+: t →
      (List.range (ROWS * COLS)).map Access.blockInit <+:
        forLoop n (fun y t => forLoop m (fun x t => t ++ g y x) t) t := by
    intro n m g t ht
    exact forLoop_preserves (fun t => (List.range (ROWS * COLS)).map Access.blockInit <+: t)
      (fun y _ t ht => forLoop_preserves
        (fun t => (List.range (ROWS * COLS)).map Access.blockInit <+: t)
        (fun x _ t ht => ht.trans (List.prefix_append t _)) ht) ht
  unfold ReinterpretingIDCT.accesses
  simp only
  refine happ _ _ (fun y x => [Access.blockRead (y * COLS + x)]) _
    (happ _ _ (fun r k => [Access.blockWrite (r * COLS + k)]) _
      (List.IsPrefix.trans ?_ (List.prefix_append _ _)))
  split_ifs
  · exact happ _ _ (fun y x => [Access.inputRead (y * input_stride + x),
      Access.scaleLookup DCT_ROWS ROWS y, Access.scaleLookup DCT_COLS COLS x,
      Access.blockWrite (y * COLS + x)]) _ (List.prefix_refl _)
  · exact happ _ _ (fun y x => [Access.inputRead (y * input_stride + x),
      Access.scaleLookup DCT_COLS COLS y, Access.scaleLookup DCT_ROWS ROWS x,
      Access.blockWrite (y * ROWS + x)]) _ (List.prefix_refl _)

/-- A record that starts with the initialisation of the entries below `N` and reads only
entries below `N` reads no entry before it is written. -/
theorem writtenBeforeRead_of_prefix (N : Nat) (t : List Access)
    (hpre : (List.range N).map Access.blockInit <+: t)
    (hread : ∀ i, Access.blockRead i ∈ t → i < N) : WrittenBeforeRead t := by
  obtain ⟨rest, rfl⟩ := hpre
  intro pre post i h
  have hi : i < N := hread i (by rw [h]; simp)
  have hinit : Access.blockInit i ∈ (List.range N).map Access.blockInit :=
    List.mem_map.mpr ⟨i, List.mem_range.mpr hi, rfl⟩
  rcases List.append_eq_append_iff.mp h with ⟨a', ha, _⟩ | ⟨c', hc, hc2⟩
  · exact Or.inl (by rw [ha]; exact List.mem_append_left _ hinit)
  · cases c' with
    | nil =>
      rw [List.append_nil] at hc
      exact Or.inl (by rw [← hc]; exact hinit)
    | cons x c'' =>
      rw [List.cons_append, List.cons.injEq] at hc2
      have hmem : Access.blockRead i ∈ (List.range N).map Access.blockInit := by
        rw [hc, ← hc2.1]
        simp
      obtain ⟨j, _, hj⟩ := List.mem_map.mp hmem
      exact absurd hj (by simp)

/-! ## Linearity of the bespoke reconstructions -/

theorem axpy_apply (a : ℚ) (c1 c2 : Buf) (i : Nat) :
    Buf.axpy a c1 c2 i = a * c1 i + c2 i := rfl

theorem residual_sum_linear (a : ℚ) (c1 c2 : Buf) (y x : Nat) :
    TransformToPixels.residual_sum (Buf.axpy a c1 c2) y x =
      a * TransformToPixels.residual_sum c1 y x + TransformToPixels.residual_sum c2 y x := by
  rw [residual_sum_eq, residual_sum_eq, residual_sum_eq, Finset.mul_sum,
    ← Finset.sum_add_distrib]
  refine Finset.sum_congr rfl (fun iy _ => ?_)
  rw [Finset.mul_sum, ← Finset.sum_add_distrib]
  refine Finset.sum_congr rfl (fun ix _ => ?_)
  by_cases h : (iy, ix) = (0, 0)
  · rw [if_pos h, if_pos h, if_pos h]
    ring
  · rw [if_neg h, if_neg h, if_neg h]
    rfl

theorem dcs4_linear (a : ℚ) (c1 c2 : Buf) (y x : Nat) (hy : y < 2) (hx : x < 2) :
    TransformToPixels.dcs4 (Buf.axpy a c1 c2) (y * 2 + x) =
      a * TransformToPixels.dcs4 c1 (y * 2 + x) + TransformToPixels.dcs4 c2 (y * 2 + x) := by
  rw [dcs4_apply _ y x hy hx, dcs4_apply _ y x hy hx, dcs4_apply _ y x hy hx]
  simp only [axpy_apply]
  split_ifs <;> ring

theorem identitySample_linear (a : ℚ) (c1 c2 : Buf) (y x iy ix : Nat) (hy : y < 2)
    (hx : x < 2) :
    identitySample (Buf.axpy a c1 c2) y x iy ix =
      a * identitySample c1 y x iy ix + identitySample c2 y x iy ix := by
  unfold identitySample
  rw [residual_sum_linear, dcs4_linear a c1 c2 y x hy hx]
  simp only [axpy_apply]
  split_ifs <;> ring

theorem butterflyPass_linear (S : Nat) (a : ℚ) (b1 b2 : Buf) :
    butterflyPass S (Buf.axpy a b1 b2) = Buf.axpy a (butterflyPass S b1) (butterflyPass S b2) := by
  refine Buf.ext (fun i => ?_)
  show (if i / 8 < S ∧ i % 8 < S then _ else _) =
    a * (if i / 8 < S ∧ i % 8 < S then _ else _) + (if i / 8 < S ∧ i % 8 < S then _ else _)
  simp only [axpy_apply]
  split_ifs <;> ring

theorem AFV_coeff_linear (a : ℚ) (c1 c2 : Buf) (j : Nat) (hj : j < 16) :
    AFVTransformToPixels.coeff (Buf.axpy a c1 c2) j =
      a * AFVTransformToPixels.coeff c1 j + AFVTransformToPixels.coeff c2 j := by
  have e : j = j / 4 * 4 + j % 4 := by omega
  rw [e, AFV_coeff_apply _ _ _ (by omega) (by omega), AFV_coeff_apply _ _ _ (by omega) (by omega),
    AFV_coeff_apply _ _ _ (by omega) (by omega)]
  simp only [axpy_apply]
  split_ifs <;> ring

/-! ## The palette transform: the checks -/

theorem CheckPaletteParams_eq (image : Image) (begin_c end_c : Nat)
    (hlen : image.channel.length < 2 ^ 31) (hb : begin_c < 2 ^ 32) (he : end_c < 2 ^ 32) :
    CheckPaletteParams image begin_c end_c =
      if begin_c ≤ end_c ∧ end_c < image.channel.length then Status.ok
      else Status.failure "Invalid channel range" := by
  unfold CheckPaletteParams asInt asSizeT
  have h1 : begin_c % 2 ^ 32 = begin_c := Nat.mod_eq_of_lt hb
  have h2 : end_c % 2 ^ 32 = end_c := Nat.mod_eq_of_lt he
  simp only [h1, h2]
  by_cases hin : begin_c ≤ end_c ∧ end_c < image.channel.length
  · rw [if_pos hin, if_neg]
    split_ifs <;> omega
  · rw [if_neg hin, if_pos]
    split_ifs <;> omega

theorem sizesAgree_of_forall {channel : List Channel} {begin_c end_c w h : Nat}
    (hs : ∀ c, begin_c < c → c ≤ end_c → (chan channel c).w = w ∧ (chan channel c).h = h) :
    FwdPalette.sizesAgree channel begin_c end_c w h = true := by
  unfold FwdPalette.sizesAgree
  have key : ∀ n, n ≤ end_c - begin_c → forLoop n (fun k agree =>
      agree && decide ((chan channel (begin_c + 1 + k)).w = w) &&
        decide ((chan channel (begin_c + 1 + k)).h = h)) true = true := by
    intro n
    induction n with
    | zero => intro _; rfl
    | succ n ih =>
      intro hn
      rw [forLoop_succ, ih (by omega)]
      have := hs (begin_c + 1 + n) (by omega) (by omega)
      simp [this.1, this.2]
  exact key _ (Nat.le_refl _)

/-- A failing `FwdPalette` leaves the image and `nb_colors` as they were. -/
theorem FwdPalette_failure {X : ImageExternals} {input : Image} {begin_c end_c nb_colors : Nat}
    {ordered : Bool} {st : Status} {out : Image} {nb' : Nat}
    (h : FwdPalette X input begin_c end_c nb_colors ordered = some (st, out, nb'))
    (hst : st ≠ Status.ok) : out = input ∧ nb' = nb_colors := by
  rcases FwdPalette_returns h with ⟨_, h1, h2, _⟩ | ⟨h1, _⟩
  · exact ⟨h1, h2⟩
  · exact absurd h1 hst

/-- `FwdPalette` succeeds exactly when it passes its three checks and `lookup` can be given
its size. -/
theorem FwdPalette_ok_iff {X : ImageExternals} {input : Image} {begin_c end_c nb_colors : Nat}
    {ordered : Bool} :
    (∃ out nb', FwdPalette X input begin_c end_c nb_colors ordered =
        some (Status.ok, out, nb')) ↔
      CheckPaletteParams input begin_c end_c = Status.ok ∧
      FwdPalette.sizesAgree input.channel begin_c end_c (chan input.channel begin_c).w
        (chan input.channel begin_c).h = true ∧
      (FwdPalette.scan input.channel begin_c (asUInt32 (end_c + 2 ^ 32 - begin_c + 1))
        nb_colors (chan input.channel begin_c).w (chan input.channel begin_c).h).returned =
        false ∧
      ∃ L, FwdPalette.lookupSize (asUInt32 (end_c + 2 ^ 32 - begin_c + 1))
        (X.compute_minmax (chan input.channel begin_c)).1
        (X.compute_minmax (chan input.channel begin_c)).2 = some L := by
  constructor
  · rintro ⟨out, nb', h⟩
    obtain ⟨h1, h2, h3, L, hL, _⟩ := FwdPalette_ok h
    exact ⟨h1, h2, h3, L, hL⟩
  · rintro ⟨h1, h2, h3, L, hL⟩
    rw [FwdPalette_of_checks h1 h2 h3, hL]
    exact ⟨_, _, rfl⟩

/-- `FwdPalette` does not return exactly when it passes its three checks and `lookup`
cannot be given its size. -/
theorem FwdPalette_none_iff {X : ImageExternals} {input : Image}
    {begin_c end_c nb_colors : Nat} {ordered : Bool} :
    FwdPalette X input begin_c end_c nb_colors ordered = none ↔
      CheckPaletteParams input begin_c end_c = Status.ok ∧
      FwdPalette.sizesAgree input.channel begin_c end_c (chan input.channel begin_c).w
        (chan input.channel begin_c).h = true ∧
      (FwdPalette.scan input.channel begin_c (asUInt32 (end_c + 2 ^ 32 - begin_c + 1))
        nb_colors (chan input.channel begin_c).w (chan input.channel begin_c).h).returned =
        false ∧
      FwdPalette.lookupSize (asUInt32 (end_c + 2 ^ 32 - begin_c + 1))
        (X.compute_minmax (chan input.channel begin_c)).1
        (X.compute_minmax (chan input.channel begin_c)).2 = none := by
  constructor
  · intro h
    cases hr : FwdPalette X input begin_c end_c nb_colors ordered with
    | some r => rw [h] at hr; exact absurd hr (by simp)
    | none =>
      by_cases hc : CheckPaletteParams input begin_c end_c = Status.ok ∧
          FwdPalette.sizesAgree input.channel begin_c end_c (chan input.channel begin_c).w
            (chan input.channel begin_c).h = true ∧
          (FwdPalette.scan input.channel begin_c (asUInt32 (end_c + 2 ^ 32 - begin_c + 1))
            nb_colors (chan input.channel begin_c).w
            (chan input.channel begin_c).h).returned = false
      · refine ⟨hc.1, hc.2.1, hc.2.2, ?_⟩
        rw [FwdPalette_of_checks hc.1 hc.2.1 hc.2.2] at h
        simpa using h
      · exfalso
        unfold FwdPalette at h
        split at h
        · exact absurd h (by simp)
        · rename_i hcheck
          simp only at h
          by_cases h1 : FwdPalette.sizesAgree input.channel begin_c end_c
              (chan input.channel begin_c).w (chan input.channel begin_c).h = true
          · by_cases h2 : (FwdPalette.scan input.channel begin_c
                (asUInt32 (end_c + 2 ^ 32 - begin_c + 1)) nb_colors
                (chan input.channel begin_c).w (chan input.channel begin_c).h).returned = true
            · rw [if_neg (not_not_intro h1), if_pos h2] at h
              exact absurd h (by simp)
            · exact hc ⟨hcheck, h1, by simpa using h2⟩
          · rw [if_pos h1] at h
            exact absurd h (by simp)
  · rintro ⟨h1, h2, h3, hL⟩
    rw [FwdPalette_of_checks h1 h2 h3, hL]
    rfl

/-! ## The palette transform: counting the colours -/

theorem scanAll_step {channel : List Channel} {begin_c nb nb_colors w h y x : Nat}
    (hnc : nb_colors + 1 < 2 ^ 32 ∨ (distinctColors channel begin_c nb w h).card < 2 ^ 32)
    (hy : y < h) (hx : x < w) {s : FwdPalette.Scan}
    (hs : ScanAll channel begin_c nb nb_colors w h s) :
    ScanAll channel begin_c nb nb_colors w h
      (FwdPalette.scanPixel channel begin_c nb nb_colors y x s) := by
  by_cases hr : s.returned = true
  · rw [scanPixel_returned _ _ _ _ _ _ _ hr]
    exact hs
  · have hr0 : s.returned = false := by simpa using hr
    have hinv := hs.2 hr0
    by_cases hr' : (FwdPalette.scanPixel channel begin_c nb nb_colors y x s).returned = false
    · refine ⟨fun h => ?_, fun _ => ((scanPixel_step hnc hy hx hr').2 hinv).1⟩
      rw [hr'] at h
      exact absurd h (by simp)
    · have hr1 : (FwdPalette.scanPixel channel begin_c nb nb_colors y x s).returned = true := by
        simpa using hr'
      refine ⟨fun _ => ?_, fun h => by rw [hr1] at h; exact absurd h (by simp)⟩
      obtain ⟨h1, h2, h3, h4, h5, h6⟩ := hinv
      rw [scanPixel_returned_eq _ _ _ _ _ _ _ hr0, decide_eq_true_eq] at hr1
      have hlen := length_setInsert (colorAt channel begin_c nb y x) h6
      have hsorted := pairwise_setInsert (colorAt channel begin_c nb y x) h6
      refine ⟨FwdPalette.setInsert (colorAt channel begin_c nb y x) s.candidate_palette,
        hsorted.imp (fun hab => ne_of_lt hab), fun c hc => ?_, ?_⟩
      · rcases (mem_setInsert _ _ _).mp hc with rfl | hc
        · exact ⟨y, x, hy, hx, rfl⟩
        · exact h5 c (h3 c hc)
      · split_ifs at hlen <;> omega

/-- The colour collecting loop maintains `ScanAll`. -/
theorem scan_all {channel : List Channel} {begin_c nb nb_colors w h : Nat}
    (hnc : nb_colors + 1 < 2 ^ 32 ∨ (distinctColors channel begin_c nb w h).card < 2 ^ 32) :
    ScanAll channel begin_c nb nb_colors w h
      (FwdPalette.scan channel begin_c nb nb_colors w h) := by
  unfold FwdPalette.scan
  exact @forLoop2_preserves FwdPalette.Scan (ScanAll channel begin_c nb nb_colors w h) h w
    (fun y x s => FwdPalette.scanPixel channel begin_c nb nb_colors y x s)
    (fun y x s hy hx hs => scanAll_step hnc hy hx hs) _
    ⟨fun h => absurd h (by simp), fun _ => ScanInv_init _ _ _ _ _ _⟩

/-- The colour collecting loop returns exactly when the pixels have more than `nb_colors`
different colours; when it does not return, the set holds the different colours. -/
theorem scan_count {channel : List Channel} {begin_c nb nb_colors w h : Nat}
    (hnc : nb_colors + 1 < 2 ^ 32 ∨ (distinctColors channel begin_c nb w h).card < 2 ^ 32) :
    ((FwdPalette.scan channel begin_c nb nb_colors w h).returned = false ↔
      (distinctColors channel begin_c nb w h).card ≤ nb_colors) ∧
    ((FwdPalette.scan channel begin_c nb nb_colors w h).returned = false →
      (FwdPalette.scan channel begin_c nb nb_colors w h).candidate_palette.length =
        (distinctColors channel begin_c nb w h).card ∧
      ∀ c, c ∈ (FwdPalette.scan channel begin_c nb nb_colors w h).candidate_palette ↔
        c ∈ distinctColors channel begin_c nb w h) := by
  have hfalse : (FwdPalette.scan channel begin_c nb nb_colors w h).returned = false →
      (FwdPalette.scan channel begin_c nb nb_colors w h).candidate_palette.length =
          (distinctColors channel begin_c nb w h).card ∧
        ∀ c, c ∈ (FwdPalette.scan channel begin_c nb nb_colors w h).candidate_palette ↔
          c ∈ distinctColors channel begin_c nb w h := by
    intro hret
    obtain ⟨⟨h1, h2, h3, h4, h5, h6⟩, hall⟩ := scan_spec hnc hret
    have hmem : ∀ c, c ∈ (FwdPalette.scan channel begin_c nb nb_colors w h).candidate_palette ↔
        c ∈ distinctColors channel begin_c nb w h := by
      intro c
      rw [mem_distinctColors]
      constructor
      · exact fun hc => h5 c (h3 c hc)
      · rintro ⟨y, x, hy, hx, rfl⟩
        exact hall y x hy hx
    refine ⟨?_, hmem⟩
    have hnd : (FwdPalette.scan channel begin_c nb nb_colors w h).candidate_palette.Nodup :=
      h6.imp (fun hab => ne_of_lt hab)
    rw [← List.toFinset_card_of_nodup hnd]
    congr 1
    ext c
    rw [List.mem_toFinset, hmem]
  refine ⟨⟨fun hret => ?_, fun hcard => ?_⟩, hfalse⟩
  · rw [← (hfalse hret).1]
    exact (scan_spec hnc hret).1.2.2.2.1
  · by_contra hne
    have hret : (FwdPalette.scan channel begin_c nb nb_colors w h).returned = true := by
      simpa using hne
    obtain ⟨l, hnd, hsub, hlt⟩ := (@scan_all channel begin_c nb nb_colors w h hnc).1 hret
    have hle : l.toFinset ⊆ distinctColors channel begin_c nb w h := by
      intro c hc
      rw [mem_distinctColors]
      exact hsub c (List.mem_toFinset.mp hc)
    have := Finset.card_le_card hle
    rw [List.toFinset_card_of_nodup hnd] at this
    omega

theorem colorAt_length (channel : List Channel) (begin_c nb y x : Nat) :
    (colorAt channel begin_c nb y x).length = nb := by
  simp [colorAt]

/-- The vector in image order holds the colours of the set, each once. -/
theorem imageorder_perm {channel : List Channel} {begin_c nb nb_colors w h : Nat}
    {s : FwdPalette.Scan} (hs : ScanInv channel begin_c nb nb_colors w h s) :
    List.Perm s.candidate_palette s.candidate_palette_imageorder := by
  obtain ⟨h1, h2, h3, _, _, h6⟩ := hs
  have hnd : s.candidate_palette.Nodup := h6.imp (fun hab => ne_of_lt hab)
  exact (List.subperm_of_subset hnd (fun c hc => h3 c hc)).perm_of_length_le (by omega)

/-- The palette that the filling loop leaves holds the colours it was filled from, in their
order. -/
theorem paletteColors_fill (nb : Nat) (minval : Int) (L : Nat) (colors : List (List Int))
    (hlen : ∀ col ∈ colors, col.length = nb) :
    paletteColors (FwdPalette.fill nb minval L colors.length colors).pch = colors := by
  obtain ⟨_, hw, hh, hp, _, _⟩ := fill_spec nb minval L colors.length colors
  unfold paletteColors
  rw [hw, hh]
  refine List.ext_getElem (by simp) (fun i h1 h2 => ?_)
  rw [List.getElem_map, List.getElem_range]
  have hcl : colors[i].length = nb := hlen _ (List.getElem_mem h2)
  refine List.ext_getElem (by simp [hcl]) (fun c h3 h4 => ?_)
  rw [List.getElem_map, List.getElem_range]
  have hc : c < nb := by simpa using h3
  rw [hp i c h2 hc, List.getD_eq_getElem _ _ h2, List.getD_eq_getElem _ _ h4]

theorem build_palette (X : ImageExternals) (input : Image) (begin_c end_c nb : Nat)
    (ordered : Bool) (scan : FwdPalette.Scan) (L : Nat) :
    chan (FwdPalette.build X input begin_c end_c nb ordered scan L).1.channel 0 =
      (FwdPalette.fill nb (X.compute_minmax (chan input.channel begin_c)).1 L
        (asUInt32 scan.candidate_palette.length)
        (if ordered then scan.candidate_palette else scan.candidate_palette_imageorder)).pch ∧
    (FwdPalette.build X input begin_c end_c nb ordered scan L).2 =
      asUInt32 scan.candidate_palette.length :=
  ⟨rfl, rfl⟩

/-- The colours that the palette is filled from, when the limit is below `2 ^ 32 - 1` or
there are fewer than `2 ^ 32` different colours: as many as the set holds, and each of them
has one sample per channel. -/
theorem scan_colors_length {channel : List Channel} {begin_c nb nb_colors w h : Nat}
    (hnc : nb_colors + 1 < 2 ^ 32 ∨ (distinctColors channel begin_c nb w h).card < 2 ^ 32)
    (hret : (FwdPalette.scan channel begin_c nb nb_colors w h).returned = false)
    (ordered : Bool) :
    asUInt32 (FwdPalette.scan channel begin_c nb nb_colors w h).candidate_palette.length =
      (if ordered then (FwdPalette.scan channel begin_c nb nb_colors w h).candidate_palette
        else (FwdPalette.scan channel begin_c nb nb_colors w h).candidate_palette_imageorder
        ).length ∧
    ∀ c ∈ (if ordered then (FwdPalette.scan channel begin_c nb nb_colors w h).candidate_palette
        else (FwdPalette.scan channel begin_c nb nb_colors w h).candidate_palette_imageorder),
      c.length = nb := by
  obtain ⟨⟨h1, h2, h3, h4, h5, h6⟩, _⟩ := scan_spec hnc hret
  constructor
  · have hl : asUInt32 (FwdPalette.scan channel begin_c nb nb_colors w h).candidate_palette.length
        = (FwdPalette.scan channel begin_c nb nb_colors w h).candidate_palette.length := by
      have hlt32 : (FwdPalette.scan channel begin_c nb nb_colors w h).candidate_palette.length <
          2 ^ 32 := by
        rcases hnc with hb | hb
        · omega
        · exact lt_of_le_of_lt (length_le_distinctColors (h6.imp (fun hab => ne_of_lt hab))
            (fun c hc => h5 c (h3 c hc))) hb
      unfold asUInt32
      omega
    rw [hl]
    cases ordered
    · simp only [Bool.false_eq_true, if_false]; omega
    · simp only [if_true]
  · intro c hc
    have hc5 : c ∈ (FwdPalette.scan channel begin_c nb nb_colors w h
        ).candidate_palette_imageorder := by
      cases ordered
      · exact hc
      · exact h3 c hc
    obtain ⟨y, x, _, _, rfl⟩ := h5 c hc5
    exact colorAt_length _ _ _ _ _

/-- The three checks of `FwdPalette` in terms of the image: the channel range is valid, the
channels have the size of channel `begin_c`, and the pixels have at most `nb_colors`
different colours. -/
theorem FwdPalette_checks_iff {input : Image} {begin_c end_c nb_colors : Nat}
    (hb : begin_c < 2 ^ 32) (he : end_c < 2 ^ 32)
    (hcol : nb_colors + 1 < 2 ^ 32 ∨
      (distinctColors input.channel begin_c (end_c - begin_c + 1)
        (chan input.channel begin_c).w (chan input.channel begin_c).h).card < 2 ^ 32)
    (hlen : input.channel.length < 2 ^ 31) :
    (CheckPaletteParams input begin_c end_c = Status.ok ∧
      FwdPalette.sizesAgree input.channel begin_c end_c (chan input.channel begin_c).w
        (chan input.channel begin_c).h = true ∧
      (FwdPalette.scan input.channel begin_c (asUInt32 (end_c + 2 ^ 32 - begin_c + 1))
        nb_colors (chan input.channel begin_c).w (chan input.channel begin_c).h).returned =
        false) ↔
    ((begin_c ≤ end_c ∧ end_c < input.channel.length) ∧
      (∀ c, begin_c < c → c ≤ end_c →
        (chan input.channel c).w = (chan input.channel begin_c).w ∧
        (chan input.channel c).h = (chan input.channel begin_c).h) ∧
      (distinctColors input.channel begin_c (end_c - begin_c + 1)
        (chan input.channel begin_c).w (chan input.channel begin_c).h).card ≤ nb_colors) := by
  have hcheck := CheckPaletteParams_eq input begin_c end_c hlen hb he
  have hnb : begin_c ≤ end_c ∧ end_c < input.channel.length →
      asUInt32 (end_c + 2 ^ 32 - begin_c + 1) = end_c - begin_c + 1 := by
    intro hv
    unfold asUInt32
    omega
  rw [hcheck]
  constructor
  · rintro ⟨h1, h2, h3⟩
    have hv : begin_c ≤ end_c ∧ end_c < input.channel.length := by
      by_contra hn
      rw [if_neg hn] at h1
      exact absurd h1 (by simp)
    rw [hnb hv] at h3
    exact ⟨hv, sizesAgree_spec h2, (scan_count hcol).1.mp h3⟩
  · rintro ⟨hv, h2, h3⟩
    rw [hnb hv]
    exact ⟨by rw [if_pos hv], sizesAgree_of_forall h2, (scan_count hcol).1.mpr h3⟩

/-- A call of `FwdPalette` that does not pass its three checks returns a failure with the
image and `nb_colors` it was given. -/
theorem FwdPalette_of_failed_checks {X : ImageExternals} {input : Image}
    {begin_c end_c nb_colors : Nat} {ordered : Bool}
    (h : ¬ (CheckPaletteParams input begin_c end_c = Status.ok ∧
      FwdPalette.sizesAgree input.channel begin_c end_c (chan input.channel begin_c).w
        (chan input.channel begin_c).h = true ∧
      (FwdPalette.scan input.channel begin_c (asUInt32 (end_c + 2 ^ 32 - begin_c + 1))
        nb_colors (chan input.channel begin_c).w (chan input.channel begin_c).h).returned =
        false)) :
    ∃ st, st ≠ Status.ok ∧
      FwdPalette X input begin_c end_c nb_colors ordered = some (st, input, nb_colors) := by
  unfold FwdPalette
  split
  · exact ⟨_, by simp, rfl⟩
  · rename_i hcheck
    simp only
    by_cases h1 : FwdPalette.sizesAgree input.channel begin_c end_c
        (chan input.channel begin_c).w (chan input.channel begin_c).h = true
    · by_cases h2 : (FwdPalette.scan input.channel begin_c
          (asUInt32 (end_c + 2 ^ 32 - begin_c + 1)) nb_colors
          (chan input.channel begin_c).w (chan input.channel begin_c).h).returned = true
      · rw [if_neg (not_not_intro h1), if_pos h2]
        exact ⟨_, by simp, rfl⟩
      · exact absurd ⟨hcheck, h1, by simpa using h2⟩ h
    · rw [if_pos h1]
      exact ⟨_, by simp, rfl⟩

/-- `FwdPalette` on the images on which the size of `lookup` can be computed: it fails
atomically and counts exactly.  It returns a failure with the image and `nb_colors` it was
given when the channel range is invalid, when a channel of `begin_c + 1 .. end_c` has not the
size of channel `begin_c`, or when the channels hold more than `nb_colors` different
colours; otherwise it succeeds, provided that for a single channel `maxval - minval + 1` is
a non-negative `int`; a successful call sets `nb_colors` to the number of different colours
and leaves a palette of that width that holds each of them exactly once. -/
theorem FwdPalette_atomic (X : ImageExternals) (input : Image)
    (begin_c end_c nb_colors : Nat) (ordered : Bool)
    (hb : begin_c < 2 ^ 32) (he : end_c < 2 ^ 32)
    (hcol : nb_colors < 2 ^ 31 ∨
      (distinctColors input.channel begin_c (end_c - begin_c + 1)
        (chan input.channel begin_c).w (chan input.channel begin_c).h).card < 2 ^ 31)
    (hlen : input.channel.length < 2 ^ 31) :
    (¬ ((begin_c ≤ end_c ∧ end_c < input.channel.length) ∧
        (∀ c, begin_c < c → c ≤ end_c →
          (chan input.channel c).w = (chan input.channel begin_c).w ∧
          (chan input.channel c).h = (chan input.channel begin_c).h) ∧
        (distinctColors input.channel begin_c (end_c - begin_c + 1)
          (chan input.channel begin_c).w (chan input.channel begin_c).h).card ≤ nb_colors) →
      ∃ st, st ≠ Status.ok ∧
        FwdPalette X input begin_c end_c nb_colors ordered = some (st, input, nb_colors)) ∧
    ((∃ out nb', FwdPalette X input begin_c end_c nb_colors ordered =
        some (Status.ok, out, nb')) ↔
      (begin_c ≤ end_c ∧ end_c < input.channel.length) ∧
      (∀ c, begin_c < c → c ≤ end_c →
        (chan input.channel c).w = (chan input.channel begin_c).w ∧
        (chan input.channel c).h = (chan input.channel begin_c).h) ∧
      (distinctColors input.channel begin_c (end_c - begin_c + 1)
        (chan input.channel begin_c).w (chan input.channel begin_c).h).card ≤ nb_colors ∧
      (begin_c = end_c →
        0 ≤ (X.compute_minmax (chan input.channel begin_c)).2 -
          (X.compute_minmax (chan input.channel begin_c)).1 + 1 ∧
        (X.compute_minmax (chan input.channel begin_c)).2 -
          (X.compute_minmax (chan input.channel begin_c)).1 + 1 < 2 ^ 31)) ∧
    (∀ st out nb', FwdPalette X input begin_c end_c nb_colors ordered = some (st, out, nb') →
      st ≠ Status.ok → out = input ∧ nb' = nb_colors) ∧
    (∀ out nb', FwdPalette X input begin_c end_c nb_colors ordered =
        some (Status.ok, out, nb') →
      nb' = (distinctColors input.channel begin_c (end_c - begin_c + 1)
        (chan input.channel begin_c).w (chan input.channel begin_c).h).card ∧
      (chan out.channel 0).w = nb' ∧
      (chan out.channel 0).h = end_c - begin_c + 1 ∧
      (paletteColors (chan out.channel 0)).Nodup ∧
      ∀ col, col ∈ paletteColors (chan out.channel 0) ↔
        col ∈ distinctColors input.channel begin_c (end_c - begin_c + 1)
          (chan input.channel begin_c).w (chan input.channel begin_c).h) := by
  have hbound : nb_colors + 1 < 2 ^ 32 ∨
      (distinctColors input.channel begin_c (end_c - begin_c + 1)
        (chan input.channel begin_c).w (chan input.channel begin_c).h).card < 2 ^ 32 :=
    hcol.imp (fun h => by omega) (fun h => by omega)
  have hiff := @FwdPalette_checks_iff input begin_c end_c nb_colors hb he hbound hlen
  have hnb : begin_c ≤ end_c ∧ end_c < input.channel.length →
      asUInt32 (end_c + 2 ^ 32 - begin_c + 1) = end_c - begin_c + 1 := by
    intro hv
    unfold asUInt32
    omega
  refine ⟨fun h => FwdPalette_of_failed_checks (fun hc => h (hiff.mp hc)), ?_,
    fun st out nb' h hst => FwdPalette_failure h hst, fun out nb' hok => ?_⟩
  · rw [FwdPalette_ok_iff]
    constructor
    · rintro ⟨h1, h2, h3, L, hL⟩
      obtain ⟨hv, hs, hc⟩ := hiff.mp ⟨h1, h2, h3⟩
      refine ⟨hv, hs, hc, fun hbe => ?_⟩
      rw [hnb hv, show end_c - begin_c + 1 = 1 by omega] at hL
      exact (lookupSize_eq_some hL).2
    · rintro ⟨hv, hs, hc, hr⟩
      obtain ⟨h1, h2, h3⟩ := hiff.mpr ⟨hv, hs, hc⟩
      refine ⟨h1, h2, h3, ?_⟩
      rw [hnb hv]
      by_cases hbe : begin_c = end_c
      · rw [show end_c - begin_c + 1 = 1 by omega]
        exact ⟨_, lookupSize_of_range (hr hbe).1 (hr hbe).2⟩
      · exact ⟨_, lookupSize_of_ne _ _ (by omega)⟩
  · obtain ⟨hc, _, hret, L, _, heq⟩ := FwdPalette_ok hok
    obtain ⟨hbe, helen, _⟩ := CheckPaletteParams_ok hb he hc
    rw [hnb ⟨hbe, helen⟩] at hret heq
    have hout : out = (FwdPalette.build X input begin_c end_c (end_c - begin_c + 1) ordered
        (FwdPalette.scan input.channel begin_c (end_c - begin_c + 1) nb_colors
          (chan input.channel begin_c).w (chan input.channel begin_c).h) L).1 :=
      congrArg Prod.fst heq
    have hnb' : nb' = (FwdPalette.build X input begin_c end_c (end_c - begin_c + 1) ordered
        (FwdPalette.scan input.channel begin_c (end_c - begin_c + 1) nb_colors
          (chan input.channel begin_c).w (chan input.channel begin_c).h) L).2 :=
      congrArg Prod.snd heq
    obtain ⟨hcount, hmem⟩ := (scan_count hbound).2 hret
    obtain ⟨hinv, _⟩ := scan_spec hbound hret
    obtain ⟨hn, hcl⟩ := scan_colors_length hbound hret ordered
    obtain ⟨hpal, hn2⟩ := build_palette X input begin_c end_c (end_c - begin_c + 1) ordered
      (FwdPalette.scan input.channel begin_c (end_c - begin_c + 1) nb_colors
        (chan input.channel begin_c).w (chan input.channel begin_c).h) L
    have hperm := imageorder_perm hinv
    have hfillw := (fill_spec (end_c - begin_c + 1)
      (X.compute_minmax (chan input.channel begin_c)).1 L
      (asUInt32 (FwdPalette.scan input.channel begin_c (end_c - begin_c + 1) nb_colors
        (chan input.channel begin_c).w
        (chan input.channel begin_c).h).candidate_palette.length)
      (if ordered then (FwdPalette.scan input.channel begin_c
          (end_c - begin_c + 1) nb_colors (chan input.channel begin_c).w
          (chan input.channel begin_c).h).candidate_palette
        else (FwdPalette.scan input.channel begin_c (end_c - begin_c + 1) nb_colors
          (chan input.channel begin_c).w
          (chan input.channel begin_c).h).candidate_palette_imageorder))
    have hpc := paletteColors_fill (end_c - begin_c + 1)
      (X.compute_minmax (chan input.channel begin_c)).1 L _ hcl
    rw [← hn] at hpc
    have hnd : (FwdPalette.scan input.channel begin_c (end_c - begin_c + 1) nb_colors
        (chan input.channel begin_c).w
        (chan input.channel begin_c).h).candidate_palette.Nodup :=
      hinv.2.2.2.2.2.imp (fun hab => ne_of_lt hab)
    have hlen32 : asUInt32 (FwdPalette.scan input.channel begin_c (end_c - begin_c + 1)
        nb_colors (chan input.channel begin_c).w
        (chan input.channel begin_c).h).candidate_palette.length =
        (FwdPalette.scan input.channel begin_c (end_c - begin_c + 1) nb_colors
          (chan input.channel begin_c).w
          (chan input.channel begin_c).h).candidate_palette.length := by
      rw [hn]
      cases ordered
      · simp only [Bool.false_eq_true, if_false]
        exact hperm.length_eq.symm
      · simp only [if_true]
    rw [hout, hnb']
    refine ⟨by rw [hn2, hlen32, hcount], by rw [hpal, hn2]; exact hfillw.2.1,
      by rw [hpal]; exact hfillw.2.2.1, ?_, fun col => ?_⟩
    · rw [hpal, hpc]
      cases ordered
      · exact (hperm.nodup_iff).mp hnd
      · exact hnd
    · rw [hpal, hpc, ← hmem col]
      cases ordered
      · exact (hperm.mem_iff).symm
      · exact Iff.rfl

/-! ## The palette transform: the channel counters -/

theorem MetaPalette_unchanged {input : Image} {begin_c end_c nb_colors nb_deltas : Nat}
    {st : Status} {out : Image}
    (h : MetaPalette input begin_c end_c nb_colors nb_deltas = some (st, out))
    (hst : st ≠ Status.ok) : out = input := by
  unfold MetaPalette at h
  split at h
  · simp only [Option.some.injEq, Prod.mk.injEq] at h
    exact h.2.symm
  · split_ifs at h
    simp only [Option.some.injEq, Prod.mk.injEq] at h
    exact absurd h.1.symm hst

/-- The counter arithmetic of `MetaPalette` and `FwdPalette`: removing `k` channels from the
vector and from `nb_channels` and adding the palette to both the vector and
`nb_meta_channels` leaves the difference as it was, modulo `2 ^ 64`. -/
theorem bookkeeping_shift (L N M k : Nat) (hk : k ≤ L) (hk64 : k < 2 ^ 64) :
    (((L - k + 1 : Nat) : Int) - (((N + 2 ^ 64 - k) % 2 ^ 64 : Nat) : Int) -
      (((M + 1) % 2 ^ 64 : Nat) : Int)) % 2 ^ 64 =
    ((L : Int) - N - M) % 2 ^ 64 := by
  omega

/-- The counter arithmetic of `InvPalette`: adding `k` channels to the vector and to
`nb_channels` and removing the palette from both the vector and `nb_meta_channels` leaves
the difference as it was, modulo `2 ^ 64`. -/
theorem bookkeeping_unshift (L N M k : Nat) (hL : 1 ≤ L) (hM : 1 ≤ M) :
    (((L + k - 1 : Nat) : Int) - (((N + k) % 2 ^ 64 : Nat) : Int) -
      (((M + 2 ^ 64 - 1) % 2 ^ 64 : Nat) : Int)) % 2 ^ 64 =
    ((L : Int) - N - M) % 2 ^ 64 := by
  omega

theorem bookkeeping_eq {a b : Image}
    (h : ((a.channel.length : Int) - a.nb_channels - a.nb_meta_channels) % 2 ^ 64 =
      ((b.channel.length : Int) - b.nb_channels - b.nb_meta_channels) % 2 ^ 64) :
    bookkeeping a = bookkeeping b := by
  unfold bookkeeping asSizeT
  rw [h]

theorem MetaPalette_bookkeeping {input : Image} {begin_c end_c nb_colors nb_deltas : Nat}
    {out : Image} (hb : begin_c < 2 ^ 32) (he : end_c < 2 ^ 32)
    (h : MetaPalette input begin_c end_c nb_colors nb_deltas = some (Status.ok, out)) :
    out.channel.length = input.channel.length - (end_c - begin_c) + 1 ∧
    out.nb_channels = (input.nb_channels + 2 ^ 64 - (end_c - begin_c)) % 2 ^ 64 ∧
    out.nb_meta_channels = (input.nb_meta_channels + 1) % 2 ^ 64 ∧
    bookkeeping out = bookkeeping input := by
  have hc : CheckPaletteParams input begin_c end_c = Status.ok := by
    unfold MetaPalette at h
    split at h
    · simp only [Option.some.injEq, Prod.mk.injEq] at h
      exact absurd h.1 (by simp)
    · assumption
  obtain ⟨hbe, helen, he31⟩ := CheckPaletteParams_ok hb he hc
  have hnb : asUInt32 (end_c + 2 ^ 32 - begin_c + 1) = end_c - begin_c + 1 := by
    unfold asUInt32
    omega
  have hnb1 : (end_c - begin_c + 1 + 2 ^ 64 - 1) % 2 ^ 64 = end_c - begin_c := by
    omega
  have hlen : (input.channel.take (begin_c + 1) ++ input.channel.drop (end_c + 1)).length =
      input.channel.length - (end_c - begin_c) := by
    rw [List.length_append, List.length_take, List.length_drop]
    omega
  unfold MetaPalette at h
  rw [hc] at h
  simp only at h
  by_cases hn : nb_colors > 0
  · rw [if_neg (not_not_intro hn), hnb, hnb1] at h
    simp only [Option.some.injEq, Prod.mk.injEq, true_and] at h
    have h1 : out.channel.length = input.channel.length - (end_c - begin_c) + 1 := by
      rw [← h, List.length_cons, hlen]
    have h2 : out.nb_channels = (input.nb_channels + 2 ^ 64 - (end_c - begin_c)) % 2 ^ 64 := by
      rw [← h]
    have h3 : out.nb_meta_channels = (input.nb_meta_channels + 1) % 2 ^ 64 := by
      rw [← h]
    refine ⟨h1, h2, h3, bookkeeping_eq ?_⟩
    rw [h1, h2, h3]
    exact bookkeeping_shift _ _ _ _ (by omega) (by omega)
  · rw [if_pos hn] at h
    exact absurd h (by simp)

theorem length_replace_loop (pch : Channel) (lookup : List Int) (begin_c nb nb_colors : Nat)
    (minval : Int) (w h : Nat) (channel : List Channel) :
    (forLoop h (fun y channel => forLoop w (fun x channel =>
      FwdPalette.replacePixel pch lookup begin_c nb nb_colors minval y x channel) channel)
      channel).length = channel.length :=
  @forLoop2_preserves (List Channel) (fun s => s.length = channel.length) h w
    (fun y x s => FwdPalette.replacePixel pch lookup begin_c nb nb_colors minval y x s)
    (fun y x s _ _ hs => by
      show (FwdPalette.replacePixel pch lookup begin_c nb nb_colors minval y x s).length = _
      unfold FwdPalette.replacePixel
      rw [length_setPixel]
      exact hs) channel rfl

theorem FwdPalette_bookkeeping {X : ImageExternals} {input : Image}
    {begin_c end_c nb_colors : Nat} {ordered : Bool} {out : Image} {nb' : Nat}
    (hb : begin_c < 2 ^ 32) (he : end_c < 2 ^ 32)
    (hok : FwdPalette X input begin_c end_c nb_colors ordered = some (Status.ok, out, nb')) :
    out.channel.length = input.channel.length - (end_c - begin_c) + 1 ∧
    out.nb_channels = (input.nb_channels + 2 ^ 64 - (end_c - begin_c)) % 2 ^ 64 ∧
    out.nb_meta_channels = (input.nb_meta_channels + 1) % 2 ^ 64 ∧
    bookkeeping out = bookkeeping input := by
  obtain ⟨hc, _, _, L, _, heq⟩ := FwdPalette_ok hok
  obtain ⟨hbe, helen, he31⟩ := CheckPaletteParams_ok hb he hc
  have hnb : asUInt32 (end_c + 2 ^ 32 - begin_c + 1) = end_c - begin_c + 1 := by
    unfold asUInt32
    omega
  have hnb1 : asUInt32 (end_c - begin_c + 1 + 2 ^ 32 - 1) = end_c - begin_c := by
    unfold asUInt32
    omega
  rw [hnb] at heq
  have hout : out = (FwdPalette.build X input begin_c end_c (end_c - begin_c + 1) ordered
      (FwdPalette.scan input.channel begin_c (end_c - begin_c + 1) nb_colors
        (chan input.channel begin_c).w (chan input.channel begin_c).h) L).1 :=
    congrArg Prod.fst heq
  have h1 : out.channel.length = input.channel.length - (end_c - begin_c) + 1 := by
    rw [hout]
    unfold FwdPalette.build
    simp only [List.length_cons, List.length_append, List.length_take, List.length_drop,
      length_replace_loop]
    omega
  have h2 : out.nb_channels = (input.nb_channels + 2 ^ 64 - (end_c - begin_c)) % 2 ^ 64 := by
    rw [hout]
    unfold FwdPalette.build
    simp only
    rw [hnb1]
  have h3 : out.nb_meta_channels = (input.nb_meta_channels + 1) % 2 ^ 64 := by
    rw [hout]
    rfl
  refine ⟨h1, h2, h3, bookkeeping_eq ?_⟩
  rw [h1, h2, h3]
  exact bookkeeping_shift _ _ _ _ (by omega) (by omega)

theorem InvPalette_unchanged {X : ImageExternals} {input : Image}
    {begin_c nb_colors nb_deltas : Nat} {predictor : Predictor}
    (h : (InvPalette X input begin_c nb_colors nb_deltas predictor).1 ≠ Status.ok) :
    (InvPalette X input begin_c nb_colors nb_deltas predictor).2 = input := by
  unfold InvPalette at h ⊢
  by_cases h1 : input.nb_meta_channels < 1
  · rw [if_pos h1]
  · rw [if_neg h1] at h ⊢
    simp only at h ⊢
    by_cases h2 : asUInt32 (begin_c + 1) ≥ input.channel.length
    · rw [if_pos h2]
    · rw [if_neg h2] at h
      exact absurd rfl h

theorem length_deltaChannel (X : ImageExternals) (indices : Nat → Nat → Int) (nb : Int)
    (nb_deltas : Nat) (predictor : Predictor) (c0 c : Nat) (channel : List Channel) :
    (InvPalette.deltaChannel X indices nb nb_deltas predictor c0 c channel).length =
      channel.length := by
  unfold InvPalette.deltaChannel
  simp only
  exact @forLoop2_preserves (List Channel × X.WPState) (fun st => st.1.length = channel.length)
    _ _ _ (fun y x st _ _ hs => by
      show (setPixel _ _ _ _ _).length = _
      rw [length_setPixel]
      exact hs) _ rfl

/-- The loops of `InvPalette` that undo the palette keep the length of the channel
vector. -/
theorem length_undo (X : ImageExternals) (nb : Int) (nb_deltas : Nat) (predictor : Predictor)
    (c0 w h : Nat) (indices : Nat → Nat → Int) (channel : List Channel) :
    (if nb_deltas = 0 ∧ predictor = Predictor.Zero then
      if nb = 1 then
        forLoop h (fun y channel =>
          forLoop w (fun x channel => InvPalette.undoChannelPixel c0 y x channel) channel)
          channel
      else
        forLoop h (fun y channel =>
          forLoop w (fun x channel => InvPalette.undoPixel nb c0 y x channel) channel)
          channel
    else
      forLoop (asSizeT nb) (fun c channel =>
        InvPalette.deltaChannel X indices nb nb_deltas predictor c0 c channel)
        channel).length = channel.length := by
  split_ifs
  · exact @forLoop2_preserves (List Channel) (fun s => s.length = channel.length) h w
      (fun y x s => InvPalette.undoChannelPixel c0 y x s)
      (fun y x s _ _ hs => by
        show (InvPalette.undoChannelPixel c0 y x s).length = _
        rw [(undoChannelPixel_update c0 y x s).1]
        exact hs) channel rfl
  · exact @forLoop2_preserves (List Channel) (fun s => s.length = channel.length) h w
      (fun y x s => InvPalette.undoPixel nb c0 y x s)
      (fun y x s _ _ hs => by
        show (InvPalette.undoPixel nb c0 y x s).length = _
        rw [(undoPixel_update nb c0 y x s).1]
        exact hs) channel rfl
  · exact forLoop_preserves (fun (s : List Channel) => s.length = channel.length)
      (fun c _ s hs => by
        show (InvPalette.deltaChannel X _ nb nb_deltas predictor c0 c s).length = _
        rw [length_deltaChannel]
        exact hs) rfl

theorem asInt_lt (u : Nat) : asInt u < 2 ^ 31 := by
  unfold asInt
  split_ifs <;> omega

/-- The image that a successful `InvPalette` leaves, in terms of the loops of the function:
the counters and the channel vector without its first element. -/
theorem InvPalette_ok {X : ImageExternals} {input : Image}
    {begin_c nb_colors nb_deltas : Nat} {predictor : Predictor}
    (hok : (InvPalette X input begin_c nb_colors nb_deltas predictor).1 = Status.ok) :
    1 ≤ input.nb_meta_channels ∧ asUInt32 (begin_c + 1) < input.channel.length ∧
    (InvPalette X input begin_c nb_colors nb_deltas predictor).2.channel.length =
      (forLoop (asInt (chan input.channel 0).h - 1).toNat (fun _ channel =>
        insertChannel channel (asUInt32 (begin_c + 1) + 1)
          (Channel.new (chan input.channel (asUInt32 (begin_c + 1))).w
            (chan input.channel (asUInt32 (begin_c + 1))).h)) input.channel).length - 1 ∧
    (InvPalette X input begin_c nb_colors nb_deltas predictor).2.nb_channels =
      (input.nb_channels + asSizeT (asInt (chan input.channel 0).h - 1)) % 2 ^ 64 ∧
    (InvPalette X input begin_c nb_colors nb_deltas predictor).2.nb_meta_channels =
      (input.nb_meta_channels + 2 ^ 64 - 1) % 2 ^ 64 := by
  unfold InvPalette at hok ⊢
  by_cases h1 : input.nb_meta_channels < 1
  · rw [if_pos h1] at hok
    exact absurd hok (by simp)
  · rw [if_neg h1] at hok ⊢
    simp only at hok ⊢
    by_cases h2 : asUInt32 (begin_c + 1) ≥ input.channel.length
    · rw [if_pos h2] at hok
      exact absurd hok (by simp)
    · rw [if_neg h2]
      simp only [List.length_drop]
      refine ⟨by omega, by omega, ?_, trivial, trivial⟩
      rw [length_undo]

theorem InvPalette_bookkeeping {X : ImageExternals} {input : Image}
    {begin_c nb_colors nb_deltas : Nat} {predictor : Predictor}
    (hnb : 1 ≤ asInt (chan input.channel 0).h)
    (hok : (InvPalette X input begin_c nb_colors nb_deltas predictor).1 = Status.ok) :
    (InvPalette X input begin_c nb_colors nb_deltas predictor).2.channel.length =
      input.channel.length + (asInt (chan input.channel 0).h - 1).toNat - 1 ∧
    (InvPalette X input begin_c nb_colors nb_deltas predictor).2.nb_channels =
      (input.nb_channels + (asInt (chan input.channel 0).h - 1).toNat) % 2 ^ 64 ∧
    (InvPalette X input begin_c nb_colors nb_deltas predictor).2.nb_meta_channels =
      (input.nb_meta_channels + 2 ^ 64 - 1) % 2 ^ 64 ∧
    bookkeeping (InvPalette X input begin_c nb_colors nb_deltas predictor).2 =
      bookkeeping input := by
  obtain ⟨hmeta, hc0, hlen, hch, hm⟩ := InvPalette_ok hok
  have hlt := asInt_lt (chan input.channel 0).h
  have hsz : asSizeT (asInt (chan input.channel 0).h - 1) =
      (asInt (chan input.channel 0).h - 1).toNat := by
    unfold asSizeT
    omega
  rw [insert_loop _ _ _ (by omega)] at hlen
  simp only [List.length_append, List.length_take, List.length_replicate,
    List.length_drop] at hlen
  have h1 : (InvPalette X input begin_c nb_colors nb_deltas predictor).2.channel.length =
      input.channel.length + (asInt (chan input.channel 0).h - 1).toNat - 1 := by
    rw [hlen]
    omega
  rw [hsz] at hch
  refine ⟨h1, hch, hm, bookkeeping_eq ?_⟩
  rw [h1, hch, hm]
  exact bookkeeping_unshift _ _ _ _ (by omega) hmeta

/-! ## The asymmetric transform in the range of `float` -/

theorem floatOf_of_le {v : ℚ} (h : |v| ≤ kFloatMax) : floatOf v = some v := by
  unfold floatOf
  rw [if_pos (lt_of_le_of_lt h (lt_add_of_pos_right _ (by norm_num)))]

theorem floatOf_eq_some {v w : ℚ} (h : floatOf v = some w) :
    w = v ∧ |v| < kFloatMax + 2 ^ 103 := by
  unfold floatOf at h
  split_ifs at h with hv
  exact ⟨(Option.some.inj h).symm, hv⟩

theorem floatMulAdd_none_left (basis pixel : Option ℚ) : floatMulAdd none basis pixel = none :=
  rfl

theorem floatMulAdd_none_right (cf basis : Option ℚ) : floatMulAdd cf basis none = none := by
  cases cf <;> cases basis <;> rfl

/-- A partial accumulation of `AFVIDCT4x4` that is not finite stays so. -/
theorem pixelFloat_loop_none (coeffs : Nat → Option ℚ) (i n : Nat) (m : Nat)
    (h : forLoop m (fun j pixel => floatMulAdd (coeffs j) (some (k4x4AFVBasis j i)) pixel)
      (some 0) = none) (hn : m ≤ n) :
    forLoop n (fun j pixel => floatMulAdd (coeffs j) (some (k4x4AFVBasis j i)) pixel)
      (some 0) = none := by
  induction n with
  | zero =>
    have : m = 0 := by omega
    subst this
    exact h
  | succ n ih =>
    by_cases hm : m = n + 1
    · subst hm
      exact h
    · rw [forLoop_succ, ih (by omega)]
      exact floatMulAdd_none_right _ _

/-- When `dcs[0]` is not finite, no output of the custom-basis quadrant is. -/
theorem pixelFloat_none_of_first (coeffs : Nat → Option ℚ) (h : coeffs 0 = none) (i : Nat) :
    AFVIDCT4x4.pixelFloat coeffs i = none := by
  unfold AFVIDCT4x4.pixelFloat
  refine pixelFloat_loop_none coeffs i 16 1 ?_ (by decide)
  rw [forLoop_succ, h]
  rfl

/-- The outputs of `AFVIDCT4x4` in the range of `float` are those of the exact computation
whenever they are finite. -/
theorem pixelFloat_loop_eq (coeffs : Nat → Option ℚ) (i n : Nat) (v : ℚ)
    (h : forLoop n (fun j pixel => floatMulAdd (coeffs j) (some (k4x4AFVBasis j i)) pixel)
      (some 0) = some v) :
    ∃ c : Nat → ℚ, (∀ j, j < n → coeffs j = some (c j)) ∧
      v = ∑ j in Finset.range n, c j * k4x4AFVBasis j i := by
  induction n generalizing v with
  | zero =>
    refine ⟨fun _ => 0, fun j hj => absurd hj (Nat.not_lt_zero j), ?_⟩
    simpa [forLoop] using (Option.some.inj h).symm
  | succ n ih =>
    rw [forLoop_succ] at h
    cases hc : coeffs n with
    | none => rw [hc] at h; exact absurd h (by simp [floatMulAdd])
    | some cn =>
      cases hp : forLoop n (fun j pixel =>
          floatMulAdd (coeffs j) (some (k4x4AFVBasis j i)) pixel) (some 0) with
      | none => rw [hc, hp] at h; exact absurd h (by simp [floatMulAdd])
      | some p =>
        rw [hc, hp] at h
        obtain ⟨c, hcs, hsum⟩ := ih p hp
        have hv := (floatOf_eq_some h).1
        refine ⟨fun j => if j = n then cn else c j, fun j hj => ?_, ?_⟩
        · by_cases hjn : j = n
          · simp only [hjn, if_true]; exact hc
          · simp only [hjn, if_false]; exact hcs j (by omega)
        · rw [Finset.sum_range_succ, hv, hsum]
          simp only [if_true]
          rw [add_comm]
          congr 1
          refine Finset.sum_congr rfl (fun j hj => ?_)
          have : j ≠ n := by
            have := Finset.mem_range.mp hj
            omega
          simp only [this, if_false]

theorem dcs0Float_dcOnly (c : Buf) (K : ℚ) (hc0 : c 0 = K) (hc : ∀ i, 0 < i → i < 64 → c i = 0)
    (hK : |K| * 4 ≤ kFloatMax) : AFVTransformToPixels.dcs0Float c = some (K * 4) := by
  have hK1 : |K| ≤ kFloatMax := by
    have := abs_nonneg K
    linarith
  unfold AFVTransformToPixels.dcs0Float
  simp only [floatAdd, floatMul, hc0, hc 8 (by decide) (by decide), hc 1 (by decide) (by decide),
    add_zero, floatOf_of_le hK1]
  refine floatOf_of_le ?_
  rw [abs_mul]
  simpa using hK

/-- The custom-basis quadrant of a tile whose only nonzero coefficient is coefficient 0, in
the range of `float`: every sample is that coefficient when its fourfold is in the range. -/
theorem quadrantFloat_dcOnly (afv_kind : Nat) (c : Buf) (K : ℚ) (hc0 : c 0 = K)
    (hc : ∀ i, 0 < i → i < 64 → c i = 0) (hK : |K| * 4 ≤ kFloatMax) (iy ix : Nat)
    (hiy : iy < 4) (hix : ix < 4) :
    AFVTransformToPixels.quadrantFloat afv_kind c iy ix = some K := by
  have hK1 : |K| ≤ kFloatMax := by
    have := abs_nonneg K
    linarith
  unfold AFVTransformToPixels.quadrantFloat AFVIDCT4x4.pixelFloat
  simp only
  generalize hm : (if afv_kind / 2 = 1 then 3 - iy else iy) * 4 +
    (if afv_kind &&& 1 = 1 then 3 - ix else ix) = m
  have hm16 : m < 16 := by
    rw [← hm]
    split <;> split <;> omega
  have hcoeff : ∀ j, 0 < j → j < 16 → AFVTransformToPixels.coeffFloat c j = some 0 := by
    intro j hj0 hj
    unfold AFVTransformToPixels.coeffFloat
    rw [if_neg (by omega)]
    have h := AFV_coeff_apply c (j / 4) (j % 4) (by omega) (Nat.mod_lt _ (by decide))
    rw [show j / 4 * 4 + j % 4 = j by omega, if_neg (by omega)] at h
    rw [h, hc _ (by omega) (by omega)]
  have key : ∀ n, 0 < n → n ≤ 16 →
      forLoop n (fun j pixel => floatMulAdd (AFVTransformToPixels.coeffFloat c j)
        (some (k4x4AFVBasis j m)) pixel) (some 0) = some K := by
    intro n
    induction n with
    | zero => intro h; exact absurd h (Nat.lt_irrefl 0)
    | succ n ih =>
      intro _ hn
      rw [forLoop_succ]
      by_cases hn0 : n = 0
      · subst hn0
        have h0 : AFVTransformToPixels.coeffFloat c 0 = some (K * 4) := by
          unfold AFVTransformToPixels.coeffFloat
          rw [if_pos rfl]
          exact dcs0Float_dcOnly c K hc0 hc hK
        rw [forLoop_zero, h0, k4x4AFVBasis_row_zero m hm16]
        show floatOf (K * 4 * (1 / 4) + 0) = some K
        rw [show K * 4 * (1 / 4) + 0 = K by ring]
        exact floatOf_of_le hK1
      · rw [ih (by omega) (by omega), hcoeff n (by omega) (by omega)]
        show floatOf (0 * k4x4AFVBasis n m + K) = some K
        rw [show 0 * k4x4AFVBasis n m + K = K by ring]
        exact floatOf_of_le hK1
  exact key 16 (by decide) (Nat.le_refl 16)

theorem dcs0Float_eq_some (c : Buf) (d : ℚ) (h : AFVTransformToPixels.dcs0Float c = some d) :
    d = (c 0 + c 8 + c 1) * 4 := by
  unfold AFVTransformToPixels.dcs0Float at h
  simp only [floatAdd, floatMul] at h
  cases h1 : floatOf (c 0 + c 8) with
  | none => rw [h1] at h; exact absurd h (by simp)
  | some s1 =>
    rw [h1] at h
    simp only at h
    cases h2 : floatOf (s1 + c 1) with
    | none => rw [h2] at h; exact absurd h (by simp)
    | some s2 =>
      rw [h2] at h
      simp only at h
      rw [(floatOf_eq_some h).1, (floatOf_eq_some h2).1, (floatOf_eq_some h1).1]

/-- A finite sample of the custom-basis quadrant in the range of `float` is the sample of
the exact computation. -/
theorem quadrantFloat_exact (E : Externals) (hl : 0 < E.Lanes) (afv_kind : Nat)
    (hkind : afv_kind < 4) (c p : Buf) (s : Nat) (hs : 8 ≤ s) (iy ix : Nat) (hiy : iy < 4)
    (hix : ix < 4) (v : ℚ) (h : AFVTransformToPixels.quadrantFloat afv_kind c iy ix = some v) :
    AFVTransformToPixels E afv_kind c p s
      ((iy + afv_kind / 2 * 4) * s + (afv_kind &&& 1) * 4 + ix) = v := by
  rw [AFVTransformToPixels_quadrant E hl afv_kind hkind c p s hs iy ix hiy hix]
  unfold AFVTransformToPixels.quadrantFloat AFVIDCT4x4.pixelFloat at h
  simp only at h
  obtain ⟨c', hc', hv⟩ := pixelFloat_loop_eq _ _ 16 v h
  rw [hv]
  refine Finset.sum_congr rfl (fun j hj => ?_)
  have hj16 : j < 16 := Finset.mem_range.mp hj
  have hcj := hc' j hj16
  unfold AFVTransformToPixels.coeffFloat at hcj
  by_cases hj0 : j = 0
  · subst hj0
    rw [if_pos rfl] at hcj
    have h0 := AFV_coeff_apply c 0 0 (by decide) (by decide)
    simp only [Nat.zero_mul, Nat.add_zero, and_self, if_true] at h0
    rw [h0, dcs0Float_eq_some c _ hcj]
  · rw [if_neg hj0] at hcj
    rw [Option.some.inj hcj]

/-! ## Claims -/

/-- C1: `TransformToPixels` with strategy IDENTITY, over exact arithmetic, for every
coefficient tile `c` and each quadrant `(y, x)`: with `D = dcs[2y+x]` the Hadamard
combination of `c[0], c[1], c[8], c[9]`, `q(iy,ix) = c[(y+2iy)*8 + x+2ix]` and `R` the sum
of `q` over the 15 positions other than `(0,0)`, the centre pixel `(4y+1, 4x+1)` is
`D - R/16`, every pixel `(4y+iy, 4x+ix)` other than the centre and the origin is
`q(iy,ix)` plus the centre pixel, and the origin pixel `(4y, 4x)` is `q(1,1)` plus the
centre pixel.  Pixel `(r, k)` is the sample at offset `r * pixels_stride + k` of the output,
the pitch being at least the block width 8. -/
theorem C1_identity_reconstruction (E : Externals) (c pixels : Buf) (s : Nat) (hs : 8 ≤ s)
    (y x : Nat) (hy : y < 2) (hx : x < 2) :
    ∃ out : Buf, TransformToPixels E AcStrategyType.IDENTITY c pixels s = some out ∧
      out ((4 * y + 1) * s + (4 * x + 1)) =
        (if 2 * y + x = 0 then c 0 + c 1 + c 8 + c 9
          else if 2 * y + x = 1 then c 0 + c 1 - c 8 - c 9
          else if 2 * y + x = 2 then c 0 - c 1 + c 8 - c 9
          else c 0 - c 1 - c 8 + c 9) -
        (∑ iy in Finset.range 4, ∑ ix in Finset.range 4,
          if (iy, ix) = (0, 0) then 0 else c ((y + 2 * iy) * 8 + x + 2 * ix)) / 16 ∧
      (∀ iy ix : Nat, iy < 4 → ix < 4 → (iy, ix) ≠ (0, 0) → (iy, ix) ≠ (1, 1) →
        out ((4 * y + iy) * s + (4 * x + ix)) =
          c ((y + 2 * iy) * 8 + x + 2 * ix) + out ((4 * y + 1) * s + (4 * x + 1))) ∧
      out ((4 * y) * s + 4 * x) =
        c ((y + 2 * 1) * 8 + x + 2 * 1) + out ((4 * y + 1) * s + (4 * x + 1)) := by
  refine ⟨TransformToPixels.caseIDENTITY c pixels s, rfl, ?_⟩
  have hin : ∀ iy ix : Nat, iy < 4 → ix < 4 →
      TransformToPixels.caseIDENTITY c pixels s ((4 * y + iy) * s + (4 * x + ix)) =
        identitySample c y x iy ix := by
    intro iy ix hiy hix
    have e : (4 * y + iy) * s + (4 * x + ix) = (y * 4 + iy) * s + x * 4 + ix := by
      rw [Nat.mul_comm 4 y, Nat.mul_comm 4 x, Nat.add_assoc]
    rw [e]
    exact caseIDENTITY_inside c pixels s hs y x iy ix hy hx hiy hix
  have hcenter := hin 1 1 (by omega) (by omega)
  have hD : TransformToPixels.dcs4 c (y * 2 + x) =
      (if 2 * y + x = 0 then c 0 + c 1 + c 8 + c 9
        else if 2 * y + x = 1 then c 0 + c 1 - c 8 - c 9
        else if 2 * y + x = 2 then c 0 - c 1 + c 8 - c 9
        else c 0 - c 1 - c 8 + c 9) := by
    interval_cases y <;> interval_cases x <;> simp [TransformToPixels.dcs4, store]
  refine ⟨?_, ?_, ?_⟩
  · rw [hcenter, identitySample, hD, residual_sum_eq]
    simp only [and_self, if_true]
    ring
  · intro iy ix hiy hix h00 h11
    rw [hin iy ix hiy hix, hcenter]
    have h11' : ¬ (ix = 1 ∧ iy = 1) := fun h => h11 (by simp [h.1, h.2])
    have h00' : ¬ (ix = 0 ∧ iy = 0) := fun h => h00 (by simp [h.1, h.2])
    simp only [identitySample, if_neg h11', if_neg h00', and_self, if_true]
    have e : (y + iy * 2) * 8 + x + ix * 2 = (y + 2 * iy) * 8 + x + 2 * ix := by ring
    rw [e]
    ring
  · have h0 := hin 0 0 (by omega) (by omega)
    simp only [Nat.add_zero] at h0
    rw [h0, hcenter]
    simp only [identitySample]
    simp

/-- C1 at a concrete input: the ramp tile, pitch 8, quadrant `(1, 0)`. -/
theorem C1_identity_reconstruction_witness :
    ∃ out : Buf, TransformToPixels constExternals AcStrategyType.IDENTITY rampTile zeroBuf 8 =
        some out ∧
      out ((4 * 1 + 1) * 8 + (4 * 0 + 1)) =
        (if 2 * 1 + 0 = 0 then rampTile 0 + rampTile 1 + rampTile 8 + rampTile 9
          else if 2 * 1 + 0 = 1 then rampTile 0 + rampTile 1 - rampTile 8 - rampTile 9
          else if 2 * 1 + 0 = 2 then rampTile 0 - rampTile 1 + rampTile 8 - rampTile 9
          else rampTile 0 - rampTile 1 - rampTile 8 + rampTile 9) -
        (∑ iy in Finset.range 4, ∑ ix in Finset.range 4,
          if (iy, ix) = (0, 0) then 0 else rampTile ((1 + 2 * iy) * 8 + 0 + 2 * ix)) / 16 ∧
      (∀ iy ix : Nat, iy < 4 → ix < 4 → (iy, ix) ≠ (0, 0) → (iy, ix) ≠ (1, 1) →
        out ((4 * 1 + iy) * 8 + (4 * 0 + ix)) =
          rampTile ((1 + 2 * iy) * 8 + 0 + 2 * ix) + out ((4 * 1 + 1) * 8 + (4 * 0 + 1))) ∧
      out ((4 * 1) * 8 + 4 * 0) =
        rampTile ((1 + 2 * 1) * 8 + 0 + 2 * 1) + out ((4 * 1 + 1) * 8 + (4 * 0 + 1)) :=
  C1_identity_reconstruction constExternals rampTile zeroBuf 8 (by decide) 1 0
    (by decide) (by decide)

/-- C2: for the sub-partitioned DCT kinds, `TransformToPixels` hands each sub-block a
buffer whose slot 0 is the Hadamard-derived DC and whose other slots are gathered from the
interleaved tile, and writes the inverse DCT of that buffer into the sub-block's pixel
region.  DCT4X4 sub-block `(y, x)`: `b[0] = dcs[2y+x]`, `b[4iy+ix] = c[(y+2iy)*8+x+2ix]`,
transposed 4-point IDCT into the 4x4 region with origin `(4y, 4x)`.  DCT4X8 sub-block `y`:
`b[0] = c[0]+c[8]` or `c[0]-c[8]`, `b[8iy+ix] = c[(y+2iy)*8+ix]`, 4x8 IDCT into rows
`4y..4y+3`.  DCT8X4 sub-block `x`: the same buffer with `x` for `y`, 8x4 IDCT into columns
`4x..4x+3`.  The primitive reads the window `FromBlock` of the buffer, so any buffer `b` with
these slots gives the pixels; the pitch is at least the block width 8. -/
theorem C2_subblock_dct (E : Externals) (c pixels : Buf) (s : Nat) (hs : 8 ≤ s) :
    (∃ out : Buf, TransformToPixels E AcStrategyType.DCT4X4 c pixels s = some out ∧
      ∀ y x : Nat, y < 2 → x < 2 → ∀ b : Buf,
        b 0 = (if 2 * y + x = 0 then c 0 + c 1 + c 8 + c 9
          else if 2 * y + x = 1 then c 0 + c 1 - c 8 - c 9
          else if 2 * y + x = 2 then c 0 - c 1 + c 8 - c 9
          else c 0 - c 1 - c 8 + c 9) →
        (∀ iy ix : Nat, iy < 4 → ix < 4 → (iy, ix) ≠ (0, 0) →
          b (4 * iy + ix) = c ((y + 2 * iy) * 8 + x + 2 * ix)) →
        ∀ r k : Nat, r < 4 → k < 4 →
          out ((4 * y + r) * s + (4 * x + k)) =
            E.ComputeTransposedScaledIDCT 4 (FromBlock 4 4 b) r k) ∧
    (∃ out : Buf, TransformToPixels E AcStrategyType.DCT4X8 c pixels s = some out ∧
      ∀ y : Nat, y < 2 → ∀ b : Buf,
        b 0 = (if y = 0 then c 0 + c 8 else c 0 - c 8) →
        (∀ iy ix : Nat, iy < 4 → ix < 8 → (iy, ix) ≠ (0, 0) →
          b (8 * iy + ix) = c ((y + 2 * iy) * 8 + ix)) →
        ∀ r k : Nat, r < 4 → k < 8 →
          out ((4 * y + r) * s + k) = E.ComputeScaledIDCT 4 8 (FromBlock 4 8 b) r k) ∧
    (∃ out : Buf, TransformToPixels E AcStrategyType.DCT8X4 c pixels s = some out ∧
      ∀ x : Nat, x < 2 → ∀ b : Buf,
        b 0 = (if x = 0 then c 0 + c 8 else c 0 - c 8) →
        (∀ iy ix : Nat, iy < 4 → ix < 8 → (iy, ix) ≠ (0, 0) →
          b (8 * iy + ix) = c ((x + 2 * iy) * 8 + ix)) →
        ∀ r k : Nat, r < 8 → k < 4 →
          out (r * s + (4 * x + k)) = E.ComputeScaledIDCT 8 4 (FromBlock 4 8 b) r k) := by
  refine ⟨⟨_, rfl, ?_⟩, ⟨_, rfl, ?_⟩, ⟨_, rfl, ?_⟩⟩
  · intro y x hy hx b hb0 hb r k hr hk
    have e : (4 * y + r) * s + (4 * x + k) = (y * 4 + r) * s + x * 4 + k := by ring
    rw [e, caseDCT4X4_inside E c pixels s hs y x r k hy hx hr hk]
    congr 1
    refine FromBlock_congr_slots 4 4 _ _ (fun iy ix hiy hix => ?_)
    rw [block4x4_apply _ c y x iy ix hiy hix]
    by_cases h0 : ix = 0 ∧ iy = 0
    · rw [if_pos h0]
      obtain ⟨h1, h2⟩ := h0
      subst h1 h2
      simp only [Nat.zero_mul, Nat.add_zero]
      rw [hb0]
      interval_cases y <;> interval_cases x <;> simp [TransformToPixels.dcs4, store]
    · rw [if_neg h0]
      have hne : (iy, ix) ≠ (0, 0) := fun h => h0 (by simp [Prod.mk.injEq] at h; omega)
      have := hb iy ix hiy hix hne
      have e1 : iy * 4 + ix = 4 * iy + ix := by ring
      have e2 : (y + iy * 2) * 8 + x + ix * 2 = (y + 2 * iy) * 8 + x + 2 * ix := by ring
      rw [e1, e2, this]
  · intro y hy b hb0 hb r k hr hk
    have e : (4 * y + r) * s + k = (y * 4 + r) * s + k := by ring
    rw [e, caseDCT4X8_inside E c pixels s hs y r k hy hr hk]
    congr 1
    refine FromBlock_congr_slots 4 8 _ _ (fun iy ix hiy hix => ?_)
    rw [block4x8_apply _ c y iy ix hiy hix]
    by_cases h0 : ix = 0 ∧ iy = 0
    · rw [if_pos h0]
      obtain ⟨h1, h2⟩ := h0
      subst h1 h2
      simp only [Nat.zero_mul, Nat.add_zero]
      rw [hb0]
      interval_cases y <;> simp [dcs2_zero, dcs2_one]
    · rw [if_neg h0]
      have hne : (iy, ix) ≠ (0, 0) := fun h => h0 (by simp [Prod.mk.injEq] at h; omega)
      have := hb iy ix hiy hix hne
      have e1 : iy * 8 + ix = 8 * iy + ix := by ring
      have e2 : (y + iy * 2) * 8 + ix = (y + 2 * iy) * 8 + ix := by ring
      rw [e1, e2, this]
  · intro x hx b hb0 hb r k hr hk
    have e : r * s + (4 * x + k) = r * s + x * 4 + k := by ring
    rw [e, caseDCT8X4_inside E c pixels s hs x r k hx hr hk]
    congr 1
    refine FromBlock_congr_slots 4 8 _ _ (fun iy ix hiy hix => ?_)
    rw [block4x8_apply _ c x iy ix hiy hix]
    by_cases h0 : ix = 0 ∧ iy = 0
    · rw [if_pos h0]
      obtain ⟨h1, h2⟩ := h0
      subst h1 h2
      simp only [Nat.zero_mul, Nat.add_zero]
      rw [hb0]
      interval_cases x <;> simp [dcs2_zero, dcs2_one]
    · rw [if_neg h0]
      have hne : (iy, ix) ≠ (0, 0) := fun h => h0 (by simp [Prod.mk.injEq] at h; omega)
      have := hb iy ix hiy hix hne
      have e1 : iy * 8 + ix = 8 * iy + ix := by ring
      have e2 : (x + iy * 2) * 8 + ix = (x + 2 * iy) * 8 + ix := by ring
      rw [e1, e2, this]

/-- C2 at a concrete input: the ramp tile, pitch 8, every inverse DCT returning the first
entry of its block. -/
theorem C2_subblock_dct_witness :
    (∃ out : Buf, TransformToPixels constExternals AcStrategyType.DCT4X4 rampTile zeroBuf 8 = some out ∧
      ∀ y x : Nat, y < 2 → x < 2 → ∀ b : Buf,
        b 0 = (if 2 * y + x = 0 then rampTile 0 + rampTile 1 + rampTile 8 + rampTile 9
          else if 2 * y + x = 1 then rampTile 0 + rampTile 1 - rampTile 8 - rampTile 9
          else if 2 * y + x = 2 then rampTile 0 - rampTile 1 + rampTile 8 - rampTile 9
          else rampTile 0 - rampTile 1 - rampTile 8 + rampTile 9) →
        (∀ iy ix : Nat, iy < 4 → ix < 4 → (iy, ix) ≠ (0, 0) →
          b (4 * iy + ix) = rampTile ((y + 2 * iy) * 8 + x + 2 * ix)) →
        ∀ r k : Nat, r < 4 → k < 4 →
          out ((4 * y + r) * 8 + (4 * x + k)) =
            constExternals.ComputeTransposedScaledIDCT 4 (FromBlock 4 4 b) r k) ∧
    (∃ out : Buf, TransformToPixels constExternals AcStrategyType.DCT4X8 rampTile zeroBuf 8 = some out ∧
      ∀ y : Nat, y < 2 → ∀ b : Buf,
        b 0 = (if y = 0 then rampTile 0 + rampTile 8 else rampTile 0 - rampTile 8) →
        (∀ iy ix : Nat, iy < 4 → ix < 8 → (iy, ix) ≠ (0, 0) →
          b (8 * iy + ix) = rampTile ((y + 2 * iy) * 8 + ix)) →
        ∀ r k : Nat, r < 4 → k < 8 →
          out ((4 * y + r) * 8 + k) = constExternals.ComputeScaledIDCT 4 8 (FromBlock 4 8 b) r k) ∧
    (∃ out : Buf, TransformToPixels constExternals AcStrategyType.DCT8X4 rampTile zeroBuf 8 = some out ∧
      ∀ x : Nat, x < 2 → ∀ b : Buf,
        b 0 = (if x = 0 then rampTile 0 + rampTile 8 else rampTile 0 - rampTile 8) →
        (∀ iy ix : Nat, iy < 4 → ix < 8 → (iy, ix) ≠ (0, 0) →
          b (8 * iy + ix) = rampTile ((x + 2 * iy) * 8 + ix)) →
        ∀ r k : Nat, r < 8 → k < 4 →
          out (r * 8 + (4 * x + k)) = constExternals.ComputeScaledIDCT 8 4 (FromBlock 4 8 b) r k) :=
  C2_subblock_dct constExternals rampTile zeroBuf 8 (by decide)

/-- C3: `TransformToPixels` with strategy DCT2X2 equals the composition `P8(P4(P2(c)))`
copied to the pixel block, where the pass `P_S = IDCT2TopBlock<S>` (in place, input and
output being the same buffer) replaces, for every `y, x < S/2`, the 2x2 cell at rows
`2y, 2y+1` and columns `2x, 2x+1` by the butterfly of `in[y][x]`, `in[y][x+S/2]`,
`in[y+S/2][x]`, `in[y+S/2][x+S/2]` read from the pass input, and leaves every entry outside
the top-left `S x S` region unchanged (`butterflyPass`).  The pitch of the pixel block is at
least its width 8. -/
theorem C3_dct2x2_passes (E : Externals) (c pixels : Buf) (s : Nat) (hs : 8 ≤ s) :
    (∀ S : Nat, S = 2 ∨ S = 4 ∨ S = 8 → ∀ (b : Buf) (i : Nat),
      IDCT2TopBlock S b kBlockDim b i = butterflyPass S b i) ∧
    ∃ out : Buf, TransformToPixels E AcStrategyType.DCT2X2 c pixels s = some out ∧
      ∀ y x : Nat, y < 8 → x < 8 →
        out (y * s + x) = butterflyPass 8 (butterflyPass 4 (butterflyPass 2 c)) (y * 8 + x) := by
  refine ⟨?_, _, rfl, ?_⟩
  · intro S hS b i
    rcases hS with h | h | h <;> subst h <;>
      exact IDCT2TopBlock_eq_butterflyPass _ (by decide) (by decide) b i
  · intro y x hy hx
    rw [caseDCT2X2_inside c pixels s hs y x hy hx]
    exact coeffs3_apply c (y * 8 + x) (by omega)

/-- C3 at a concrete input: the ramp tile at pitch 8. -/
theorem C3_dct2x2_passes_witness :
    (∀ S : Nat, S = 2 ∨ S = 4 ∨ S = 8 → ∀ (b : Buf) (i : Nat),
      IDCT2TopBlock S b kBlockDim b i = butterflyPass S b i) ∧
    ∃ out : Buf, TransformToPixels constExternals AcStrategyType.DCT2X2 rampTile zeroBuf 8 = some out ∧
      ∀ y x : Nat, y < 8 → x < 8 →
        out (y * 8 + x) = butterflyPass 8 (butterflyPass 4 (butterflyPass 2 rampTile)) (y * 8 + x) :=
  C3_dct2x2_passes constExternals rampTile zeroBuf 8 (by decide)

/-- C4: for each asymmetric kind AFVk (`afv_x = k & 1`, `afv_y = k / 2`) and every
coefficient tile `c`, the pixel at `(4*afv_y+iy, 4*afv_x+ix)`, `iy, ix < 4`, is the sum over
`j < 16` of `v[j] * k4x4AFVBasis[j][m]`, where `v[0] = (c[0]+c[8]+c[1])*4`,
`v[4jy+jx] = c[16jy+2jx]` for `(jy,jx) != (0,0)` and
`m = 4*(afv_y==1 ? 3-iy : iy) + (afv_x==1 ? 3-ix : ix)`.  Vectors have at least one lane
and the pitch of the pixel block is at least its width 8. -/
theorem C4_afv_custom_basis (E : Externals) (hl : 0 < E.Lanes) (c pixels : Buf) (s : Nat)
    (hs : 8 ≤ s) (k : Nat) (strategy : AcStrategyType)
    (hk : [AcStrategyType.AFV0, AcStrategyType.AFV1, AcStrategyType.AFV2,
      AcStrategyType.AFV3][k]? = some strategy) :
    ∃ out : Buf, TransformToPixels E strategy c pixels s = some out ∧
      ∀ v : Buf, v 0 = (c 0 + c 8 + c 1) * 4 →
        (∀ jy jx : Nat, jy < 4 → jx < 4 → (jy, jx) ≠ (0, 0) →
          v (4 * jy + jx) = c (16 * jy + 2 * jx)) →
        ∀ iy ix : Nat, iy < 4 → ix < 4 →
          out ((4 * (k / 2) + iy) * s + (4 * (k &&& 1) + ix)) =
            ∑ j in Finset.range 16, v j *
              k4x4AFVBasis j (4 * (if k / 2 = 1 then 3 - iy else iy) +
                (if k &&& 1 = 1 then 3 - ix else ix)) := by
  have hk4 : k < 4 := by
    rcases Nat.lt_or_ge k 4 with h | h
    · exact h
    · rw [List.getElem?_eq_none (by simpa using h)] at hk
      exact absurd hk (by simp)
  have hout : TransformToPixels E strategy c pixels s =
      some (AFVTransformToPixels E k c pixels s) := by
    interval_cases k <;> simp at hk <;> subst hk <;> rfl
  refine ⟨_, hout, ?_⟩
  intro v hv0 hv iy ix hiy hix
  have e : (4 * (k / 2) + iy) * s + (4 * (k &&& 1) + ix) =
      (iy + k / 2 * 4) * s + (k &&& 1) * 4 + ix := by ring
  have e2 : 4 * (if k / 2 = 1 then 3 - iy else iy) + (if k &&& 1 = 1 then 3 - ix else ix) =
      (if k / 2 = 1 then 3 - iy else iy) * 4 + (if k &&& 1 = 1 then 3 - ix else ix) := by ring
  rw [e, e2, AFVTransformToPixels_quadrant E hl k hk4 c pixels s hs iy ix hiy hix]
  refine Finset.sum_congr rfl (fun j hj => ?_)
  have hj16 : j < 16 := Finset.mem_range.mp hj
  congr 1
  have hdec := slot_decomp 4 j
  rw [← hdec, AFV_coeff_apply c (j / 4) (j % 4) (by omega) (by omega)]
  by_cases h0 : j % 4 = 0 ∧ j / 4 = 0
  · rw [if_pos h0]
    have hj0 : j / 4 * 4 + j % 4 = 0 := by omega
    rw [hj0, hv0]
  · rw [if_neg h0]
    have hne : (j / 4, j % 4) ≠ (0, 0) := fun h => h0 (by simp [Prod.mk.injEq] at h; omega)
    have := hv (j / 4) (j % 4) (by omega) (by omega) hne
    have e3 : j / 4 * 4 + j % 4 = 4 * (j / 4) + j % 4 := by ring
    have e4 : j / 4 * 2 * 8 + j % 4 * 2 = 16 * (j / 4) + 2 * (j % 4) := by ring
    rw [e3, e4, this]

/-- C4 at a concrete input: AFV3 on the ramp tile, one lane, pitch 8. -/
theorem C4_afv_custom_basis_witness :
    ∃ out : Buf, TransformToPixels constExternals AcStrategyType.AFV3 rampTile zeroBuf 8 = some out ∧
      ∀ v : Buf, v 0 = (rampTile 0 + rampTile 8 + rampTile 1) * 4 →
        (∀ jy jx : Nat, jy < 4 → jx < 4 → (jy, jx) ≠ (0, 0) →
          v (4 * jy + jx) = rampTile (16 * jy + 2 * jx)) →
        ∀ iy ix : Nat, iy < 4 → ix < 4 →
          out ((4 * (3 / 2) + iy) * 8 + (4 * (3 &&& 1) + ix)) =
            ∑ j in Finset.range 16, v j *
              k4x4AFVBasis j (4 * (if 3 / 2 = 1 then 3 - iy else iy) +
                (if 3 &&& 1 = 1 then 3 - ix else ix)) :=
  C4_afv_custom_basis constExternals (by decide) rampTile zeroBuf 8 (by decide) 3
    AcStrategyType.AFV3 (by decide)

/-- C5: for every strategy in DCT, DCT2X2, DCT4X4, DCT4X8, DCT8X4, AFV0..AFV3, IDENTITY,
every coefficient block and every `dc_stride`, `DCFromLowestFrequencies` sets `dc[0]` to
`block[0]` and leaves every other element of `dc` unchanged. -/
theorem C5_dc_single_cell (E : Externals) (strategy : AcStrategyType)
    (hkind : strategy ∈ [AcStrategyType.DCT, AcStrategyType.DCT2X2, AcStrategyType.DCT4X4,
      AcStrategyType.DCT4X8, AcStrategyType.DCT8X4, AcStrategyType.AFV0, AcStrategyType.AFV1,
      AcStrategyType.AFV2, AcStrategyType.AFV3, AcStrategyType.IDENTITY])
    (block dc : Buf) (dc_stride : Nat) :
    ∃ out : Buf, DCFromLowestFrequencies E strategy block dc dc_stride = some out ∧
      out 0 = block 0 ∧ ∀ j : Nat, j ≠ 0 → out j = dc j := by
  have hout : DCFromLowestFrequencies E strategy block dc dc_stride =
      some (store dc 0 (block 0)) := by
    simp only [List.mem_cons, List.mem_singleton, List.not_mem_nil, or_false] at hkind
    rcases hkind with h | h | h | h | h | h | h | h | h | h <;> subst h <;> rfl
  exact ⟨_, hout, store_same _ _ _, fun j hj => store_ne _ _ hj⟩

/-- C5 at a concrete input: AFV2 on the ramp tile. -/
theorem C5_dc_single_cell_witness :
    ∃ out : Buf, DCFromLowestFrequencies constExternals AcStrategyType.AFV2 rampTile zeroBuf 3 = some out ∧
      out 0 = rampTile 0 ∧ ∀ j : Nat, j ≠ 0 → out j = zeroBuf j :=
  C5_dc_single_cell constExternals AcStrategyType.AFV2 (by decide) rampTile zeroBuf 3

/-- C6: for every multi-cell kind with reduced shape `ROWS x COLS` (full shape
`DCT_ROWS x DCT_COLS`), the scratch buffer that `ReinterpretingIDCT` feeds to the reduced
inverse transform holds, at coefficient position `(y, x)` with `y < min(ROWS, COLS)` and
`x < max(ROWS, COLS)` and pitch `max(ROWS, COLS)`, the value `input[y*input_stride + x]`
multiplied by exactly two resampling factors, one per axis:
`DCTTotalResampleScale<DCT_ROWS,ROWS>(y) * DCTTotalResampleScale<DCT_COLS,COLS>(x)` when
`ROWS < COLS`, and `DCTTotalResampleScale<DCT_COLS,COLS>(y) *
DCTTotalResampleScale<DCT_ROWS,ROWS>(x)` otherwise. -/
theorem C6_scratch_scaling (E : Externals) (strategy : AcStrategyType)
    (DCT_ROWS DCT_COLS ROWS COLS input_stride : Nat)
    (hkind : (strategy, DCT_ROWS, DCT_COLS) ∈
      [(AcStrategyType.DCT16X8, 16, 8), (AcStrategyType.DCT8X16, 8, 16),
       (AcStrategyType.DCT16X16, 16, 16), (AcStrategyType.DCT32X8, 32, 8),
       (AcStrategyType.DCT8X32, 8, 32), (AcStrategyType.DCT32X16, 32, 16),
       (AcStrategyType.DCT16X32, 16, 32), (AcStrategyType.DCT32X32, 32, 32)])
    (hROWS : ROWS = DCT_ROWS / 8) (hCOLS : COLS = DCT_COLS / 8)
    (hstride : input_stride = 8 * max ROWS COLS)
    (input dc : Buf) (dc_stride : Nat) :
    DCFromLowestFrequencies E strategy input dc dc_stride =
        some (ReinterpretingIDCT E DCT_ROWS DCT_COLS ROWS COLS ROWS COLS input input_stride
          dc dc_stride) ∧
      ∀ y x : Nat, y < min ROWS COLS → x < max ROWS COLS →
        ReinterpretingIDCT.scratch E DCT_ROWS DCT_COLS ROWS COLS ROWS COLS input input_stride
            (y * max ROWS COLS + x) =
          input (y * input_stride + x) *
            (if ROWS < COLS then
              E.DCTTotalResampleScale DCT_ROWS ROWS y * E.DCTTotalResampleScale DCT_COLS COLS x
            else
              E.DCTTotalResampleScale DCT_COLS COLS y * E.DCTTotalResampleScale DCT_ROWS ROWS x) := by
  subst hROWS hCOLS hstride
  refine ⟨DCFromLowestFrequencies_multi E strategy DCT_ROWS DCT_COLS hkind input dc dc_stride,
    ?_⟩
  intro y x hy hx
  by_cases hshape : DCT_ROWS / 8 < DCT_COLS / 8
  · rw [if_pos hshape, Nat.max_eq_right (Nat.le_of_lt hshape)]
    rw [Nat.min_eq_left (Nat.le_of_lt hshape)] at hy
    rw [Nat.max_eq_right (Nat.le_of_lt hshape)] at hx
    rw [scratch_apply_wide E _ _ _ _ _ _ input _ hshape (Nat.le_refl _) y x hy hx]
    ring
  · rw [if_neg hshape, Nat.max_eq_left (Nat.le_of_not_lt hshape)]
    rw [Nat.min_eq_right (Nat.le_of_not_lt hshape)] at hy
    rw [Nat.max_eq_left (Nat.le_of_not_lt hshape)] at hx
    rw [scratch_apply_tall E _ _ _ _ _ _ input _ hshape (Nat.le_refl _) y x hy hx]
    ring

/-- C6 at a concrete input: DCT32X16 on the ramp tile. -/
theorem C6_scratch_scaling_witness :
    DCFromLowestFrequencies constExternals AcStrategyType.DCT32X16 rampTile zeroBuf 2 =
        some (ReinterpretingIDCT constExternals 32 16 4 2 4 2 rampTile 32
          zeroBuf 2) ∧
      ∀ y x : Nat, y < min 4 2 → x < max 4 2 →
        ReinterpretingIDCT.scratch constExternals 32 16 4 2 4 2 rampTile 32
            (y * max 4 2 + x) =
          rampTile (y * 32 + x) *
            (if 4 < 2 then
              constExternals.DCTTotalResampleScale 32 4 y * constExternals.DCTTotalResampleScale 16 2 x
            else
              constExternals.DCTTotalResampleScale 16 2 y * constExternals.DCTTotalResampleScale 32 4 x) :=
  C6_scratch_scaling constExternals AcStrategyType.DCT32X16 32 16 4 2 32 (by decide)
    (by decide) (by decide) (by decide) rampTile zeroBuf 2

/-- C7: for each of the eight multi-cell kinds, of full shape `DCT_ROWS x DCT_COLS`,
`DCFromLowestFrequencies` runs `ReinterpretingIDCT` with the reduced shape
`(ROWS, COLS) = (DCT_ROWS / 8, DCT_COLS / 8)` and `LF_ROWS = ROWS`, `LF_COLS = COLS` (2x2
for DCT16X16, 4 rows by 1 column for DCT32X8), and writes exactly the `ROWS * COLS` outputs
`dc[y * dc_stride + x]` for `y < ROWS`, `x < COLS`: every other element of `dc` is
unchanged, and when the rows of `dc` do not overlap (`COLS <= dc_stride`) output `(y, x)`
is sample `(y, x)` of the reduced inverse transform of the scratch block. -/
theorem C7_dc_multi_cell (E : Externals) (strategy : AcStrategyType)
    (DCT_ROWS DCT_COLS ROWS COLS : Nat)
    (hkind : (strategy, DCT_ROWS, DCT_COLS, ROWS, COLS) ∈
      [(AcStrategyType.DCT16X8, 16, 8, 2, 1), (AcStrategyType.DCT8X16, 8, 16, 1, 2),
       (AcStrategyType.DCT16X16, 16, 16, 2, 2), (AcStrategyType.DCT32X8, 32, 8, 4, 1),
       (AcStrategyType.DCT8X32, 8, 32, 1, 4), (AcStrategyType.DCT32X16, 32, 16, 4, 2),
       (AcStrategyType.DCT16X32, 16, 32, 2, 4), (AcStrategyType.DCT32X32, 32, 32, 4, 4)])
    (block dc : Buf) (dc_stride : Nat) :
    ROWS = DCT_ROWS / 8 ∧ COLS = DCT_COLS / 8 ∧
    ∃ out : Buf, DCFromLowestFrequencies E strategy block dc dc_stride = some out ∧
      out = ReinterpretingIDCT E DCT_ROWS DCT_COLS ROWS COLS ROWS COLS block
        (8 * max ROWS COLS) dc dc_stride ∧
      (∀ j : Nat, (∀ y x : Nat, y < ROWS → x < COLS → j ≠ y * dc_stride + x) →
        out j = dc j) ∧
      (COLS ≤ dc_stride → ∀ y x : Nat, y < ROWS → x < COLS →
        out (y * dc_stride + x) =
          DoIDCT E ROWS COLS
            (FromBlock (CoefficientRows ROWS COLS) (CoefficientColumns ROWS COLS)
              (ReinterpretingIDCT.scratch E DCT_ROWS DCT_COLS ROWS COLS ROWS COLS block
                (8 * max ROWS COLS))) y x) := by
  have hshape : ROWS = DCT_ROWS / 8 ∧ COLS = DCT_COLS / 8 ∧
      (strategy, DCT_ROWS, DCT_COLS) ∈
        [(AcStrategyType.DCT16X8, 16, 8), (AcStrategyType.DCT8X16, 8, 16),
       (AcStrategyType.DCT16X16, 16, 16), (AcStrategyType.DCT32X8, 32, 8),
       (AcStrategyType.DCT8X32, 8, 32), (AcStrategyType.DCT32X16, 32, 16),
       (AcStrategyType.DCT16X32, 16, 32), (AcStrategyType.DCT32X32, 32, 32)] := by
    simp only [List.mem_cons, Prod.mk.injEq, List.mem_singleton, List.not_mem_nil, or_false]
      at hkind
    rcases hkind with h | h | h | h | h | h | h | h <;> obtain ⟨h1, h2, h3, h4, h5⟩ := h <;>
      subst h1 h2 h3 h4 h5 <;> decide
  obtain ⟨hR, hC, hmem⟩ := hshape
  subst hR hC
  refine ⟨rfl, rfl, _,
    DCFromLowestFrequencies_multi E strategy DCT_ROWS DCT_COLS hmem block dc dc_stride, rfl,
    ?_, ?_⟩
  · intro j hj
    exact ReinterpretingIDCT_outside E _ _ _ _ _ _ block _ dc dc_stride j hj
  · intro hstride y x hy hx
    rw [ReinterpretingIDCT_inside E _ _ _ _ _ _ block _ dc dc_stride hstride y x hy hx,
      transformed_apply E _ _ _ _ _ _ block _ y x hy hx]

/-- C7 at a concrete input: DCT32X8 on the ramp tile. -/
theorem C7_dc_multi_cell_witness :
    4 = 32 / 8 ∧ 1 = 8 / 8 ∧
    ∃ out : Buf, DCFromLowestFrequencies constExternals AcStrategyType.DCT32X8 rampTile zeroBuf 3 = some out ∧
      out = ReinterpretingIDCT constExternals 32 8 4 1 4 1 rampTile
        (8 * max 4 1) zeroBuf 3 ∧
      (∀ j : Nat, (∀ y x : Nat, y < 4 → x < 1 → j ≠ y * 3 + x) →
        out j = zeroBuf j) ∧
      (1 ≤ 3 → ∀ y x : Nat, y < 4 → x < 1 →
        out (y * 3 + x) =
          DoIDCT constExternals 4 1
            (FromBlock (CoefficientRows 4 1) (CoefficientColumns 4 1)
              (ReinterpretingIDCT.scratch constExternals 32 8 4 1 4 1 rampTile
                (8 * max 4 1))) y x) :=
  C7_dc_multi_cell constExternals AcStrategyType.DCT32X8 32 8 4 1 (by decide)
    rampTile zeroBuf 3

/-- C9: for every valid strategy kind and every value `K`, for the kinds AFV0..AFV3
every `K` whose fourfold is in the range of `float`, reconstructing with
`TransformToPixels` a tile whose only nonzero coefficient is index 0 `= K` yields a pixel
block in which every sample of the kind's extent equals `1 * K`, assuming each external
inverse-DCT primitive maps a block whose only nonzero entry is index 0 `= d` to the constant
block `d`; for IDENTITY, DCT2X2 and the custom-basis 4x4 quadrant of AFV0..AFV3 this holds
with no assumption on the primitives, and the samples of the quadrant are `1 * K` in the
range of `float` as well.  Vectors have at least one lane and the pitch of the pixel block
is at least its width. -/
theorem C9_dc_only_tile (E : Externals) (hl : 0 < E.Lanes) (K : ℚ) (strategy : AcStrategyType)
    (hvalid : strategy ≠ AcStrategyType.kNumValidStrategies) (c pixels : Buf) (hc0 : c 0 = K)
    (hc : ∀ i, 0 < i → i < (pixelExtent strategy).1 * (pixelExtent strategy).2 → c i = 0)
    (s : Nat) (hs : (pixelExtent strategy).2 ≤ s)
    (hK : ∀ a : Nat, [AcStrategyType.AFV0, AcStrategyType.AFV1, AcStrategyType.AFV2,
      AcStrategyType.AFV3][a]? = some strategy → |K| * 4 ≤ kFloatMax) :
    ∃ out : Buf, TransformToPixels E strategy c pixels s = some out ∧
      (DCPreserving E →
        ∀ r k : Nat, r < (pixelExtent strategy).1 → k < (pixelExtent strategy).2 →
          out (r * s + k) = 1 * K) ∧
      (strategy = AcStrategyType.IDENTITY ∨ strategy = AcStrategyType.DCT2X2 →
        ∀ r k : Nat, r < 8 → k < 8 → out (r * s + k) = 1 * K) ∧
      (∀ a : Nat, [AcStrategyType.AFV0, AcStrategyType.AFV1, AcStrategyType.AFV2,
          AcStrategyType.AFV3][a]? = some strategy →
        ∀ iy ix : Nat, iy < 4 → ix < 4 →
          out ((4 * (a / 2) + iy) * s + (4 * (a &&& 1) + ix)) = 1 * K ∧
          AFVTransformToPixels.quadrantFloat a c iy ix = some (1 * K)) := by
  have hsome : ∃ out : Buf, TransformToPixels E strategy c pixels s = some out := by
    cases strategy <;> first | exact ⟨_, rfl⟩ | exact absurd rfl hvalid
  obtain ⟨out, hout⟩ := hsome
  refine ⟨out, hout, ?_, ?_, ?_⟩
  · intro hE r k hr hk
    obtain ⟨out', hout', h⟩ := TransformToPixels_dcOnly E hl K (constOnDC_of_dcPreserving hE K) strategy
      hvalid c pixels hc0 hc s hs
    rw [hout] at hout'
    cases hout'
    rw [h r k hr hk, one_mul]
  · intro hkind r k hr hk
    rcases hkind with h | h <;> subst h <;> simp only [pixelExtent] at hc hs <;> cases hout
    · rw [caseIDENTITY_dcOnly c pixels hc s hs r k hr hk, hc0, one_mul]
    · rw [caseDCT2X2_dcOnly c pixels hc s hs r k hr hk, hc0, one_mul]
  · intro a ha iy ix hiy hix
    have hKa := hK a ha
    have ha4 : a < 4 := by
      rcases Nat.lt_or_ge a 4 with h | h
      · exact h
      · rw [List.getElem?_eq_none (by simpa using h)] at ha
        exact absurd ha (by simp)
    have hafv : TransformToPixels E strategy c pixels s =
        some (AFVTransformToPixels E a c pixels s) ∧ pixelExtent strategy = (8, 8) := by
      interval_cases a <;> simp at ha <;> subst ha <;> exact ⟨rfl, rfl⟩
    rw [hafv.2] at hc hs
    rw [hafv.1] at hout
    cases hout
    have e : (4 * (a / 2) + iy) * s + (4 * (a &&& 1) + ix) =
        (iy + a / 2 * 4) * s + (a &&& 1) * 4 + ix := by ring
    refine ⟨?_, ?_⟩
    · rw [e, AFV_quadrant_dcOnly E hl a ha4 c pixels hc s hs iy ix hiy hix, hc0, one_mul]
    · rw [one_mul]
      exact quadrantFloat_dcOnly a c K hc0 hc hKa iy ix hiy hix

/-- C9 at a concrete input: AFV1 on the tile with coefficient 0 `= 5`, every inverse DCT
returning the first entry of its block. -/
theorem C9_dc_only_tile_witness :
    ∃ out : Buf, TransformToPixels constExternals AcStrategyType.AFV1 (dcTile 5) zeroBuf 8 =
        some out ∧
      (∀ r k : Nat, r < 8 → k < 8 → out (r * 8 + k) = 1 * 5) ∧
      (∀ iy ix : Nat, iy < 4 → ix < 4 →
        out ((4 * (1 / 2) + iy) * 8 + (4 * (1 &&& 1) + ix)) = 1 * 5 ∧
        AFVTransformToPixels.quadrantFloat 1 (dcTile 5) iy ix = some (1 * 5)) := by
  obtain ⟨out, hout, h, -, hq⟩ := C9_dc_only_tile constExternals (by decide) 5
    AcStrategyType.AFV1 (by decide) (dcTile 5) zeroBuf rfl
    (fun i hi _ => if_neg (Nat.pos_iff_ne_zero.mp hi)) 8 (Nat.le_refl 8)
    (fun _ _ => by norm_num [kFloatMax])
  exact ⟨out, hout, h constExternals_dcPreserving, hq 1 rfl⟩

/-- C9 for every value `K` fails at `K = 2^127` for AFV0: `K` is a finite `float`, the
product `(K + 0 + 0) * 4.0f` leaves the range of `float`, so `dcs[0]` is not finite and
sample (0, 0) of the custom-basis quadrant is not `1 * K`. -/
theorem C9_dc_only_overflow :
    |(2 : ℚ) ^ 127| ≤ kFloatMax ∧
    AFVTransformToPixels.dcs0Float (dcTile (2 ^ 127)) = none ∧
    AFVTransformToPixels.quadrantFloat 0 (dcTile (2 ^ 127)) 0 0 ≠ some (1 * 2 ^ 127) := by
  have h0 : AFVTransformToPixels.dcs0Float (dcTile (2 ^ 127)) = none := by
    simp only [AFVTransformToPixels.dcs0Float, floatAdd, floatMul, floatOf, dcTile, kFloatMax]
    norm_num
  refine ⟨by norm_num [kFloatMax], h0, ?_⟩
  unfold AFVTransformToPixels.quadrantFloat
  rw [pixelFloat_none_of_first _ (by
    unfold AFVTransformToPixels.coeffFloat
    rw [if_pos rfl]
    exact h0)]
  simp

/-- C10: for every valid strategy kind, `TransformToPixels` applied to an all-zero
coefficient tile yields an all-zero pixel block over the kind's extent, assuming the
external inverse-DCT primitives map the all-zero block to the all-zero block.  Vectors
have at least one lane and the pitch of the pixel block is at least its width. -/
theorem C10_zero_tile (E : Externals) (hl : 0 < E.Lanes) (hE : ZeroPreserving E)
    (strategy : AcStrategyType) (hvalid : strategy ≠ AcStrategyType.kNumValidStrategies)
    (c pixels : Buf)
    (hc : ∀ i, i < (pixelExtent strategy).1 * (pixelExtent strategy).2 → c i = 0)
    (s : Nat) (hs : (pixelExtent strategy).2 ≤ s) :
    ∃ out : Buf, TransformToPixels E strategy c pixels s = some out ∧
      ∀ r k : Nat, r < (pixelExtent strategy).1 → k < (pixelExtent strategy).2 →
        out (r * s + k) = 0 := by
  have hpos : 0 < (pixelExtent strategy).1 * (pixelExtent strategy).2 := by
    cases strategy <;> first | decide | exact absurd rfl hvalid
  exact TransformToPixels_dcOnly E hl 0 (constOnDC_of_zeroPreserving hE) strategy hvalid c pixels (hc 0 hpos)
    (fun i _ hi => hc i hi) s hs

/-- C10 at a concrete input: AFV1 on the all-zero tile, over a pixel buffer that is not
zero, every inverse DCT returning the first entry of its block. -/
theorem C10_zero_tile_witness :
    ∃ out : Buf, TransformToPixels constExternals AcStrategyType.AFV1 zeroBuf rampTile 9 =
        some out ∧
      ∀ r k : Nat, r < 8 → k < 8 → out (r * 9 + k) = 0 :=
  C10_zero_tile constExternals (by decide) constExternals_zeroPreserving AcStrategyType.AFV1
    (by decide) zeroBuf rampTile (fun _ _ => rfl) 9 (by decide)

/-- C11: for every valid strategy kind and every `K`, `DCFromLowestFrequencies` applied to
a tile that is zero except coefficient index 0 `= K` produces a reduced block whose every
written element equals `K`, assuming `DCTTotalResampleScale<F,T>(0) = 1` for every table
and that each reduced inverse-DCT primitive maps a block whose only nonzero entry is index
0 `= d` to the constant block `d`.  The written elements are `dc[y * dc_stride + x]` for
`(y, x)` in the reduced shape, one eighth of the kind's extent in each direction. -/
theorem C11_extract_dc_only (E : Externals)
    (hscale : ∀ F T : Nat, E.DCTTotalResampleScale F T 0 = 1) (hE : DCPreserving E) (K : ℚ)
    (strategy : AcStrategyType) (hvalid : strategy ≠ AcStrategyType.kNumValidStrategies)
    (block dc : Buf) (hb0 : block 0 = K)
    (hb : ∀ i, 0 < i → i < (pixelExtent strategy).1 * (pixelExtent strategy).2 → block i = 0)
    (dc_stride : Nat) :
    ∃ out : Buf, DCFromLowestFrequencies E strategy block dc dc_stride = some out ∧
      ∀ y x : Nat, y < (pixelExtent strategy).1 / 8 → x < (pixelExtent strategy).2 / 8 →
        out (y * dc_stride + x) = K := by
  have hmulti : ∀ (DCT_ROWS DCT_COLS : Nat), 0 < DCT_ROWS / 8 → 0 < DCT_COLS / 8 →
      (∀ i, 0 < i → i < 64 * (DCT_ROWS / 8 * (DCT_COLS / 8)) → block i = 0) →
      ∀ y x : Nat, y < DCT_ROWS / 8 → x < DCT_COLS / 8 →
        ReinterpretingIDCT E DCT_ROWS DCT_COLS (DCT_ROWS / 8) (DCT_COLS / 8) (DCT_ROWS / 8)
          (DCT_COLS / 8) block (8 * max (DCT_ROWS / 8) (DCT_COLS / 8)) dc dc_stride
          (y * dc_stride + x) = K := by
    intro DR DC hR hC hin y x hy hx
    rw [ReinterpretingIDCT_dcOnly E hE DR DC _ _ hR hC (hscale _ _) (hscale _ _) block _ rfl
      hin dc dc_stride y x hy hx, hb0]
  have hsingle : ∀ y x : Nat, y < 8 / 8 → x < 8 / 8 →
      (store dc 0 (block 0)) (y * dc_stride + x) = K := by
    intro y x hy hx
    have hy0 : y = 0 := by omega
    have hx0 : x = 0 := by omega
    subst hy0 hx0
    simp only [Nat.zero_mul, Nat.add_zero]
    rw [store_same, hb0]
  cases strategy <;> simp only [pixelExtent] at hb ⊢
  case kNumValidStrategies => exact absurd rfl hvalid
  case DCT => exact ⟨_, rfl, hsingle⟩
  case IDENTITY => exact ⟨_, rfl, hsingle⟩
  case DCT2X2 => exact ⟨_, rfl, hsingle⟩
  case DCT4X4 => exact ⟨_, rfl, hsingle⟩
  case DCT4X8 => exact ⟨_, rfl, hsingle⟩
  case DCT8X4 => exact ⟨_, rfl, hsingle⟩
  case AFV0 => exact ⟨_, rfl, hsingle⟩
  case AFV1 => exact ⟨_, rfl, hsingle⟩
  case AFV2 => exact ⟨_, rfl, hsingle⟩
  case AFV3 => exact ⟨_, rfl, hsingle⟩
  case DCT16X16 =>
    exact ⟨_, DCFromLowestFrequencies_multi E _ 16 16 (by decide) block dc dc_stride,
      hmulti 16 16 (by decide) (by decide) hb⟩
  case DCT32X32 =>
    exact ⟨_, DCFromLowestFrequencies_multi E _ 32 32 (by decide) block dc dc_stride,
      hmulti 32 32 (by decide) (by decide) hb⟩
  case DCT16X8 =>
    exact ⟨_, DCFromLowestFrequencies_multi E _ 16 8 (by decide) block dc dc_stride,
      hmulti 16 8 (by decide) (by decide) hb⟩
  case DCT8X16 =>
    exact ⟨_, DCFromLowestFrequencies_multi E _ 8 16 (by decide) block dc dc_stride,
      hmulti 8 16 (by decide) (by decide) hb⟩
  case DCT32X8 =>
    exact ⟨_, DCFromLowestFrequencies_multi E _ 32 8 (by decide) block dc dc_stride,
      hmulti 32 8 (by decide) (by decide) hb⟩
  case DCT8X32 =>
    exact ⟨_, DCFromLowestFrequencies_multi E _ 8 32 (by decide) block dc dc_stride,
      hmulti 8 32 (by decide) (by decide) hb⟩
  case DCT32X16 =>
    exact ⟨_, DCFromLowestFrequencies_multi E _ 32 16 (by decide) block dc dc_stride,
      hmulti 32 16 (by decide) (by decide) hb⟩
  case DCT16X32 =>
    exact ⟨_, DCFromLowestFrequencies_multi E _ 16 32 (by decide) block dc dc_stride,
      hmulti 16 32 (by decide) (by decide) hb⟩

/-- C11 at a concrete input: DCT32X16 on the tile with coefficient 0 `= 5`, every resampling
factor 1 and every inverse DCT returning the first entry of its block. -/
theorem C11_extract_dc_only_witness :
    ∃ out : Buf, DCFromLowestFrequencies constExternals AcStrategyType.DCT32X16 (dcTile 5)
        rampTile 3 = some out ∧
      ∀ y x : Nat, y < 32 / 8 → x < 16 / 8 → out (y * 3 + x) = 5 :=
  C11_extract_dc_only constExternals (fun _ _ => rfl) constExternals_dcPreserving 5
    AcStrategyType.DCT32X16 (by decide) (dcTile 5) rampTile rfl
    (fun i hi _ => if_neg (Nat.pos_iff_ne_zero.mp hi)) 3

/-- C12: the four asymmetric orientations are mirror-consistent on the custom-basis
quadrant: for every coefficient tile `c`, every `k` in 1, 2, 3 and all `iy, ix < 4`, the
pixel that AFVk writes at `(4*(k/2)+iy, 4*(k&1)+ix)` equals the pixel that AFV0 writes for
the same `c` at `((k/2==1 ? 3-iy : iy), (k&1==1 ? 3-ix : ix))`: AFV1 is AFV0's quadrant
flipped horizontally, AFV2 flipped vertically, AFV3 flipped both ways.  The two calls may
use different pixel buffers and pitches (at least 8); vectors have at least one lane. -/
theorem C12_afv_mirror (E : Externals) (hl : 0 < E.Lanes) (c pixels pixels0 : Buf)
    (s s0 : Nat) (hs : 8 ≤ s) (hs0 : 8 ≤ s0) (k : Nat) (hk : k = 1 ∨ k = 2 ∨ k = 3)
    (strategy : AcStrategyType)
    (hstrategy : [AcStrategyType.AFV0, AcStrategyType.AFV1, AcStrategyType.AFV2,
      AcStrategyType.AFV3][k]? = some strategy) :
    ∃ out out0 : Buf, TransformToPixels E strategy c pixels s = some out ∧
      TransformToPixels E AcStrategyType.AFV0 c pixels0 s0 = some out0 ∧
      ∀ iy ix : Nat, iy < 4 → ix < 4 →
        out ((4 * (k / 2) + iy) * s + (4 * (k &&& 1) + ix)) =
          out0 ((if k / 2 = 1 then 3 - iy else iy) * s0 +
            (if k &&& 1 = 1 then 3 - ix else ix)) := by
  have hk4 : k < 4 := by omega
  have hx : k &&& 1 < 2 := by
    rw [Nat.and_one_is_mod]; omega
  have hout : TransformToPixels E strategy c pixels s =
      some (AFVTransformToPixels E k c pixels s) := by
    interval_cases k <;> simp at hstrategy <;> subst hstrategy <;> rfl
  refine ⟨_, _, hout, rfl, ?_⟩
  intro iy ix hiy hix
  have e : (4 * (k / 2) + iy) * s + (4 * (k &&& 1) + ix) =
      (iy + k / 2 * 4) * s + (k &&& 1) * 4 + ix := by ring
  rw [e, AFVTransformToPixels_quadrant E hl k hk4 c pixels s hs iy ix hiy hix]
  have h0 := AFVTransformToPixels_quadrant E hl 0 (by decide) c pixels0 s0 hs0
    (if k / 2 = 1 then 3 - iy else iy) (if k &&& 1 = 1 then 3 - ix else ix)
    (by split <;> omega) (by split <;> omega)
  have e0 : ((if k / 2 = 1 then 3 - iy else iy) + 0 / 2 * 4) * s0 + (0 &&& 1) * 4 +
      (if k &&& 1 = 1 then 3 - ix else ix) =
      (if k / 2 = 1 then 3 - iy else iy) * s0 + (if k &&& 1 = 1 then 3 - ix else ix) := by
    simp
  rw [e0] at h0
  show _ = (AFVTransformToPixels E 0 c pixels0 s0) _
  rw [h0]
  refine Finset.sum_congr rfl (fun j _ => ?_)
  congr 2

/-- C12 at a concrete input: AFV3 against AFV0 on the ramp tile. -/
theorem C12_afv_mirror_witness :
    ∃ out out0 : Buf, TransformToPixels constExternals AcStrategyType.AFV3 rampTile zeroBuf 8 = some out ∧
      TransformToPixels constExternals AcStrategyType.AFV0 rampTile rampTile 9 = some out0 ∧
      ∀ iy ix : Nat, iy < 4 → ix < 4 →
        out ((4 * (3 / 2) + iy) * 8 + (4 * (3 &&& 1) + ix)) =
          out0 ((if 3 / 2 = 1 then 3 - iy else iy) * 9 +
            (if 3 &&& 1 = 1 then 3 - ix else ix)) :=
  C12_afv_mirror constExternals (by decide) rampTile zeroBuf rampTile 8 9 (by decide)
    (by decide) 3 (by decide) AcStrategyType.AFV3 (by decide)

/-- C13: over the closed strategy enumeration, `TransformToPixels` and
`DCFromLowestFrequencies` each abort if and only if the strategy is the sentinel
`kNumValidStrategies`; for each of the 18 valid kinds both functions complete without
aborting, and neither returns silently on the sentinel. -/
theorem C13_abort_iff_sentinel (E : Externals) (strategy : AcStrategyType)
    (coefficients pixels : Buf) (pixels_stride : Nat) (dc : Buf) (dc_stride : Nat) :
    (TransformToPixels E strategy coefficients pixels pixels_stride = none ↔
      strategy = AcStrategyType.kNumValidStrategies) ∧
    (DCFromLowestFrequencies E strategy coefficients dc dc_stride = none ↔
      strategy = AcStrategyType.kNumValidStrategies) ∧
    (strategy ∈ [AcStrategyType.IDENTITY, AcStrategyType.DCT, AcStrategyType.DCT2X2,
        AcStrategyType.DCT4X4, AcStrategyType.DCT4X8, AcStrategyType.DCT8X4,
        AcStrategyType.DCT8X16, AcStrategyType.DCT16X8, AcStrategyType.DCT16X16,
        AcStrategyType.DCT8X32, AcStrategyType.DCT32X8, AcStrategyType.DCT16X32,
        AcStrategyType.DCT32X16, AcStrategyType.DCT32X32, AcStrategyType.AFV0,
        AcStrategyType.AFV1, AcStrategyType.AFV2, AcStrategyType.AFV3] →
      (∃ out : Buf,
        TransformToPixels E strategy coefficients pixels pixels_stride = some out) ∧
      (∃ out : Buf, DCFromLowestFrequencies E strategy coefficients dc dc_stride = some out)) ∧
    (strategy ∉ [AcStrategyType.IDENTITY, AcStrategyType.DCT, AcStrategyType.DCT2X2,
        AcStrategyType.DCT4X4, AcStrategyType.DCT4X8, AcStrategyType.DCT8X4,
        AcStrategyType.DCT8X16, AcStrategyType.DCT16X8, AcStrategyType.DCT16X16,
        AcStrategyType.DCT8X32, AcStrategyType.DCT32X8, AcStrategyType.DCT16X32,
        AcStrategyType.DCT32X16, AcStrategyType.DCT32X32, AcStrategyType.AFV0,
        AcStrategyType.AFV1, AcStrategyType.AFV2, AcStrategyType.AFV3] →
      strategy = AcStrategyType.kNumValidStrategies) := by
  cases strategy <;>
    simp [TransformToPixels, DCFromLowestFrequencies]

/-- C14: the IDENTITY reconstruction is exactly invertible: over exact (rational)
arithmetic, for all 8x8 coefficient tiles `c` and `c'`, if `TransformToPixels(IDENTITY, c)`
and `TransformToPixels(IDENTITY, c')` give the same 64 pixels then `c = c'` on the 64
coefficients of the tile.  The two calls may use different pixel buffers and pitches (at
least 8). -/
theorem C14_identity_injective (E : Externals) (c c' pixels pixels' : Buf) (s s' : Nat)
    (hs : 8 ≤ s) (hs' : 8 ≤ s') :
    ∃ out out' : Buf,
      TransformToPixels E AcStrategyType.IDENTITY c pixels s = some out ∧
      TransformToPixels E AcStrategyType.IDENTITY c' pixels' s' = some out' ∧
      ((∀ r k : Nat, r < 8 → k < 8 → out (r * s + k) = out' (r * s' + k)) →
        ∀ i : Nat, i < 64 → c i = c' i) := by
  refine ⟨_, _, rfl, rfl, fun hsame => ?_⟩
  refine identitySample_inj c c' (fun y x iy ix hy hx hiy hix => ?_)
  have h := hsame (y * 4 + iy) (x * 4 + ix) (by omega) (by omega)
  rw [← Nat.add_assoc, ← Nat.add_assoc,
    caseIDENTITY_inside c pixels s hs y x iy ix hy hx hiy hix,
    caseIDENTITY_inside c' pixels' s' hs' y x iy ix hy hx hiy hix] at h
  exact h

/-- C14 at a concrete input: the ramp tile against the tile with coefficient 0 `= 5`. -/
theorem C14_identity_injective_witness :
    ∃ out out' : Buf,
      TransformToPixels constExternals AcStrategyType.IDENTITY rampTile zeroBuf 8 = some out ∧
      TransformToPixels constExternals AcStrategyType.IDENTITY (dcTile 5) zeroBuf 9 = some out' ∧
      ((∀ r k : Nat, r < 8 → k < 8 → out (r * 8 + k) = out' (r * 9 + k)) →
        ∀ i : Nat, i < 64 → rampTile i = (dcTile 5) i) :=
  C14_identity_injective constExternals rampTile (dcTile 5) zeroBuf zeroBuf 8 9 (by decide)
    (by decide)

/-- C15: the three DC substitutions of the asymmetric transform,
`d0 = (c[0]+c[8]+c[1])*4`, `d1 = c[0]+c[8]-c[1]`, `d2 = c[0]-c[8]`, form an invertible map
of `(c[0], c[1], c[8])` over exact arithmetic: `c[0] = (d0/4 + d1 + 2*d2)/4`,
`c[1] = (d0/4 - d1)/2`, `c[8] = c[0] - d2`, so two tiles with the same three substituted DC
values have the same `c[0]`, `c[1]`, `c[8]`. -/
theorem C15_afv_dc_invertible (c c' : Buf) :
    (AFVTransformToPixels.dcs c 0 = (c 0 + c 8 + c 1) * 4 ∧
      AFVTransformToPixels.dcs c 1 = c 0 + c 8 - c 1 ∧
      AFVTransformToPixels.dcs c 2 = c 0 - c 8) ∧
    (c 0 = (AFVTransformToPixels.dcs c 0 / 4 + AFVTransformToPixels.dcs c 1 +
        2 * AFVTransformToPixels.dcs c 2) / 4 ∧
      c 1 = (AFVTransformToPixels.dcs c 0 / 4 - AFVTransformToPixels.dcs c 1) / 2 ∧
      c 8 = c 0 - AFVTransformToPixels.dcs c 2) ∧
    (AFVTransformToPixels.dcs c 0 = AFVTransformToPixels.dcs c' 0 ∧
      AFVTransformToPixels.dcs c 1 = AFVTransformToPixels.dcs c' 1 ∧
      AFVTransformToPixels.dcs c 2 = AFVTransformToPixels.dcs c' 2 →
      c 0 = c' 0 ∧ c 1 = c' 1 ∧ c 8 = c' 8) := by
  rw [AFV_dcs_zero, AFV_dcs_one, AFV_dcs_two, AFV_dcs_zero, AFV_dcs_one, AFV_dcs_two]
  refine ⟨⟨rfl, rfl, rfl⟩, ⟨by ring, by ring, by ring⟩, fun h => ?_⟩
  obtain ⟨h0, h1, h2⟩ := h
  refine ⟨by linarith, by linarith, by linarith⟩

/-- C16: for each AFVk (`afv_x = k & 1`, `afv_y = k / 2`): the second sub-transform takes
the buffer `b2[0] = c[0]+c[8]-c[1]`, `b2[4iy+ix] = c[16iy+2ix+1]` and writes its transposed
4x4 inverse DCT to rows `4*afv_y ..`, columns `4*(1-afv_x) ..`; the third takes
`b3[0] = c[0]-c[8]`, `b3[8iy+ix] = c[(1+2iy)*8+ix]` and writes its 4x8 inverse DCT to rows
`4*(1-afv_y) ..`, all 8 columns; and together with the custom-basis quadrant at rows
`4*afv_y ..`, columns `4*afv_x ..` these three target regions are pairwise disjoint and
cover the whole 8x8 tile.  The pitch of the pixel block is at least its width 8. -/
theorem C16_afv_sub_transforms (E : Externals) (c pixels : Buf) (s : Nat) (hs : 8 ≤ s)
    (k : Nat) (strategy : AcStrategyType)
    (hstrategy : [AcStrategyType.AFV0, AcStrategyType.AFV1, AcStrategyType.AFV2,
      AcStrategyType.AFV3][k]? = some strategy) :
    ∃ out : Buf, TransformToPixels E strategy c pixels s = some out ∧
      (∀ b2 : Buf, b2 0 = c 0 + c 8 - c 1 →
        (∀ iy ix : Nat, iy < 4 → ix < 4 → (iy, ix) ≠ (0, 0) →
          b2 (4 * iy + ix) = c (16 * iy + 2 * ix + 1)) →
        ∀ r i : Nat, r < 4 → i < 4 →
          out ((4 * (k / 2) + r) * s + (4 * (1 - (k &&& 1)) + i)) =
            E.ComputeTransposedScaledIDCT 4 (FromBlock 4 4 b2) r i) ∧
      (∀ b3 : Buf, b3 0 = c 0 - c 8 →
        (∀ iy ix : Nat, iy < 4 → ix < 8 → (iy, ix) ≠ (0, 0) →
          b3 (8 * iy + ix) = c ((1 + 2 * iy) * 8 + ix)) →
        ∀ r i : Nat, r < 4 → i < 8 →
          out ((4 * (1 - k / 2) + r) * s + i) =
            E.ComputeScaledIDCT 4 8 (FromBlock 4 8 b3) r i) ∧
      (∀ r j : Nat,
        ((r < 8 ∧ j < 8) ↔
          ((4 * (k / 2) ≤ r ∧ r < 4 * (k / 2) + 4 ∧
              4 * (k &&& 1) ≤ j ∧ j < 4 * (k &&& 1) + 4) ∨
            (4 * (k / 2) ≤ r ∧ r < 4 * (k / 2) + 4 ∧
              4 * (1 - (k &&& 1)) ≤ j ∧ j < 4 * (1 - (k &&& 1)) + 4) ∨
            (4 * (1 - k / 2) ≤ r ∧ r < 4 * (1 - k / 2) + 4 ∧ j < 8))) ∧
        ¬ ((4 * (k / 2) ≤ r ∧ r < 4 * (k / 2) + 4 ∧
              4 * (k &&& 1) ≤ j ∧ j < 4 * (k &&& 1) + 4) ∧
            (4 * (k / 2) ≤ r ∧ r < 4 * (k / 2) + 4 ∧
              4 * (1 - (k &&& 1)) ≤ j ∧ j < 4 * (1 - (k &&& 1)) + 4)) ∧
        ¬ ((4 * (k / 2) ≤ r ∧ r < 4 * (k / 2) + 4 ∧
              4 * (k &&& 1) ≤ j ∧ j < 4 * (k &&& 1) + 4) ∧
            (4 * (1 - k / 2) ≤ r ∧ r < 4 * (1 - k / 2) + 4 ∧ j < 8)) ∧
        ¬ ((4 * (k / 2) ≤ r ∧ r < 4 * (k / 2) + 4 ∧
              4 * (1 - (k &&& 1)) ≤ j ∧ j < 4 * (1 - (k &&& 1)) + 4) ∧
            (4 * (1 - k / 2) ≤ r ∧ r < 4 * (1 - k / 2) + 4 ∧ j < 8))) := by
  have hk4 : k < 4 := by
    rcases Nat.lt_or_ge k 4 with h | h
    · exact h
    · rw [List.getElem?_eq_none (by simpa using h)] at hstrategy
      exact absurd hstrategy (by simp)
  have hx : k &&& 1 < 2 := by
    rw [Nat.and_one_is_mod]; omega
  have hout : TransformToPixels E strategy c pixels s =
      some (AFVTransformToPixels E k c pixels s) := by
    interval_cases k <;> simp at hstrategy <;> subst hstrategy <;> rfl
  refine ⟨_, hout, ?_, ?_, ?_⟩
  · intro b2 hb0 hb r i hr hi
    have hcol : 4 * (1 - (k &&& 1)) = (if k &&& 1 = 1 then 0 else 4) := by
      split <;> omega
    have e : (4 * (k / 2) + r) * s + (4 * (1 - (k &&& 1)) + i) =
        (k / 2 * 4 + r) * s + (if k &&& 1 = 1 then 0 else 4) + i := by
      rw [hcol]; ring
    rw [e, AFVTransformToPixels_second E k hk4 c pixels s hs r i hr hi]
    congr 1
    refine FromBlock_congr_slots 4 4 _ _ (fun iy ix hiy hix => ?_)
    rw [AFV_block2_apply E c iy ix hiy hix]
    by_cases h0 : ix = 0 ∧ iy = 0
    · rw [if_pos h0]
      obtain ⟨h1, h2⟩ := h0
      subst h1 h2
      simp only [Nat.zero_mul, Nat.add_zero]
      rw [hb0]
    · rw [if_neg h0]
      have hne : (iy, ix) ≠ (0, 0) := fun h => h0 (by simp [Prod.mk.injEq] at h; omega)
      have := hb iy ix hiy hix hne
      have e1 : iy * 4 + ix = 4 * iy + ix := by ring
      have e2 : iy * 2 * 8 + ix * 2 + 1 = 16 * iy + 2 * ix + 1 := by ring
      rw [e1, e2, this]
  · intro b3 hb0 hb r i hr hi
    have hrow : 4 * (1 - k / 2) = (if k / 2 = 1 then 0 else 4) := by
      split <;> omega
    have e : (4 * (1 - k / 2) + r) * s + i = ((if k / 2 = 1 then 0 else 4) + r) * s + i := by
      rw [hrow]
    rw [e, AFVTransformToPixels_third E k c pixels s hs r i hr hi]
    congr 1
    refine FromBlock_congr_slots 4 8 _ _ (fun iy ix hiy hix => ?_)
    rw [AFV_block3_apply E c iy ix hiy hix]
    by_cases h0 : ix = 0 ∧ iy = 0
    · rw [if_pos h0]
      obtain ⟨h1, h2⟩ := h0
      subst h1 h2
      simp only [Nat.zero_mul, Nat.add_zero]
      rw [hb0]
    · rw [if_neg h0]
      have hne : (iy, ix) ≠ (0, 0) := fun h => h0 (by simp [Prod.mk.injEq] at h; omega)
      have := hb iy ix hiy hix hne
      have e1 : iy * 8 + ix = 8 * iy + ix := by ring
      have e2 : (1 + iy * 2) * 8 + ix = (1 + 2 * iy) * 8 + ix := by ring
      rw [e1, e2, this]
  · intro r j
    refine ⟨?_, ?_, ?_, ?_⟩ <;> omega

/-- C16 at a concrete input: AFV2 on the ramp tile at pitch 8. -/
theorem C16_afv_sub_transforms_witness :
    ∃ out : Buf, TransformToPixels constExternals AcStrategyType.AFV2 rampTile zeroBuf 8 = some out ∧
      (∀ b2 : Buf, b2 0 = rampTile 0 + rampTile 8 - rampTile 1 →
        (∀ iy ix : Nat, iy < 4 → ix < 4 → (iy, ix) ≠ (0, 0) →
          b2 (4 * iy + ix) = rampTile (16 * iy + 2 * ix + 1)) →
        ∀ r i : Nat, r < 4 → i < 4 →
          out ((4 * (2 / 2) + r) * 8 + (4 * (1 - (2 &&& 1)) + i)) =
            constExternals.ComputeTransposedScaledIDCT 4 (FromBlock 4 4 b2) r i) ∧
      (∀ b3 : Buf, b3 0 = rampTile 0 - rampTile 8 →
        (∀ iy ix : Nat, iy < 4 → ix < 8 → (iy, ix) ≠ (0, 0) →
          b3 (8 * iy + ix) = rampTile ((1 + 2 * iy) * 8 + ix)) →
        ∀ r i : Nat, r < 4 → i < 8 →
          out ((4 * (1 - 2 / 2) + r) * 8 + i) =
            constExternals.ComputeScaledIDCT 4 8 (FromBlock 4 8 b3) r i) ∧
      (∀ r j : Nat,
        ((r < 8 ∧ j < 8) ↔
          ((4 * (2 / 2) ≤ r ∧ r < 4 * (2 / 2) + 4 ∧
              4 * (2 &&& 1) ≤ j ∧ j < 4 * (2 &&& 1) + 4) ∨
            (4 * (2 / 2) ≤ r ∧ r < 4 * (2 / 2) + 4 ∧
              4 * (1 - (2 &&& 1)) ≤ j ∧ j < 4 * (1 - (2 &&& 1)) + 4) ∨
            (4 * (1 - 2 / 2) ≤ r ∧ r < 4 * (1 - 2 / 2) + 4 ∧ j < 8))) ∧
        ¬ ((4 * (2 / 2) ≤ r ∧ r < 4 * (2 / 2) + 4 ∧
              4 * (2 &&& 1) ≤ j ∧ j < 4 * (2 &&& 1) + 4) ∧
            (4 * (2 / 2) ≤ r ∧ r < 4 * (2 / 2) + 4 ∧
              4 * (1 - (2 &&& 1)) ≤ j ∧ j < 4 * (1 - (2 &&& 1)) + 4)) ∧
        ¬ ((4 * (2 / 2) ≤ r ∧ r < 4 * (2 / 2) + 4 ∧
              4 * (2 &&& 1) ≤ j ∧ j < 4 * (2 &&& 1) + 4) ∧
            (4 * (1 - 2 / 2) ≤ r ∧ r < 4 * (1 - 2 / 2) + 4 ∧ j < 8)) ∧
        ¬ ((4 * (2 / 2) ≤ r ∧ r < 4 * (2 / 2) + 4 ∧
              4 * (1 - (2 &&& 1)) ≤ j ∧ j < 4 * (1 - (2 &&& 1)) + 4) ∧
            (4 * (1 - 2 / 2) ≤ r ∧ r < 4 * (1 - 2 / 2) + 4 ∧ j < 8))) :=
  C16_afv_sub_transforms constExternals rampTile zeroBuf 8 (by decide) 2
    AcStrategyType.AFV2 (by decide)

/-- C17: for strategies IDENTITY and DCT2X2, any `pixels_stride >= 8` and any initial
pixel buffer, the buffer after `TransformToPixels` equals the initial buffer with exactly
the 64 positions `y * pixels_stride + x` (`y, x < 8`) replaced by values that depend only
on the coefficients: every position outside that 8x8 extent is unchanged, the written values
are the same for any other prior contents of the buffer (and any other choice of the
external collaborators), and repeating the call on its own output changes nothing. -/
theorem C17_frame_effect (E E' : Externals) (strategy : AcStrategyType)
    (hkind : strategy = AcStrategyType.IDENTITY ∨ strategy = AcStrategyType.DCT2X2)
    (c pixels pixels' : Buf) (s : Nat) (hs : 8 ≤ s) :
    ∃ out : Buf, TransformToPixels E strategy c pixels s = some out ∧
      (∀ j : Nat, (∀ r k : Nat, r < 8 → k < 8 → j ≠ r * s + k) → out j = pixels j) ∧
      (∃ out' : Buf, TransformToPixels E' strategy c pixels' s = some out' ∧
        ∀ r k : Nat, r < 8 → k < 8 → out' (r * s + k) = out (r * s + k)) ∧
      TransformToPixels E strategy c out s = some out := by
  have key : ∀ (f : Buf → Buf) (g : Nat → Nat → ℚ),
      (∀ p j, (∀ r k : Nat, r < 8 → k < 8 → j ≠ r * s + k) → f p j = p j) →
      (∀ p r k, r < 8 → k < 8 → f p (r * s + k) = g r k) →
      (∀ j : Nat, (∀ r k : Nat, r < 8 → k < 8 → j ≠ r * s + k) → f pixels j = pixels j) ∧
      (∃ out' : Buf, some (f pixels') = some out' ∧
        ∀ r k : Nat, r < 8 → k < 8 → out' (r * s + k) = f pixels (r * s + k)) ∧
      some (f (f pixels)) = some (f pixels) := by
    intro f g hout hin
    refine ⟨fun j hj => hout pixels j hj, ⟨_, rfl, fun r k hr hk => ?_⟩, ?_⟩
    · rw [hin pixels' r k hr hk, hin pixels r k hr hk]
    · congr 1
      refine Buf.ext (fun j => ?_)
      by_cases hj : ∃ r k : Nat, r < 8 ∧ k < 8 ∧ j = r * s + k
      · obtain ⟨r, k, hr, hk, rfl⟩ := hj
        rw [hin (f pixels) r k hr hk, hin pixels r k hr hk]
      · exact hout (f pixels) j (fun r k hr hk h => hj ⟨r, k, hr, hk, h⟩)
  rcases hkind with h | h <;> subst h
  · have hin : ∀ (p : Buf) (r k : Nat), r < 8 → k < 8 →
        TransformToPixels.caseIDENTITY c p s (r * s + k) =
          identitySample c (r / 4) (k / 4) (r % 4) (k % 4) := by
      intro p r k hr hk
      have e : r * s + k = (r / 4 * 4 + r % 4) * s + k / 4 * 4 + k % 4 := by
        have h1 : r = r / 4 * 4 + r % 4 := by omega
        have h2 : k = k / 4 * 4 + k % 4 := by omega
        rw [Nat.add_assoc, ← h1, ← h2]
      rw [e]
      exact caseIDENTITY_inside c p s hs _ _ _ _ (by omega) (by omega) (by omega) (by omega)
    exact ⟨_, rfl, key (fun p => TransformToPixels.caseIDENTITY c p s) _
      (fun p j hj => caseIDENTITY_outside c p s j hj) hin⟩
  · exact ⟨_, rfl, key (fun p => TransformToPixels.caseDCT2X2 c p s)
      (fun r k => TransformToPixels.coeffs3 c (r * 8 + k))
      (fun p j hj => caseDCT2X2_outside c p s j hj)
      (fun p r k hr hk => caseDCT2X2_inside c p s hs r k hr hk)⟩

/-- C17 at a concrete input: DCT2X2 on the ramp tile at pitch 9, over the zero buffer and
over the ramp buffer. -/
theorem C17_frame_effect_witness :
    ∃ out : Buf, TransformToPixels constExternals AcStrategyType.DCT2X2 rampTile zeroBuf 9 = some out ∧
      (∀ j : Nat, (∀ r k : Nat, r < 8 → k < 8 → j ≠ r * 9 + k) → out j = zeroBuf j) ∧
      (∃ out' : Buf, TransformToPixels constExternals AcStrategyType.DCT2X2 rampTile rampTile 9 = some out' ∧
        ∀ r k : Nat, r < 8 → k < 8 → out' (r * 9 + k) = out (r * 9 + k)) ∧
      TransformToPixels constExternals AcStrategyType.DCT2X2 rampTile out 9 = some out :=
  C17_frame_effect constExternals constExternals AcStrategyType.DCT2X2 (Or.inr rfl)
    rampTile zeroBuf rampTile 9 (by decide)

/-- C18: `AFVIDCT4x4` is independent of execution width: for every lane count `L` in
1, 2, 4, 8, 16 and every 16-entry coefficient vector, the loop that processes `L` output
lanes at a time produces `pixels[i] = sum over j < 16 of coeffs[j] * k4x4AFVBasis[j][i]`
for every `i < 16` (over exact arithmetic), identical to the scalar `L = 1` computation, and
writes each of the 16 outputs exactly once: the offsets it stores to, in program order, are
0, 1, .., 15. -/
theorem C18_afv_lane_independence (L : Nat)
    (hL : L = 1 ∨ L = 2 ∨ L = 4 ∨ L = 8 ∨ L = 16) (coeffs pixels : Buf) :
    (∀ i : Nat, i < 16 →
      AFVIDCT4x4 L coeffs pixels i = ∑ j in Finset.range 16, coeffs j * k4x4AFVBasis j i) ∧
    AFVIDCT4x4 L coeffs pixels = AFVIDCT4x4 1 coeffs pixels ∧
    AFVIDCT4x4 L coeffs pixels = AFVIDCT4x4.loopWith store L coeffs 16 0 pixels ∧
    AFVIDCT4x4.stores L coeffs = List.range 16 := by
  have hpos : 0 < L := by omega
  have hstep : ∀ i, i % L = 0 → i < 16 → i + L ≤ 16 := by
    intro i hi hlt
    rcases hL with h | h | h | h | h <;> subst h <;> omega
  have hval : ∀ (lanes : Nat), 0 < lanes → (∀ i, i % lanes = 0 → i < 16 → i + lanes ≤ 16) →
      ∀ m, AFVIDCT4x4 lanes coeffs pixels m =
        if m < 16 then ∑ j in Finset.range 16, coeffs j * k4x4AFVBasis j m else pixels m := by
    intro lanes hl hs m
    by_cases hm : m < 16
    · rw [if_pos hm]
      exact AFVIDCT4x4_apply lanes hl coeffs pixels m hm
    · rw [if_neg hm]
      exact AFVIDCT4x4_loop_above lanes hs coeffs 16 0 pixels (Nat.zero_mod _) m (by omega)
  refine ⟨fun i hi => AFVIDCT4x4_apply L hpos coeffs pixels i hi, ?_, ?_, ?_⟩
  · refine Buf.ext (fun m => ?_)
    rw [hval L hpos hstep m, hval 1 (by decide) (fun i _ hlt => by omega) m]
  · exact AFVIDCT4x4_loop_eq_loopWith L coeffs 16 0 pixels
  · rcases hL with h | h | h | h | h <;> subst h <;>
      simp [AFVIDCT4x4.stores, AFVIDCT4x4.loopWith, forLoop, List.range_succ]

/-- C18 at a concrete input: four lanes on the ramp vector. -/
theorem C18_afv_lane_independence_witness :
    (∀ i : Nat, i < 16 →
      AFVIDCT4x4 4 rampTile zeroBuf i = ∑ j in Finset.range 16, rampTile j * k4x4AFVBasis j i) ∧
    AFVIDCT4x4 4 rampTile zeroBuf = AFVIDCT4x4 1 rampTile zeroBuf ∧
    AFVIDCT4x4 4 rampTile zeroBuf = AFVIDCT4x4.loopWith store 4 rampTile 16 0 zeroBuf ∧
    AFVIDCT4x4.stores 4 rampTile = List.range 16 :=
  C18_afv_lane_independence 4 (by decide) rampTile zeroBuf

/-- C19: the palette transform is reversible.  When `FwdPalette(image, begin_c, end_c,
nb_colors, ordered)` succeeds, for either value of `ordered`, the following
`InvPalette(image, begin_c, nb_colors, 0, Predictor::Zero)` succeeds and restores the number
of channels, `nb_channels`, `nb_meta_channels`, the size of every channel and every sample of
the channels `begin_c .. end_c`; the channels outside `begin_c .. end_c` are the same after
`FwdPalette` (one place further, behind the palette, or `end_c - begin_c` places nearer) and
after `InvPalette`.  The parameters are `uint32_t`, the limit `nb_colors` or the number of
different colours fits an `int`, the number of channels fits an `int`, the two counters are
`size_t` and `nb_meta_channels` can be incremented, and for a single channel
`compute_minmax` bounds its samples within a range that fits an `int`. -/
theorem C19_palette_round_trip (X : ImageExternals) (input : Image)
    (begin_c end_c nb_colors : Nat) (ordered : Bool) (out : Image) (nb' : Nat)
    (hb : begin_c < 2 ^ 32) (he : end_c < 2 ^ 32)
    (hcol : nb_colors < 2 ^ 31 ∨
      (distinctColors input.channel begin_c (end_c - begin_c + 1)
        (chan input.channel begin_c).w (chan input.channel begin_c).h).card < 2 ^ 31)
    (hlen : input.channel.length < 2 ^ 31)
    (hch : input.nb_channels < 2 ^ 64) (hmeta : input.nb_meta_channels + 1 < 2 ^ 64)
    (hmm : begin_c = end_c → MinMaxContract X (chan input.channel begin_c))
    (hok : FwdPalette X input begin_c end_c nb_colors ordered = some (Status.ok, out, nb')) :
    (InvPalette X out begin_c nb' 0 Predictor.Zero).1 = Status.ok ∧
    (InvPalette X out begin_c nb' 0 Predictor.Zero).2.channel.length = input.channel.length ∧
    (InvPalette X out begin_c nb' 0 Predictor.Zero).2.nb_channels = input.nb_channels ∧
    (InvPalette X out begin_c nb' 0 Predictor.Zero).2.nb_meta_channels =
      input.nb_meta_channels ∧
    (∀ c, c < input.channel.length →
      (chan (InvPalette X out begin_c nb' 0 Predictor.Zero).2.channel c).w =
        (chan input.channel c).w ∧
      (chan (InvPalette X out begin_c nb' 0 Predictor.Zero).2.channel c).h =
        (chan input.channel c).h ∧
      ∀ y x, y < (chan input.channel c).h → x < (chan input.channel c).w →
        (chan (InvPalette X out begin_c nb' 0 Predictor.Zero).2.channel c).plane y x =
          (chan input.channel c).plane y x) ∧
    (∀ c, c < begin_c ∨ end_c < c →
      chan (InvPalette X out begin_c nb' 0 Predictor.Zero).2.channel c =
        chan input.channel c) ∧
    (∀ c, c < begin_c → chan out.channel (c + 1) = chan input.channel c) ∧
    (∀ c, end_c < c → chan out.channel (c - (end_c - begin_c) + 1) = chan input.channel c) := by
  obtain ⟨hcheck, hsizes, hret, L, hLs, heq⟩ := FwdPalette_ok hok
  obtain ⟨hbe, helen, he31⟩ := CheckPaletteParams_ok hb he hcheck
  have hnb : asUInt32 (end_c + 2 ^ 32 - begin_c + 1) = end_c - begin_c + 1 := by
    unfold asUInt32; omega
  rw [hnb] at hret heq hLs
  have hL : begin_c = end_c → L = asSizeT ((X.compute_minmax (chan input.channel begin_c)).2 -
      (X.compute_minmax (chan input.channel begin_c)).1 + 1) := by
    intro hbe1
    rw [show end_c - begin_c + 1 = 1 by omega] at hLs
    exact (lookupSize_eq_some hLs).1
  have hout : out = (FwdPalette.build X input begin_c end_c (end_c - begin_c + 1) ordered
      (FwdPalette.scan input.channel begin_c (end_c - begin_c + 1) nb_colors
        (chan input.channel begin_c).w (chan input.channel begin_c).h) L).1 :=
    congrArg Prod.fst heq
  have hnb' : nb' = (FwdPalette.build X input begin_c end_c (end_c - begin_c + 1) ordered
      (FwdPalette.scan input.channel begin_c (end_c - begin_c + 1) nb_colors
        (chan input.channel begin_c).w (chan input.channel begin_c).h) L).2 :=
    congrArg Prod.snd heq
  rw [hout, hnb']
  obtain ⟨hn, hn31, hall, hfrom⟩ := scan_colors hcol hret ordered _ rfl
  obtain ⟨f1, f2, f3, f4, f5, f6, f7, f8, f9, f10, f11⟩ :=
    build_spec_of_colors (X := X) ordered hbe helen _ _ rfl hn hn31 hall hfrom
      (fun h1 => hmm h1) L hL _ rfl
  obtain ⟨i1, i2, i3, i4, i5, i6, i7⟩ := InvPalette_spec X
    (FwdPalette.build X input begin_c end_c (end_c - begin_c + 1) ordered
      (FwdPalette.scan input.channel begin_c (end_c - begin_c + 1) nb_colors
        (chan input.channel begin_c).w (chan input.channel begin_c).h) L).1
    begin_c
    (FwdPalette.build X input begin_c end_c (end_c - begin_c + 1) ordered
      (FwdPalette.scan input.channel begin_c (end_c - begin_c + 1) nb_colors
        (chan input.channel begin_c).w (chan input.channel begin_c).h) L).2
    (end_c - begin_c + 1)
    (chan input.channel begin_c).w (chan input.channel begin_c).h
    (by rw [f11]; omega) f4 (Nat.succ_pos _) (by omega) (by omega) (by rw [f1]; omega) f7 f8
    (by rw [f2]; omega)
    (fun y x hy hx => by
      obtain ⟨k, hk, hke, _⟩ := f9 y x hy hx
      exact ⟨k, by rw [f2]; exact hk, hke⟩)
    _ rfl
  have hsz := sizesAgree_spec hsizes
  refine ⟨i1, ?_, ?_, ?_, fun c hc => ?_, fun c hc => ?_, f5, f6⟩
  · rw [i2, f1]; omega
  · rw [i6, f10]
    have hlt : end_c - begin_c < 2 ^ 32 := by omega
    unfold asUInt32
    omega
  · rw [i7, f11]; omega
  · by_cases h1 : c < begin_c
    · rw [i3 c h1, f5 c h1]
      exact ⟨rfl, rfl, fun _ _ _ _ => rfl⟩
    · by_cases h2 : end_c < c
      · rw [i4 c (by omega), show c + 2 - (end_c - begin_c + 1) = c - (end_c - begin_c) + 1 by
          omega, f6 c h2]
        exact ⟨rfl, rfl, fun _ _ _ _ => rfl⟩
      · obtain ⟨j1, j2, j3⟩ := i5 (c - begin_c) (by omega)
        rw [show begin_c + (c - begin_c) = c by omega] at j1 j2 j3
        have hcw : (chan input.channel c).w = (chan input.channel begin_c).w ∧
            (chan input.channel c).h = (chan input.channel begin_c).h := by
          by_cases hcb : c = begin_c
          · rw [hcb]; exact ⟨rfl, rfl⟩
          · exact hsz c (by omega) (by omega)
        refine ⟨j1.trans hcw.1.symm, j2.trans hcw.2.symm, fun y x hy hx => ?_⟩
        rw [hcw.2] at hy
        rw [hcw.1] at hx
        obtain ⟨k, hk, hke, hkp⟩ := f9 y x hy hx
        rw [j3 y x hy hx, hke, Int.toNat_natCast, hkp (c - begin_c) (by omega),
          show begin_c + (c - begin_c) = c by omega]
  · rcases hc with h1 | h2
    · rw [i3 c h1, f5 c h1]
    · rw [i4 c (by omega), show c + 2 - (end_c - begin_c + 1) = c - (end_c - begin_c) + 1 by
        omega, f6 c h2]

/-- C19 at a concrete input: a single channel of two samples, 5 and 3, with the palette in
lexicographic order. -/
theorem C19_palette_round_trip_witness :
    ∃ (out : Image) (nb' : Nat),
      FwdPalette paletteExternals grayImage 0 0 4 true = some (Status.ok, out, nb') ∧
      (InvPalette paletteExternals out 0 nb' 0 Predictor.Zero).1 = Status.ok ∧
      (InvPalette paletteExternals out 0 nb' 0 Predictor.Zero).2.channel.length =
        grayImage.channel.length ∧
      (InvPalette paletteExternals out 0 nb' 0 Predictor.Zero).2.nb_channels =
        grayImage.nb_channels ∧
      (InvPalette paletteExternals out 0 nb' 0 Predictor.Zero).2.nb_meta_channels =
        grayImage.nb_meta_channels ∧
      (∀ c, c < grayImage.channel.length →
        (chan (InvPalette paletteExternals out 0 nb' 0 Predictor.Zero).2.channel c).w =
          (chan grayImage.channel c).w ∧
        (chan (InvPalette paletteExternals out 0 nb' 0 Predictor.Zero).2.channel c).h =
          (chan grayImage.channel c).h ∧
        ∀ y x, y < (chan grayImage.channel c).h → x < (chan grayImage.channel c).w →
          (chan (InvPalette paletteExternals out 0 nb' 0 Predictor.Zero).2.channel c).plane
            y x = (chan grayImage.channel c).plane y x) ∧
      (∀ c, c < 0 ∨ 0 < c →
        chan (InvPalette paletteExternals out 0 nb' 0 Predictor.Zero).2.channel c =
          chan grayImage.channel c) ∧
      (∀ c, c < 0 → chan out.channel (c + 1) = chan grayImage.channel c) ∧
      (∀ c, 0 < c → chan out.channel (c - (0 - 0) + 1) = chan grayImage.channel c) := by
  have hok := @FwdPalette_of_checks paletteExternals grayImage 0 0 4 true (by decide)
    (by decide) (by decide)
  rw [show FwdPalette.lookupSize (asUInt32 (0 + 2 ^ 32 - 0 + 1))
    (paletteExternals.compute_minmax (chan grayImage.channel 0)).1
    (paletteExternals.compute_minmax (chan grayImage.channel 0)).2 = some 3 by decide] at hok
  exact ⟨_, _, hok, C19_palette_round_trip paletteExternals grayImage 0 0 4 true _ _
    (by decide) (by decide) (Or.inl (by decide)) (by decide) (by decide) (by decide)
    (fun _ => ⟨fun y x _ _ => by
      show (3 : Int) ≤ (if x = 0 then 5 else 3) ∧ (if x = 0 then (5 : Int) else 3) ≤ 5
      split_ifs <;> decide, by decide⟩) hok⟩

/-- C20: for the single-cell kinds IDENTITY and DCT2X2 the two algorithms agree at DC
resolution exactly: over exact arithmetic, for every coefficient tile `c`, the average of
the 64 pixels produced by `TransformToPixels` equals `c[0]`, which is the value
`DCFromLowestFrequencies` returns; for IDENTITY moreover the average of each 4x4 quadrant
`(y, x)` equals the Hadamard-derived value `dcs[2y+x]`.  The pitch of the pixel block is at
least its width 8. -/
theorem C20_dc_resolution (E : Externals) (strategy : AcStrategyType)
    (hkind : strategy = AcStrategyType.IDENTITY ∨ strategy = AcStrategyType.DCT2X2)
    (c pixels dc : Buf) (s dc_stride : Nat) (hs : 8 ≤ s) :
    ∃ out outdc : Buf, TransformToPixels E strategy c pixels s = some out ∧
      DCFromLowestFrequencies E strategy c dc dc_stride = some outdc ∧
      (∑ r in Finset.range 8, ∑ k in Finset.range 8, out (r * s + k)) / 64 = c 0 ∧
      outdc 0 = c 0 ∧
      (strategy = AcStrategyType.IDENTITY → ∀ y x : Nat, y < 2 → x < 2 →
        (∑ iy in Finset.range 4, ∑ ix in Finset.range 4,
          out ((4 * y + iy) * s + (4 * x + ix))) / 16 =
          (if 2 * y + x = 0 then c 0 + c 1 + c 8 + c 9
            else if 2 * y + x = 1 then c 0 + c 1 - c 8 - c 9
            else if 2 * y + x = 2 then c 0 - c 1 + c 8 - c 9
            else c 0 - c 1 - c 8 + c 9)) := by
  rcases hkind with h | h <;> subst h
  · have hquad : ∀ y x : Nat, y < 2 → x < 2 →
        ∑ iy in Finset.range 4, ∑ ix in Finset.range 4,
          TransformToPixels.caseIDENTITY c pixels s ((y * 4 + iy) * s + (x * 4 + ix)) =
        16 * TransformToPixels.dcs4 c (y * 2 + x) := by
      intro y x hy hx
      rw [← identitySample_quadrant_sum]
      refine Finset.sum_congr rfl (fun iy hiy => Finset.sum_congr rfl (fun ix hix => ?_))
      rw [← Nat.add_assoc]
      exact caseIDENTITY_inside c pixels s hs y x iy ix hy hx (Finset.mem_range.mp hiy)
        (Finset.mem_range.mp hix)
    refine ⟨_, _, rfl, rfl, ?_, store_same _ _ _, fun _ y x hy hx => ?_⟩
    · rw [sum8x8_quadrants (fun r k => TransformToPixels.caseIDENTITY c pixels s (r * s + k))]
      have h4 : ∑ y in Finset.range 2, ∑ x in Finset.range 2,
          ∑ iy in Finset.range 4, ∑ ix in Finset.range 4,
            TransformToPixels.caseIDENTITY c pixels s ((y * 4 + iy) * s + (x * 4 + ix)) =
          ∑ y in Finset.range 2, ∑ x in Finset.range 2,
            16 * TransformToPixels.dcs4 c (y * 2 + x) :=
        Finset.sum_congr rfl (fun y hy => Finset.sum_congr rfl (fun x hx =>
          hquad y x (Finset.mem_range.mp hy) (Finset.mem_range.mp hx)))
      rw [h4]
      simp only [← Finset.mul_sum]
      rw [dcs4_sum]
      ring
    · have e : ∑ iy in Finset.range 4, ∑ ix in Finset.range 4,
          TransformToPixels.caseIDENTITY c pixels s ((4 * y + iy) * s + (4 * x + ix)) =
          ∑ iy in Finset.range 4, ∑ ix in Finset.range 4,
            TransformToPixels.caseIDENTITY c pixels s ((y * 4 + iy) * s + (x * 4 + ix)) := by
        rw [Nat.mul_comm 4 y, Nat.mul_comm 4 x]
      rw [e, hquad y x hy hx]
      have hD : TransformToPixels.dcs4 c (y * 2 + x) =
          (if 2 * y + x = 0 then c 0 + c 1 + c 8 + c 9
            else if 2 * y + x = 1 then c 0 + c 1 - c 8 - c 9
            else if 2 * y + x = 2 then c 0 - c 1 + c 8 - c 9
            else c 0 - c 1 - c 8 + c 9) := by
        interval_cases y <;> interval_cases x <;> simp [TransformToPixels.dcs4, store]
      rw [hD]
      ring
  · refine ⟨_, _, rfl, rfl, ?_, store_same _ _ _, fun h => absurd h (by decide)⟩
    have h8 : ∑ r in Finset.range 8, ∑ k in Finset.range 8,
        TransformToPixels.caseDCT2X2 c pixels s (r * s + k) =
        ∑ r in Finset.range 8, ∑ k in Finset.range 8,
          butterflyPass 8 (butterflyPass 4 (butterflyPass 2 c)) (r * 8 + k) := by
      refine Finset.sum_congr rfl (fun r hr => Finset.sum_congr rfl (fun k hk => ?_))
      have hr' := Finset.mem_range.mp hr
      have hk' := Finset.mem_range.mp hk
      rw [caseDCT2X2_inside c pixels s hs r k hr' hk', coeffs3_apply c _ (by omega)]
    rw [h8, butterflyPass8_sum, butterflyPass4_sum, butterflyPass2_sum]
    ring

/-- C20 at a concrete input: IDENTITY on the ramp tile at pitch 8. -/
theorem C20_dc_resolution_witness :
    ∃ out outdc : Buf, TransformToPixels constExternals AcStrategyType.IDENTITY rampTile zeroBuf 8 = some out ∧
      DCFromLowestFrequencies constExternals AcStrategyType.IDENTITY rampTile zeroBuf 1 = some outdc ∧
      (∑ r in Finset.range 8, ∑ k in Finset.range 8, out (r * 8 + k)) / 64 = rampTile 0 ∧
      outdc 0 = rampTile 0 ∧
      (AcStrategyType.IDENTITY = AcStrategyType.IDENTITY → ∀ y x : Nat, y < 2 → x < 2 →
        (∑ iy in Finset.range 4, ∑ ix in Finset.range 4,
          out ((4 * y + iy) * 8 + (4 * x + ix))) / 16 =
          (if 2 * y + x = 0 then rampTile 0 + rampTile 1 + rampTile 8 + rampTile 9
            else if 2 * y + x = 1 then rampTile 0 + rampTile 1 - rampTile 8 - rampTile 9
            else if 2 * y + x = 2 then rampTile 0 - rampTile 1 + rampTile 8 - rampTile 9
            else rampTile 0 - rampTile 1 - rampTile 8 + rampTile 9)) :=
  C20_dc_resolution constExternals AcStrategyType.IDENTITY (Or.inl rfl) rampTile zeroBuf
    zeroBuf 8 1 (by decide)

/-- C21: for every multi-cell kind, with reduced shape `ROWS x COLS`, the output of
`DCFromLowestFrequencies` depends only on the low-frequency corner of the tile: two tiles
that agree at the offsets `y * input_stride + x` for `y < min ROWS COLS` and
`x < max ROWS COLS`, with `input_stride = 8 * max ROWS COLS`, give the same output,
whatever their other coefficients. -/
theorem C21_low_frequency_corner (E : Externals) (strategy : AcStrategyType)
    (DCT_ROWS DCT_COLS : Nat)
    (h : (strategy, DCT_ROWS, DCT_COLS) ∈
      [(AcStrategyType.DCT16X8, 16, 8), (AcStrategyType.DCT8X16, 8, 16),
       (AcStrategyType.DCT16X16, 16, 16), (AcStrategyType.DCT32X8, 32, 8),
       (AcStrategyType.DCT8X32, 8, 32), (AcStrategyType.DCT32X16, 32, 16),
       (AcStrategyType.DCT16X32, 16, 32), (AcStrategyType.DCT32X32, 32, 32)])
    (block block' dc : Buf) (dc_stride : Nat)
    (hagree : ∀ y x, y < min (DCT_ROWS / 8) (DCT_COLS / 8) →
      x < max (DCT_ROWS / 8) (DCT_COLS / 8) →
      block (y * (8 * max (DCT_ROWS / 8) (DCT_COLS / 8)) + x) =
        block' (y * (8 * max (DCT_ROWS / 8) (DCT_COLS / 8)) + x)) :
    ∃ out : Buf, DCFromLowestFrequencies E strategy block dc dc_stride = some out ∧
      DCFromLowestFrequencies E strategy block' dc dc_stride = some out := by
  refine ⟨_, DCFromLowestFrequencies_multi E strategy DCT_ROWS DCT_COLS h block dc dc_stride, ?_⟩
  rw [DCFromLowestFrequencies_multi E strategy DCT_ROWS DCT_COLS h block' dc dc_stride]
  unfold ReinterpretingIDCT ReinterpretingIDCT.transformed
  rw [scratch_congr E DCT_ROWS DCT_COLS (DCT_ROWS / 8) (DCT_COLS / 8) block block' _ hagree]

/-- C21 at a concrete input: DCT16X8 on the ramp tile and on a tile that keeps its first two
coefficients only. -/
theorem C21_low_frequency_corner_witness :
    ∃ out : Buf,
      DCFromLowestFrequencies constExternals AcStrategyType.DCT16X8 rampTile zeroBuf 1 =
        some out ∧
      DCFromLowestFrequencies constExternals AcStrategyType.DCT16X8 rampCorner zeroBuf 1 =
        some out :=
  C21_low_frequency_corner constExternals AcStrategyType.DCT16X8 16 8 (by decide)
    rampTile rampCorner zeroBuf 1 (fun y x hy hx => by
      have hy0 : y = 0 := by omega
      have hx2 : x < 2 := by omega
      subst hy0
      simp [rampTile, rampCorner, hx2])

/-- C22: a rectangular kind and its transpose sample the tile alike.  For each of the pairs
(DCT16X8, DCT8X16), (DCT32X8, DCT8X32), (DCT32X16, DCT16X32), of reduced shapes `R x C` and
`C x R`, and every tile, the two kinds build the same scratch buffer; their outputs are the
reduced inverse transforms for `R x C` and for `C x R` of the same window on it, stored as
`R x C` and as `C x R` samples. -/
theorem C22_transposed_kinds (E : Externals) (A B : AcStrategyType) (R C : Nat)
    (h : (A, B, R, C) ∈
      [(AcStrategyType.DCT16X8, AcStrategyType.DCT8X16, 2, 1),
       (AcStrategyType.DCT32X8, AcStrategyType.DCT8X32, 4, 1),
       (AcStrategyType.DCT32X16, AcStrategyType.DCT16X32, 4, 2)])
    (block dc : Buf) (dc_stride : Nat) :
    ReinterpretingIDCT.scratch E (8 * R) (8 * C) R C R C block (8 * R) =
      ReinterpretingIDCT.scratch E (8 * C) (8 * R) C R C R block (8 * R) ∧
    ∃ outA outB : Buf,
      DCFromLowestFrequencies E A block dc dc_stride = some outA ∧
      DCFromLowestFrequencies E B block dc dc_stride = some outB ∧
      (C ≤ dc_stride → ∀ y x, y < R → x < C →
        outA (y * dc_stride + x) =
          E.ComputeScaledIDCT R C
            (FromBlock C R
              (ReinterpretingIDCT.scratch E (8 * R) (8 * C) R C R C block (8 * R))) y x) ∧
      (R ≤ dc_stride → ∀ y x, y < C → x < R →
        outB (y * dc_stride + x) =
          E.ComputeScaledIDCT C R
            (FromBlock C R
              (ReinterpretingIDCT.scratch E (8 * R) (8 * C) R C R C block (8 * R))) y x) := by
  have key : ∀ R C : Nat, C < R →
      ReinterpretingIDCT.scratch E (8 * R) (8 * C) R C R C block (8 * R) =
        ReinterpretingIDCT.scratch E (8 * C) (8 * R) C R C R block (8 * R) ∧
      (C ≤ dc_stride → ∀ y x, y < R → x < C →
        ReinterpretingIDCT E (8 * R) (8 * C) R C R C block (8 * R) dc dc_stride
            (y * dc_stride + x) =
          E.ComputeScaledIDCT R C
            (FromBlock C R
              (ReinterpretingIDCT.scratch E (8 * R) (8 * C) R C R C block (8 * R))) y x) ∧
      (R ≤ dc_stride → ∀ y x, y < C → x < R →
        ReinterpretingIDCT E (8 * C) (8 * R) C R C R block (8 * R) dc dc_stride
            (y * dc_stride + x) =
          E.ComputeScaledIDCT C R
            (FromBlock C R
              (ReinterpretingIDCT.scratch E (8 * R) (8 * C) R C R C block (8 * R))) y x) := by
    intro R C hlt
    have hsc := scratch_transpose E (8 * R) (8 * C) R C hlt block (8 * R)
    refine ⟨hsc, fun hs y x hy hx => ?_, fun hs y x hy hx => ?_⟩
    · rw [ReinterpretingIDCT_rect E (8 * R) (8 * C) R C (by omega) block (8 * R) dc dc_stride
        hs y x hy hx, Nat.min_eq_right (Nat.le_of_lt hlt), Nat.max_eq_left (Nat.le_of_lt hlt)]
    · rw [ReinterpretingIDCT_rect E (8 * C) (8 * R) C R (by omega) block (8 * R) dc dc_stride
        hs y x hy hx, Nat.min_eq_left (Nat.le_of_lt hlt), Nat.max_eq_right (Nat.le_of_lt hlt),
        hsc]
  simp only [List.mem_cons, Prod.mk.injEq, List.mem_singleton, List.not_mem_nil, or_false] at h
  rcases h with ⟨rfl, rfl, rfl, rfl⟩ | ⟨rfl, rfl, rfl, rfl⟩ | ⟨rfl, rfl, rfl, rfl⟩
  · obtain ⟨k1, k2, k3⟩ := key 2 1 (by decide)
    exact ⟨k1, _, _, rfl, rfl, k2, k3⟩
  · obtain ⟨k1, k2, k3⟩ := key 4 1 (by decide)
    exact ⟨k1, _, _, rfl, rfl, k2, k3⟩
  · obtain ⟨k1, k2, k3⟩ := key 4 2 (by decide)
    exact ⟨k1, _, _, rfl, rfl, k2, k3⟩

/-- C22 at a concrete input: DCT16X8 and DCT8X16 on the ramp tile. -/
theorem C22_transposed_kinds_witness :
    ReinterpretingIDCT.scratch constExternals (8 * 2) (8 * 1) 2 1 2 1 rampTile (8 * 2) =
      ReinterpretingIDCT.scratch constExternals (8 * 1) (8 * 2) 1 2 1 2 rampTile (8 * 2) ∧
    ∃ outA outB : Buf,
      DCFromLowestFrequencies constExternals AcStrategyType.DCT16X8 rampTile zeroBuf 2 = some outA ∧
      DCFromLowestFrequencies constExternals AcStrategyType.DCT8X16 rampTile zeroBuf 2 = some outB ∧
      (1 ≤ 2 → ∀ y x, y < 2 → x < 1 →
        outA (y * 2 + x) =
          constExternals.ComputeScaledIDCT 2 1
            (FromBlock 1 2
              (ReinterpretingIDCT.scratch constExternals (8 * 2) (8 * 1) 2 1 2 1 rampTile (8 * 2))) y x) ∧
      (2 ≤ 2 → ∀ y x, y < 1 → x < 2 →
        outB (y * 2 + x) =
          constExternals.ComputeScaledIDCT 1 2
            (FromBlock 1 2
              (ReinterpretingIDCT.scratch constExternals (8 * 2) (8 * 1) 2 1 2 1 rampTile (8 * 2))) y x) :=
  C22_transposed_kinds constExternals AcStrategyType.DCT16X8 AcStrategyType.DCT8X16 2 1
    (by decide) rampTile zeroBuf 2

/-- C23: the derived sub-block DC values average, weighted by sub-block area, to coefficient
0 of the tile: `(dcs0 + dcs1 + dcs2 + dcs3) / 4 = c[0]` for IDENTITY and DCT4X4,
`(dcs0 + dcs1) / 2 = c[0]` for DCT4X8 and DCT8X4, and
`(1/4) * (0.25 * d0) + (1/4) * d1 + (1/2) * d2 = c[0]` for AFV0..AFV3, where `0.25 * d0` is
what `d0` contributes to every sample of the custom-basis 4x4 region.  The derived values
are the entries 0 of the sub-block buffers. -/
theorem C23_dc_weighted_average (E : Externals) (c : Buf) :
    (TransformToPixels.dcs4 c 0 + TransformToPixels.dcs4 c 1 + TransformToPixels.dcs4 c 2 +
      TransformToPixels.dcs4 c 3) / 4 = c 0 ∧
    (TransformToPixels.dcs2 c 0 + TransformToPixels.dcs2 c 1) / 2 = c 0 ∧
    (1 / 4) * (0.25 * AFVTransformToPixels.dcs c 0) + (1 / 4) * AFVTransformToPixels.dcs c 1 +
      (1 / 2) * AFVTransformToPixels.dcs c 2 = c 0 ∧
    (∀ m, m < 16 → AFVTransformToPixels.coeff c 0 * k4x4AFVBasis 0 m =
      0.25 * AFVTransformToPixels.dcs c 0) ∧
    (∀ y x, y < 2 → x < 2 →
      TransformToPixels.block4x4 (TransformToPixels.dcs4 c) c y x 0 =
        TransformToPixels.dcs4 c (y * 2 + x)) ∧
    (∀ s, s < 2 → TransformToPixels.block4x8 (TransformToPixels.dcs2 c) c s 0 =
      TransformToPixels.dcs2 c s) ∧
    AFVTransformToPixels.coeff c 0 = AFVTransformToPixels.dcs c 0 ∧
    AFVTransformToPixels.block2 E c 0 = AFVTransformToPixels.dcs c 1 ∧
    AFVTransformToPixels.block3 E c 0 = AFVTransformToPixels.dcs c 2 := by
  have d0 := dcs4_apply c 0 0 (by decide) (by decide)
  have d1 := dcs4_apply c 0 1 (by decide) (by decide)
  have d2 := dcs4_apply c 1 0 (by decide) (by decide)
  have d3 := dcs4_apply c 1 1 (by decide) (by decide)
  simp only [Nat.zero_mul, Nat.zero_add, Nat.one_mul, Nat.add_zero, if_true, one_ne_zero,
    if_false, Nat.reduceAdd] at d0 d1 d2 d3
  have a0 := AFV_coeff_apply c 0 0 (by decide) (by decide)
  have b2 := AFV_block2_apply E c 0 0 (by decide) (by decide)
  have b3 := AFV_block3_apply E c 0 0 (by decide) (by decide)
  simp only [Nat.zero_mul, Nat.zero_add, and_self, if_true] at a0 b2 b3
  refine ⟨?_, ?_, ?_, fun m hm => ?_, fun y x hy hx => ?_, fun s hs => ?_, ?_, ?_, ?_⟩
  · rw [d0, d1, d2, d3]; ring
  · rw [dcs2_zero, dcs2_one]; ring
  · rw [AFV_dcs_zero, AFV_dcs_one, AFV_dcs_two]; ring
  · rw [a0, AFV_dcs_zero, k4x4AFVBasis_row_zero m hm]; ring
  · have := block4x4_apply (TransformToPixels.dcs4 c) c y x 0 0 (by decide) (by decide)
    simpa using this
  · have := block4x8_apply (TransformToPixels.dcs2 c) c s 0 0 (by decide) (by decide)
    simpa using this
  · rw [a0, AFV_dcs_zero]
  · rw [b2, AFV_dcs_one]
  · rw [b3, AFV_dcs_two]

/-- C24: the coefficient gathers lose and duplicate nothing.  In DCT4X4 (slot `(iy, ix)` of
sub-block `(y, x)` takes tile offset `(y + iy * 2) * 8 + x + ix * 2`), in DCT4X8 and DCT8X4
(`(s + iy * 2) * 8 + ix`) and in AFV (`iy * 2 * 8 + ix * 2`, `iy * 2 * 8 + ix * 2 + 1` and
`(1 + iy * 2) * 8 + ix`) the tile offsets over all sub-blocks and slots are a permutation of
the 64 tile positions; the slots 0, which hold a derived DC instead, stand for the tile
positions that the DC butterfly reads, `{0, 1, 8, 9}`, `{0, 8}` and `{0, 1, 8}`; and every
slot of a sub-block buffer is assigned, once, before the buffer is transformed. -/
theorem C24_gathers_bijective (E : Externals) :
    -- DCT4X4
    (∀ (dcs c : Buf) (y x iy ix : Nat), iy < 4 → ix < 4 →
      TransformToPixels.block4x4 dcs c y x (iy * 4 + ix) =
        if ix = 0 ∧ iy = 0 then dcs (y * 2 + x) else c ((y + iy * 2) * 8 + x + ix * 2)) ∧
    List.Perm ((List.range 2).flatMap fun y => (List.range 2).flatMap fun x =>
      (List.range 4).flatMap fun iy => (List.range 4).map fun ix =>
        (y + iy * 2) * 8 + x + ix * 2) (List.range 64) ∧
    ((List.range 2).flatMap fun y => (List.range 2).map fun x =>
      (y + 0 * 2) * 8 + x + 0 * 2) = [0, 1, 8, 9] ∧
    ReadsExactly TransformToPixels.dcs4 [0, 1, 8, 9] ∧
    (∀ (dcs c : Buf) (y x : Nat),
      TransformToPixels.block4x4 dcs c y x =
        gatherWith store 4 4 (fun iy ix => c ((y + iy * 2) * 8 + x + ix * 2))
          (dcs (y * 2 + x)) Buf.zero ∧
      gatherStores 4 4 (fun iy ix => c ((y + iy * 2) * 8 + x + ix * 2)) (dcs (y * 2 + x)) =
        List.range (4 * 4)) ∧
    -- DCT4X8 and DCT8X4
    (∀ (dcs c : Buf) (s iy ix : Nat), iy < 4 → ix < 8 →
      TransformToPixels.block4x8 dcs c s (iy * 8 + ix) =
        if ix = 0 ∧ iy = 0 then dcs s else c ((s + iy * 2) * 8 + ix)) ∧
    List.Perm ((List.range 2).flatMap fun s => (List.range 4).flatMap fun iy =>
      (List.range 8).map fun ix => (s + iy * 2) * 8 + ix) (List.range 64) ∧
    ((List.range 2).map fun s => (s + 0 * 2) * 8 + 0) = [0, 8] ∧
    ReadsExactly TransformToPixels.dcs2 [0, 8] ∧
    (∀ (dcs c : Buf) (s : Nat),
      TransformToPixels.block4x8 dcs c s =
        gatherWith store 4 8 (fun iy ix => c ((s + iy * 2) * 8 + ix)) (dcs s) Buf.zero ∧
      gatherStores 4 8 (fun iy ix => c ((s + iy * 2) * 8 + ix)) (dcs s) = List.range (4 * 8)) ∧
    -- AFV0 .. AFV3
    (∀ (c : Buf) (iy ix : Nat), iy < 4 → ix < 4 →
      AFVTransformToPixels.coeff c (iy * 4 + ix) =
        if ix = 0 ∧ iy = 0 then AFVTransformToPixels.dcs c 0 else c (iy * 2 * 8 + ix * 2)) ∧
    (∀ (c : Buf) (iy ix : Nat), iy < 4 → ix < 4 →
      AFVTransformToPixels.block2 E c (iy * 4 + ix) =
        if ix = 0 ∧ iy = 0 then AFVTransformToPixels.dcs c 1
        else c (iy * 2 * 8 + ix * 2 + 1)) ∧
    (∀ (c : Buf) (iy ix : Nat), iy < 4 → ix < 8 →
      AFVTransformToPixels.block3 E c (iy * 8 + ix) =
        if ix = 0 ∧ iy = 0 then AFVTransformToPixels.dcs c 2 else c ((1 + iy * 2) * 8 + ix)) ∧
    List.Perm
      (((List.range 4).flatMap fun iy => (List.range 4).map fun ix => iy * 2 * 8 + ix * 2) ++
        ((List.range 4).flatMap fun iy => (List.range 4).map fun ix =>
          iy * 2 * 8 + ix * 2 + 1) ++
        ((List.range 4).flatMap fun iy => (List.range 8).map fun ix => (1 + iy * 2) * 8 + ix))
      (List.range 64) ∧
    [0 * 2 * 8 + 0 * 2, 0 * 2 * 8 + 0 * 2 + 1, (1 + 0 * 2) * 8 + 0] = [0, 1, 8] ∧
    ReadsExactly AFVTransformToPixels.dcs [0, 1, 8] ∧
    (∀ c : Buf,
      AFVTransformToPixels.coeff c =
        gatherWith store 4 4 (fun iy ix => c (iy * 2 * 8 + ix * 2))
          (AFVTransformToPixels.dcs c 0) Buf.zero ∧
      gatherStores 4 4 (fun iy ix => c (iy * 2 * 8 + ix * 2)) (AFVTransformToPixels.dcs c 0) =
        List.range (4 * 4) ∧
      AFVTransformToPixels.block2 E c =
        gatherWith store 4 4 (fun iy ix => c (iy * 2 * 8 + ix * 2 + 1))
          (AFVTransformToPixels.dcs c 1) (AFVTransformToPixels.block1 E c) ∧
      gatherStores 4 4 (fun iy ix => c (iy * 2 * 8 + ix * 2 + 1))
        (AFVTransformToPixels.dcs c 1) = List.range (4 * 4) ∧
      AFVTransformToPixels.block3 E c =
        gatherWith store 4 8 (fun iy ix => c ((1 + iy * 2) * 8 + ix))
          (AFVTransformToPixels.dcs c 2) (AFVTransformToPixels.block2 E c) ∧
      gatherStores 4 8 (fun iy ix => c ((1 + iy * 2) * 8 + ix))
        (AFVTransformToPixels.dcs c 2) = List.range (4 * 8)) := by
  refine ⟨fun dcs c y x iy ix hiy hix => block4x4_apply dcs c y x iy ix hiy hix, by decide,
    by decide, dcs4_readsExactly, fun dcs c y x => ⟨rfl, gatherStores_4x4 _ _⟩,
    fun dcs c s iy ix hiy hix => block4x8_apply dcs c s iy ix hiy hix, by decide, by decide,
    dcs2_readsExactly, fun dcs c s => ⟨rfl, gatherStores_4x8 _ _⟩,
    fun c iy ix hiy hix => ?_, fun c iy ix hiy hix => ?_, fun c iy ix hiy hix => ?_,
    by decide, by decide, AFV_dcs_readsExactly,
    fun c => ⟨rfl, gatherStores_4x4 _ _, rfl, gatherStores_4x4 _ _, rfl, gatherStores_4x8 _ _⟩⟩
  · rw [AFV_coeff_apply c iy ix hiy hix, AFV_dcs_zero]
  · rw [AFV_block2_apply E c iy ix hiy hix, AFV_dcs_one]
  · rw [AFV_block3_apply E c iy ix hiy hix, AFV_dcs_two]

/-- C25: the hierarchical reconstruction of DCT2X2 is a bijection on 8x8 tiles over exact
arithmetic.  Each pass `IDCT2TopBlock<S>`, for `S` = 2, 4, 8, run in place as in
`case Type::DCT2X2`, has a two-sided inverse on the 64 positions of the tile; two tiles with
the same pixel output are equal; and every 8x8 block of pixels is the output of a tile. -/
theorem C25_dct2x2_bijection (E : Externals) :
    (∀ S, S = 2 ∨ S = 4 ∨ S = 8 → ∀ (b : Buf) (i : Nat), i < 64 →
      butterflyPassInv S (IDCT2TopBlock S b kBlockDim b) i = b i ∧
      IDCT2TopBlock S (butterflyPassInv S b) kBlockDim (butterflyPassInv S b) i = b i) ∧
    (∀ (c c' p p' out out' : Buf) (s : Nat), 8 ≤ s →
      TransformToPixels E AcStrategyType.DCT2X2 c p s = some out →
      TransformToPixels E AcStrategyType.DCT2X2 c' p' s = some out' →
      (∀ y x, y < 8 → x < 8 → out (y * s + x) = out' (y * s + x)) →
      ∀ i, i < 64 → c i = c' i) ∧
    (∀ (target p : Buf) (s : Nat), 8 ≤ s →
      ∃ c out : Buf, TransformToPixels E AcStrategyType.DCT2X2 c p s = some out ∧
        ∀ y x, y < 8 → x < 8 → out (y * s + x) = target (y * 8 + x)) := by
  refine ⟨fun S hS b i hi => ⟨?_, ?_⟩, fun c c' p p' out out' s hs ho ho' heq i hi => ?_,
    fun target p s hs => ?_⟩
  · have hS2 : S % 2 = 0 := by rcases hS with rfl | rfl | rfl <;> rfl
    have hS8 : S ≤ 8 := by omega
    rw [Buf.ext (IDCT2TopBlock_eq_butterflyPass S hS2 hS8 b)]
    exact butterflyPassInv_left S hS b i hi
  · have hS2 : S % 2 = 0 := by rcases hS with rfl | rfl | rfl <;> rfl
    have hS8 : S ≤ 8 := by omega
    rw [IDCT2TopBlock_eq_butterflyPass S hS2 hS8]
    exact butterflyPassInv_right S hS b i hi
  · simp only [TransformToPixels, Option.some.injEq] at ho ho'
    subst ho ho'
    have hq : ∀ j, j < 64 → butterflyPass 8 (butterflyPass 4 (butterflyPass 2 c)) j =
        butterflyPass 8 (butterflyPass 4 (butterflyPass 2 c')) j := by
      intro j hj
      have := heq (j / 8) (j % 8) (by omega) (by omega)
      rw [caseDCT2X2_inside c p s hs _ _ (by omega) (by omega),
        caseDCT2X2_inside c' p' s hs _ _ (by omega) (by omega),
        show j / 8 * 8 + j % 8 = j by omega, coeffs3_apply c j hj, coeffs3_apply c' j hj] at this
      exact this
    have h8 := fun j hj => butterflyPassInv_congr 8 (by decide) _ _ hq j hj
    have h4 := fun j hj => butterflyPassInv_congr 4 (by decide) _ _ h8 j hj
    have h2 := butterflyPassInv_congr 2 (by decide) _ _ h4 i hi
    rw [butterflyPasses_left_inverse c i hi, butterflyPasses_left_inverse c' i hi] at h2
    exact h2
  · refine ⟨butterflyPassInv 2 (butterflyPassInv 4 (butterflyPassInv 8 target)), _, rfl,
      fun y x hy hx => ?_⟩
    show TransformToPixels.caseDCT2X2 _ p s (y * s + x) = _
    rw [caseDCT2X2_inside _ p s hs y x hy hx, coeffs3_apply _ _ (by omega)]
    exact butterflyPasses_right_inverse target (y * 8 + x) (by omega)

/-- C25 at a concrete input: the ramp tile as a block of pixels at pitch 8. -/
theorem C25_dct2x2_bijection_witness :
    ∃ c out : Buf,
      TransformToPixels constExternals AcStrategyType.DCT2X2 c zeroBuf 8 = some out ∧
        ∀ y x, y < 8 → x < 8 → out (y * 8 + x) = rampTile (y * 8 + x) :=
  (C25_dct2x2_bijection constExternals).2.2 rampTile zeroBuf 8 (by decide)

set_option maxRecDepth 100000 in
/-- C26: every index computed by `ReinterpretingIDCT` is in range for the eight
instantiations used by `DCFromLowestFrequencies`.  The call is the run that records its
accesses; in that record every scratch index is below `ROWS * COLS`, every argument of
`DCTTotalResampleScale<FROM, TO>` is below `TO`, every index into the tile is below
`DCT_ROWS * DCT_COLS`, and a scratch entry is read only after its initialisation or a write
of it. -/
theorem C26_indices_in_range (E : Externals) (strategy : AcStrategyType)
    (DCT_ROWS DCT_COLS : Nat)
    (h : (strategy, DCT_ROWS, DCT_COLS) ∈
      [(AcStrategyType.DCT16X8, 16, 8), (AcStrategyType.DCT8X16, 8, 16),
       (AcStrategyType.DCT16X16, 16, 16), (AcStrategyType.DCT32X8, 32, 8),
       (AcStrategyType.DCT8X32, 8, 32), (AcStrategyType.DCT32X16, 32, 16),
       (AcStrategyType.DCT16X32, 16, 32), (AcStrategyType.DCT32X32, 32, 32)])
    (block dc : Buf) (dc_stride : Nat) :
    DCFromLowestFrequencies E strategy block dc dc_stride =
      some (ReinterpretingIDCT.traced E DCT_ROWS DCT_COLS (DCT_ROWS / 8) (DCT_COLS / 8)
        (DCT_ROWS / 8) (DCT_COLS / 8) block (8 * max (DCT_ROWS / 8) (DCT_COLS / 8))
        dc dc_stride).1 ∧
    (ReinterpretingIDCT.traced E DCT_ROWS DCT_COLS (DCT_ROWS / 8) (DCT_COLS / 8)
      (DCT_ROWS / 8) (DCT_COLS / 8) block (8 * max (DCT_ROWS / 8) (DCT_COLS / 8))
      dc dc_stride).2 =
      ReinterpretingIDCT.accesses DCT_ROWS DCT_COLS (DCT_ROWS / 8) (DCT_COLS / 8)
        (DCT_ROWS / 8) (DCT_COLS / 8) (8 * max (DCT_ROWS / 8) (DCT_COLS / 8)) ∧
    (∀ a ∈ ReinterpretingIDCT.accesses DCT_ROWS DCT_COLS (DCT_ROWS / 8) (DCT_COLS / 8)
        (DCT_ROWS / 8) (DCT_COLS / 8) (8 * max (DCT_ROWS / 8) (DCT_COLS / 8)),
      Access.InRange DCT_ROWS DCT_COLS (DCT_ROWS / 8) (DCT_COLS / 8) a) ∧
    WrittenBeforeRead
      (ReinterpretingIDCT.accesses DCT_ROWS DCT_COLS (DCT_ROWS / 8) (DCT_COLS / 8)
        (DCT_ROWS / 8) (DCT_COLS / 8) (8 * max (DCT_ROWS / 8) (DCT_COLS / 8))) := by
  have hrange : ∀ a ∈ ReinterpretingIDCT.accesses DCT_ROWS DCT_COLS (DCT_ROWS / 8)
      (DCT_COLS / 8) (DCT_ROWS / 8) (DCT_COLS / 8) (8 * max (DCT_ROWS / 8) (DCT_COLS / 8)),
      Access.InRange DCT_ROWS DCT_COLS (DCT_ROWS / 8) (DCT_COLS / 8) a := by
    simp only [List.mem_cons, Prod.mk.injEq, List.mem_singleton, List.not_mem_nil, or_false]
      at h
    rcases h with ⟨_, rfl, rfl⟩ | ⟨_, rfl, rfl⟩ | ⟨_, rfl, rfl⟩ | ⟨_, rfl, rfl⟩ |
      ⟨_, rfl, rfl⟩ | ⟨_, rfl, rfl⟩ | ⟨_, rfl, rfl⟩ | ⟨_, rfl, rfl⟩ <;> decide
  have htr := traced_eq E DCT_ROWS DCT_COLS (DCT_ROWS / 8) (DCT_COLS / 8) (DCT_ROWS / 8)
    (DCT_COLS / 8) block (8 * max (DCT_ROWS / 8) (DCT_COLS / 8)) dc dc_stride
  refine ⟨?_, ?_, hrange, ?_⟩
  · rw [htr]
    exact DCFromLowestFrequencies_multi E strategy DCT_ROWS DCT_COLS h block dc dc_stride
  · rw [htr]
  · exact writtenBeforeRead_of_prefix _ _ (accesses_init_first _ _ _ _ _ _ _)
      (fun i hi => hrange _ hi)

/-- C26 at a concrete input: DCT16X8 on the ramp tile. -/
theorem C26_indices_in_range_witness :
    DCFromLowestFrequencies constExternals AcStrategyType.DCT16X8 rampTile zeroBuf 1 =
      some (ReinterpretingIDCT.traced constExternals 16 8 (16 / 8) (8 / 8)
        (16 / 8) (8 / 8) rampTile (8 * max (16 / 8) (8 / 8))
        zeroBuf 1).1 ∧
    (ReinterpretingIDCT.traced constExternals 16 8 (16 / 8) (8 / 8)
      (16 / 8) (8 / 8) rampTile (8 * max (16 / 8) (8 / 8))
      zeroBuf 1).2 =
      ReinterpretingIDCT.accesses 16 8 (16 / 8) (8 / 8)
        (16 / 8) (8 / 8) (8 * max (16 / 8) (8 / 8)) ∧
    (∀ a ∈ ReinterpretingIDCT.accesses 16 8 (16 / 8) (8 / 8)
        (16 / 8) (8 / 8) (8 * max (16 / 8) (8 / 8)),
      Access.InRange 16 8 (16 / 8) (8 / 8) a) ∧
    WrittenBeforeRead
      (ReinterpretingIDCT.accesses 16 8 (16 / 8) (8 / 8)
        (16 / 8) (8 / 8) (8 * max (16 / 8) (8 / 8))) :=
  C26_indices_in_range constExternals AcStrategyType.DCT16X8 16 8 (by decide) rampTile
    zeroBuf 1

/-- C23 at a concrete input: the four derived values of the ramp tile. -/
theorem C23_dc_weighted_average_witness :
    (TransformToPixels.dcs4 rampTile 0 + TransformToPixels.dcs4 rampTile 1 +
      TransformToPixels.dcs4 rampTile 2 + TransformToPixels.dcs4 rampTile 3) / 4 =
      rampTile 0 :=
  (C23_dc_weighted_average constExternals rampTile).1

/-- C24 at a concrete input: slot `(2, 3)` of sub-block `(1, 1)` of the ramp tile. -/
theorem C24_gathers_bijective_witness :
    TransformToPixels.block4x4 zeroBuf rampTile 1 1 (2 * 4 + 3) =
      if 3 = 0 ∧ 2 = 0 then zeroBuf (1 * 2 + 1)
      else rampTile ((1 + 2 * 2) * 8 + 1 + 3 * 2) :=
  (C24_gathers_bijective constExternals).1 zeroBuf rampTile 1 1 2 3 (by decide) (by decide)

/-- C27: the bespoke reconstructions are linear in the coefficients over exact arithmetic.
For IDENTITY, for DCT2X2 and for the custom-basis quadrant of AFV0..AFV3, the output for the
tile `a * c1 + c2` is, at every pixel, `a` times the output for `c1` plus the output for
`c2`. -/
theorem C27_bespoke_linear (E : Externals) (hl : 0 < E.Lanes) (a : ℚ)
    (c1 c2 p p1 p2 : Buf) (s : Nat) (hs : 8 ≤ s) :
    (∃ out out1 out2 : Buf,
      TransformToPixels E AcStrategyType.IDENTITY (Buf.axpy a c1 c2) p s = some out ∧
      TransformToPixels E AcStrategyType.IDENTITY c1 p1 s = some out1 ∧
      TransformToPixels E AcStrategyType.IDENTITY c2 p2 s = some out2 ∧
      ∀ y x iy ix, y < 2 → x < 2 → iy < 4 → ix < 4 →
        out ((y * 4 + iy) * s + x * 4 + ix) =
          a * out1 ((y * 4 + iy) * s + x * 4 + ix) + out2 ((y * 4 + iy) * s + x * 4 + ix)) ∧
    (∃ out out1 out2 : Buf,
      TransformToPixels E AcStrategyType.DCT2X2 (Buf.axpy a c1 c2) p s = some out ∧
      TransformToPixels E AcStrategyType.DCT2X2 c1 p1 s = some out1 ∧
      TransformToPixels E AcStrategyType.DCT2X2 c2 p2 s = some out2 ∧
      ∀ y x, y < 8 → x < 8 →
        out (y * s + x) = a * out1 (y * s + x) + out2 (y * s + x)) ∧
    (∀ (strategy : AcStrategyType) (afv_kind : Nat),
      (strategy, afv_kind) ∈ [(AcStrategyType.AFV0, 0), (AcStrategyType.AFV1, 1),
        (AcStrategyType.AFV2, 2), (AcStrategyType.AFV3, 3)] →
      ∃ out out1 out2 : Buf,
        TransformToPixels E strategy (Buf.axpy a c1 c2) p s = some out ∧
        TransformToPixels E strategy c1 p1 s = some out1 ∧
        TransformToPixels E strategy c2 p2 s = some out2 ∧
        ∀ iy ix, iy < 4 → ix < 4 →
          out ((iy + afv_kind / 2 * 4) * s + (afv_kind &&& 1) * 4 + ix) =
            a * out1 ((iy + afv_kind / 2 * 4) * s + (afv_kind &&& 1) * 4 + ix) +
              out2 ((iy + afv_kind / 2 * 4) * s + (afv_kind &&& 1) * 4 + ix)) := by
  refine ⟨⟨_, _, _, rfl, rfl, rfl, fun y x iy ix hy hx hiy hix => ?_⟩,
    ⟨_, _, _, rfl, rfl, rfl, fun y x hy hx => ?_⟩, fun strategy afv_kind hk => ?_⟩
  · rw [caseIDENTITY_inside _ p s hs y x iy ix hy hx hiy hix,
      caseIDENTITY_inside _ p1 s hs y x iy ix hy hx hiy hix,
      caseIDENTITY_inside _ p2 s hs y x iy ix hy hx hiy hix]
    exact identitySample_linear a c1 c2 y x iy ix hy hx
  · rw [caseDCT2X2_inside _ p s hs y x hy hx, caseDCT2X2_inside _ p1 s hs y x hy hx,
      caseDCT2X2_inside _ p2 s hs y x hy hx, coeffs3_apply _ _ (by omega),
      coeffs3_apply _ _ (by omega), coeffs3_apply _ _ (by omega), butterflyPass_linear,
      butterflyPass_linear, butterflyPass_linear]
    rfl
  · have hq : ∀ k, k < 4 → ∀ iy ix, iy < 4 → ix < 4 →
        AFVTransformToPixels E k (Buf.axpy a c1 c2) p s
            ((iy + k / 2 * 4) * s + (k &&& 1) * 4 + ix) =
          a * AFVTransformToPixels E k c1 p1 s ((iy + k / 2 * 4) * s + (k &&& 1) * 4 + ix) +
            AFVTransformToPixels E k c2 p2 s ((iy + k / 2 * 4) * s + (k &&& 1) * 4 + ix) := by
      intro k hk4 iy ix hiy hix
      rw [AFVTransformToPixels_quadrant E hl k hk4 _ p s hs iy ix hiy hix,
        AFVTransformToPixels_quadrant E hl k hk4 _ p1 s hs iy ix hiy hix,
        AFVTransformToPixels_quadrant E hl k hk4 _ p2 s hs iy ix hiy hix,
        Finset.mul_sum, ← Finset.sum_add_distrib]
      refine Finset.sum_congr rfl (fun j hj => ?_)
      rw [AFV_coeff_linear a c1 c2 j (Finset.mem_range.mp hj)]
      ring
    simp only [List.mem_cons, Prod.mk.injEq, List.mem_singleton, List.not_mem_nil, or_false]
      at hk
    rcases hk with ⟨rfl, rfl⟩ | ⟨rfl, rfl⟩ | ⟨rfl, rfl⟩ | ⟨rfl, rfl⟩
    · exact ⟨_, _, _, rfl, rfl, rfl, hq 0 (by decide)⟩
    · exact ⟨_, _, _, rfl, rfl, rfl, hq 1 (by decide)⟩
    · exact ⟨_, _, _, rfl, rfl, rfl, hq 2 (by decide)⟩
    · exact ⟨_, _, _, rfl, rfl, rfl, hq 3 (by decide)⟩

/-- C27 at a concrete input: twice the ramp tile plus a DC-only tile, at pitch 8. -/
theorem C27_bespoke_linear_witness :
    (∃ out out1 out2 : Buf,
      TransformToPixels constExternals AcStrategyType.IDENTITY (Buf.axpy 2 rampTile (dcTile 3)) zeroBuf 8 = some out ∧
      TransformToPixels constExternals AcStrategyType.IDENTITY rampTile zeroBuf 8 = some out1 ∧
      TransformToPixels constExternals AcStrategyType.IDENTITY (dcTile 3) zeroBuf 8 = some out2 ∧
      ∀ y x iy ix, y < 2 → x < 2 → iy < 4 → ix < 4 →
        out ((y * 4 + iy) * 8 + x * 4 + ix) =
          2 * out1 ((y * 4 + iy) * 8 + x * 4 + ix) + out2 ((y * 4 + iy) * 8 + x * 4 + ix)) ∧
    (∃ out out1 out2 : Buf,
      TransformToPixels constExternals AcStrategyType.DCT2X2 (Buf.axpy 2 rampTile (dcTile 3)) zeroBuf 8 = some out ∧
      TransformToPixels constExternals AcStrategyType.DCT2X2 rampTile zeroBuf 8 = some out1 ∧
      TransformToPixels constExternals AcStrategyType.DCT2X2 (dcTile 3) zeroBuf 8 = some out2 ∧
      ∀ y x, y < 8 → x < 8 →
        out (y * 8 + x) = 2 * out1 (y * 8 + x) + out2 (y * 8 + x)) ∧
    (∀ (strategy : AcStrategyType) (afv_kind : Nat),
      (strategy, afv_kind) ∈ [(AcStrategyType.AFV0, 0), (AcStrategyType.AFV1, 1),
        (AcStrategyType.AFV2, 2), (AcStrategyType.AFV3, 3)] →
      ∃ out out1 out2 : Buf,
        TransformToPixels constExternals strategy (Buf.axpy 2 rampTile (dcTile 3)) zeroBuf 8 = some out ∧
        TransformToPixels constExternals strategy rampTile zeroBuf 8 = some out1 ∧
        TransformToPixels constExternals strategy (dcTile 3) zeroBuf 8 = some out2 ∧
        ∀ iy ix, iy < 4 → ix < 4 →
          out ((iy + afv_kind / 2 * 4) * 8 + (afv_kind &&& 1) * 4 + ix) =
            2 * out1 ((iy + afv_kind / 2 * 4) * 8 + (afv_kind &&& 1) * 4 + ix) +
              out2 ((iy + afv_kind / 2 * 4) * 8 + (afv_kind &&& 1) * 4 + ix)) :=
  C27_bespoke_linear constExternals (by decide) 2 rampTile (dcTile 3) zeroBuf zeroBuf zeroBuf 8
    (by decide)

/-- C28: `CheckPaletteParams` accepts exactly the inclusive channel ranges that lie inside
the image.  For an image with fewer than 2^31 channels and 32-bit unsigned `begin_c` and
`end_c` it succeeds if and only if `begin_c <= end_c` and `end_c` is less than the number of
channels, which makes `begin_c` less than the number of channels too; otherwise it fails
with "Invalid channel range". -/
theorem C28_check_palette_params (image : Image) (begin_c end_c : Nat)
    (hlen : image.channel.length < 2 ^ 31) (hb : begin_c < 2 ^ 32) (he : end_c < 2 ^ 32) :
    (CheckPaletteParams image begin_c end_c = Status.ok ↔
      begin_c ≤ end_c ∧ end_c < image.channel.length) ∧
    (CheckPaletteParams image begin_c end_c = Status.ok → begin_c < image.channel.length) ∧
    (¬ (begin_c ≤ end_c ∧ end_c < image.channel.length) →
      CheckPaletteParams image begin_c end_c = Status.failure "Invalid channel range") := by
  have key := CheckPaletteParams_eq image begin_c end_c hlen hb he
  rw [key]
  refine ⟨⟨fun h => ?_, fun h => by rw [if_pos h]⟩, fun h => ?_, fun h => by rw [if_neg h]⟩
  · by_contra hn
    rw [if_neg hn] at h
    exact absurd h (by simp)
  · by_contra hn
    have hn' : ¬ (begin_c ≤ end_c ∧ end_c < image.channel.length) := fun hh => hn (by omega)
    rw [if_neg hn'] at h
    exact absurd h (by simp)

/-- C28 at a concrete input: the range 0..0 of the one-channel image. -/
theorem C28_check_palette_params_witness :
    (CheckPaletteParams grayImage 0 0 = Status.ok ↔ 0 ≤ 0 ∧ 0 < grayImage.channel.length) ∧
    (CheckPaletteParams grayImage 0 0 = Status.ok → 0 < grayImage.channel.length) ∧
    (¬ (0 ≤ 0 ∧ 0 < grayImage.channel.length) →
      CheckPaletteParams grayImage 0 0 = Status.failure "Invalid channel range") :=
  C28_check_palette_params grayImage 0 0 (by decide) (by decide) (by decide)

/-- C29: `FwdPalette` on a single channel whose samples span the range of `int`.  The
image `wideImage` has one channel with the two samples 0 and 2147483647, which
`compute_minmax` gives as `minval` and `maxval`.  The channel range 0..0 is valid, there is
no other channel to compare sizes with, and the two colours are within the limit of 4, but
the size `maxval - minval + 1` of `lookup` overflows `int`: the call does not return
success. -/
theorem C29_fwd_palette_lookup_overflow :
    CheckPaletteParams wideImage 0 0 = Status.ok ∧
    (distinctColors wideImage.channel 0 (0 - 0 + 1) (chan wideImage.channel 0).w
      (chan wideImage.channel 0).h).card ≤ 4 ∧
    wideExternals.compute_minmax (chan wideImage.channel 0) = (0, 2147483647) ∧
    FwdPalette.lookupSize 1 0 2147483647 = none ∧
    FwdPalette wideExternals wideImage 0 0 4 true = none ∧
    FwdPalette wideExternals wideImage 0 0 4 false = none := by
  refine ⟨by decide, ?_, rfl, by decide, ?_, ?_⟩
  · decide
  · rw [FwdPalette_none_iff]
    exact ⟨by decide, by decide, by decide, by decide⟩
  · rw [FwdPalette_none_iff]
    exact ⟨by decide, by decide, by decide, by decide⟩

/-- C30: the channel bookkeeping of `InvPalette` at a palette of height 0.  The image
`emptyPaletteImage` counts one meta channel and one channel for its two channels, so its
quantity `channel.size() - nb_channels - nb_meta_channels` is 0.  `InvPalette` succeeds on
it, removes the palette and inserts no channel, and yet lowers `nb_channels` by one: the
image that is left has one channel, counts none, and its quantity is 1. -/
theorem C30_inv_palette_empty_palette :
    (InvPalette paletteExternals emptyPaletteImage 0 0 0 Predictor.Zero).1 = Status.ok ∧
    bookkeeping emptyPaletteImage = 0 ∧
    (InvPalette paletteExternals emptyPaletteImage 0 0 0 Predictor.Zero).2.channel.length = 1 ∧
    (InvPalette paletteExternals emptyPaletteImage 0 0 0 Predictor.Zero).2.nb_channels = 0 ∧
    (InvPalette paletteExternals emptyPaletteImage 0 0 0 Predictor.Zero).2.nb_meta_channels = 0 ∧
    bookkeeping (InvPalette paletteExternals emptyPaletteImage 0 0 0 Predictor.Zero).2 = 1 := by
  refine ⟨?_, ?_, ?_, ?_, ?_, ?_⟩ <;> decide


end jxl
